import Mathlib

/-!
# Grok JPEG 2000 core: sparse array, 5/3 lifting kernel, T1 scheduler

A shallow embedding of

* `src/lib/jp2/transform/sparse_array.cpp` (`sparse_array`),
* `src/lib/jp2/transform/dwt53.cpp` (`dwt53::encode_line`),
* `src/lib/jp2/t1/T1Encoder.cpp` (`T1Encoder`),

together with the properties proved about them.

Conventions of the embedding

* `uint32_t` values are natural numbers; an increment that could wrap is written
  with an explicit `% UINT32_RANGE`.  Subtractions of the source are only executed
  where the minuend is at least the subtrahend, so truncated subtraction is exact.
* `int32_t` samples are integers; every arithmetic result is normalised with `wrap32`.
  Array indices and pointer offsets are exact integers.
* A raw sample pointer (`int32_t*`) is a function from element offsets to samples.
* `assert(e)` aborts the call when `e` is false, as in a build with assertions.  The write
  path of the sparse array is also given for a build with `NDEBUG`, where the macro expands
  to nothing (`sparse_array.write_build`).
* The scheduler of `T1Encoder::compress` is an interleaving of atomic steps of the pool tasks;
  distortions are exact rationals.
* A block of the sparse array is a list of samples (`grk_calloc` yields a list of
  zeros); the slot table `data_blocks` is a list whose entries are `none` for `NULL`.
* Loops whose increment depends on data carry a fuel argument; running out of fuel is
  reported as `Fault.out_of_fuel`, a failed `assert` as `Fault.assert_failed`.
-/

set_option autoImplicit false

namespace grk

/-! ## Common definitions -/

/-- Exclusive upper bound of `uint32_t`. -/
def UINT32_RANGE : Nat := 4294967296

/-- Ways in which a call does not return a value. -/
inductive Fault where
  | assert_failed
  | out_of_fuel
  deriving DecidableEq, Repr

/-- Memory reachable from a raw `int32_t*`, indexed by element offset. -/
abbrev Buffer := Nat → Int

/-- The assignment `buf[i] = v`. -/
def store (buf : Buffer) (i : Nat) (v : Int) : Buffer :=
  fun n => if n = i then v else buf n

/-- The loop `for (k = 0; k < n; k++) body(k)`. -/
def for_loop {σ : Type} (n : Nat) (body : Nat → σ → σ) (s : σ) : σ :=
  (List.range n).foldl (fun acc k => body k acc) s

/-- First loop of the 4-way unrolled copy:
`for (k = 0; k < lim; k += 4) { body(k); body(k+1); body(k+2); body(k+3); }`.
Returns the final `k` with the state. -/
def unrolled_head {σ : Type} (body : Nat → σ → σ) (lim : Nat) : Nat → Nat → σ → Nat × σ
  | 0, k, s => (k, s)
  | fuel + 1, k, s =>
    if k < lim then
      unrolled_head body lim fuel (k + 4)
        (body (k + 3) (body (k + 2) (body (k + 1) (body k s))))
    else (k, s)

/-- Second loop of the unrolled copy: `for (; k < n; k++) body(k)`. -/
def unrolled_tail {σ : Type} (body : Nat → σ → σ) (n : Nat) : Nat → Nat → σ → σ
  | 0, _, s => s
  | fuel + 1, k, s =>
    if k < n then unrolled_tail body n fuel (k + 1) (body k s) else s

/-- The 4-way unrolled loop over `k < x_incr`; `~3U` is `0xFFFFFFFC`. -/
def unrolled_loop {σ : Type} (x_incr : Nat) (body : Nat → σ → σ) (s : σ) : σ :=
  let r := unrolled_head body (x_incr &&& 0xFFFFFFFC) x_incr 0 s
  unrolled_tail body x_incr x_incr r.1 r.2

/-- The call `memset(dest + p, 0, sizeof(int32_t) * n)`. -/
def memset_zero (dest : Buffer) (p n : Nat) : Buffer :=
  fun i => if p ≤ i ∧ i < p + n then 0 else dest i

/-- The call `memcpy(dest + p, src + q, sizeof(int32_t) * n)` from a block into a raw buffer. -/
def memcpy_from_block (dest : Buffer) (p : Nat) (src : List Int) (q n : Nat) : Buffer :=
  fun i => if p ≤ i ∧ i < p + n then src.getD (q + (i - p)) 0 else dest i

/-- The call `memcpy(dest + q, src + p, sizeof(int32_t) * n)` from a raw buffer into a block. -/
def memcpy_to_block (dest : List Int) (q : Nat) (src : Buffer) (p n : Nat) : List Int :=
  (List.range dest.length).map
    (fun i => if q ≤ i ∧ i < q + n then src (p + (i - q)) else dest.getD i 0)

/-! ## `sparse_array` -/

/-- Modelled from the spec: `ceildiv<uint32_t>` is declared outside `src/`; the spec gives the
grid as `⌈width/block_width⌉ × ⌈height/block_height⌉`. -/
def ceildiv (a b : Nat) : Nat := (a + b - 1) / b

/-- The slot table: `none` is a `NULL` slot, `some blk` an allocated block. -/
abbrev Slots := List (Option (List Int))

/-- Fields of `class sparse_array`. -/
structure sparse_array where
  width : Nat
  height : Nat
  block_width : Nat
  block_height : Nat
  block_count_hor : Nat
  block_count_ver : Nat
  data_blocks : Slots
  deriving DecidableEq

/-- What the constructor throws. -/
inductive CtorError where
  | invalid_region
  | out_of_memory
  deriving DecidableEq, Repr

/-- The constructor `sparse_array::sparse_array`; `calloc_ok` tells whether the allocation of
the slot table succeeds. -/
def sparse_array.create (calloc_ok : Bool) (width height block_width block_height : Nat) :
    Except CtorError sparse_array :=
  if width = 0 ∨ height = 0 ∨ block_width = 0 ∨ block_height = 0 then
    .error .invalid_region
  else
    let block_count_hor := ceildiv width block_width
    let block_count_ver := ceildiv height block_height
    if calloc_ok then
      .ok { width := width, height := height,
            block_width := block_width, block_height := block_height,
            block_count_hor := block_count_hor, block_count_ver := block_count_ver,
            data_blocks := List.replicate (block_count_hor * block_count_ver) none }
    else .error .out_of_memory

/-- The method `sparse_array::is_region_valid`. -/
def sparse_array.is_region_valid (sa : sparse_array) (x0 y0 x1 y1 : Nat) : Bool :=
  !(decide (x0 ≥ sa.width) || decide (x1 ≤ x0) || decide (x1 > sa.width) ||
    decide (y0 ≥ sa.height) || decide (y1 ≤ y0) || decide (y1 > sa.height))

/-- Inner loop of `sparse_array::alloc` (over `x`). `heap` is the number of block
allocations that still succeed. The boolean is `false` when `alloc` returned `false`. -/
def alloc_x_loop (sa : sparse_array) (x0 x1 block_y : Nat) :
    Nat → Nat → Nat → Slots → Nat → Except Fault (Bool × Slots × Nat)
  | 0, x, _, blocks, heap =>
    if x < x1 then .error .out_of_fuel else .ok (true, blocks, heap)
  | fuel + 1, x, block_x, blocks, heap =>
    if x < x1 then
      let x_incr := if x = x0 then sa.block_width - (x0 % sa.block_width) else sa.block_width
      let x_incr := min x_incr (x1 - x)
      let slot := block_y * sa.block_count_hor + block_x
      match blocks.getD slot none with
      | none =>
        match heap with
        | 0 => .ok (false, blocks, heap)
        | heap + 1 =>
          alloc_x_loop sa x0 x1 block_y fuel ((x + x_incr) % UINT32_RANGE)
            ((block_x + 1) % UINT32_RANGE)
            (blocks.set slot (some (List.replicate (sa.block_width * sa.block_height) 0))) heap
      | some _ =>
        alloc_x_loop sa x0 x1 block_y fuel ((x + x_incr) % UINT32_RANGE)
          ((block_x + 1) % UINT32_RANGE) blocks heap
    else .ok (true, blocks, heap)

/-- Outer loop of `sparse_array::alloc` (over `y`). -/
def alloc_y_loop (sa : sparse_array) (x0 y0 x1 y1 : Nat) :
    Nat → Nat → Nat → Slots → Nat → Except Fault (Bool × Slots × Nat)
  | 0, y, _, blocks, heap =>
    if y < y1 then .error .out_of_fuel else .ok (true, blocks, heap)
  | fuel + 1, y, block_y, blocks, heap =>
    if y < y1 then
      let y_incr := if y = y0 then sa.block_height - (y0 % sa.block_height) else sa.block_height
      let y_incr := min y_incr (y1 - y)
      match alloc_x_loop sa x0 x1 block_y (x1 - x0) x0 (x0 / sa.block_width) blocks heap with
      | .error e => .error e
      | .ok (false, blocks1, heap1) => .ok (false, blocks1, heap1)
      | .ok (true, blocks1, heap1) =>
        alloc_y_loop sa x0 y0 x1 y1 fuel ((y + y_incr) % UINT32_RANGE)
          ((block_y + 1) % UINT32_RANGE) blocks1 heap1
    else .ok (true, blocks, heap)

/-- The method `sparse_array::alloc`; returns the boolean result, the array and the
remaining heap budget. -/
def sparse_array.alloc (sa : sparse_array) (heap : Nat) (x0 y0 x1 y1 : Nat) :
    Except Fault (Bool × sparse_array × Nat) :=
  if !sa.is_region_valid x0 y0 x1 y1 then .ok (true, sa, heap)
  else
    match alloc_y_loop sa x0 y0 x1 y1 (y1 - y0) y0 (y0 / sa.block_height) sa.data_blocks heap with
    | .error e => .error e
    | .ok (r, blocks, heap1) => .ok (r, { sa with data_blocks := blocks }, heap1)

/-- Read branch of `read_or_write` for a `NULL` block: zero the destination. -/
def zero_fill (buf : Buffer) (dest_ptr x_incr y_incr col_stride line_stride : Nat) : Buffer :=
  if col_stride = 1 then
    for_loop y_incr (fun j d => memset_zero d (dest_ptr + j * line_stride) x_incr) buf
  else
    for_loop y_incr
      (fun j d => for_loop x_incr
        (fun k d => store d (dest_ptr + j * line_stride + k * col_stride) 0) d) buf

/-- Read branch of `read_or_write` for an allocated block. -/
def read_block (blk : List Int) (src_ptr : Nat) (buf : Buffer)
    (dest_ptr x_incr y_incr col_stride line_stride block_width : Nat) : Buffer :=
  if col_stride = 1 then
    if x_incr = 4 then
      for_loop y_incr
        (fun j d => memcpy_from_block d (dest_ptr + j * line_stride) blk
          (src_ptr + j * block_width) x_incr) buf
    else
      for_loop y_incr
        (fun j d => memcpy_from_block d (dest_ptr + j * line_stride) blk
          (src_ptr + j * block_width) x_incr) buf
  else if x_incr = 1 then
    for_loop y_incr
      (fun j d => store d (dest_ptr + j * line_stride) (blk.getD (src_ptr + j * block_width) 0))
      buf
  else if y_incr = 1 ∧ col_stride = 2 then
    unrolled_loop x_incr
      (fun k d => store d (dest_ptr + k * col_stride) (blk.getD (src_ptr + k) 0)) buf
  else if x_incr ≥ 8 ∧ col_stride = 8 then
    for_loop y_incr
      (fun j d => unrolled_loop x_incr
        (fun k d => store d (dest_ptr + j * line_stride + k * col_stride)
          (blk.getD (src_ptr + j * block_width + k) 0)) d) buf
  else
    for_loop y_incr
      (fun j d => for_loop x_incr
        (fun k d => store d (dest_ptr + j * line_stride + k * col_stride)
          (blk.getD (src_ptr + j * block_width + k) 0)) d) buf

/-- Write branch of `read_or_write` (after `assert(src_block)`). -/
def write_block (blk : List Int) (dest_ptr : Nat) (buf : Buffer)
    (src_ptr x_incr y_incr col_stride line_stride block_width : Nat) : List Int :=
  if col_stride = 1 then
    if x_incr = 4 then
      for_loop y_incr
        (fun j b => memcpy_to_block b (dest_ptr + j * block_width) buf
          (src_ptr + j * line_stride) x_incr) blk
    else
      for_loop y_incr
        (fun j b => memcpy_to_block b (dest_ptr + j * block_width) buf
          (src_ptr + j * line_stride) x_incr) blk
  else if x_incr = 1 then
    for_loop y_incr
      (fun j b => b.set (dest_ptr + j * block_width) (buf (src_ptr + j * line_stride))) blk
  else if x_incr ≥ 8 ∧ col_stride = 8 then
    for_loop y_incr
      (fun j b => unrolled_loop x_incr
        (fun k b => b.set (dest_ptr + j * block_width + k)
          (buf (src_ptr + j * line_stride + k * col_stride))) b) blk
  else
    for_loop y_incr
      (fun j b => for_loop x_incr
        (fun k b => b.set (dest_ptr + j * block_width + k)
          (buf (src_ptr + j * line_stride + k * col_stride))) b) blk

/-- Inner loop of `sparse_array::read_or_write` (over `x`), as built with assertions: a failed
`assert(src_block)` stops the call. The build with `NDEBUG` is `rw_x_loop_build true`. -/
def rw_x_loop (sa : sparse_array) (x0 y0 x1 : Nat) (col_stride line_stride : Nat)
    (is_read_op : Bool) (y y_incr block_y block_y_offset : Nat) :
    Nat → Nat → Nat → Slots → Buffer → Except Fault (Slots × Buffer)
  | 0, x, _, blocks, buf =>
    if x < x1 then .error .out_of_fuel else .ok (blocks, buf)
  | fuel + 1, x, block_x, blocks, buf =>
    if x < x1 then
      let x_incr := if x = x0 then sa.block_width - (x0 % sa.block_width) else sa.block_width
      let block_x_offset := sa.block_width - x_incr
      let x_incr := min x_incr (x1 - x)
      let slot := block_y * sa.block_count_hor + block_x
      let buf_ptr := (y - y0) * line_stride + (x - x0) * col_stride
      let blk_ptr := block_y_offset * sa.block_width + block_x_offset
      let src_block := blocks.getD slot none
      if is_read_op then
        match src_block with
        | none =>
          rw_x_loop sa x0 y0 x1 col_stride line_stride is_read_op y y_incr block_y block_y_offset
            fuel ((x + x_incr) % UINT32_RANGE) ((block_x + 1) % UINT32_RANGE) blocks
            (zero_fill buf buf_ptr x_incr y_incr col_stride line_stride)
        | some blk =>
          rw_x_loop sa x0 y0 x1 col_stride line_stride is_read_op y y_incr block_y block_y_offset
            fuel ((x + x_incr) % UINT32_RANGE) ((block_x + 1) % UINT32_RANGE) blocks
            (read_block blk blk_ptr buf buf_ptr x_incr y_incr col_stride line_stride
              sa.block_width)
      else
        match src_block with
        | none => .error .assert_failed
        | some blk =>
          rw_x_loop sa x0 y0 x1 col_stride line_stride is_read_op y y_incr block_y block_y_offset
            fuel ((x + x_incr) % UINT32_RANGE) ((block_x + 1) % UINT32_RANGE)
            (blocks.set slot (some (write_block blk blk_ptr buf buf_ptr x_incr y_incr
              col_stride line_stride sa.block_width))) buf
    else .ok (blocks, buf)

/-- Outer loop of `sparse_array::read_or_write` (over `y`). -/
def rw_y_loop (sa : sparse_array) (x0 y0 x1 y1 : Nat) (col_stride line_stride : Nat)
    (is_read_op : Bool) : Nat → Nat → Nat → Slots → Buffer → Except Fault (Slots × Buffer)
  | 0, y, _, blocks, buf =>
    if y < y1 then .error .out_of_fuel else .ok (blocks, buf)
  | fuel + 1, y, block_y, blocks, buf =>
    if y < y1 then
      let y_incr := if y = y0 then sa.block_height - (y0 % sa.block_height) else sa.block_height
      let block_y_offset := sa.block_height - y_incr
      let y_incr := min y_incr (y1 - y)
      match rw_x_loop sa x0 y0 x1 col_stride line_stride is_read_op y y_incr block_y
          block_y_offset (x1 - x0) x0 (x0 / sa.block_width) blocks buf with
      | .error e => .error e
      | .ok (blocks1, buf1) =>
        rw_y_loop sa x0 y0 x1 y1 col_stride line_stride is_read_op fuel
          ((y + y_incr) % UINT32_RANGE) ((block_y + 1) % UINT32_RANGE) blocks1 buf1
    else .ok (blocks, buf)

/-- The method `sparse_array::read_or_write`; the result is the returned boolean, the array
and the caller's buffer after the call. -/
def sparse_array.read_or_write (sa : sparse_array) (x0 y0 x1 y1 : Nat) (buf : Buffer)
    (buf_col_stride buf_line_stride : Nat) (forgiving is_read_op : Bool) :
    Except Fault (Bool × sparse_array × Buffer) :=
  if !sa.is_region_valid x0 y0 x1 y1 then .ok (forgiving, sa, buf)
  else
    match rw_y_loop sa x0 y0 x1 y1 buf_col_stride buf_line_stride is_read_op (y1 - y0) y0
        (y0 / sa.block_height) sa.data_blocks buf with
    | .error e => .error e
    | .ok (blocks, buf1) => .ok (true, { sa with data_blocks := blocks }, buf1)

/-- The method `sparse_array::read`. -/
def sparse_array.read (sa : sparse_array) (x0 y0 x1 y1 : Nat) (dest : Buffer)
    (dest_col_stride dest_line_stride : Nat) (forgiving : Bool) :
    Except Fault (Bool × sparse_array × Buffer) :=
  sa.read_or_write x0 y0 x1 y1 dest dest_col_stride dest_line_stride forgiving true

/-- The method `sparse_array::write`. -/
def sparse_array.write (sa : sparse_array) (x0 y0 x1 y1 : Nat) (src : Buffer)
    (src_col_stride src_line_stride : Nat) (forgiving : Bool) :
    Except Fault (Bool × sparse_array × Buffer) :=
  sa.read_or_write x0 y0 x1 y1 src src_col_stride src_line_stride forgiving false

/-- The logical sample at `(x, y)`: the stored value of its block, `0` for a `NULL` slot. -/
def sample_of (bw bh bch : Nat) (blocks : Slots) (x y : Nat) : Int :=
  match blocks.getD ((y / bh) * bch + x / bw) none with
  | none => 0
  | some blk => blk.getD ((y % bh) * bw + x % bw) 0

/-- The logical sample of an array at `(x, y)`. -/
def sparse_array.sample (sa : sparse_array) (x y : Nat) : Int :=
  sample_of sa.block_width sa.block_height sa.block_count_hor sa.data_blocks x y

/-- Whether the block containing `(x, y)` is allocated. -/
def sparse_array.present (sa : sparse_array) (x y : Nat) : Bool :=
  (sa.data_blocks.getD ((y / sa.block_height) * sa.block_count_hor + x / sa.block_width)
    none).isSome

/-- A slot is `NULL` or holds a block of `n` samples. -/
def slot_sized (n : Nat) : Option (List Int) → Prop
  | none => True
  | some b => b.length = n

instance (n : Nat) (s : Option (List Int)) : Decidable (slot_sized n s) := by
  cases s <;> unfold slot_sized <;> infer_instance

/-- Class invariant established by the constructor: positive 32-bit dimensions, the grid
sizes computed by the constructor, a slot table of that size, blocks of full size. -/
def sparse_array.wf (sa : sparse_array) : Prop :=
  0 < sa.width ∧ sa.width < UINT32_RANGE ∧
  0 < sa.height ∧ sa.height < UINT32_RANGE ∧
  0 < sa.block_width ∧ sa.block_width < UINT32_RANGE ∧
  0 < sa.block_height ∧ sa.block_height < UINT32_RANGE ∧
  sa.block_count_hor = ceildiv sa.width sa.block_width ∧
  sa.block_count_ver = ceildiv sa.height sa.block_height ∧
  sa.data_blocks.length = sa.block_count_hor * sa.block_count_ver ∧
  ∀ s ∈ sa.data_blocks, slot_sized (sa.block_width * sa.block_height) s

instance (sa : sparse_array) : Decidable sa.wf := by
  unfold sparse_array.wf; infer_instance

/-! ## Specification vocabulary for the copy loops -/

/-- The buffer `d'` arises from `d` by stores `d[idx a] = val a`, one for every position `a`
with `P a` and no others; where two positions share an index the value of one of them is
found there. -/
def Writes {α : Type} (P : α → Prop) (idx : α → Nat) (val : α → Int) (d d' : Buffer) : Prop :=
  ∀ n, ((∃ a, P a ∧ idx a = n) → ∃ a, P a ∧ idx a = n ∧ d' n = val a) ∧
       ((∀ a, P a → idx a ≠ n) → d' n = d n)

/-- A block seen as a buffer. -/
def view (l : List Int) : Buffer := fun n => l.getD n 0

/-- The analogue of `Writes` for a block, which keeps its length. -/
def LWrites {α : Type} (P : α → Prop) (idx : α → Nat) (val : α → Int) (l l' : List Int) : Prop :=
  l'.length = l.length ∧ Writes P idx val (view l) (view l')

/-- Offset of position `(x, y)` of a rectangle with origin `(x0, y0)` in the caller's buffer. -/
def buf_index (x0 y0 col_stride line_stride : Nat) (x y : Nat) : Nat :=
  (y - y0) * line_stride + (x - x0) * col_stride

/-- Membership of a position in the rectangle `[x0, x1) × [y0, y1)`. -/
def in_rect (x0 y0 x1 y1 : Nat) (x y : Nat) : Prop :=
  x0 ≤ x ∧ x < x1 ∧ y0 ≤ y ∧ y < y1

instance (x0 y0 x1 y1 x y : Nat) : Decidable (in_rect x0 y0 x1 y1 x y) := by
  unfold in_rect; infer_instance

/-- Every allocated block of the slot table has `bw * bh` samples. -/
def blocks_sized (bw bh : Nat) (blocks : Slots) : Prop :=
  ∀ i b, blocks.getD i none = some b → b.length = bw * bh

/-- The slot table `blocks1` arises from `blocks` by storing `val x y` as the logical sample
of every position with `P x y`: the table keeps its length, the same slots are allocated, and
the logical samples of all other positions (in columns of the grid) are unchanged. -/
def SlotWrites (bw bh bch : Nat) (P : Nat → Nat → Prop) (val : Nat → Nat → Int)
    (blocks blocks1 : Slots) : Prop :=
  blocks1.length = blocks.length ∧
  (∀ i, (blocks1.getD i none).isSome = (blocks.getD i none).isSome) ∧
  ∀ x y, x / bw < bch →
    (P x y → sample_of bw bh bch blocks1 x y = val x y) ∧
    (¬ P x y → sample_of bw bh bch blocks1 x y = sample_of bw bh bch blocks x y)

/-- The slot table `blocks1` arises from `blocks` by allocating zeroed blocks of `n` samples
in some of the `NULL` slots selected by `T`; every other slot is untouched. -/
def AllocRel (n : Nat) (T : Nat → Prop) (blocks blocks1 : Slots) : Prop :=
  blocks1.length = blocks.length ∧
  ∀ i, blocks1.getD i none = blocks.getD i none ∨
    (T i ∧ blocks.getD i none = none ∧ blocks1.getD i none = some (List.replicate n 0))

/-! ## `dwt53::encode_line` -/

/-- Two's complement normalisation of an `int32_t` result. -/
def wrap32 (x : Int) : Int := (x + 2147483648) % 4294967296 - 2147483648

/-- A row addressed through an `int32_t*`: element offsets (possibly negative) to samples. -/
abbrev Row := Int → Int

/-- The assignment `a[i] = v` on a row. -/
def row_set (a : Row) (i : Int) (v : Int) : Row :=
  fun n => if n = i then v else a n

/-- The macro `GROK_S(i)`, that is `a[(i)<<1]`. -/
def GROK_S (a : Row) (i : Int) : Int := a (2 * i)

/-- The macro `GROK_D(i)`, that is `a[(1+((i)<<1))]`. -/
def GROK_D (a : Row) (i : Int) : Int := a (1 + 2 * i)

/-- The macro `GROK_S_(i)`. -/
def GROK_S_ (a : Row) (s_n : Int) (i : Int) : Int :=
  if i < 0 then GROK_S a 0 else if i ≥ s_n then GROK_S a (s_n - 1) else GROK_S a i

/-- The macro `GROK_D_(i)`. -/
def GROK_D_ (a : Row) (d_n : Int) (i : Int) : Int :=
  if i < 0 then GROK_D a 0 else if i ≥ d_n then GROK_D a (d_n - 1) else GROK_D a i

/-- The macro `GROK_SS_(i)`. -/
def GROK_SS_ (a : Row) (d_n : Int) (i : Int) : Int :=
  if i < 0 then GROK_S a 0 else if i ≥ d_n then GROK_S a (d_n - 1) else GROK_S a i

/-- The macro `GROK_DD_(i)`. -/
def GROK_DD_ (a : Row) (s_n : Int) (i : Int) : Int :=
  if i < 0 then GROK_D a 0 else if i ≥ s_n then GROK_D a (s_n - 1) else GROK_D a i

/-- The method `dwt53::encode_line(a, d_n, s_n, cas)`; the result is the row after the call.
The loop counters `i` run over `0 ≤ i < d_n` and `0 ≤ i < s_n`. -/
def encode_line (a : Row) (d_n s_n : Int) (cas : Nat) : Row :=
  if cas = 0 then
    if d_n > 0 ∨ s_n > 1 then
      let a1 := for_loop d_n.toNat
        (fun i a => row_set a (1 + 2 * (i : Int))
          (wrap32 (GROK_D a i - (wrap32 (GROK_S_ a s_n i + GROK_S_ a s_n (i + 1))) >>> 1))) a
      for_loop s_n.toNat
        (fun i a => row_set a (2 * (i : Int))
          (wrap32 (GROK_S a i +
            (wrap32 (wrap32 (GROK_D_ a d_n (i - 1) + GROK_D_ a d_n i) + 2)) >>> 2))) a1
    else a
  else
    if s_n = 0 ∧ d_n = 1 then
      row_set a 0 (wrap32 (GROK_S a 0 <<< (1 : Int)))
    else
      let a1 := for_loop d_n.toNat
        (fun i a => row_set a (2 * (i : Int))
          (wrap32 (GROK_S a i - (wrap32 (GROK_DD_ a s_n i + GROK_DD_ a s_n (i - 1))) >>> 1))) a
      for_loop s_n.toNat
        (fun i a => row_set a (1 + 2 * (i : Int))
          (wrap32 (GROK_D a i +
            (wrap32 (wrap32 (GROK_SS_ a d_n i + GROK_SS_ a d_n (i + 1)) + 2)) >>> 2))) a1

/-- The parity invariant of the data model: the number of even-phase samples of a row of
width `w`. -/
def parity_s_n (w cas : Nat) : Nat := if cas = 0 then (w + 1) / 2 else w / 2

/-- The parity invariant of the data model: the number of odd-phase samples of a row of
width `w`. -/
def parity_d_n (w cas : Nat) : Nat := if cas = 0 then w / 2 else (w + 1) / 2

/-- Spec formula for `cas = 0`, first step: `D(i) - ((S(i) + S(min(i+1, s_n-1))) >> 1)` on the
original samples, with `S(i) = a[2i]`, `D(i) = a[2i+1]`, in `int32_t` arithmetic. -/
def spec_D0 (a : Row) (s_n : Nat) (i : Nat) : Int :=
  wrap32 (a (2 * (i : Int) + 1) -
    (wrap32 (a (2 * (i : Int)) + a (2 * ((min (i + 1) (s_n - 1) : Nat) : Int)))) >>> 1)

/-- Spec formula for `cas = 0`, second step:
`S(i) + ((D'(max(i-1,0)) + D'(min(i, d_n-1)) + 2) >> 2)` on the updated `D'`. -/
def spec_S0 (a : Row) (s_n d_n : Nat) (i : Nat) : Int :=
  wrap32 (a (2 * (i : Int)) +
    (wrap32 (wrap32 (spec_D0 a s_n (max (i - 1) 0) + spec_D0 a s_n (min i (d_n - 1))) + 2))
      >>> 2)

/-- The index `clamp(i, 0, n-1)` of the spec. -/
def clamp_index (i : Int) (n : Nat) : Int := max 0 (min i ((n : Int) - 1))

/-- Spec formula for `cas = 1`, first step:
`a[2i] - ((D(clamp(i,0,s_n-1)) + D(clamp(i-1,0,s_n-1))) >> 1)` with `D(j) = a[2j+1]` the
original odd-position samples. -/
def spec_S1 (a : Row) (s_n : Nat) (i : Nat) : Int :=
  wrap32 (a (2 * (i : Int)) -
    (wrap32 (a (2 * clamp_index i s_n + 1) + a (2 * clamp_index ((i : Int) - 1) s_n + 1)))
      >>> 1)

/-- Spec formula for `cas = 1`, second step:
`a[2i+1] + ((S'(clamp(i,0,d_n-1)) + S'(clamp(i+1,0,d_n-1)) + 2) >> 2)` with `S'(j)` the
updated even-position samples. -/
def spec_D1 (a : Row) (s_n d_n : Nat) (i : Nat) : Int :=
  wrap32 (a (2 * (i : Int) + 1) +
    (wrap32 (wrap32 (spec_S1 a s_n (clamp_index i d_n).toNat
      + spec_S1 a s_n (clamp_index ((i : Int) + 1) d_n).toNat) + 2)) >>> 2)

/-- A row given by its first samples, zero elsewhere. -/
def row_of (l : List Int) : Row := fun i => if i < 0 then 0 else l.getD i.toNat 0

/-- The first `w` samples of a row. -/
def row_take (a : Row) (w : Nat) : List Int := (List.range w).map (fun i => a (i : Int))

/-! ## `T1Encoder` -/

/-- A code-block job (`encodeBlockInfo*`), identified by a number. -/
abbrev Job := Nat

/-- Exclusive upper bound of `uint64_t`. -/
def UINT64_RANGE : Nat := 18446744073709551616

/-- The fields of `T1Encoder` that `compress` uses, with the observable effects:
`num_threads` is `ThreadPool::get()->num_threads()` (the size of `threadStructs`),
`blockCount` the shared atomic cursor, `distotile` the accumulator `tile->distotile`, and
`coded` the calls of the block coder so far, as pairs (index into `threadStructs`, job). -/
structure T1Encoder where
  needsRateControl : Bool
  num_threads : Nat
  blockCount : Int
  distotile : ℚ
  coded : List (Nat × Job)
  deriving DecidableEq

/-- The constructor `T1Encoder::T1Encoder` on a pool of `num_threads` threads and a tile whose
accumulator holds `distotile`: the cursor starts at `-1`. -/
def T1Encoder.create (num_threads : Nat) (needsRateControl : Bool) (distotile : ℚ) :
    T1Encoder :=
  { needsRateControl := needsRateControl, num_threads := num_threads, blockCount := -1,
    distotile := distotile, coded := [] }

/-- The method `T1Encoder::compress(T1Interface *impl, encodeBlockInfo *block)`: the block
coder (`preEncode` then `compress`) is called with context `impl` and returns `dist block`;
with rate control the value is added to the tile accumulator (under the mutex). -/
def T1Encoder.compress_block (enc : T1Encoder) (dist : Job → ℚ) (impl : Nat) (block : Job) :
    T1Encoder :=
  let d := dist block
  let enc1 := { enc with coded := enc.coded ++ [(impl, block)] }
  if enc1.needsRateControl then { enc1 with distotile := enc1.distotile + d } else enc1

/-- Where a pool task stands: in its `while` loop before a call of
`compress(threadnum, maxBlocks)`, inside that call after the atomic increment with a claimed
index, or returned from the lambda. -/
inductive TaskState where
  | running
  | holding (index : Nat)
  | finished
  deriving DecidableEq, Repr

/-- The encoder together with the tasks enqueued by `compress`. -/
structure PoolState where
  enc : T1Encoder
  tasks : List TaskState

/-- One atomic step of task `t`. A running task executes `index = (uint64_t)++blockCount` and
either leaves its loop (`index >= maxBlocks`) or holds `index`; a holding task runs
`compress(impl, encodeBlocks[index])` and loops; a finished task does nothing. Task `t` uses
the context `threadStructs[t]`. -/
def pool_step (dist : Job → ℚ) (encodeBlocks : List Job) (maxBlocks : Nat) (st : PoolState)
    (t : Nat) : PoolState :=
  match st.tasks.getD t .finished with
  | .running =>
    let count := st.enc.blockCount + 1
    let index := (count % (UINT64_RANGE : Int)).toNat
    let enc1 := { st.enc with blockCount := count }
    if index ≥ maxBlocks then { enc := enc1, tasks := st.tasks.set t .finished }
    else { enc := enc1, tasks := st.tasks.set t (.holding index) }
  | .holding index =>
    match encodeBlocks.get? index with
    | some block =>
      { enc := st.enc.compress_block dist t block, tasks := st.tasks.set t .running }
    | none => { enc := st.enc, tasks := st.tasks.set t .running }
  | .finished => st

/-- The method `T1Encoder::compress(std::vector<encodeBlockInfo*> *blocks)`. `blocks = none`
is the null pointer. With more than one thread, `schedule` is the interleaving: the list of
the tasks that take the successive atomic steps. The call has returned (all futures are
ready) when every task is finished; `none` means that it has not returned after `schedule`. -/
def T1Encoder.compress (enc : T1Encoder) (dist : Job → ℚ) (blocks : Option (List Job))
    (schedule : List Nat) : Option T1Encoder :=
  match blocks with
  | none => some enc
  | some bs =>
    if bs.length = 0 then some enc
    else if enc.num_threads = 1 then
      some (bs.foldl (fun e b => e.compress_block dist 0 b) enc)
    else
      let st := schedule.foldl (pool_step dist bs bs.length)
        { enc := enc, tasks := List.replicate enc.num_threads .running }
      if st.tasks.all (fun t => decide (t = .finished)) then some st.enc else none

/-- The interleaving in which the tasks `0, …, num_threads - 1` take turns, `rounds` times. -/
def round_robin (num_threads rounds : Nat) : List Nat :=
  (List.replicate rounds (List.range num_threads)).flatten

/-- The sum of `w index` over the tasks that hold a claimed index. -/
def held_sum (w : Nat → ℚ) (tasks : List TaskState) : ℚ :=
  (tasks.map (fun t => match t with
    | .holding i => w i
    | _ => 0)).sum

/-- The number of finished tasks. -/
def fin_count (tasks : List TaskState) : Int :=
  (tasks.map (fun t => match t with
    | .finished => (1 : Int)
    | _ => 0)).sum

/-- The sum of `g job` over the calls of the block coder. -/
def coded_sum (g : Job → ℚ) (coded : List (Nat × Job)) : ℚ :=
  (coded.map (fun p => g p.2)).sum

/-- The sum of `g` over the first `n` jobs of a batch. -/
def batch_sum (g : Job → ℚ) (bs : List Job) (n : Nat) : ℚ :=
  ((List.range n).map (fun i => g (bs.getD i 0))).sum

/-- Invariant of the pool while `compress` runs the batch `bs` on an encoder that was entered
with cursor `-1`, accumulator `d0` and coder log `coded0`: with `c = blockCount + 1` claims
made so far, the indices below `min c N` are exactly those held by a task or already coded
(counted with any weight `g`), the accumulator has received the distortions of the coded jobs
when rate control is on, and a task has finished only after the cursor passed the batch. -/
def PoolInv (dist : Job → ℚ) (bs : List Job) (rc : Bool) (T : Nat) (d0 : ℚ)
    (coded0 : List (Nat × Job)) (st : PoolState) : Prop :=
  0 ≤ st.enc.blockCount + 1 ∧
  st.tasks.length = T ∧
  st.enc.blockCount + 1 ≤ (bs.length : Int) + fin_count st.tasks ∧
  fin_count st.tasks ≤ (T : Int) ∧
  (∀ t i, st.tasks.getD t .finished = .holding i → i < bs.length) ∧
  (∀ g : Job → ℚ, held_sum (fun i => g (bs.getD i 0)) st.tasks + coded_sum g st.enc.coded
    = coded_sum g coded0 + batch_sum g bs (min (st.enc.blockCount + 1).toNat bs.length)) ∧
  st.enc.needsRateControl = rc ∧
  st.enc.num_threads = T ∧
  st.enc.distotile
    = d0 + (if rc then coded_sum dist st.enc.coded - coded_sum dist coded0 else 0) ∧
  (0 < fin_count st.tasks → (bs.length : Int) < st.enc.blockCount + 1)

/-- The number of tasks that hold a claimed index. -/
def hold_count (tasks : List TaskState) : Int :=
  (tasks.map (fun t => match t with
    | .holding _ => (1 : Int)
    | _ => 0)).sum

/-- The number of atomic steps the pool still has to take on a batch of `N` jobs: two for
every index not yet claimed, one for every held index, one (the failing claim) for every task
that has not finished. -/
def pool_measure (N : Nat) (st : PoolState) : Int :=
  2 * ((N : Int) - min (st.enc.blockCount + 1) (N : Int)) + hold_count st.tasks
    + ((st.tasks.length : Int) - fin_count st.tasks)

/-! ## Access trace of `dwt53::encode_line` -/

/-- The buffer index read by the clamping macro `GROK_S_(i)` (and, with `d_n` for `s_n`, by
`GROK_SS_(i)`): only the selected branch of the conditional is evaluated. -/
def index_S_ (s_n : Int) (i : Int) : Int :=
  if i < 0 then 2 * 0 else if i ≥ s_n then 2 * (s_n - 1) else 2 * i

/-- The buffer index read by the clamping macro `GROK_D_(i)` (and, with `s_n` for `d_n`, by
`GROK_DD_(i)`). -/
def index_D_ (d_n : Int) (i : Int) : Int :=
  if i < 0 then 1 + 2 * 0 else if i ≥ d_n then 1 + 2 * (d_n - 1) else 1 + 2 * i

/-- The method `dwt53::encode_line` together with the list of the buffer indices it reads or
writes, statement by statement. -/
def encode_line_traced (a : Row) (d_n s_n : Int) (cas : Nat) : Row × List Int :=
  if cas = 0 then
    if d_n > 0 ∨ s_n > 1 then
      let r1 := for_loop d_n.toNat
        (fun i (r : Row × List Int) =>
          (row_set r.1 (1 + 2 * (i : Int))
            (wrap32 (GROK_D r.1 i - (wrap32 (GROK_S_ r.1 s_n i + GROK_S_ r.1 s_n (i + 1))) >>> 1)),
           r.2 ++ [1 + 2 * (i : Int), index_S_ s_n i, index_S_ s_n ((i : Int) + 1),
                   1 + 2 * (i : Int)])) (a, [])
      for_loop s_n.toNat
        (fun i (r : Row × List Int) =>
          (row_set r.1 (2 * (i : Int))
            (wrap32 (GROK_S r.1 i +
              (wrap32 (wrap32 (GROK_D_ r.1 d_n (i - 1) + GROK_D_ r.1 d_n i) + 2)) >>> 2)),
           r.2 ++ [2 * (i : Int), index_D_ d_n ((i : Int) - 1), index_D_ d_n i,
                   2 * (i : Int)])) r1
    else (a, [])
  else
    if s_n = 0 ∧ d_n = 1 then
      (row_set a 0 (wrap32 (GROK_S a 0 <<< (1 : Int))), [2 * 0, 2 * 0])
    else
      let r1 := for_loop d_n.toNat
        (fun i (r : Row × List Int) =>
          (row_set r.1 (2 * (i : Int))
            (wrap32 (GROK_S r.1 i - (wrap32 (GROK_DD_ r.1 s_n i + GROK_DD_ r.1 s_n (i - 1))) >>> 1)),
           r.2 ++ [2 * (i : Int), index_D_ s_n i, index_D_ s_n ((i : Int) - 1),
                   2 * (i : Int)])) (a, [])
      for_loop s_n.toNat
        (fun i (r : Row × List Int) =>
          (row_set r.1 (1 + 2 * (i : Int))
            (wrap32 (GROK_D r.1 i +
              (wrap32 (wrap32 (GROK_SS_ r.1 d_n i + GROK_SS_ r.1 d_n (i + 1)) + 2)) >>> 2)),
           r.2 ++ [1 + 2 * (i : Int), index_S_ d_n i, index_S_ d_n ((i : Int) + 1),
                   1 + 2 * (i : Int)])) r1

/-! ## `Wavelet::encode` and `Wavelet::decode` -/

/-- The transform a call of `Wavelet::encode` or `Wavelet::decode` hands the tile component
to. -/
inductive Transform where
  | dwt53
  | dwt97
  deriving DecidableEq, Repr

/-- The method `Wavelet::encode(tile_comp, qmfbid)`. The forward transforms
`WaveletForward<dwt53>::run` and `WaveletForward<dwt97>::run` are declared outside `src/`;
they are the parameters `run53` and `run97`, giving the returned boolean and the tile
component after the run. The result is the returned boolean, the tile component after the
call and the transforms that were run. -/
def Wavelet.encode {TC : Type} (run53 run97 : TC → Bool × TC) (tile_comp : TC)
    (qmfbid : Nat) : Bool × TC × List Transform :=
  if qmfbid = 1 then
    ((run53 tile_comp).1, (run53 tile_comp).2, [.dwt53])
  else if qmfbid = 0 then
    ((run97 tile_comp).1, (run97 tile_comp).2, [.dwt97])
  else (false, tile_comp, [])

/-- The method `Wavelet::decode(p_tcd, tilec, numres, qmfbid)`. The inverse transforms
`decode_53` and `decode_97` are declared outside `src/`; they are parameters that map the
state `(p_tcd, tilec)` and `numres` to the returned boolean and the state after the call. -/
def Wavelet.decode {S : Type} (decode_53 decode_97 : S → Nat → Bool × S) (st : S)
    (numres : Nat) (qmfbid : Nat) : Bool × S × List Transform :=
  if qmfbid = 1 then
    ((decode_53 st numres).1, (decode_53 st numres).2, [.dwt53])
  else if qmfbid = 0 then
    ((decode_97 st numres).1, (decode_97 st numres).2, [.dwt97])
  else (false, st, [])

/-! ## The general copy loop of `read_or_write` as reference -/

/-- Zero fill of a `NULL` block by the general per-sample loop `dest[k*col_stride] = 0` on
every row. -/
def zero_fill_general (buf : Buffer) (dest_ptr x_incr y_incr col_stride line_stride : Nat) :
    Buffer :=
  for_loop y_incr
    (fun j d => for_loop x_incr
      (fun k d => store d (dest_ptr + j * line_stride + k * col_stride) 0) d) buf

/-- Read of an allocated block by the general per-sample loop
`dest[k*col_stride] = src[k]` on every row (the last branch of the read side). -/
def read_block_general (blk : List Int) (src_ptr : Nat) (buf : Buffer)
    (dest_ptr x_incr y_incr col_stride line_stride block_width : Nat) : Buffer :=
  for_loop y_incr
    (fun j d => for_loop x_incr
      (fun k d => store d (dest_ptr + j * line_stride + k * col_stride)
        (blk.getD (src_ptr + j * block_width + k) 0)) d) buf

/-- Write into an allocated block by the general per-sample loop
`dest[k] = src[k*col_stride]` on every row (the last branch of the write side). -/
def write_block_general (blk : List Int) (dest_ptr : Nat) (buf : Buffer)
    (src_ptr x_incr y_incr col_stride line_stride block_width : Nat) : List Int :=
  for_loop y_incr
    (fun j b => for_loop x_incr
      (fun k b => b.set (dest_ptr + j * block_width + k)
        (buf (src_ptr + j * line_stride + k * col_stride))) b) blk

/-- The inner loop of `read_or_write` with every specialised copy branch replaced by the
general loop. -/
def rw_x_loop_general (sa : sparse_array) (x0 y0 x1 : Nat) (col_stride line_stride : Nat)
    (is_read_op : Bool) (y y_incr block_y block_y_offset : Nat) :
    Nat → Nat → Nat → Slots → Buffer → Except Fault (Slots × Buffer)
  | 0, x, _, blocks, buf =>
    if x < x1 then .error .out_of_fuel else .ok (blocks, buf)
  | fuel + 1, x, block_x, blocks, buf =>
    if x < x1 then
      let x_incr := if x = x0 then sa.block_width - (x0 % sa.block_width) else sa.block_width
      let block_x_offset := sa.block_width - x_incr
      let x_incr := min x_incr (x1 - x)
      let slot := block_y * sa.block_count_hor + block_x
      let buf_ptr := (y - y0) * line_stride + (x - x0) * col_stride
      let blk_ptr := block_y_offset * sa.block_width + block_x_offset
      let src_block := blocks.getD slot none
      if is_read_op then
        match src_block with
        | none =>
          rw_x_loop_general sa x0 y0 x1 col_stride line_stride is_read_op y y_incr block_y
            block_y_offset fuel ((x + x_incr) % UINT32_RANGE) ((block_x + 1) % UINT32_RANGE)
            blocks (zero_fill_general buf buf_ptr x_incr y_incr col_stride line_stride)
        | some blk =>
          rw_x_loop_general sa x0 y0 x1 col_stride line_stride is_read_op y y_incr block_y
            block_y_offset fuel ((x + x_incr) % UINT32_RANGE) ((block_x + 1) % UINT32_RANGE)
            blocks (read_block_general blk blk_ptr buf buf_ptr x_incr y_incr col_stride
              line_stride sa.block_width)
      else
        match src_block with
        | none => .error .assert_failed
        | some blk =>
          rw_x_loop_general sa x0 y0 x1 col_stride line_stride is_read_op y y_incr block_y
            block_y_offset fuel ((x + x_incr) % UINT32_RANGE) ((block_x + 1) % UINT32_RANGE)
            (blocks.set slot (some (write_block_general blk blk_ptr buf buf_ptr x_incr y_incr
              col_stride line_stride sa.block_width))) buf
    else .ok (blocks, buf)

/-- The outer loop of `read_or_write` over the general inner loop. -/
def rw_y_loop_general (sa : sparse_array) (x0 y0 x1 y1 : Nat) (col_stride line_stride : Nat)
    (is_read_op : Bool) : Nat → Nat → Nat → Slots → Buffer → Except Fault (Slots × Buffer)
  | 0, y, _, blocks, buf =>
    if y < y1 then .error .out_of_fuel else .ok (blocks, buf)
  | fuel + 1, y, block_y, blocks, buf =>
    if y < y1 then
      let y_incr := if y = y0 then sa.block_height - (y0 % sa.block_height) else sa.block_height
      let block_y_offset := sa.block_height - y_incr
      let y_incr := min y_incr (y1 - y)
      match rw_x_loop_general sa x0 y0 x1 col_stride line_stride is_read_op y y_incr block_y
          block_y_offset (x1 - x0) x0 (x0 / sa.block_width) blocks buf with
      | .error e => .error e
      | .ok (blocks1, buf1) =>
        rw_y_loop_general sa x0 y0 x1 y1 col_stride line_stride is_read_op fuel
          ((y + y_incr) % UINT32_RANGE) ((block_y + 1) % UINT32_RANGE) blocks1 buf1
    else .ok (blocks, buf)

/-- The method `read_or_write` with the general per-sample loop in place of every specialised
copy branch. -/
def sparse_array.read_or_write_general (sa : sparse_array) (x0 y0 x1 y1 : Nat) (buf : Buffer)
    (buf_col_stride buf_line_stride : Nat) (forgiving is_read_op : Bool) :
    Except Fault (Bool × sparse_array × Buffer) :=
  if !sa.is_region_valid x0 y0 x1 y1 then .ok (forgiving, sa, buf)
  else
    match rw_y_loop_general sa x0 y0 x1 y1 buf_col_stride buf_line_stride is_read_op (y1 - y0)
        y0 (y0 / sa.block_height) sa.data_blocks buf with
    | .error e => .error e
    | .ok (blocks, buf1) => .ok (true, { sa with data_blocks := blocks }, buf1)

/-! ## Losslessness of `dwt53::encode_line` -/

/-- The value range of `int32_t`. -/
def is_int32 (x : Int) : Prop := -2147483648 ≤ x ∧ x < 2147483648

instance (x : Int) : Decidable (is_int32 x) := by
  unfold is_int32; infer_instance

/-- Specification-side inverse of `encode_line`: its lifting steps undone in reverse order
(the second loop first, each update with the opposite sign; the single-sample doubling by an
arithmetic shift to the right), in `int32_t` arithmetic. It is not a function of the source;
it makes precise what undoing the lifting steps means. -/
def undo_encode_line (a : Row) (d_n s_n : Int) (cas : Nat) : Row :=
  if cas = 0 then
    if d_n > 0 ∨ s_n > 1 then
      let a1 := for_loop s_n.toNat
        (fun i a => row_set a (2 * (i : Int))
          (wrap32 (GROK_S a i -
            (wrap32 (wrap32 (GROK_D_ a d_n (i - 1) + GROK_D_ a d_n i) + 2)) >>> 2))) a
      for_loop d_n.toNat
        (fun i a => row_set a (1 + 2 * (i : Int))
          (wrap32 (GROK_D a i + (wrap32 (GROK_S_ a s_n i + GROK_S_ a s_n (i + 1))) >>> 1))) a1
    else a
  else
    if s_n = 0 ∧ d_n = 1 then
      row_set a 0 (GROK_S a 0 >>> (1 : Int))
    else
      let a1 := for_loop s_n.toNat
        (fun i a => row_set a (1 + 2 * (i : Int))
          (wrap32 (GROK_D a i -
            (wrap32 (wrap32 (GROK_SS_ a d_n i + GROK_SS_ a d_n (i + 1)) + 2)) >>> 2))) a
      for_loop d_n.toNat
        (fun i a => row_set a (2 * (i : Int))
          (wrap32 (GROK_S a i + (wrap32 (GROK_DD_ a s_n i + GROK_DD_ a s_n (i - 1))) >>> 1))) a1

/-! ## Trace of the block walk of `alloc` and `read_or_write` -/

/-- One step of the block walk: the values of the loop variables `x`, `y`, `x_incr`,
`y_incr`, `block_x` and `block_y` at the point where the loop body addresses
`data_blocks[block_y * block_count_hor + block_x]`. -/
structure Visit where
  x : Nat
  y : Nat
  x_incr : Nat
  y_incr : Nat
  block_x : Nat
  block_y : Nat
  deriving DecidableEq, Repr

/-- One step of the walk of `read_or_write`, which also holds `block_x_offset` and
`block_y_offset`. -/
structure BlockVisit where
  step : Visit
  block_x_offset : Nat
  block_y_offset : Nat
  deriving DecidableEq, Repr

/-- Whether the sub-rectangle `[x, x + x_incr) × [y, y + y_incr)` of a step contains the
position `(cx, cy)`. -/
def Visit.covers (v : Visit) (cx cy : Nat) : Bool :=
  decide (v.x ≤ cx ∧ cx < v.x + v.x_incr ∧ v.y ≤ cy ∧ cy < v.y + v.y_incr)

/-- Inner loop of `sparse_array::alloc` (`alloc_x_loop`) with the list of the steps it takes,
in program order. -/
def alloc_x_loop_traced (sa : sparse_array) (x0 x1 y y_incr block_y : Nat) :
    Nat → Nat → Nat → Slots → Nat → List Visit × Except Fault (Bool × Slots × Nat)
  | 0, x, _, blocks, heap =>
    if x < x1 then ([], .error .out_of_fuel) else ([], .ok (true, blocks, heap))
  | fuel + 1, x, block_x, blocks, heap =>
    if x < x1 then
      let x_incr := if x = x0 then sa.block_width - (x0 % sa.block_width) else sa.block_width
      let x_incr := min x_incr (x1 - x)
      let slot := block_y * sa.block_count_hor + block_x
      let v : Visit := ⟨x, y, x_incr, y_incr, block_x, block_y⟩
      match blocks.getD slot none with
      | none =>
        match heap with
        | 0 => ([v], .ok (false, blocks, heap))
        | heap + 1 =>
          let r := alloc_x_loop_traced sa x0 x1 y y_incr block_y fuel
            ((x + x_incr) % UINT32_RANGE) ((block_x + 1) % UINT32_RANGE)
            (blocks.set slot (some (List.replicate (sa.block_width * sa.block_height) 0))) heap
          (v :: r.1, r.2)
      | some _ =>
        let r := alloc_x_loop_traced sa x0 x1 y y_incr block_y fuel
          ((x + x_incr) % UINT32_RANGE) ((block_x + 1) % UINT32_RANGE) blocks heap
        (v :: r.1, r.2)
    else ([], .ok (true, blocks, heap))

/-- Outer loop of `sparse_array::alloc` (`alloc_y_loop`) with the list of its steps. -/
def alloc_y_loop_traced (sa : sparse_array) (x0 y0 x1 y1 : Nat) :
    Nat → Nat → Nat → Slots → Nat → List Visit × Except Fault (Bool × Slots × Nat)
  | 0, y, _, blocks, heap =>
    if y < y1 then ([], .error .out_of_fuel) else ([], .ok (true, blocks, heap))
  | fuel + 1, y, block_y, blocks, heap =>
    if y < y1 then
      let y_incr := if y = y0 then sa.block_height - (y0 % sa.block_height) else sa.block_height
      let y_incr := min y_incr (y1 - y)
      let rx := alloc_x_loop_traced sa x0 x1 y y_incr block_y (x1 - x0) x0
        (x0 / sa.block_width) blocks heap
      match rx.2 with
      | .error e => (rx.1, .error e)
      | .ok (false, blocks1, heap1) => (rx.1, .ok (false, blocks1, heap1))
      | .ok (true, blocks1, heap1) =>
        let r := alloc_y_loop_traced sa x0 y0 x1 y1 fuel ((y + y_incr) % UINT32_RANGE)
          ((block_y + 1) % UINT32_RANGE) blocks1 heap1
        (rx.1 ++ r.1, r.2)
    else ([], .ok (true, blocks, heap))

/-- The method `sparse_array::alloc` with the list of the steps of its block walk. -/
def sparse_array.alloc_traced (sa : sparse_array) (heap : Nat) (x0 y0 x1 y1 : Nat) :
    List Visit × Except Fault (Bool × sparse_array × Nat) :=
  if !sa.is_region_valid x0 y0 x1 y1 then ([], .ok (true, sa, heap))
  else
    let r := alloc_y_loop_traced sa x0 y0 x1 y1 (y1 - y0) y0 (y0 / sa.block_height)
      sa.data_blocks heap
    match r.2 with
    | .error e => (r.1, .error e)
    | .ok (q, blocks, heap1) => (r.1, .ok (q, { sa with data_blocks := blocks }, heap1))

/-- Inner loop of `sparse_array::read_or_write` (`rw_x_loop`) with the list of the steps it
takes, in program order; a write that stops at `assert(src_block)` has logged the step of the
`NULL` block. -/
def rw_x_loop_traced (sa : sparse_array) (x0 y0 x1 : Nat) (col_stride line_stride : Nat)
    (is_read_op : Bool) (y y_incr block_y block_y_offset : Nat) :
    Nat → Nat → Nat → Slots → Buffer → List BlockVisit × Except Fault (Slots × Buffer)
  | 0, x, _, blocks, buf =>
    if x < x1 then ([], .error .out_of_fuel) else ([], .ok (blocks, buf))
  | fuel + 1, x, block_x, blocks, buf =>
    if x < x1 then
      let x_incr := if x = x0 then sa.block_width - (x0 % sa.block_width) else sa.block_width
      let block_x_offset := sa.block_width - x_incr
      let x_incr := min x_incr (x1 - x)
      let slot := block_y * sa.block_count_hor + block_x
      let buf_ptr := (y - y0) * line_stride + (x - x0) * col_stride
      let blk_ptr := block_y_offset * sa.block_width + block_x_offset
      let src_block := blocks.getD slot none
      let v : BlockVisit :=
        ⟨⟨x, y, x_incr, y_incr, block_x, block_y⟩, block_x_offset, block_y_offset⟩
      if is_read_op then
        match src_block with
        | none =>
          let r := rw_x_loop_traced sa x0 y0 x1 col_stride line_stride is_read_op y y_incr
            block_y block_y_offset fuel ((x + x_incr) % UINT32_RANGE)
            ((block_x + 1) % UINT32_RANGE) blocks
            (zero_fill buf buf_ptr x_incr y_incr col_stride line_stride)
          (v :: r.1, r.2)
        | some blk =>
          let r := rw_x_loop_traced sa x0 y0 x1 col_stride line_stride is_read_op y y_incr
            block_y block_y_offset fuel ((x + x_incr) % UINT32_RANGE)
            ((block_x + 1) % UINT32_RANGE) blocks
            (read_block blk blk_ptr buf buf_ptr x_incr y_incr col_stride line_stride
              sa.block_width)
          (v :: r.1, r.2)
      else
        match src_block with
        | none => ([v], .error .assert_failed)
        | some blk =>
          let r := rw_x_loop_traced sa x0 y0 x1 col_stride line_stride is_read_op y y_incr
            block_y block_y_offset fuel ((x + x_incr) % UINT32_RANGE)
            ((block_x + 1) % UINT32_RANGE)
            (blocks.set slot (some (write_block blk blk_ptr buf buf_ptr x_incr y_incr
              col_stride line_stride sa.block_width))) buf
          (v :: r.1, r.2)
    else ([], .ok (blocks, buf))

/-- Outer loop of `sparse_array::read_or_write` (`rw_y_loop`) with the list of its steps. -/
def rw_y_loop_traced (sa : sparse_array) (x0 y0 x1 y1 : Nat) (col_stride line_stride : Nat)
    (is_read_op : Bool) :
    Nat → Nat → Nat → Slots → Buffer → List BlockVisit × Except Fault (Slots × Buffer)
  | 0, y, _, blocks, buf =>
    if y < y1 then ([], .error .out_of_fuel) else ([], .ok (blocks, buf))
  | fuel + 1, y, block_y, blocks, buf =>
    if y < y1 then
      let y_incr := if y = y0 then sa.block_height - (y0 % sa.block_height) else sa.block_height
      let block_y_offset := sa.block_height - y_incr
      let y_incr := min y_incr (y1 - y)
      let rx := rw_x_loop_traced sa x0 y0 x1 col_stride line_stride is_read_op y y_incr block_y
        block_y_offset (x1 - x0) x0 (x0 / sa.block_width) blocks buf
      match rx.2 with
      | .error e => (rx.1, .error e)
      | .ok (blocks1, buf1) =>
        let r := rw_y_loop_traced sa x0 y0 x1 y1 col_stride line_stride is_read_op fuel
          ((y + y_incr) % UINT32_RANGE) ((block_y + 1) % UINT32_RANGE) blocks1 buf1
        (rx.1 ++ r.1, r.2)
    else ([], .ok (blocks, buf))

/-- The method `sparse_array::read_or_write` with the list of the steps of its block walk. -/
def sparse_array.read_or_write_traced (sa : sparse_array) (x0 y0 x1 y1 : Nat) (buf : Buffer)
    (buf_col_stride buf_line_stride : Nat) (forgiving is_read_op : Bool) :
    List BlockVisit × Except Fault (Bool × sparse_array × Buffer) :=
  if !sa.is_region_valid x0 y0 x1 y1 then ([], .ok (forgiving, sa, buf))
  else
    let r := rw_y_loop_traced sa x0 y0 x1 y1 buf_col_stride buf_line_stride is_read_op
      (y1 - y0) y0 (y0 / sa.block_height) sa.data_blocks buf
    match r.2 with
    | .error e => (r.1, .error e)
    | .ok (blocks, buf1) => (r.1, .ok (true, { sa with data_blocks := blocks }, buf1))

/-- The loop variables of the inner walk over `[x, x1)` alone: the steps the `for` loop over
`x` takes when no block operation stops it. -/
def walk_x (bw x0 x1 y y_incr block_y block_y_offset : Nat) : Nat → Nat → Nat → List BlockVisit
  | 0, _, _ => []
  | fuel + 1, x, block_x =>
    if x < x1 then
      let x_incr := if x = x0 then bw - (x0 % bw) else bw
      let block_x_offset := bw - x_incr
      let x_incr := min x_incr (x1 - x)
      (⟨⟨x, y, x_incr, y_incr, block_x, block_y⟩, block_x_offset, block_y_offset⟩ : BlockVisit)
        :: walk_x bw x0 x1 y y_incr block_y block_y_offset fuel ((x + x_incr) % UINT32_RANGE)
            ((block_x + 1) % UINT32_RANGE)
    else []

/-- The loop variables of the nested walk over `[x0, x1) × [y, y1)` alone. -/
def walk_y (bw bh x0 y0 x1 y1 : Nat) : Nat → Nat → Nat → List BlockVisit
  | 0, _, _ => []
  | fuel + 1, y, block_y =>
    if y < y1 then
      let y_incr := if y = y0 then bh - (y0 % bh) else bh
      let block_y_offset := bh - y_incr
      let y_incr := min y_incr (y1 - y)
      walk_x bw x0 x1 y y_incr block_y block_y_offset (x1 - x0) x0 (x0 / bw)
        ++ walk_y bw bh x0 y0 x1 y1 fuel ((y + y_incr) % UINT32_RANGE)
            ((block_y + 1) % UINT32_RANGE)
    else []

/-- The facts of one step of the walk over the rectangle `[x0, x1) × [y0, y1)` with blocks of
`bw × bh` samples: the step lies in the rectangle, its increments are positive and stay in
the rectangle and in the block, and the block coordinates and offsets are those of `(x, y)`. -/
def BlockVisit.ok (bw bh x0 y0 x1 y1 : Nat) (v : BlockVisit) : Prop :=
  x0 ≤ v.step.x ∧ v.step.x < x1 ∧ y0 ≤ v.step.y ∧ v.step.y < y1 ∧
  0 < v.step.x_incr ∧ v.step.x + v.step.x_incr ≤ x1 ∧
  0 < v.step.y_incr ∧ v.step.y + v.step.y_incr ≤ y1 ∧
  v.step.x = v.step.block_x * bw + v.block_x_offset ∧
  v.block_x_offset + v.step.x_incr ≤ bw ∧
  v.step.y = v.step.block_y * bh + v.block_y_offset ∧
  v.block_y_offset + v.step.y_incr ≤ bh

/-- Program order of two steps: a later step is in a later row of blocks, or in the same row
further to the right. -/
def Visit.before (v u : Visit) : Prop := v.y < u.y ∨ (v.y = u.y ∧ v.x < u.x)

/-! ## BMP reader: the guards before the pixel allocation in `bmptoimage` -/

/-- The constant `(uint32_t) -1`, that is `UINT32_MAX`. -/
def UINT32_MAX : Nat := 4294967295

/-- Conversion of an `int32_t` value to `uint32_t` (modulo `2^32`). -/
def to_uint32 (i : Int) : Nat := (i % 4294967296).toNat

/-- Conversion of an `int32_t` value to a 64-bit `size_t` (modulo `2^64`). -/
def to_size_t (i : Int) : Nat := (i % 18446744073709551616).toNat

/-- How the guarded section of `bmptoimage` ends: at `goto cleanup` (a `nullptr` is
returned, nothing was allocated), in a signed overflow of the `int` multiplication
`biWidth * biBitCount` (undefined behaviour), or at `calloc(1, size)` with the computed
`bmpStride`. -/
inductive BmpAlloc where
  | cleanup
  | signed_overflow
  | calloc (bmpStride : Nat) (size : Nat)
  deriving DecidableEq, Repr

/-- The last guard and the allocation: `if (bmpStride > ((uint32_t) -1) / sizeof(uint8_t) /
Info_h.biHeight) goto cleanup;` then `calloc(1, bmpStride * Info_h.biHeight *
sizeof(uint8_t))`. The quotient is computed in `size_t`, the product `bmpStride * biHeight`
in `uint32_t`. -/
def bmp_height_guard (bmpStride : Nat) (biHeight : Int) : BmpAlloc :=
  if bmpStride > UINT32_MAX / 1 / to_size_t biHeight then .cleanup
  else .calloc bmpStride ((bmpStride * to_uint32 biHeight) % UINT32_RANGE * 1)

/-- The section of `bmptoimage` from the zero checks to the allocation of `pData`.
`biWidth` and `biHeight` are `int32_t`, `biBitCount` is `uint16_t`, `biCompression` is
`uint32_t`. The product `Info_h.biWidth * Info_h.biBitCount` of an `int32_t` and a promoted
`uint16_t` is an `int` multiplication; `Info_h.biWidth * 8U` is a `uint32_t`
multiplication. -/
def bmp_alloc_guards (biWidth biHeight : Int) (biBitCount biCompression : Nat) : BmpAlloc :=
  if biWidth = 0 ∨ biHeight = 0 then .cleanup
  else if biBitCount > (UINT32_MAX - 31) / to_uint32 biWidth then .cleanup
  else
    let prod := biWidth * (biBitCount : Int)
    if prod < -2147483648 ∨ 2147483647 < prod then .signed_overflow
    else
      let bmpStride := ((to_uint32 prod + 31) % UINT32_RANGE / 32 * 4) % UINT32_RANGE
      if biBitCount = 4 ∧ biCompression = 2 then
        if 8 > (UINT32_MAX - 31) / to_uint32 biWidth then .cleanup
        else
          let bmpStride :=
            (((to_uint32 biWidth * 8) % UINT32_RANGE + 31) % UINT32_RANGE / 32 * 4)
              % UINT32_RANGE
          bmp_height_guard bmpStride biHeight
      else bmp_height_guard bmpStride biHeight

/-! ## `param_qcd::check_validity` -/

/-- The structure `param_qcd`. The `float` member `base_delta` is a rational number: the
only values the code computes for it are `1 / 2^k` and its negative, which `float`
represents exactly; the union `u8_SPqcd` / `u16_SPqcd` is a list of numbers. -/
structure param_qcd where
  Lqcd : Nat
  Sqcd : Nat
  SPqcd : List Nat
  num_decomps : Int
  base_delta : ℚ
  deriving DecidableEq

/-- The constructor `param_qcd::param_qcd()`; it leaves the union uninitialised, so its
content is a parameter. -/
def param_qcd.create (SPqcd : List Nat) : param_qcd :=
  { Lqcd := 0, Sqcd := 0, SPqcd := SPqcd, num_decomps := 0, base_delta := -1 }

/-- The method `param_qcd::set_delta`. -/
def param_qcd.set_delta (self : param_qcd) (delta : ℚ) : param_qcd :=
  { self with base_delta := delta }

/-- The expression `1 << n` on `int`: `2^n` for `0 ≤ n ≤ 30`, `INT_MIN` for `n = 31` (the
value `2^31` converted to `int`), undefined for any other `n`. -/
def shl_one_int (n : Int) : Option Int :=
  if 0 ≤ n ∧ n ≤ 30 then some (2 ^ n.toNat)
  else if n = 31 then some (-2147483648)
  else none

/-- The shift count `max_bit_depth + is_signed`, the `bool` promoted to `int`. -/
def shift_count (max_bit_depth : Int) (is_signed : Bool) : Int :=
  max_bit_depth + (if is_signed then 1 else 0)

/-- A call of one of the two quantization set-up methods. -/
inductive QuantCall where
  | set_rev_quant (bit_depth : Int) (is_employing_color_transform : Bool)
  | set_irrev_quant
  deriving DecidableEq, Repr

/-- The method `param_qcd::check_validity`. The methods `set_rev_quant` and
`set_irrev_quant` are declared in the header but defined outside `src/`; they are
parameters. The result is the structure after the call and the list of the calls made, or
`none` when the shift `1 << (max_bit_depth + is_signed)` is undefined. -/
def param_qcd.check_validity (set_rev_quant : Int → Bool → param_qcd → param_qcd)
    (set_irrev_quant : param_qcd → param_qcd) (self : param_qcd) (decomps : Int)
    (is_reversible : Bool) (max_bit_depth : Int) (color_transform is_signed : Bool) :
    Option (param_qcd × List QuantCall) :=
  let self := { self with num_decomps := decomps }
  if is_reversible then
    some (set_rev_quant max_bit_depth color_transform self,
      [.set_rev_quant max_bit_depth color_transform])
  else
    if self.base_delta = -1 then
      match shl_one_int (shift_count max_bit_depth is_signed) with
      | none => none
      | some p => some (set_irrev_quant { self with base_delta := 1 / (p : ℚ) },
          [.set_irrev_quant])
    else some (set_irrev_quant self, [.set_irrev_quant])

/-! ## BMP reader: the packed-pixel unpackers -/

/-- The loop over `ct` of the unpackers, with the shifts `ct` it runs through as a list: each
step stores `pDst[destIndex++] = pLUT[(val >> ct) & mask]` and leaves this loop (`break`)
when `destIndex == destWidth`. `base` is the offset of the current `pDst` from the initial
one. The result is the destination and `destIndex`. -/
def lut_ct_loop (pLUT : Nat → Nat) (mask destWidth val : Nat) (base : Int) :
    List Nat → Row → Nat → Row × Nat
  | [], pDst, destIndex => (pDst, destIndex)
  | ct :: rest, pDst, destIndex =>
    let pDst1 := row_set pDst (base + destIndex) (pLUT ((val >>> ct) &&& mask))
    let destIndex1 := (destIndex + 1) % UINT32_RANGE
    if destIndex1 = destWidth then (pDst1, destIndex1)
    else lut_ct_loop pLUT mask destWidth val base rest pDst1 destIndex1

/-- The common body of `grk_applyLUT8u_1u32s_C1R` and `grk_applyLUT8u_4u32s_C1R`: for each of
the `destHeight` rows, `destIndex = 0`, then for every `srcIndex < absSrcStride` the loop
over `ct` on the byte `pSrc[srcIndex]`; after the row `pSrc += srcStride` and
`pDst += dstStride`. Source and destination are addressed by offsets from the initial
pointers. -/
def applyLUT_rows (cts : List Nat) (mask : Nat) (pSrc : Int → Nat) (srcStride : Int)
    (pDst : Row) (dstStride : Int) (pLUT : Nat → Nat) (destWidth destHeight : Nat) : Row :=
  for_loop destHeight
    (fun r dst =>
      (for_loop srcStride.natAbs
        (fun srcIndex (st : Row × Nat) =>
          lut_ct_loop pLUT mask destWidth (pSrc ((r : Int) * srcStride + (srcIndex : Int)))
            ((r : Int) * dstStride) cts st.1 st.2) (dst, 0)).1) pDst

/-- The function `grk_applyLUT8u_1u32s_C1R` (1 bit per pixel): `ct` runs from 7 down to 0,
the mask is `1`. -/
def grk_applyLUT8u_1u32s_C1R (pSrc : Int → Nat) (srcStride : Int) (pDst : Row)
    (dstStride : Int) (pLUT : Nat → Nat) (destWidth destHeight : Nat) : Row :=
  applyLUT_rows [7, 6, 5, 4, 3, 2, 1, 0] 1 pSrc srcStride pDst dstStride pLUT destWidth
    destHeight

/-- The function `grk_applyLUT8u_4u32s_C1R` (4 bits per pixel): `ct` is 4, then 0, the mask
is `0xF`. -/
def grk_applyLUT8u_4u32s_C1R (pSrc : Int → Nat) (srcStride : Int) (pDst : Row)
    (dstStride : Int) (pLUT : Nat → Nat) (destWidth destHeight : Nat) : Row :=
  applyLUT_rows [4, 0] 15 pSrc srcStride pDst dstStride pLUT destWidth destHeight

/-! ## RAW reader: `readBytes` and the component loop of `rawtoimage` -/

/-- The state of `readBytes`: the position in the file, the stack buffer `buf[4096]`, the
memory written through `ptr` (offsets from the initial `ptr`) and the number of samples
stored so far. -/
structure RawState where
  pos : Nat
  buf : Nat → Nat
  mem : Buffer
  count : Nat

/-- The sample `endian<T>(*(T*)inPtr, fromBigEndian)` of the bytes `b0, b1` at `inPtr` on a
little-endian host, for `sizeof(T)` 1 or 2, signed or not. -/
def raw_sample (size_T : Nat) (sgnd fromBigEndian : Bool) (b0 b1 : Nat) : Int :=
  if size_T = 1 then
    if sgnd ∧ 128 ≤ b0 then (b0 : Int) - 256 else b0
  else
    let x := if fromBigEndian then b0 * 256 + b1 else b1 * 256 + b0
    if sgnd ∧ 32768 ≤ x then (x : Int) - 65536 else x

/-- One pass of the outer loop of `readBytes` after a successful `fread` of `ct` bytes: the
inner loop `for (j = 0; j < ct; j += sizeof(T))`. -/
def readBytes_chunk (size_T : Nat) (sgnd fromBigEndian : Bool) (ct : Nat) (st : RawState) :
    RawState :=
  for_loop ((ct + size_T - 1) / size_T)
    (fun m (s : RawState) =>
      { s with
        mem := store s.mem s.count
          (raw_sample size_T sgnd fromBigEndian (s.buf (m * size_T)) (s.buf (m * size_T + 1)))
        count := s.count + 1 }) st

/-- The function `readBytes<T>(rawFile, fromBigEndian, ptr, nloop)` on a file given by its
bytes: the loop `for (i = 0; i < nloop; i += bufSize)` has `⌈nloop / 4096⌉` passes; each
calls `fread(buf, 1, bufSize, rawFile)`, returns `false` when no byte was read, and otherwise
stores one sample for every `sizeof(T)` bytes read. The result is the returned boolean and
the state after the call. -/
def readBytes (size_T : Nat) (sgnd fromBigEndian : Bool) (file : List Nat) (nloop : Nat)
    (st : RawState) : Bool × RawState :=
  for_loop ((nloop + 4095) / 4096)
    (fun _ (r : Bool × RawState) =>
      if r.1 then
        let ct := min 4096 (file.length - r.2.pos)
        if ct = 0 then (false, r.2)
        else
          let s : RawState :=
            { r.2 with
              pos := r.2.pos + ct
              buf := fun i => if i < ct then file.getD (r.2.pos + i) 0 else r.2.buf i }
          (true, readBytes_chunk size_T sgnd fromBigEndian ct s)
      else r) (true, st)

/-- The component loop of `rawtoimage` for samples of `sizeof(T)` bytes: component `k` with
subsampling `(dx, dy)` is read with `nloop = (w * h * sizeof(T)) / (dx * dy)` into its own
data (initially zero). The result is `none` when a `readBytes` call returns `false`
(`rawtoimage` then returns `nullptr`), otherwise the data of the components with the number
of samples stored in each, and the file position. -/
def raw_read_components (size_T : Nat) (sgnd fromBigEndian : Bool) (file : List Nat)
    (w h : Nat) (buf0 : Nat → Nat) :
    List (Nat × Nat) → Nat → Option (List (Buffer × Nat) × Nat)
  | [], pos => some ([], pos)
  | (dx, dy) :: rest, pos =>
    let r := readBytes size_T sgnd fromBigEndian file ((w * h * size_T) / (dx * dy))
      { pos := pos, buf := buf0, mem := fun _ => 0, count := 0 }
    if r.1 then
      match raw_read_components size_T sgnd fromBigEndian file w h r.2.buf rest r.2.pos with
      | none => none
      | some (comps, pos1) => some ((r.2.mem, r.2.count) :: comps, pos1)
    else none

/-! ## BMP writer: row padding in `encodeHeader` and `encodeStrip` -/

/-- Memory of `uint8_t`, addressed by offset. -/
abbrev Bytes := Nat → Nat

/-- The assignment `buf[i] = v` on bytes. -/
def store_byte (buf : Bytes) (i : Nat) (v : Nat) : Bytes :=
  fun n => if n = i then v else buf n

/-- The method `BMPFormat::getPaddedWidth`:
`((numcomps * w + 3) >> 2) << 2` in `uint32_t`. -/
def getPaddedWidth (numcomps w : Nat) : Nat :=
  ((((numcomps * w) % UINT32_RANGE + 3) % UINT32_RANGE) >>> 2 <<< 2) % UINT32_RANGE

/-- The value `image_size = padW * h` that `encodeHeader` writes into the file header, in
`uint32_t`. -/
def encodeHeader_image_size (numcomps w h : Nat) : Nat :=
  (getPaddedWidth numcomps w * h) % UINT32_RANGE

/-- The value of `pad_dest` in `encodeStrip`: `(4 - ((numcomps * w) & 3)) & 3`, replaced by
`0` when it is `4`. -/
def strip_pad_dest (numcomps w : Nat) : Nat :=
  let pad_dest := (4 - (((numcomps * w) % UINT32_RANGE) &&& 3)) &&& 3
  if pad_dest = 4 then 0 else pad_dest

/-- The value of `rowsPerStrip` in `encodeStrip`; `none` when the divisor
`stride_src * numcomps` is `0` in `uint32_t`. -/
def strip_rowsPerStrip (numcomps h stride_src : Nat) : Option Nat :=
  let d := (stride_src * numcomps) % UINT32_RANGE
  if d = 0 then none
  else
    let r := 16777216 / d
    let r := if r = 0 then 2 else r
    let r := if r &&& 1 ≠ 0 then (r + 1) % UINT32_RANGE else r
    let r := if r > h then h else r
    some r

/-- The bytes `encodeStrip` stores for one pixel: `rc[0]` for one component, otherwise
`rc[2], rc[1], rc[0]` and, for four components, `rc[3]`. The result is the buffer and
`destInd`. -/
def strip_pixel (rc : Nat → Nat) (numcomps : Nat) (buf : Bytes) (destInd : Nat) :
    Bytes × Nat :=
  if numcomps = 1 then (store_byte buf destInd (rc 0), destInd + 1)
  else
    let b := store_byte (store_byte (store_byte buf destInd (rc 2)) (destInd + 1) (rc 1))
      (destInd + 2) (rc 0)
    if numcomps = 4 then (store_byte b (destInd + 3) (rc 3), destInd + 4)
    else (b, destInd + 3)

/-- One row of a strip: the loop over `i < w`, then `destInd += pad_dest`. The byte
`data compno j` stands for `rc[compno]` computed from `comps[compno].data[j]` (shift,
truncation or scaling and clamping to 8 bits). -/
def strip_row (data : Nat → Nat → Nat) (numcomps w pad_dest srcIndex : Nat)
    (st : Bytes × Nat) : Bytes × Nat :=
  let r := for_loop w
    (fun i (s : Bytes × Nat) =>
      strip_pixel (fun compno => data compno ((srcIndex + i) % UINT64_RANGE)) numcomps
        s.1 s.2) st
  (r.1, r.2 + pad_dest)

/-- The loop over `k < k_max` of one strip, from `destInd = 0`; the result is the buffer,
`destInd` and `m_srcIndex`. -/
def strip_rows (data : Nat → Nat → Nat) (numcomps w pad_dest stride_src k_max srcIndex : Nat)
    (buf : Bytes) : (Bytes × Nat) × Nat :=
  for_loop k_max
    (fun _ (s : (Bytes × Nat) × Nat) =>
      (strip_row data numcomps w pad_dest s.2 s.1,
        (s.2 + UINT64_RANGE - stride_src) % UINT64_RANGE)) ((buf, 0), srcIndex)

/-- The members `encodeStrip` works on, the bytes written to the file so far, and the sizes
of the `fwrite` calls made. -/
structure StripState where
  m_rowCount : Nat
  m_srcIndex : Nat
  m_destBuff : Bytes
  file : List Nat
  writes : List Nat

/-- How a run of the model of `encodeStrip` can fail to return. -/
inductive BmpFault where
  | division_by_zero
  | out_of_fuel
  deriving DecidableEq, Repr

/-- The loop `while (m_rowCount < h)` of `encodeStrip`; every `fwrite` is taken to write all
its `destInd` bytes. -/
def strip_while (data : Nat → Nat → Nat) (numcomps w h pad_dest stride_src rowsPerStrip : Nat) :
    Nat → StripState → Except BmpFault StripState
  | 0, st => if st.m_rowCount < h then .error .out_of_fuel else .ok st
  | fuel + 1, st =>
    if st.m_rowCount < h then
      let k_max := min rowsPerStrip ((h - st.m_rowCount) % UINT32_RANGE)
      let r := strip_rows data numcomps w pad_dest stride_src k_max st.m_srcIndex
        st.m_destBuff
      strip_while data numcomps w h pad_dest stride_src rowsPerStrip fuel
        { m_rowCount := (st.m_rowCount + k_max) % UINT32_RANGE
          m_srcIndex := r.2
          m_destBuff := r.1.1
          file := st.file ++ (List.range r.1.2).map r.1.1
          writes := st.writes ++ [r.1.2] }
    else .ok st

/-- The zeroing of the padding at the end of each row of the strip buffer. -/
def strip_zero_padding (buf : Bytes) (w_dest pad_dest rowsPerStrip : Nat) : Bytes :=
  if pad_dest ≠ 0 then
    for_loop rowsPerStrip
      (fun m b => fun i =>
        if m * w_dest + w_dest - pad_dest ≤ i ∧ i < m * w_dest + w_dest then 0 else b i) buf
  else buf

/-- The method `BMPFormat::encodeStrip` for an image of `numcomps` components of `w × h`
samples with source stride `stride_src`, called with `m_rowCount` rows already written;
`buf0` is the content of the freshly allocated `m_destBuff`. The result is the returned
boolean, the state after the call and the number of bytes allocated for `m_destBuff`
(`rowsPerStrip * w_dest` in `uint32_t`). -/
def encodeStrip (data : Nat → Nat → Nat) (numcomps w h stride_src m_rowCount : Nat)
    (buf0 : Bytes) (file : List Nat) : Except BmpFault (Bool × StripState × Nat) :=
  let m_srcIndex := (stride_src * ((h + UINT32_RANGE - 1) % UINT32_RANGE)) % UINT32_RANGE
  let w_dest := getPaddedWidth numcomps w
  let pad_dest := strip_pad_dest numcomps w
  match strip_rowsPerStrip numcomps h stride_src with
  | none => .error .division_by_zero
  | some rowsPerStrip =>
    let size := (rowsPerStrip * w_dest) % UINT32_RANGE
    let buf := strip_zero_padding buf0 w_dest pad_dest rowsPerStrip
    match strip_while data numcomps w h pad_dest stride_src rowsPerStrip h
        { m_rowCount := m_rowCount, m_srcIndex := m_srcIndex, m_destBuff := buf,
          file := file, writes := [] } with
    | .error e => .error e
    | .ok st => .ok (true, st, size)

/-! ## `sparse_array::write` by build -/

/-- Ways in which a call of `read_or_write` ends without returning, by build. With assertions
compiled in, a failed `assert` stops the call. With `NDEBUG` the macro `assert` expands to
nothing: the write branch then forms `src_block + offset` from the `NULL` pointer of the slot
and copies the samples through it. -/
inductive Crash where
  | fault (f : Fault)
  | null_dereference (slot : Nat)
  deriving DecidableEq, Repr

/-- Inner loop of `sparse_array::read_or_write` (over `x`) in the build selected by `ndebug`:
`true` when `NDEBUG` is defined, so that `assert(src_block)` is compiled out. -/
def rw_x_loop_build (ndebug : Bool) (sa : sparse_array) (x0 y0 x1 : Nat)
    (col_stride line_stride : Nat) (is_read_op : Bool) (y y_incr block_y block_y_offset : Nat) :
    Nat → Nat → Nat → Slots → Buffer → Except Crash (Slots × Buffer)
  | 0, x, _, blocks, buf =>
    if x < x1 then .error (.fault .out_of_fuel) else .ok (blocks, buf)
  | fuel + 1, x, block_x, blocks, buf =>
    if x < x1 then
      let x_incr := if x = x0 then sa.block_width - (x0 % sa.block_width) else sa.block_width
      let block_x_offset := sa.block_width - x_incr
      let x_incr := min x_incr (x1 - x)
      let slot := block_y * sa.block_count_hor + block_x
      let buf_ptr := (y - y0) * line_stride + (x - x0) * col_stride
      let blk_ptr := block_y_offset * sa.block_width + block_x_offset
      let src_block := blocks.getD slot none
      if is_read_op then
        match src_block with
        | none =>
          rw_x_loop_build ndebug sa x0 y0 x1 col_stride line_stride is_read_op y y_incr block_y
            block_y_offset fuel ((x + x_incr) % UINT32_RANGE) ((block_x + 1) % UINT32_RANGE)
            blocks (zero_fill buf buf_ptr x_incr y_incr col_stride line_stride)
        | some blk =>
          rw_x_loop_build ndebug sa x0 y0 x1 col_stride line_stride is_read_op y y_incr block_y
            block_y_offset fuel ((x + x_incr) % UINT32_RANGE) ((block_x + 1) % UINT32_RANGE)
            blocks (read_block blk blk_ptr buf buf_ptr x_incr y_incr col_stride line_stride
              sa.block_width)
      else
        match src_block with
        | none =>
          if ndebug then .error (.null_dereference slot) else .error (.fault .assert_failed)
        | some blk =>
          rw_x_loop_build ndebug sa x0 y0 x1 col_stride line_stride is_read_op y y_incr block_y
            block_y_offset fuel ((x + x_incr) % UINT32_RANGE) ((block_x + 1) % UINT32_RANGE)
            (blocks.set slot (some (write_block blk blk_ptr buf buf_ptr x_incr y_incr
              col_stride line_stride sa.block_width))) buf
    else .ok (blocks, buf)

/-- Outer loop of `sparse_array::read_or_write` (over `y`) in the build selected by
`ndebug`. -/
def rw_y_loop_build (ndebug : Bool) (sa : sparse_array) (x0 y0 x1 y1 : Nat)
    (col_stride line_stride : Nat) (is_read_op : Bool) :
    Nat → Nat → Nat → Slots → Buffer → Except Crash (Slots × Buffer)
  | 0, y, _, blocks, buf =>
    if y < y1 then .error (.fault .out_of_fuel) else .ok (blocks, buf)
  | fuel + 1, y, block_y, blocks, buf =>
    if y < y1 then
      let y_incr := if y = y0 then sa.block_height - (y0 % sa.block_height) else sa.block_height
      let block_y_offset := sa.block_height - y_incr
      let y_incr := min y_incr (y1 - y)
      match rw_x_loop_build ndebug sa x0 y0 x1 col_stride line_stride is_read_op y y_incr
          block_y block_y_offset (x1 - x0) x0 (x0 / sa.block_width) blocks buf with
      | .error e => .error e
      | .ok (blocks1, buf1) =>
        rw_y_loop_build ndebug sa x0 y0 x1 y1 col_stride line_stride is_read_op fuel
          ((y + y_incr) % UINT32_RANGE) ((block_y + 1) % UINT32_RANGE) blocks1 buf1
    else .ok (blocks, buf)

/-- The method `sparse_array::read_or_write` in the build selected by `ndebug`. -/
def sparse_array.read_or_write_build (ndebug : Bool) (sa : sparse_array) (x0 y0 x1 y1 : Nat)
    (buf : Buffer) (buf_col_stride buf_line_stride : Nat) (forgiving is_read_op : Bool) :
    Except Crash (Bool × sparse_array × Buffer) :=
  if !sa.is_region_valid x0 y0 x1 y1 then .ok (forgiving, sa, buf)
  else
    match rw_y_loop_build ndebug sa x0 y0 x1 y1 buf_col_stride buf_line_stride is_read_op
        (y1 - y0) y0 (y0 / sa.block_height) sa.data_blocks buf with
    | .error e => .error e
    | .ok (blocks, buf1) => .ok (true, { sa with data_blocks := blocks }, buf1)

/-- The method `sparse_array::write` in the build selected by `ndebug`. -/
def sparse_array.write_build (ndebug : Bool) (sa : sparse_array) (x0 y0 x1 y1 : Nat)
    (src : Buffer) (src_col_stride src_line_stride : Nat) (forgiving : Bool) :
    Except Crash (Bool × sparse_array × Buffer) :=
  sa.read_or_write_build ndebug x0 y0 x1 y1 src src_col_stride src_line_stride forgiving false

/-! ## Example data -/

/-- A 10×10 array with 4×4 blocks and no allocated block, as the constructor builds it. -/
def array10 : sparse_array :=
  { width := 10, height := 10, block_width := 4, block_height := 4,
    block_count_hor := 3, block_count_ver := 3, data_blocks := List.replicate 9 none }

/-- The array `array10` after `alloc(2,3,6,7)`: the four blocks of the top-left corner are
allocated and zero. -/
def array10_alloc : sparse_array :=
  { array10 with
    data_blocks := [some (List.replicate 16 0), some (List.replicate 16 0), none,
                    some (List.replicate 16 0), some (List.replicate 16 0), none,
                    none, none, none] }

/-- The buffer holding `1, 2, …, 16` (and zeros behind). -/
def buf16 : Buffer :=
  fun i => ([1, 2, 3, 4, 5, 6, 7, 8, 9, 10, 11, 12, 13, 14, 15, 16] : List Int).getD i 0

/-- A 2×1 array made of one allocated block holding the samples `1, 2`. -/
def array2 : sparse_array :=
  { width := 2, height := 1, block_width := 2, block_height := 1,
    block_count_hor := 1, block_count_ver := 1, data_blocks := [some [1, 2]] }

/-- The 10×10 array with 4×4 blocks after `alloc(0,0,10,10)`: all nine blocks are allocated
and zero. -/
def array10_full : sparse_array :=
  { array10 with data_blocks := List.replicate 9 (some (List.replicate 16 0)) }

/-- A 4×1 array with 2×1 blocks: the first block holds the samples `1, 2`, the second slot is
`NULL`. -/
def array4 : sparse_array :=
  { width := 4, height := 1, block_width := 2, block_height := 1,
    block_count_hor := 2, block_count_ver := 1, data_blocks := [some [1, 2], none] }

end grk

/-! # Theorems -/

namespace grk

theorem for_loop_zero {σ : Type} (body : Nat → σ → σ) (s : σ) : for_loop 0 body s = s := rfl

theorem for_loop_succ {σ : Type} (n : Nat) (body : Nat → σ → σ) (s : σ) :
    for_loop (n + 1) body s = body n (for_loop n body s) := by
  simp [for_loop, List.range_succ, List.foldl_append]

/-- Invariant rule for the counted loop. -/
theorem for_loop_induct {σ : Type} (Inv : Nat → σ → Prop) (body : Nat → σ → σ) (n : Nat)
    (s : σ) (h0 : Inv 0 s) (hstep : ∀ j t, j < n → Inv j t → Inv (j + 1) (body j t)) :
    Inv n (for_loop n body s) := by
  induction n with
  | zero => simpa [for_loop_zero] using h0
  | succ m ih =>
    rw [for_loop_succ]
    exact hstep m _ (Nat.lt_succ_self m)
      (ih (fun j t hj hi => hstep j t (Nat.lt_succ_of_lt hj) hi))

theorem land_mask_eq (x : Nat) (hx : x < UINT32_RANGE) : x &&& 0xFFFFFFFC = 4 * (x / 4) := by
  apply Nat.eq_of_testBit_eq
  intro i
  have h1 : (0xFFFFFFFC : Nat) = 2 ^ 2 * (2 ^ 30 - 1) := by norm_num
  have h2 : (4 : Nat) = 2 ^ 2 := by norm_num
  rw [Nat.testBit_and, h1, h2, Nat.testBit_mul_pow_two, Nat.testBit_mul_pow_two,
    Nat.testBit_two_pow_sub_one, ← Nat.shiftRight_eq_div_pow, Nat.testBit_shiftRight]
  by_cases hi : 2 ≤ i
  · by_cases hj : i - 2 < 30
    · simp [hi, hj]
    · have : x < 2 ^ i := by
        have : (2:Nat) ^ 32 ≤ 2 ^ i := Nat.pow_le_pow_right (by norm_num) (by omega)
        unfold UINT32_RANGE at hx
        omega
      have hf : x.testBit i = false := Nat.testBit_eq_false_of_lt this
      have e : 2 + (i - 2) = i := by omega
      simp [hi, hj, hf, e]
  · simp [hi]

/-- The counted loop started at `k`: `for (; k < n; k++) body(k)`. -/
theorem unrolled_tail_eq {σ : Type} (body : Nat → σ → σ) (n : Nat) :
    ∀ (m k : Nat) (s : σ), k + m = n → ∀ fuel, m ≤ fuel →
      unrolled_tail body n fuel k (for_loop k body s) = for_loop n body s := by
  intro m
  induction m with
  | zero =>
    intro k s hk fuel _
    have : k = n := by omega
    subst this
    cases fuel <;> simp [unrolled_tail]
  | succ m ih =>
    intro k s hk fuel hf
    cases fuel with
    | zero => omega
    | succ f =>
      have hlt : k < n := by omega
      simp only [unrolled_tail, hlt, if_true]
      rw [← for_loop_succ k body s]
      exact ih (k + 1) s (by omega) f (by omega)

theorem unrolled_head_eq {σ : Type} (body : Nat → σ → σ) (q : Nat) :
    ∀ (m i : Nat) (s : σ), i + m = q → ∀ fuel, m ≤ fuel →
      unrolled_head body (4 * q) fuel (4 * i) (for_loop (4 * i) body s)
        = (4 * q, for_loop (4 * q) body s) := by
  intro m
  induction m with
  | zero =>
    intro i s hi fuel _
    have : i = q := by omega
    subst this
    cases fuel <;> simp [unrolled_head]
  | succ m ih =>
    intro i s hi fuel hf
    cases fuel with
    | zero => omega
    | succ f =>
      have hlt : 4 * i < 4 * q := by omega
      simp only [unrolled_head, hlt, if_true]
      have e : 4 * i + 4 = 4 * (i + 1) := by ring
      rw [← for_loop_succ (4 * i) body s, ← for_loop_succ (4 * i + 1) body s,
        ← for_loop_succ (4 * i + 2) body s, ← for_loop_succ (4 * i + 3) body s]
      rw [e]
      exact ih (i + 1) s (by omega) f (by omega)

/-- The unrolled loop computes the same state as the plain counted loop. -/
theorem unrolled_loop_eq {σ : Type} (x_incr : Nat) (hx : x_incr < UINT32_RANGE)
    (body : Nat → σ → σ) (s : σ) : unrolled_loop x_incr body s = for_loop x_incr body s := by
  unfold unrolled_loop
  rw [land_mask_eq x_incr hx]
  have h := unrolled_head_eq body (x_incr / 4) (x_incr / 4) 0 s (by omega) x_incr (by omega)
  simp only [Nat.mul_zero, for_loop_zero] at h
  rw [h]
  exact unrolled_tail_eq body x_incr (x_incr - 4 * (x_incr / 4)) (4 * (x_incr / 4)) s (by omega)
    x_incr (by omega)

/-! ### Composition rules for `Writes` -/

theorem writes_nil {α : Type} {P : α → Prop} {idx : α → Nat} {val : α → Int} (d : Buffer)
    (h : ∀ a, ¬ P a) : Writes P idx val d d := by
  intro n
  constructor
  · rintro ⟨a, ha, _⟩
    exact absurd ha (h a)
  · intro _
    rfl

theorem writes_seq {α : Type} {P Q : α → Prop} {idx : α → Nat} {val : α → Int}
    {d d1 d2 : Buffer} (h1 : Writes P idx val d d1) (h2 : Writes Q idx val d1 d2) :
    Writes (fun a => P a ∨ Q a) idx val d d2 := by
  intro n
  constructor
  · rintro ⟨a, ha, hn⟩
    by_cases hq : ∃ b, Q b ∧ idx b = n
    · obtain ⟨b, hb, hbn, hv⟩ := (h2 n).1 hq
      exact ⟨b, Or.inr hb, hbn, hv⟩
    · have hq2 : ∀ b, Q b → idx b ≠ n := fun b hb hbn => hq ⟨b, hb, hbn⟩
      have hp : ∃ b, P b ∧ idx b = n := by
        rcases ha with ha | ha
        · exact ⟨a, ha, hn⟩
        · exact absurd hn (hq2 a ha)
      obtain ⟨b, hb, hbn, hv⟩ := (h1 n).1 hp
      exact ⟨b, Or.inl hb, hbn, by rw [(h2 n).2 hq2, hv]⟩
  · intro h
    rw [(h2 n).2 (fun a ha => h a (Or.inr ha)), (h1 n).2 (fun a ha => h a (Or.inl ha))]

theorem writes_congr {α : Type} {P Q : α → Prop} {idx idx2 : α → Nat} {val val2 : α → Int}
    {d d1 : Buffer} (h : Writes P idx val d d1) (hPQ : ∀ a, P a ↔ Q a)
    (hidx : ∀ a, P a → idx2 a = idx a) (hval : ∀ a, P a → val2 a = val a) :
    Writes Q idx2 val2 d d1 := by
  intro n
  constructor
  · rintro ⟨a, ha, hn⟩
    have ha2 := (hPQ a).2 ha
    obtain ⟨b, hb, hbn, hv⟩ := (h n).1 ⟨a, ha2, by rw [← hidx a ha2]; exact hn⟩
    exact ⟨b, (hPQ b).1 hb, by rw [hidx b hb]; exact hbn, by rw [hval b hb]; exact hv⟩
  · intro hne
    exact (h n).2 (fun a ha => by rw [← hidx a ha]; exact hne a ((hPQ a).1 ha))

/-- Change of coordinates: positions `a : α` are renamed to `f a : β`. -/
theorem writes_map {α β : Type} {P : α → Prop} {idx : α → Nat} {val : α → Int}
    {Q : β → Prop} {idx2 : β → Nat} {val2 : β → Int} {d d1 : Buffer} (f : α → β)
    (h : Writes P idx val d d1)
    (hPQ : ∀ a, P a → Q (f a)) (hsurj : ∀ b, Q b → ∃ a, P a ∧ f a = b)
    (hidx : ∀ a, P a → idx2 (f a) = idx a) (hval : ∀ a, P a → val2 (f a) = val a) :
    Writes Q idx2 val2 d d1 := by
  intro n
  constructor
  · rintro ⟨b, hb, hn⟩
    obtain ⟨a, ha, rfl⟩ := hsurj b hb
    obtain ⟨c, hc, hcn, hv⟩ := (h n).1 ⟨a, ha, by rw [← hidx a ha]; exact hn⟩
    exact ⟨f c, hPQ c hc, by rw [hidx c hc]; exact hcn, by rw [hval c hc]; exact hv⟩
  · intro hne
    exact (h n).2 (fun a ha => by rw [← hidx a ha]; exact hne (f a) (hPQ a ha))

theorem writes_store {α : Type} (idx : α → Nat) (val : α → Int) (d : Buffer) (a0 : α) :
    Writes (fun a => a = a0) idx val d (store d (idx a0) (val a0)) := by
  intro n
  constructor
  · rintro ⟨a, rfl, hn⟩
    exact ⟨a, rfl, hn, by simp [grk.store, hn]⟩
  · intro hne
    have : n ≠ idx a0 := fun e => hne a0 rfl e.symm
    simp [grk.store, this]

/-- A counted loop whose iteration `j` performs the stores of `P j` performs all of them. -/
theorem writes_for_loop {α : Type} (P : Nat → α → Prop) (idx : α → Nat) (val : α → Int)
    (body : Nat → Buffer → Buffer) (n : Nat)
    (hbody : ∀ j d, j < n → Writes (P j) idx val d (body j d)) (d : Buffer) :
    Writes (fun a => ∃ j, j < n ∧ P j a) idx val d (grk.for_loop n body d) := by
  refine for_loop_induct (fun m t => Writes (fun a => ∃ j, j < m ∧ P j a) idx val d t)
    body n d ?_ ?_
  · exact writes_nil d (by rintro a ⟨j, hj, _⟩; omega)
  · intro j t hj hinv
    refine writes_congr (writes_seq hinv (hbody j t hj)) ?_ (fun _ _ => rfl) (fun _ _ => rfl)
    intro a
    constructor
    · rintro (⟨i, hi, hp⟩ | hp)
      · exact ⟨i, by omega, hp⟩
      · exact ⟨j, by omega, hp⟩
    · rintro ⟨i, hi, hp⟩
      by_cases e : i = j
      · subst e; exact Or.inr hp
      · exact Or.inl ⟨i, by omega, hp⟩

/-! ### The same rules for blocks -/

theorem view_set (l : List Int) (i : Nat) (v : Int) (hi : i < l.length) :
    view (l.set i v) = grk.store (view l) i v := by
  funext n
  unfold view grk.store
  by_cases e : n = i
  · subst e
    simp [List.getD_eq_getElem?_getD, List.getElem?_set, hi]
  · have e2 : i ≠ n := fun h => e h.symm
    simp [List.getD_eq_getElem?_getD, List.getElem?_set, e, e2]

theorem lwrites_nil {α : Type} {P : α → Prop} {idx : α → Nat} {val : α → Int} (l : List Int)
    (h : ∀ a, ¬ P a) : LWrites P idx val l l :=
  ⟨rfl, writes_nil _ h⟩

theorem lwrites_seq {α : Type} {P Q : α → Prop} {idx : α → Nat} {val : α → Int}
    {l l1 l2 : List Int} (h1 : LWrites P idx val l l1) (h2 : LWrites Q idx val l1 l2) :
    LWrites (fun a => P a ∨ Q a) idx val l l2 :=
  ⟨h2.1.trans h1.1, writes_seq h1.2 h2.2⟩

theorem lwrites_congr {α : Type} {P Q : α → Prop} {idx idx2 : α → Nat} {val val2 : α → Int}
    {l l1 : List Int} (h : LWrites P idx val l l1) (hPQ : ∀ a, P a ↔ Q a)
    (hidx : ∀ a, P a → idx2 a = idx a) (hval : ∀ a, P a → val2 a = val a) :
    LWrites Q idx2 val2 l l1 :=
  ⟨h.1, writes_congr h.2 hPQ hidx hval⟩

theorem lwrites_set {α : Type} (idx : α → Nat) (val : α → Int) (l : List Int) (a0 : α)
    (hi : idx a0 < l.length) :
    LWrites (fun a => a = a0) idx val l (l.set (idx a0) (val a0)) := by
  refine ⟨by simp, ?_⟩
  rw [view_set l _ _ hi]
  exact writes_store idx val (view l) a0

theorem lwrites_for_loop {α : Type} (P : Nat → α → Prop) (idx : α → Nat) (val : α → Int)
    (body : Nat → List Int → List Int) (n : Nat) (len : Nat)
    (hbody : ∀ j l, j < n → l.length = len → LWrites (P j) idx val l (body j l))
    (l : List Int) (hl : l.length = len) :
    LWrites (fun a => ∃ j, j < n ∧ P j a) idx val l (grk.for_loop n body l) := by
  refine for_loop_induct (fun m t => LWrites (fun a => ∃ j, j < m ∧ P j a) idx val l t)
    body n l ?_ ?_
  · exact lwrites_nil l (by rintro a ⟨j, hj, _⟩; omega)
  · intro j t hj hinv
    refine lwrites_congr (lwrites_seq hinv (hbody j t hj (hinv.1.trans hl))) ?_
      (fun _ _ => rfl) (fun _ _ => rfl)
    intro a
    constructor
    · rintro (⟨i, hi, hp⟩ | hp)
      · exact ⟨i, by omega, hp⟩
      · exact ⟨j, by omega, hp⟩
    · rintro ⟨i, hi, hp⟩
      by_cases e : i = j
      · subst e; exact Or.inr hp
      · exact Or.inl ⟨i, by omega, hp⟩

/-! ### Row copies -/

theorem memset_zero_writes (d : Buffer) (p n : Nat) :
    Writes (fun k => k < n) (fun k => p + k) (fun _ => 0) d (memset_zero d p n) := by
  intro i
  constructor
  · rintro ⟨k, hk, rfl⟩
    exact ⟨k, hk, rfl, by simp [memset_zero, hk]⟩
  · intro hne
    have : ¬ (p ≤ i ∧ i < p + n) := by
      rintro ⟨h1, h2⟩
      exact hne (i - p) (by omega) (by show p + (i - p) = i; omega)
    simp [memset_zero, this]

theorem memcpy_from_block_writes (d : Buffer) (p : Nat) (src : List Int) (q n : Nat) :
    Writes (fun k => k < n) (fun k => p + k) (fun k => src.getD (q + k) 0) d
      (memcpy_from_block d p src q n) := by
  intro i
  constructor
  · rintro ⟨k, hk, rfl⟩
    exact ⟨k, hk, rfl, by simp [memcpy_from_block, hk]⟩
  · intro hne
    have : ¬ (p ≤ i ∧ i < p + n) := by
      rintro ⟨h1, h2⟩
      exact hne (i - p) (by omega) (by show p + (i - p) = i; omega)
    simp [memcpy_from_block, this]

theorem row_store_writes (d : Buffer) (idx : Nat → Nat) (val : Nat → Int) (n : Nat) :
    Writes (fun k => k < n) idx val d (for_loop n (fun k d => store d (idx k) (val k)) d) := by
  refine writes_congr (writes_for_loop (fun j a => a = j) idx val _ n ?_ d) ?_
    (fun _ _ => rfl) (fun _ _ => rfl)
  · intro j t _
    exact writes_store idx val t j
  · intro a
    constructor
    · rintro ⟨j, hj, rfl⟩; exact hj
    · intro h; exact ⟨a, h, rfl⟩

theorem memcpy_to_block_lwrites (l : List Int) (q : Nat) (src : Buffer) (p n : Nat)
    (hq : q + n ≤ l.length) :
    LWrites (fun k => k < n) (fun k => q + k) (fun k => src (p + k)) l
      (memcpy_to_block l q src p n) := by
  refine ⟨by simp [memcpy_to_block], ?_⟩
  have hv : ∀ i, view (memcpy_to_block l q src p n) i =
      if q ≤ i ∧ i < q + n then src (p + (i - q)) else view l i := by
    intro i
    unfold view memcpy_to_block
    by_cases hi : i < l.length
    · simp [List.getD_eq_getElem?_getD, List.getElem?_map, List.getElem?_range, hi]
    · have h2 : ¬ (q ≤ i ∧ i < q + n) := by omega
      have h3 : l.length ≤ i := by omega
      have h4 : (List.range l.length)[i]? = none := by
        rw [List.getElem?_eq_none]; simpa using h3
      have h5 : l[i]? = none := by rw [List.getElem?_eq_none]; exact h3
      simp [List.getD_eq_getElem?_getD, List.getElem?_map, h2, h4, h5]
  intro i
  constructor
  · rintro ⟨k, hk, rfl⟩
    exact ⟨k, hk, rfl, by rw [hv]; simp [hk]⟩
  · intro hne
    have : ¬ (q ≤ i ∧ i < q + n) := by
      rintro ⟨h1, h2⟩
      exact hne (i - q) (by omega) (by show q + (i - q) = i; omega)
    rw [hv]; simp [this]

theorem row_set_lwrites (l : List Int) (idx : Nat → Nat) (val : Nat → Int) (n : Nat)
    (hidx : ∀ k, k < n → idx k < l.length) :
    LWrites (fun k => k < n) idx val l (for_loop n (fun k b => b.set (idx k) (val k)) l) := by
  refine lwrites_congr (lwrites_for_loop (fun j a => a = j) idx val _ n l.length ?_ l rfl) ?_
    (fun _ _ => rfl) (fun _ _ => rfl)
  · intro j t hj ht
    exact lwrites_set idx val t j (by rw [ht]; exact hidx j hj)
  · intro a
    constructor
    · rintro ⟨j, hj, rfl⟩; exact hj
    · intro h; exact ⟨a, h, rfl⟩

/-! ### Block copies -/

/-- Rows `j < nj` of `nk` stores each make up the stores of the `nj × nk` rectangle. -/
theorem rows_writes (idx : Nat × Nat → Nat) (val : Nat × Nat → Int) (nj nk : Nat)
    (body : Nat → Buffer → Buffer)
    (hrow : ∀ j d, j < nj →
      Writes (fun k => k < nk) (fun k => idx (j, k)) (fun k => val (j, k)) d (body j d))
    (d : Buffer) :
    Writes (fun a : Nat × Nat => a.1 < nj ∧ a.2 < nk) idx val d (for_loop nj body d) := by
  refine writes_congr
    (writes_for_loop (fun j (a : Nat × Nat) => a.1 = j ∧ a.2 < nk) idx val body nj ?_ d) ?_
    (fun _ _ => rfl) (fun _ _ => rfl)
  · intro j t hj
    refine writes_map (fun k => (j, k)) (hrow j t hj) ?_ ?_ (fun _ _ => rfl) (fun _ _ => rfl)
    · intro k hk; exact ⟨rfl, hk⟩
    · rintro ⟨b1, b2⟩ ⟨h1, h2⟩
      simp only at h1 h2
      exact ⟨b2, h2, by rw [h1]⟩
  · rintro ⟨a1, a2⟩
    constructor
    · rintro ⟨j, hj, h1, h2⟩
      simp only at h1 h2 ⊢
      exact ⟨by omega, h2⟩
    · rintro ⟨h1, h2⟩
      exact ⟨a1, h1, rfl, h2⟩

theorem rows_lwrites (idx : Nat × Nat → Nat) (val : Nat × Nat → Int) (nj nk : Nat)
    (body : Nat → List Int → List Int) (len : Nat)
    (hrow : ∀ j l, j < nj → l.length = len →
      LWrites (fun k => k < nk) (fun k => idx (j, k)) (fun k => val (j, k)) l (body j l))
    (l : List Int) (hl : l.length = len) :
    LWrites (fun a : Nat × Nat => a.1 < nj ∧ a.2 < nk) idx val l (for_loop nj body l) := by
  refine lwrites_congr
    (lwrites_for_loop (fun j (a : Nat × Nat) => a.1 = j ∧ a.2 < nk) idx val body nj len ?_ l hl)
    ?_ (fun _ _ => rfl) (fun _ _ => rfl)
  · intro j t hj ht
    have h := hrow j t hj ht
    refine ⟨h.1, writes_map (fun k => (j, k)) h.2 ?_ ?_ (fun _ _ => rfl) (fun _ _ => rfl)⟩
    · intro k hk; exact ⟨rfl, hk⟩
    · rintro ⟨b1, b2⟩ ⟨h1, h2⟩
      simp only at h1 h2
      exact ⟨b2, h2, by rw [h1]⟩
  · rintro ⟨a1, a2⟩
    constructor
    · rintro ⟨j, hj, h1, h2⟩
      simp only at h1 h2 ⊢
      exact ⟨by omega, h2⟩
    · rintro ⟨h1, h2⟩
      exact ⟨a1, h1, rfl, h2⟩

/-- Every branch of the zero fill stores `0` at each addressed offset. -/
theorem zero_fill_writes (buf : Buffer) (dest_ptr x_incr y_incr col_stride line_stride : Nat) :
    Writes (fun a : Nat × Nat => a.1 < y_incr ∧ a.2 < x_incr)
      (fun a => dest_ptr + a.1 * line_stride + a.2 * col_stride) (fun _ => 0) buf
      (zero_fill buf dest_ptr x_incr y_incr col_stride line_stride) := by
  unfold zero_fill
  split
  · rename_i h
    subst h
    refine rows_writes _ _ y_incr x_incr _ ?_ buf
    intro j d _
    refine writes_congr (memset_zero_writes d (dest_ptr + j * line_stride) x_incr)
      (fun _ => Iff.rfl) ?_ (fun _ _ => rfl)
    intro k _; simp
  · refine rows_writes _ _ y_incr x_incr _ ?_ buf
    intro j d _
    exact row_store_writes d _ _ x_incr

/-- Every branch of the block read stores the block's samples at the addressed offsets. -/
theorem read_block_writes (blk : List Int) (src_ptr : Nat) (buf : Buffer)
    (dest_ptr x_incr y_incr col_stride line_stride block_width : Nat)
    (hx : x_incr < UINT32_RANGE) :
    Writes (fun a : Nat × Nat => a.1 < y_incr ∧ a.2 < x_incr)
      (fun a => dest_ptr + a.1 * line_stride + a.2 * col_stride)
      (fun a => blk.getD (src_ptr + a.1 * block_width + a.2) 0) buf
      (read_block blk src_ptr buf dest_ptr x_incr y_incr col_stride line_stride block_width) := by
  have hmem : col_stride = 1 → Writes (fun a : Nat × Nat => a.1 < y_incr ∧ a.2 < x_incr)
      (fun a => dest_ptr + a.1 * line_stride + a.2 * col_stride)
      (fun a => blk.getD (src_ptr + a.1 * block_width + a.2) 0) buf
      (for_loop y_incr
        (fun j d => memcpy_from_block d (dest_ptr + j * line_stride) blk
          (src_ptr + j * block_width) x_incr) buf) := by
    intro h
    subst h
    refine rows_writes _ _ y_incr x_incr _ ?_ buf
    intro j d _
    refine writes_congr (memcpy_from_block_writes d (dest_ptr + j * line_stride) blk
      (src_ptr + j * block_width) x_incr) (fun _ => Iff.rfl) ?_ (fun _ _ => rfl)
    intro k _; simp
  unfold read_block
  split
  · rename_i h
    split
    · exact hmem h
    · exact hmem h
  · split
    · rename_i h1
      subst h1
      refine rows_writes _ _ y_incr 1 _ ?_ buf
      intro j d _
      intro n
      constructor
      · rintro ⟨k, hk, hn⟩
        have hk0 : k = 0 := by omega
        subst hk0
        refine ⟨0, hk, hn, ?_⟩
        simp only [Nat.zero_mul, Nat.add_zero] at hn ⊢
        simp [grk.store, hn]
      · intro hne
        have := hne 0 (by omega)
        simp only [Nat.zero_mul, Nat.add_zero] at this
        simp [grk.store, Ne.symm this]
    · split
      · rename_i h2
        obtain ⟨hy, _⟩ := h2
        subst hy
        rw [unrolled_loop_eq x_incr hx]
        refine writes_map (fun k => ((0 : Nat), k))
          (row_store_writes buf (fun k => dest_ptr + k * col_stride)
            (fun k => blk.getD (src_ptr + k) 0) x_incr) ?_ ?_ ?_ ?_
        · intro k hk; exact ⟨by simp, hk⟩
        · rintro ⟨b1, b2⟩ ⟨h1, h2⟩
          simp only at h1 h2
          have : b1 = 0 := by omega
          subst this
          exact ⟨b2, h2, rfl⟩
        · intro k _; simp
        · intro k _; simp
      · split
        · refine rows_writes _ _ y_incr x_incr _ ?_ buf
          intro j d _
          rw [unrolled_loop_eq x_incr hx]
          exact row_store_writes d _ _ x_incr
        · refine rows_writes _ _ y_incr x_incr _ ?_ buf
          intro j d _
          exact row_store_writes d _ _ x_incr

/-- Every branch of the block write stores the caller's samples at the addressed offsets of
the block, provided each row lies inside the block. -/
theorem write_block_lwrites (blk : List Int) (dest_ptr : Nat) (buf : Buffer)
    (src_ptr x_incr y_incr col_stride line_stride block_width : Nat)
    (hx : x_incr < UINT32_RANGE)
    (hin : ∀ j, j < y_incr → dest_ptr + j * block_width + x_incr ≤ blk.length) :
    LWrites (fun a : Nat × Nat => a.1 < y_incr ∧ a.2 < x_incr)
      (fun a => dest_ptr + a.1 * block_width + a.2)
      (fun a => buf (src_ptr + a.1 * line_stride + a.2 * col_stride)) blk
      (write_block blk dest_ptr buf src_ptr x_incr y_incr col_stride line_stride
        block_width) := by
  have hmem : col_stride = 1 → LWrites (fun a : Nat × Nat => a.1 < y_incr ∧ a.2 < x_incr)
      (fun a => dest_ptr + a.1 * block_width + a.2)
      (fun a => buf (src_ptr + a.1 * line_stride + a.2 * col_stride)) blk
      (for_loop y_incr
        (fun j b => memcpy_to_block b (dest_ptr + j * block_width) buf
          (src_ptr + j * line_stride) x_incr) blk) := by
    intro h
    subst h
    refine rows_lwrites _ _ y_incr x_incr _ blk.length ?_ blk rfl
    intro j l hj hl
    refine lwrites_congr (memcpy_to_block_lwrites l (dest_ptr + j * block_width) buf
      (src_ptr + j * line_stride) x_incr (by rw [hl]; exact hin j hj)) (fun _ => Iff.rfl)
      (fun _ _ => rfl) ?_
    intro k _; simp
  have hgen : LWrites (fun a : Nat × Nat => a.1 < y_incr ∧ a.2 < x_incr)
      (fun a => dest_ptr + a.1 * block_width + a.2)
      (fun a => buf (src_ptr + a.1 * line_stride + a.2 * col_stride)) blk
      (for_loop y_incr
        (fun j b => for_loop x_incr
          (fun k b => b.set (dest_ptr + j * block_width + k)
            (buf (src_ptr + j * line_stride + k * col_stride))) b) blk) := by
    refine rows_lwrites _ _ y_incr x_incr _ blk.length ?_ blk rfl
    intro j l hj hl
    exact row_set_lwrites l _ _ x_incr
      (fun k hk => by have := hin j hj; show dest_ptr + j * block_width + k < l.length; omega)
  unfold write_block
  split
  · rename_i h
    split
    · exact hmem h
    · exact hmem h
  · split
    · rename_i h1
      subst h1
      refine rows_lwrites _ _ y_incr 1 _ blk.length ?_ blk rfl
      intro j l hj hl
      have hlt : dest_ptr + j * block_width < l.length := by have := hin j hj; omega
      refine ⟨by simp, ?_⟩
      rw [view_set l _ _ hlt]
      intro n
      constructor
      · rintro ⟨k, hk, hn⟩
        have hk0 : k = 0 := by omega
        subst hk0
        refine ⟨0, hk, hn, ?_⟩
        simp only [Nat.zero_mul, Nat.add_zero] at hn ⊢
        simp [grk.store, hn]
      · intro hne
        have := hne 0 (by omega)
        simp only [Nat.zero_mul, Nat.add_zero] at this
        simp [grk.store, Ne.symm this]
    · split
      · simp only [unrolled_loop_eq x_incr hx]
        exact hgen
      · exact hgen

/-! ### Arithmetic of the block walk -/

theorem div_mod_of_eq (b q r a : Nat) (hr : r < b) (h : a = q * b + r) :
    a / b = q ∧ a % b = r := by
  have hb : 0 < b := by omega
  rw [Nat.div_mod_unique hb]
  constructor
  · rw [h, Nat.mul_comm]; omega
  · exact hr

theorem div_lt_ceildiv (x w b : Nat) (hb : 0 < b) (h : x < w) : x / b < ceildiv w b := by
  unfold ceildiv
  rw [Nat.div_lt_iff_lt_mul hb]
  have h1 := Nat.div_add_mod (w + b - 1) b
  have h2 := Nat.mod_lt (w + b - 1) hb
  have h3 : (w + b - 1) / b * b = b * ((w + b - 1) / b) := Nat.mul_comm _ _
  omega

/-- One step of the walk along an axis with block size `b`, from coordinate `c` of the
range `[c0, c1)`: the increment is positive, stays inside the range and the block, nothing
wraps, and the next coordinate starts the next block. -/
theorem walk_step (b c0 c c1 blk : Nat) (hb : 0 < b) (hc0 : c0 ≤ c) (hc : c < c1)
    (hc1 : c1 < UINT32_RANGE)
    (hinv : c = blk * b + (if c = c0 then c0 % b else 0)) :
    let raw := if c = c0 then b - (c0 % b) else b
    let off := b - raw
    let incr := min raw (c1 - c)
    0 < incr ∧ c + incr ≤ c1 ∧ (c + incr) % UINT32_RANGE = c + incr ∧
    (blk + 1) % UINT32_RANGE = blk + 1 ∧ c = blk * b + off ∧ off + incr ≤ b ∧
    c0 ≤ c + incr ∧
    (c + incr < c1 →
      c + incr = (blk + 1) * b + (if c + incr = c0 then c0 % b else 0)) := by
  intro raw off incr
  have hmod : c0 % b < b := Nat.mod_lt _ hb
  have hblk : blk ≤ blk * b := Nat.le_mul_of_pos_right blk hb
  have hsucc : (blk + 1) * b = blk * b + b := by ring
  have hraw : 0 < raw ∧ raw ≤ b ∧ b - raw = (if c = c0 then c0 % b else 0) := by
    show 0 < (if c = c0 then b - (c0 % b) else b) ∧ (if c = c0 then b - (c0 % b) else b) ≤ b ∧
      b - (if c = c0 then b - (c0 % b) else b) = (if c = c0 then c0 % b else 0)
    split_ifs <;> omega
  obtain ⟨hr1, hr2, hr3⟩ := hraw
  have hoff : off = (if c = c0 then c0 % b else 0) := hr3
  have hincr : incr = min raw (c1 - c) := rfl
  have hi1 : 0 < incr := by rw [hincr]; omega
  have hi2 : c + incr ≤ c1 := by rw [hincr]; omega
  have hi3 : incr ≤ raw := by rw [hincr]; omega
  have hoffraw : off + raw = b := by show b - raw + raw = b; omega
  refine ⟨hi1, hi2, ?_, ?_, ?_, ?_, ?_, ?_⟩
  · exact Nat.mod_eq_of_lt (by omega)
  · exact Nat.mod_eq_of_lt (by omega)
  · rw [hoff]; exact hinv
  · omega
  · omega
  · intro hlt
    have hne : c + incr ≠ c0 := by omega
    have hfull : incr = raw := by rw [hincr]; omega
    rw [if_neg hne, hsucc]
    rw [← hoff] at hinv
    omega

/-- Initially the walk is at the start of the range, in the block `c0 / b`. -/
theorem walk_init (b c0 : Nat) :
    c0 = (c0 / b) * b + (if c0 = c0 then c0 % b else 0) := by
  simp only [if_true]
  exact (Nat.div_add_mod' c0 b).symm

/-! ### The read walk -/

/-- Offsets and samples addressed inside one block visit agree with the global description
of the rectangle. -/
theorem block_coords (bw bh bch x y block_x block_y bxo byo x_incr y_incr j k : Nat)
    (hx : x = block_x * bw + bxo) (hy : y = block_y * bh + byo)
    (hxi : bxo + x_incr ≤ bw) (hyi : byo + y_incr ≤ bh) (hj : j < y_incr) (hk : k < x_incr) :
    ((y + j) / bh) * bch + (x + k) / bw = block_y * bch + block_x ∧
    ((y + j) % bh) * bw + (x + k) % bw = byo * bw + bxo + j * bw + k := by
  obtain ⟨h1, h2⟩ := div_mod_of_eq bw block_x (bxo + k) (x + k) (by omega) (by omega)
  obtain ⟨h3, h4⟩ := div_mod_of_eq bh block_y (byo + j) (y + j) (by omega) (by omega)
  rw [h1, h2, h3, h4]
  constructor
  · rfl
  · ring

theorem buf_index_shift (x0 y0 cs ls x y j k : Nat) (hx : x0 ≤ x) (hy : y0 ≤ y) :
    buf_index x0 y0 cs ls (x + k) (y + j)
      = (y - y0) * ls + (x - x0) * cs + j * ls + k * cs := by
  unfold buf_index
  have e1 : y + j - y0 = (y - y0) + j := by omega
  have e2 : x + k - x0 = (x - x0) + k := by omega
  rw [e1, e2]
  ring

/-- The stores of one block visit, in the coordinates of the array. -/
theorem block_visit_writes (x0 y0 cs ls x y x_incr y_incr : Nat) (hx : x0 ≤ x) (hy : y0 ≤ y)
    (val : Nat × Nat → Int) (gval : Nat × Nat → Int) (d d1 : Buffer)
    (h : Writes (fun a : Nat × Nat => a.1 < y_incr ∧ a.2 < x_incr)
      (fun a => (y - y0) * ls + (x - x0) * cs + a.1 * ls + a.2 * cs) val d d1)
    (hval : ∀ j k, j < y_incr → k < x_incr → gval (x + k, y + j) = val (j, k)) :
    Writes (fun a : Nat × Nat => in_rect x y (x + x_incr) (y + y_incr) a.1 a.2)
      (fun a => buf_index x0 y0 cs ls a.1 a.2) gval d d1 := by
  refine writes_map (fun a : Nat × Nat => (x + a.2, y + a.1)) h ?_ ?_ ?_ ?_
  · rintro ⟨j, k⟩ ⟨hj, hk⟩
    simp only at hj hk
    simp only [in_rect]
    omega
  · rintro ⟨a, b⟩ hab
    simp only [in_rect] at hab
    refine ⟨(b - y, a - x), ⟨by simp only; omega, by simp only; omega⟩, ?_⟩
    simp only [Prod.mk.injEq]
    omega
  · rintro ⟨j, k⟩ _
    exact buf_index_shift x0 y0 cs ls x y j k hx hy
  · rintro ⟨j, k⟩ ⟨hj, hk⟩
    exact hval j k hj hk

/-- The inner loop of a read visits the columns `[x, x1)` of the rows `[y, y + y_incr)`:
it returns, leaves the slots alone and stores the logical samples. -/
theorem rw_x_loop_read (sa : sparse_array) (x0 y0 x1 cs ls y y_incr block_y byo : Nat)
    (hbw : 0 < sa.block_width) (hx1 : x1 < UINT32_RANGE) (hbwr : sa.block_width < UINT32_RANGE)
    (hy0 : y0 ≤ y) (hy : y = block_y * sa.block_height + byo)
    (hyi : byo + y_incr ≤ sa.block_height) (blocks : Slots) :
    ∀ (fuel x block_x : Nat) (buf : Buffer), x0 ≤ x → x1 - x ≤ fuel →
      (x < x1 → x = block_x * sa.block_width + (if x = x0 then x0 % sa.block_width else 0)) →
      ∃ buf1, rw_x_loop sa x0 y0 x1 cs ls true y y_incr block_y byo fuel x block_x blocks buf
          = .ok (blocks, buf1) ∧
        Writes (fun a : Nat × Nat => in_rect x y x1 (y + y_incr) a.1 a.2)
          (fun a => buf_index x0 y0 cs ls a.1 a.2)
          (fun a => sample_of sa.block_width sa.block_height sa.block_count_hor blocks a.1 a.2)
          buf buf1 := by
  intro fuel
  induction fuel with
  | zero =>
    intro x block_x buf _ hf _
    have hnx : ¬ x < x1 := by omega
    refine ⟨buf, by simp [rw_x_loop, hnx], writes_nil buf ?_⟩
    rintro ⟨a, b⟩ hab
    simp only [in_rect] at hab
    omega
  | succ fuel ih =>
    intro x block_x buf hx0 hf hinv
    by_cases hlt : x < x1
    · obtain ⟨hi1, hi2, hw1, hw2, hxeq, hoff, hx0n, hnext⟩ :=
        walk_step sa.block_width x0 x x1 block_x hbw hx0 hlt hx1 (hinv hlt)
      simp only [rw_x_loop, hlt, if_true, hw1, hw2]
      have hxi : min (if x = x0 then sa.block_width - x0 % sa.block_width else sa.block_width)
          (x1 - x) < UINT32_RANGE := by omega
      have hsplit : ∀ (buf1 buf2 : Buffer),
          Writes (fun a : Nat × Nat => in_rect x y
              (x + min (if x = x0 then sa.block_width - x0 % sa.block_width
                else sa.block_width) (x1 - x)) (y + y_incr) a.1 a.2)
            (fun a => buf_index x0 y0 cs ls a.1 a.2)
            (fun a => sample_of sa.block_width sa.block_height sa.block_count_hor blocks
              a.1 a.2) buf buf1 →
          Writes (fun a : Nat × Nat => in_rect
              (x + min (if x = x0 then sa.block_width - x0 % sa.block_width
                else sa.block_width) (x1 - x)) y x1 (y + y_incr) a.1 a.2)
            (fun a => buf_index x0 y0 cs ls a.1 a.2)
            (fun a => sample_of sa.block_width sa.block_height sa.block_count_hor blocks
              a.1 a.2) buf1 buf2 →
          Writes (fun a : Nat × Nat => in_rect x y x1 (y + y_incr) a.1 a.2)
            (fun a => buf_index x0 y0 cs ls a.1 a.2)
            (fun a => sample_of sa.block_width sa.block_height sa.block_count_hor blocks
              a.1 a.2) buf buf2 := by
        intro buf1 buf2 h1 h2
        refine writes_congr (writes_seq h1 h2) ?_ (fun _ _ => rfl) (fun _ _ => rfl)
        rintro ⟨a, b⟩
        simp only [in_rect]
        omega
      cases hb : blocks.getD (block_y * sa.block_count_hor + block_x) none with
      | none =>
        simp only []
        obtain ⟨buf2, hrun, hwr⟩ := ih _ (block_x + 1)
          (zero_fill buf ((y - y0) * ls + (x - x0) * cs)
            (min (if x = x0 then sa.block_width - x0 % sa.block_width else sa.block_width)
              (x1 - x)) y_incr cs ls) hx0n (by omega) hnext
        refine ⟨buf2, hrun, hsplit _ _ ?_ hwr⟩
        refine block_visit_writes x0 y0 cs ls x y _ y_incr hx0 hy0 _ _ _ _
          (zero_fill_writes buf _ _ y_incr cs ls) ?_
        intro j k hj hk
        obtain ⟨e1, _⟩ := block_coords sa.block_width sa.block_height sa.block_count_hor x y
          block_x block_y _ byo _ y_incr j k hxeq hy hoff hyi hj hk
        simp only [sample_of, e1, hb]
      | some blk =>
        simp only []
        obtain ⟨buf2, hrun, hwr⟩ := ih _ (block_x + 1)
          (read_block blk (byo * sa.block_width + (sa.block_width -
              (if x = x0 then sa.block_width - x0 % sa.block_width else sa.block_width)))
            buf ((y - y0) * ls + (x - x0) * cs)
            (min (if x = x0 then sa.block_width - x0 % sa.block_width else sa.block_width)
              (x1 - x)) y_incr cs ls sa.block_width) hx0n (by omega) hnext
        refine ⟨buf2, hrun, hsplit _ _ ?_ hwr⟩
        refine block_visit_writes x0 y0 cs ls x y _ y_incr hx0 hy0 _ _ _ _
          (read_block_writes blk _ buf _ _ y_incr cs ls sa.block_width hxi) ?_
        intro j k hj hk
        obtain ⟨e1, e2⟩ := block_coords sa.block_width sa.block_height sa.block_count_hor x y
          block_x block_y _ byo _ y_incr j k hxeq hy hoff hyi hj hk
        simp only [sample_of, e1, e2, hb]
    · refine ⟨buf, by simp [rw_x_loop, hlt], writes_nil buf ?_⟩
      rintro ⟨a, b⟩ hab
      simp only [in_rect] at hab
      omega

/-- The outer loop of a read visits the rows `[y, y1)` of the columns `[x0, x1)`. -/
theorem rw_y_loop_read (sa : sparse_array) (x0 y0 x1 y1 cs ls : Nat)
    (hbw : 0 < sa.block_width) (hbh : 0 < sa.block_height)
    (hx1 : x1 < UINT32_RANGE) (hy1 : y1 < UINT32_RANGE)
    (hbwr : sa.block_width < UINT32_RANGE) (blocks : Slots) :
    ∀ (fuel y block_y : Nat) (buf : Buffer), y0 ≤ y → y1 - y ≤ fuel →
      (y < y1 → y = block_y * sa.block_height + (if y = y0 then y0 % sa.block_height else 0)) →
      ∃ buf1, rw_y_loop sa x0 y0 x1 y1 cs ls true fuel y block_y blocks buf
          = .ok (blocks, buf1) ∧
        Writes (fun a : Nat × Nat => in_rect x0 y x1 y1 a.1 a.2)
          (fun a => buf_index x0 y0 cs ls a.1 a.2)
          (fun a => sample_of sa.block_width sa.block_height sa.block_count_hor blocks a.1 a.2)
          buf buf1 := by
  intro fuel
  induction fuel with
  | zero =>
    intro y block_y buf _ hf _
    have hny : ¬ y < y1 := by omega
    refine ⟨buf, by simp [rw_y_loop, hny], writes_nil buf ?_⟩
    rintro ⟨a, b⟩ hab
    simp only [in_rect] at hab
    omega
  | succ fuel ih =>
    intro y block_y buf hy0 hf hinv
    by_cases hlt : y < y1
    · obtain ⟨hi1, hi2, hw1, hw2, hyeq, hoff, hy0n, hnext⟩ :=
        walk_step sa.block_height y0 y y1 block_y hbh hy0 hlt hy1 (hinv hlt)
      simp only [rw_y_loop, hlt, if_true, hw1, hw2]
      obtain ⟨buf1, hrun1, hwr1⟩ := rw_x_loop_read sa x0 y0 x1 cs ls y
        (min (if y = y0 then sa.block_height - y0 % sa.block_height else sa.block_height)
          (y1 - y)) block_y
        (sa.block_height -
          (if y = y0 then sa.block_height - y0 % sa.block_height else sa.block_height))
        hbw hx1 hbwr hy0 hyeq hoff blocks (x1 - x0) x0 (x0 / sa.block_width) buf
        (Nat.le_refl _) (Nat.le_refl _) (fun _ => walk_init sa.block_width x0)
      rw [hrun1]
      simp only []
      obtain ⟨buf2, hrun2, hwr2⟩ := ih _ (block_y + 1) buf1 hy0n (by omega) hnext
      refine ⟨buf2, hrun2, ?_⟩
      refine writes_congr (writes_seq hwr1 hwr2) ?_ (fun _ _ => rfl) (fun _ _ => rfl)
      rintro ⟨a, b⟩
      simp only [in_rect]
      omega
    · refine ⟨buf, by simp [rw_y_loop, hlt], writes_nil buf ?_⟩
      rintro ⟨a, b⟩ hab
      simp only [in_rect] at hab
      omega

theorem is_region_valid_iff (sa : sparse_array) (x0 y0 x1 y1 : Nat) :
    sa.is_region_valid x0 y0 x1 y1 = true ↔
      x0 < x1 ∧ x1 ≤ sa.width ∧ y0 < y1 ∧ y1 ≤ sa.height := by
  simp only [sparse_array.is_region_valid, Bool.not_eq_true', Bool.or_eq_false_iff,
    decide_eq_false_iff_not]
  omega

theorem with_data_blocks_self (sa : sparse_array) :
    { sa with data_blocks := sa.data_blocks } = sa := by
  cases sa; rfl

/-- A read of a valid rectangle returns `true`, leaves the array alone and stores the logical
samples of the rectangle into the destination. -/
theorem read_writes (sa : sparse_array) (hwf : sa.wf) (x0 y0 x1 y1 : Nat)
    (hv : sa.is_region_valid x0 y0 x1 y1 = true) (dest : Buffer) (cs ls : Nat) (fg : Bool) :
    ∃ dest1, sa.read x0 y0 x1 y1 dest cs ls fg = .ok (true, sa, dest1) ∧
      Writes (fun a : Nat × Nat => in_rect x0 y0 x1 y1 a.1 a.2)
        (fun a => buf_index x0 y0 cs ls a.1 a.2) (fun a => sa.sample a.1 a.2) dest dest1 := by
  obtain ⟨_, hw, _, hh, hbw, hbwr, hbh, _, _⟩ := hwf
  obtain ⟨h1, h2, h3, h4⟩ := (is_region_valid_iff sa x0 y0 x1 y1).1 hv
  obtain ⟨dest1, hrun, hwr⟩ := rw_y_loop_read sa x0 y0 x1 y1 cs ls hbw hbh (by omega) (by omega)
    hbwr sa.data_blocks (y1 - y0) y0 (y0 / sa.block_height) dest (Nat.le_refl _)
    (Nat.le_refl _) (fun _ => walk_init sa.block_height y0)
  refine ⟨dest1, ?_, hwr⟩
  simp only [sparse_array.read, sparse_array.read_or_write, hv, Bool.not_true, hrun,
    with_data_blocks_self]
  rfl

/-! ### The write walk -/

theorem quot_rem_unique (b q1 r1 q2 r2 : Nat) (h1 : r1 < b) (h2 : r2 < b)
    (h : q1 * b + r1 = q2 * b + r2) : q1 = q2 ∧ r1 = r2 := by
  obtain ⟨e1, e2⟩ := div_mod_of_eq b q1 r1 (q1 * b + r1) h1 rfl
  obtain ⟨e3, e4⟩ := div_mod_of_eq b q2 r2 (q1 * b + r1) h2 h
  exact ⟨e1.symm.trans e3, e2.symm.trans e4⟩

theorem getD_set_slot (blocks : Slots) (slot i : Nat) (v : Option (List Int))
    (hs : slot < blocks.length) :
    (blocks.set slot v).getD i none = if i = slot then v else blocks.getD i none := by
  by_cases e : i = slot
  · subst e
    simp [List.getD_eq_getElem?_getD, List.getElem?_set, hs]
  · have e2 : slot ≠ i := fun h => e h.symm
    simp [List.getD_eq_getElem?_getD, List.getElem?_set, e, e2]

theorem lt_length_of_getD (blocks : Slots) (slot : Nat) (b : List Int)
    (h : blocks.getD slot none = some b) : slot < blocks.length := by
  by_contra hn
  have : blocks[slot]? = none := by rw [List.getElem?_eq_none]; omega
  simp [List.getD_eq_getElem?_getD, this] at h

theorem slotwrites_nil (bw bh bch : Nat) {P : Nat → Nat → Prop} (val : Nat → Nat → Int)
    (blocks : Slots) (h : ∀ x y, ¬ P x y) : SlotWrites bw bh bch P val blocks blocks :=
  ⟨rfl, fun _ => rfl, fun x y _ => ⟨fun hp => absurd hp (h x y), fun _ => rfl⟩⟩

theorem slotwrites_seq {bw bh bch : Nat} {P Q R : Nat → Nat → Prop} {val : Nat → Nat → Int}
    {b0 b1 b2 : Slots} (h1 : SlotWrites bw bh bch P val b0 b1)
    (h2 : SlotWrites bw bh bch Q val b1 b2) (hR : ∀ x y, R x y ↔ P x y ∨ Q x y) :
    SlotWrites bw bh bch R val b0 b2 := by
  refine ⟨h2.1.trans h1.1, fun i => (h2.2.1 i).trans (h1.2.1 i), ?_⟩
  intro x y hx
  obtain ⟨p1, p2⟩ := h1.2.2 x y hx
  obtain ⟨q1, q2⟩ := h2.2.2 x y hx
  constructor
  · intro hr
    by_cases hq : Q x y
    · exact q1 hq
    · rw [q2 hq]
      rcases (hR x y).1 hr with hp | hq2
      · exact p1 hp
      · exact absurd hq2 hq
  · intro hr
    have hp : ¬ P x y := fun h => hr ((hR x y).2 (Or.inl h))
    have hq : ¬ Q x y := fun h => hr ((hR x y).2 (Or.inr h))
    rw [q2 hq, p2 hp]

/-- Writing one block visit into its (allocated) block updates exactly the logical samples of
the visited sub-rectangle. -/
theorem block_visit_slot_writes (bw bh bch x0 y0 cs ls x y block_x block_y bxo byo
    x_incr y_incr : Nat) (buf : Buffer) (blocks : Slots) (blk : List Int)
    (hbw : 0 < bw) (hx0 : x0 ≤ x) (hy0 : y0 ≤ y)
    (hx : x = block_x * bw + bxo) (hy : y = block_y * bh + byo)
    (hxi : bxo + x_incr ≤ bw) (hyi : byo + y_incr ≤ bh) (hxr : x_incr < UINT32_RANGE)
    (hbx : block_x < bch)
    (hb : blocks.getD (block_y * bch + block_x) none = some blk)
    (hlen : blk.length = bw * bh) :
    SlotWrites bw bh bch (in_rect x y (x + x_incr) (y + y_incr))
      (fun a b => buf (buf_index x0 y0 cs ls a b)) blocks
      (blocks.set (block_y * bch + block_x)
        (some (write_block blk (byo * bw + bxo) buf ((y - y0) * ls + (x - x0) * cs)
          x_incr y_incr cs ls bw))) ∧
    (write_block blk (byo * bw + bxo) buf ((y - y0) * ls + (x - x0) * cs)
          x_incr y_incr cs ls bw).length = bw * bh := by
  have hslot := lt_length_of_getD blocks _ blk hb
  have hin : ∀ j, j < y_incr → byo * bw + bxo + j * bw + x_incr ≤ blk.length := by
    intro j hj
    rw [hlen]
    have h1 : (byo + j + 1) * bw ≤ bh * bw := Nat.mul_le_mul_right bw (by omega)
    have h2 : (byo + j + 1) * bw = byo * bw + j * bw + bw := by ring
    have h3 : bh * bw = bw * bh := Nat.mul_comm _ _
    omega
  obtain ⟨hl, hw⟩ := write_block_lwrites blk (byo * bw + bxo) buf
    ((y - y0) * ls + (x - x0) * cs) x_incr y_incr cs ls bw hxr hin
  refine ⟨⟨by simp, ?_, ?_⟩, hl.trans hlen⟩
  · intro i
    rw [getD_set_slot blocks _ i _ hslot]
    by_cases e : i = block_y * bch + block_x
    · subst e
      rw [if_pos rfl, hb]
      rfl
    · rw [if_neg e]
  · intro a b ha
    constructor
    · intro hab
      simp only [in_rect] at hab
      obtain ⟨e1, e2⟩ := block_coords bw bh bch x y block_x block_y bxo byo x_incr y_incr
        (b - y) (a - x) hx hy hxi hyi (by omega) (by omega)
      have ea : x + (a - x) = a := by omega
      have eb : y + (b - y) = b := by omega
      rw [ea, eb] at e1 e2
      simp only [sample_of, e1, e2, getD_set_slot blocks _ _ _ hslot, if_true]
      obtain ⟨⟨j, k⟩, ⟨hj, hk⟩, hidx, hval⟩ := (hw (byo * bw + bxo + (b - y) * bw + (a - x))).1
        ⟨(b - y, a - x), ⟨by simp only; omega, by simp only; omega⟩, rfl⟩
      simp only at hj hk hidx
      have hu := quot_rem_unique bw (byo + j) (bxo + k) (byo + (b - y)) (bxo + (a - x))
        (by omega) (by omega) (by
          have : (byo + j) * bw = byo * bw + j * bw := by ring
          have : (byo + (b - y)) * bw = byo * bw + (b - y) * bw := by ring
          omega)
      have hjj : j = b - y := by omega
      have hkk : k = a - x := by omega
      subst hjj hkk
      have hv2 : view (write_block blk (byo * bw + bxo) buf ((y - y0) * ls + (x - x0) * cs)
          x_incr y_incr cs ls bw) (byo * bw + bxo + (b - y) * bw + (a - x))
          = buf ((y - y0) * ls + (x - x0) * cs + (b - y) * ls + (a - x) * cs) := hval
      unfold view at hv2
      rw [hv2, ← buf_index_shift x0 y0 cs ls x y (b - y) (a - x) hx0 hy0, ea, eb]
    · intro hab
      simp only [sample_of, getD_set_slot blocks _ _ _ hslot]
      by_cases e : b / bh * bch + a / bw = block_y * bch + block_x
      · obtain ⟨e1, e2⟩ := quot_rem_unique bch (b / bh) (a / bw) block_y block_x ha hbx e
        simp only [e, if_true, hb]
        have hne : ∀ c : Nat × Nat, c.1 < y_incr ∧ c.2 < x_incr →
            byo * bw + bxo + c.1 * bw + c.2 ≠ b % bh * bw + a % bw := by
          rintro ⟨j, k⟩ ⟨hj, hk⟩ heq
          simp only at hj hk heq
          have hu := quot_rem_unique bw (byo + j) (bxo + k) (b % bh) (a % bw)
            (by omega) (Nat.mod_lt _ hbw) (by
              have : (byo + j) * bw = byo * bw + j * bw := by ring
              omega)
          have h5 := Nat.div_add_mod' a bw
          have h6 := Nat.div_add_mod' b bh
          rw [e2] at h5
          rw [e1] at h6
          apply hab
          simp only [in_rect]
          omega
        have := (hw (b % bh * bw + a % bw)).2 hne
        unfold view at this
        exact this
      · simp only [e, if_false]

/-- The inner loop of a write over allocated blocks returns, keeps the caller's buffer and
stores its samples as the logical samples of the visited rectangle. -/
theorem rw_x_loop_write (sa : sparse_array) (x0 y0 x1 cs ls y y_incr block_y byo : Nat)
    (buf : Buffer) (hbw : 0 < sa.block_width) (hx1 : x1 < UINT32_RANGE)
    (hy0 : y0 ≤ y) (hy : y = block_y * sa.block_height + byo)
    (hyi : byo + y_incr ≤ sa.block_height)
    (hbch : ∀ c, c < x1 → c / sa.block_width < sa.block_count_hor) :
    ∀ (fuel x block_x : Nat) (blocks : Slots), x0 ≤ x → x1 - x ≤ fuel →
      (x < x1 → x = block_x * sa.block_width + (if x = x0 then x0 % sa.block_width else 0)) →
      blocks_sized sa.block_width sa.block_height blocks →
      (∀ c, x ≤ c → c < x1 →
        (blocks.getD (block_y * sa.block_count_hor + c / sa.block_width) none).isSome = true) →
      ∃ blocks1, rw_x_loop sa x0 y0 x1 cs ls false y y_incr block_y byo fuel x block_x blocks buf
          = .ok (blocks1, buf) ∧
        SlotWrites sa.block_width sa.block_height sa.block_count_hor
          (in_rect x y x1 (y + y_incr)) (fun a b => buf (buf_index x0 y0 cs ls a b))
          blocks blocks1 ∧
        blocks_sized sa.block_width sa.block_height blocks1 := by
  intro fuel
  induction fuel with
  | zero =>
    intro x block_x blocks _ hf _ hsz _
    have hnx : ¬ x < x1 := by omega
    refine ⟨blocks, by simp [rw_x_loop, hnx], slotwrites_nil _ _ _ _ blocks ?_, hsz⟩
    intro a b hab
    simp only [in_rect] at hab
    omega
  | succ fuel ih =>
    intro x block_x blocks hx0 hf hinv hsz hpres
    by_cases hlt : x < x1
    · obtain ⟨hi1, hi2, hw1, hw2, hxeq, hoff, hx0n, hnext⟩ :=
        walk_step sa.block_width x0 x x1 block_x hbw hx0 hlt hx1 (hinv hlt)
      simp only [rw_x_loop, hlt, if_true, hw1, hw2]
      have hxi : min (if x = x0 then sa.block_width - x0 % sa.block_width else sa.block_width)
          (x1 - x) < UINT32_RANGE := by omega
      have hdiv : x / sa.block_width = block_x :=
        (div_mod_of_eq sa.block_width block_x _ x (by omega) hxeq).1
      have hp := hpres x (Nat.le_refl _) hlt
      rw [hdiv] at hp
      cases hb : blocks.getD (block_y * sa.block_count_hor + block_x) none with
      | none => rw [hb] at hp; simp at hp
      | some blk =>
        simp only [Bool.false_eq_true, if_false]
        have hslot := lt_length_of_getD blocks _ blk hb
        obtain ⟨hsw, hlen⟩ := block_visit_slot_writes sa.block_width sa.block_height
          sa.block_count_hor x0 y0 cs ls x y block_x block_y _ byo _ y_incr buf blocks blk
          hbw hx0 hy0 hxeq hy hoff hyi hxi (by rw [← hdiv]; exact hbch x hlt) hb
          (hsz _ blk hb)
        have hsz1 : blocks_sized sa.block_width sa.block_height
            (blocks.set (block_y * sa.block_count_hor + block_x)
              (some (write_block blk (byo * sa.block_width + (sa.block_width -
                (if x = x0 then sa.block_width - x0 % sa.block_width else sa.block_width)))
                buf ((y - y0) * ls + (x - x0) * cs)
                (min (if x = x0 then sa.block_width - x0 % sa.block_width
                  else sa.block_width) (x1 - x)) y_incr cs ls sa.block_width))) := by
          intro i b hib
          rw [getD_set_slot blocks _ i _ hslot] at hib
          by_cases e : i = block_y * sa.block_count_hor + block_x
          · rw [if_pos e] at hib
            cases hib
            exact hlen
          · rw [if_neg e] at hib
            exact hsz i b hib
        obtain ⟨blocks2, hrun, hsw2, hsz2⟩ := ih _ (block_x + 1) _ hx0n (by omega) hnext hsz1
          (by
            intro c hc1 hc2
            rw [hsw.2.1]
            exact hpres c (by omega) hc2)
        refine ⟨blocks2, hrun, slotwrites_seq hsw hsw2 ?_, hsz2⟩
        intro a b
        simp only [in_rect]
        omega
    · refine ⟨blocks, by simp [rw_x_loop, hlt], slotwrites_nil _ _ _ _ blocks ?_, hsz⟩
      intro a b hab
      simp only [in_rect] at hab
      omega

/-- The inner loop of a write that meets a `NULL` block fails the assertion. -/
theorem rw_x_loop_write_absent (sa : sparse_array) (x0 y0 x1 cs ls y y_incr block_y byo : Nat)
    (buf : Buffer) (hbw : 0 < sa.block_width) (hx1 : x1 < UINT32_RANGE) :
    ∀ (fuel x block_x : Nat) (blocks : Slots), x0 ≤ x → x1 - x ≤ fuel →
      (x < x1 → x = block_x * sa.block_width + (if x = x0 then x0 % sa.block_width else 0)) →
      (∃ c, x ≤ c ∧ c < x1 ∧
        blocks.getD (block_y * sa.block_count_hor + c / sa.block_width) none = none) →
      rw_x_loop sa x0 y0 x1 cs ls false y y_incr block_y byo fuel x block_x blocks buf
        = .error .assert_failed := by
  intro fuel
  induction fuel with
  | zero =>
    intro x block_x blocks _ hf _ hex
    obtain ⟨c, h1, h2, _⟩ := hex
    omega
  | succ fuel ih =>
    intro x block_x blocks hx0 hf hinv hex
    obtain ⟨c, hc1, hc2, hc3⟩ := hex
    have hlt : x < x1 := by omega
    obtain ⟨hi1, hi2, hw1, hw2, hxeq, hoff, hx0n, hnext⟩ :=
      walk_step sa.block_width x0 x x1 block_x hbw hx0 hlt hx1 (hinv hlt)
    simp only [rw_x_loop, hlt, if_true, hw1, hw2]
    cases hb : blocks.getD (block_y * sa.block_count_hor + block_x) none with
    | none => simp
    | some blk =>
      simp only [Bool.false_eq_true, if_false]
      have hslot := lt_length_of_getD blocks _ blk hb
      apply ih _ (block_x + 1) _ hx0n (by omega) hnext
      have hcx : x + min (if x = x0 then sa.block_width - x0 % sa.block_width
          else sa.block_width) (x1 - x) ≤ c := by
        by_contra hcon
        have hdiv := (div_mod_of_eq sa.block_width block_x
          (sa.block_width - (if x = x0 then sa.block_width - x0 % sa.block_width
            else sa.block_width) + (c - x)) c (by omega) (by omega)).1
        rw [hdiv, hb] at hc3
        cases hc3
      refine ⟨c, hcx, hc2, ?_⟩
      rw [getD_set_slot blocks _ _ _ hslot]
      have hne : block_y * sa.block_count_hor + c / sa.block_width
          ≠ block_y * sa.block_count_hor + block_x := by
        intro e
        rw [e, hb] at hc3
        cases hc3
      rw [if_neg hne]
      exact hc3

theorem blocks_sized_of_forall (bw bh : Nat) (blocks : Slots)
    (h : ∀ s ∈ blocks, slot_sized (bw * bh) s) : blocks_sized bw bh blocks := by
  intro i b hib
  have hlt := lt_length_of_getD blocks i b hib
  have hmem : blocks.getD i none ∈ blocks := by
    rw [List.getD_eq_getElem blocks none hlt]
    exact List.getElem_mem hlt
  have := h _ hmem
  rw [hib] at this
  exact this

theorem forall_of_blocks_sized (bw bh : Nat) (blocks : Slots)
    (h : blocks_sized bw bh blocks) : ∀ s ∈ blocks, slot_sized (bw * bh) s := by
  intro s hs
  obtain ⟨i, hi, rfl⟩ := List.getElem_of_mem hs
  cases hb : blocks[i] with
  | none => trivial
  | some b =>
    have : blocks.getD i none = some b := by
      rw [List.getD_eq_getElem blocks none hi, hb]
    exact h i b this

/-- The outer loop of a write over allocated blocks. -/
theorem rw_y_loop_write (sa : sparse_array) (x0 y0 x1 y1 cs ls : Nat) (buf : Buffer)
    (hbw : 0 < sa.block_width) (hbh : 0 < sa.block_height)
    (hx1 : x1 < UINT32_RANGE) (hy1 : y1 < UINT32_RANGE)
    (hbch : ∀ c, c < x1 → c / sa.block_width < sa.block_count_hor) :
    ∀ (fuel y block_y : Nat) (blocks : Slots), y0 ≤ y → y1 - y ≤ fuel →
      (y < y1 → y = block_y * sa.block_height + (if y = y0 then y0 % sa.block_height else 0)) →
      blocks_sized sa.block_width sa.block_height blocks →
      (∀ a b, in_rect x0 y x1 y1 a b →
        (blocks.getD (b / sa.block_height * sa.block_count_hor + a / sa.block_width)
          none).isSome = true) →
      ∃ blocks1, rw_y_loop sa x0 y0 x1 y1 cs ls false fuel y block_y blocks buf
          = .ok (blocks1, buf) ∧
        SlotWrites sa.block_width sa.block_height sa.block_count_hor
          (in_rect x0 y x1 y1) (fun a b => buf (buf_index x0 y0 cs ls a b)) blocks blocks1 ∧
        blocks_sized sa.block_width sa.block_height blocks1 := by
  intro fuel
  induction fuel with
  | zero =>
    intro y block_y blocks _ hf _ hsz _
    have hny : ¬ y < y1 := by omega
    refine ⟨blocks, by simp [rw_y_loop, hny], slotwrites_nil _ _ _ _ blocks ?_, hsz⟩
    intro a b hab
    simp only [in_rect] at hab
    omega
  | succ fuel ih =>
    intro y block_y blocks hy0 hf hinv hsz hpres
    by_cases hlt : y < y1
    · obtain ⟨hi1, hi2, hw1, hw2, hyeq, hoff, hy0n, hnext⟩ :=
        walk_step sa.block_height y0 y y1 block_y hbh hy0 hlt hy1 (hinv hlt)
      simp only [rw_y_loop, hlt, if_true, hw1, hw2]
      have hdiv : y / sa.block_height = block_y :=
        (div_mod_of_eq sa.block_height block_y _ y (by omega) hyeq).1
      obtain ⟨blocks1, hrun1, hsw1, hsz1⟩ := rw_x_loop_write sa x0 y0 x1 cs ls y
        (min (if y = y0 then sa.block_height - y0 % sa.block_height else sa.block_height)
          (y1 - y)) block_y
        (sa.block_height -
          (if y = y0 then sa.block_height - y0 % sa.block_height else sa.block_height))
        buf hbw hx1 hy0 hyeq hoff hbch (x1 - x0) x0 (x0 / sa.block_width) blocks
        (Nat.le_refl _) (Nat.le_refl _) (fun _ => walk_init sa.block_width x0) hsz
        (by
          intro c hc1 hc2
          have := hpres c y ⟨hc1, hc2, Nat.le_refl _, hlt⟩
          rw [hdiv] at this
          exact this)
      rw [hrun1]
      simp only []
      obtain ⟨blocks2, hrun2, hsw2, hsz2⟩ := ih _ (block_y + 1) blocks1 hy0n (by omega) hnext
        hsz1 (by
          intro a b hab
          rw [hsw1.2.1]
          apply hpres a b
          simp only [in_rect] at hab ⊢
          omega)
      refine ⟨blocks2, hrun2, slotwrites_seq hsw1 hsw2 ?_, hsz2⟩
      intro a b
      simp only [in_rect]
      omega
    · refine ⟨blocks, by simp [rw_y_loop, hlt], slotwrites_nil _ _ _ _ blocks ?_, hsz⟩
      intro a b hab
      simp only [in_rect] at hab
      omega

/-- The outer loop of a write that meets a `NULL` block fails the assertion. -/
theorem rw_y_loop_write_absent (sa : sparse_array) (x0 y0 x1 y1 cs ls : Nat) (buf : Buffer)
    (hbw : 0 < sa.block_width) (hbh : 0 < sa.block_height)
    (hx1 : x1 < UINT32_RANGE) (hy1 : y1 < UINT32_RANGE)
    (hbch : ∀ c, c < x1 → c / sa.block_width < sa.block_count_hor) :
    ∀ (fuel y block_y : Nat) (blocks : Slots), y0 ≤ y → y1 - y ≤ fuel →
      (y < y1 → y = block_y * sa.block_height + (if y = y0 then y0 % sa.block_height else 0)) →
      blocks_sized sa.block_width sa.block_height blocks →
      (∃ a b, in_rect x0 y x1 y1 a b ∧
        blocks.getD (b / sa.block_height * sa.block_count_hor + a / sa.block_width) none
          = none) →
      rw_y_loop sa x0 y0 x1 y1 cs ls false fuel y block_y blocks buf
        = .error .assert_failed := by
  intro fuel
  induction fuel with
  | zero =>
    intro y block_y blocks _ hf _ _ hex
    obtain ⟨a, b, hab, _⟩ := hex
    simp only [in_rect] at hab
    omega
  | succ fuel ih =>
    intro y block_y blocks hy0 hf hinv hsz hex
    obtain ⟨a, b, hab, hnone⟩ := hex
    simp only [in_rect] at hab
    have hlt : y < y1 := by omega
    obtain ⟨hi1, hi2, hw1, hw2, hyeq, hoff, hy0n, hnext⟩ :=
      walk_step sa.block_height y0 y y1 block_y hbh hy0 hlt hy1 (hinv hlt)
    simp only [rw_y_loop, hlt, if_true, hw1, hw2]
    by_cases hrow : ∃ c, x0 ≤ c ∧ c < x1 ∧
        blocks.getD (block_y * sa.block_count_hor + c / sa.block_width) none = none
    · rw [rw_x_loop_write_absent sa x0 y0 x1 cs ls y _ block_y _ buf hbw hx1 (x1 - x0) x0
        (x0 / sa.block_width) blocks (Nat.le_refl _) (Nat.le_refl _)
        (fun _ => walk_init sa.block_width x0) hrow]
    · have hpres : ∀ c, x0 ≤ c → c < x1 →
          (blocks.getD (block_y * sa.block_count_hor + c / sa.block_width) none).isSome
            = true := by
        intro c hc1 hc2
        cases hg : blocks.getD (block_y * sa.block_count_hor + c / sa.block_width) none with
        | none => exact absurd ⟨c, hc1, hc2, hg⟩ hrow
        | some _ => rfl
      obtain ⟨blocks1, hrun1, hsw1, hsz1⟩ := rw_x_loop_write sa x0 y0 x1 cs ls y
        (min (if y = y0 then sa.block_height - y0 % sa.block_height else sa.block_height)
          (y1 - y)) block_y
        (sa.block_height -
          (if y = y0 then sa.block_height - y0 % sa.block_height else sa.block_height))
        buf hbw hx1 hy0 hyeq hoff hbch (x1 - x0) x0 (x0 / sa.block_width) blocks
        (Nat.le_refl _) (Nat.le_refl _) (fun _ => walk_init sa.block_width x0) hsz hpres
      rw [hrun1]
      simp only []
      apply ih _ (block_y + 1) blocks1 hy0n (by omega) hnext hsz1
      have hby : y + min (if y = y0 then sa.block_height - y0 % sa.block_height
          else sa.block_height) (y1 - y) ≤ b := by
        by_contra hcon
        have hdiv := (div_mod_of_eq sa.block_height block_y
          (sa.block_height - (if y = y0 then sa.block_height - y0 % sa.block_height
            else sa.block_height) + (b - y)) b (by omega) (by omega)).1
        rw [hdiv] at hnone
        exact hrow ⟨a, hab.1, hab.2.1, hnone⟩
      refine ⟨a, b, ⟨hab.1, hab.2.1, hby, hab.2.2.2⟩, ?_⟩
      have h1 := hsw1.2.1 (b / sa.block_height * sa.block_count_hor + a / sa.block_width)
      rw [hnone] at h1
      cases hg : blocks1.getD (b / sa.block_height * sa.block_count_hor + a / sa.block_width)
        none with
      | none => rfl
      | some _ => rw [hg] at h1; simp at h1

/-! ### `write` as a whole -/

theorem wf_bch (sa : sparse_array) (hwf : sa.wf) (x1 : Nat) (hx1 : x1 ≤ sa.width) :
    ∀ c, c < x1 → c / sa.block_width < sa.block_count_hor := by
  obtain ⟨_, _, _, _, hbw, _, _, _, hbch, _⟩ := hwf
  intro c hc
  rw [hbch]
  exact div_lt_ceildiv c sa.width sa.block_width hbw (by omega)

theorem wf_bcv (sa : sparse_array) (hwf : sa.wf) (y1 : Nat) (hy1 : y1 ≤ sa.height) :
    ∀ c, c < y1 → c / sa.block_height < sa.block_count_ver := by
  obtain ⟨_, _, _, _, _, _, hbh, _, _, hbcv, _⟩ := hwf
  intro c hc
  rw [hbcv]
  exact div_lt_ceildiv c sa.height sa.block_height hbh (by omega)

theorem wf_with_blocks (sa : sparse_array) (hwf : sa.wf) (blocks : Slots)
    (hlen : blocks.length = sa.data_blocks.length)
    (hsz : blocks_sized sa.block_width sa.block_height blocks) :
    ({ sa with data_blocks := blocks } : sparse_array).wf := by
  obtain ⟨h1, h2, h3, h4, h5, h6, h7, h8, h9, h10, h11, _⟩ := hwf
  exact ⟨h1, h2, h3, h4, h5, h6, h7, h8, h9, h10, hlen.trans h11,
    forall_of_blocks_sized _ _ blocks hsz⟩

/-- A write of a valid rectangle whose blocks are all allocated returns `true`, keeps the
source buffer and stores its samples as the logical samples of the rectangle. -/
theorem write_ok (sa : sparse_array) (hwf : sa.wf) (x0 y0 x1 y1 : Nat)
    (hv : sa.is_region_valid x0 y0 x1 y1 = true) (src : Buffer) (cs ls : Nat) (fg : Bool)
    (hpres : ∀ a b, in_rect x0 y0 x1 y1 a b → sa.present a b = true) :
    ∃ blocks1, sa.write x0 y0 x1 y1 src cs ls fg
        = .ok (true, { sa with data_blocks := blocks1 }, src) ∧
      ({ sa with data_blocks := blocks1 } : sparse_array).wf ∧
      SlotWrites sa.block_width sa.block_height sa.block_count_hor (in_rect x0 y0 x1 y1)
        (fun a b => src (buf_index x0 y0 cs ls a b)) sa.data_blocks blocks1 := by
  have hwf2 := hwf
  obtain ⟨_, hw, _, hh, hbw, hbwr, hbh, _, _, _, _, hsz⟩ := hwf
  obtain ⟨h1, h2, h3, h4⟩ := (is_region_valid_iff sa x0 y0 x1 y1).1 hv
  obtain ⟨blocks1, hrun, hsw, hsz1⟩ := rw_y_loop_write sa x0 y0 x1 y1 cs ls src hbw hbh
    (by omega) (by omega) (wf_bch sa hwf2 x1 h2) (y1 - y0) y0 (y0 / sa.block_height)
    sa.data_blocks (Nat.le_refl _) (Nat.le_refl _) (fun _ => walk_init sa.block_height y0)
    (blocks_sized_of_forall _ _ _ hsz) hpres
  refine ⟨blocks1, ?_, wf_with_blocks sa hwf2 blocks1 hsw.1 hsz1, hsw⟩
  simp only [sparse_array.write, sparse_array.read_or_write, hv, Bool.not_true, hrun]
  rfl

/-- A write of a valid rectangle that touches a `NULL` block fails the assertion. -/
theorem write_absent (sa : sparse_array) (hwf : sa.wf) (x0 y0 x1 y1 : Nat)
    (hv : sa.is_region_valid x0 y0 x1 y1 = true) (src : Buffer) (cs ls : Nat) (fg : Bool)
    (hex : ∃ a b, in_rect x0 y0 x1 y1 a b ∧ sa.present a b = false) :
    sa.write x0 y0 x1 y1 src cs ls fg = .error .assert_failed := by
  have hwf2 := hwf
  obtain ⟨_, hw, _, hh, hbw, hbwr, hbh, _, _, _, _, hsz⟩ := hwf
  obtain ⟨h1, h2, h3, h4⟩ := (is_region_valid_iff sa x0 y0 x1 y1).1 hv
  have hex2 : ∃ a b, in_rect x0 y0 x1 y1 a b ∧
      sa.data_blocks.getD (b / sa.block_height * sa.block_count_hor + a / sa.block_width) none
        = none := by
    obtain ⟨a, b, hab, hp⟩ := hex
    refine ⟨a, b, hab, ?_⟩
    unfold sparse_array.present at hp
    cases hg : sa.data_blocks.getD
      (b / sa.block_height * sa.block_count_hor + a / sa.block_width) none with
    | none => rfl
    | some _ => rw [hg] at hp; simp at hp
  have hrun := rw_y_loop_write_absent sa x0 y0 x1 y1 cs ls src hbw hbh
    (by omega) (by omega) (wf_bch sa hwf2 x1 h2) (y1 - y0) y0 (y0 / sa.block_height)
    sa.data_blocks (Nat.le_refl _) (Nat.le_refl _) (fun _ => walk_init sa.block_height y0)
    (blocks_sized_of_forall _ _ _ hsz) hex2
  simp only [sparse_array.write, sparse_array.read_or_write, hv, Bool.not_true, hrun]
  rfl

/-! ### `alloc` -/

theorem allocrel_refl (n : Nat) (T : Nat → Prop) (blocks : Slots) : AllocRel n T blocks blocks :=
  ⟨rfl, fun _ => Or.inl rfl⟩

theorem allocrel_trans {n : Nat} {T1 T2 T : Nat → Prop} {b0 b1 b2 : Slots}
    (h1 : AllocRel n T1 b0 b1) (h2 : AllocRel n T2 b1 b2)
    (hT1 : ∀ i, T1 i → T i) (hT2 : ∀ i, T2 i → T i) : AllocRel n T b0 b2 := by
  refine ⟨h2.1.trans h1.1, fun i => ?_⟩
  rcases h2.2 i with e2 | ⟨t2, n2, s2⟩
  · rcases h1.2 i with e1 | ⟨t1, n1, s1⟩
    · exact Or.inl (e2.trans e1)
    · exact Or.inr ⟨hT1 i t1, n1, e2.trans s1⟩
  · rcases h1.2 i with e1 | ⟨t1, n1, s1⟩
    · exact Or.inr ⟨hT2 i t2, e1.symm.trans n2, s2⟩
    · rw [s1] at n2; cases n2

theorem allocrel_isSome_mono {n : Nat} {T : Nat → Prop} {b0 b1 : Slots}
    (h : AllocRel n T b0 b1) (i : Nat) (hi : (b0.getD i none).isSome = true) :
    (b1.getD i none).isSome = true := by
  rcases h.2 i with e | ⟨_, e0, _⟩
  · rw [e]; exact hi
  · rw [e0] at hi; simp at hi

theorem allocrel_sized {bw bh : Nat} {T : Nat → Prop} {b0 b1 : Slots}
    (h : AllocRel (bw * bh) T b0 b1) (hs : blocks_sized bw bh b0) : blocks_sized bw bh b1 := by
  intro i b hb
  rcases h.2 i with e | ⟨_, _, e1⟩
  · rw [e] at hb; exact hs i b hb
  · rw [e1] at hb; cases hb; simp

/-- The inner loop of `alloc` returns; it allocates only `NULL` slots of the visited blocks,
and when it reports success all visited blocks are allocated. -/
theorem alloc_x_loop_spec (sa : sparse_array) (x0 x1 block_y : Nat)
    (hbw : 0 < sa.block_width) (hx1 : x1 < UINT32_RANGE)
    (hbch : ∀ c, c < x1 → c / sa.block_width < sa.block_count_hor)
    (hbcv : block_y < sa.block_count_ver) :
    ∀ (fuel x block_x : Nat) (blocks : Slots) (heap : Nat), x0 ≤ x → x1 - x ≤ fuel →
      (x < x1 → x = block_x * sa.block_width + (if x = x0 then x0 % sa.block_width else 0)) →
      blocks.length = sa.block_count_hor * sa.block_count_ver →
      ∃ r blocks1 heap1,
        alloc_x_loop sa x0 x1 block_y fuel x block_x blocks heap = .ok (r, blocks1, heap1) ∧
        AllocRel (sa.block_width * sa.block_height)
          (fun i => ∃ c, x ≤ c ∧ c < x1 ∧ i = block_y * sa.block_count_hor + c / sa.block_width)
          blocks blocks1 ∧
        (r = true → ∀ c, x ≤ c → c < x1 →
          (blocks1.getD (block_y * sa.block_count_hor + c / sa.block_width) none).isSome
            = true) ∧
        (r = false → heap1 = 0) ∧ heap1 ≤ heap := by
  intro fuel
  induction fuel with
  | zero =>
    intro x block_x blocks heap _ hf _ _
    have hnx : ¬ x < x1 := by omega
    refine ⟨true, blocks, heap, by simp [alloc_x_loop, hnx], allocrel_refl _ _ _, ?_, by simp,
      Nat.le_refl _⟩
    intro _ c h1 h2
    omega
  | succ fuel ih =>
    intro x block_x blocks heap hx0 hf hinv hlen
    by_cases hlt : x < x1
    · obtain ⟨hi1, hi2, hw1, hw2, hxeq, hoff, hx0n, hnext⟩ :=
        walk_step sa.block_width x0 x x1 block_x hbw hx0 hlt hx1 (hinv hlt)
      simp only [alloc_x_loop, hlt, if_true, hw1, hw2]
      have hdiv : x / sa.block_width = block_x :=
        (div_mod_of_eq sa.block_width block_x _ x (by omega) hxeq).1
      have hcov : ∀ c, x ≤ c → c < x + min (if x = x0 then sa.block_width - x0 % sa.block_width
          else sa.block_width) (x1 - x) → c / sa.block_width = block_x := by
        intro c hc1 hc2
        exact (div_mod_of_eq sa.block_width block_x
          (sa.block_width - (if x = x0 then sa.block_width - x0 % sa.block_width
            else sa.block_width) + (c - x)) c (by omega) (by omega)).1
      have hslot : block_y * sa.block_count_hor + block_x < blocks.length := by
        have hbx : block_x < sa.block_count_hor := by rw [← hdiv]; exact hbch x hlt
        have h1 : (block_y + 1) * sa.block_count_hor
            ≤ sa.block_count_ver * sa.block_count_hor := Nat.mul_le_mul_right _ hbcv
        have h2 : (block_y + 1) * sa.block_count_hor
            = block_y * sa.block_count_hor + sa.block_count_hor := by ring
        have h3 : sa.block_count_ver * sa.block_count_hor
            = sa.block_count_hor * sa.block_count_ver := Nat.mul_comm _ _
        omega
      cases hb : blocks.getD (block_y * sa.block_count_hor + block_x) none with
      | none =>
        cases heap with
        | zero =>
          refine ⟨false, blocks, 0, rfl, allocrel_refl _ _ _, by simp, by simp, Nat.le_refl _⟩
        | succ heap =>
          simp only []
          have hrel0 : AllocRel (sa.block_width * sa.block_height)
              (fun i => i = block_y * sa.block_count_hor + block_x) blocks
              (blocks.set (block_y * sa.block_count_hor + block_x)
                (some (List.replicate (sa.block_width * sa.block_height) 0))) := by
            refine ⟨by simp, fun i => ?_⟩
            rw [getD_set_slot blocks _ i _ hslot]
            by_cases e : i = block_y * sa.block_count_hor + block_x
            · right
              rw [if_pos e]
              exact ⟨e, by rw [e]; exact hb, rfl⟩
            · left
              rw [if_neg e]
          obtain ⟨r, blocks1, heap1, hrun, hrel, hpres, hheap, hle⟩ := ih _ (block_x + 1)
            (blocks.set (block_y * sa.block_count_hor + block_x)
              (some (List.replicate (sa.block_width * sa.block_height) 0))) heap hx0n
            (by omega) hnext (by simpa using hlen)
          refine ⟨r, blocks1, heap1, hrun, allocrel_trans hrel0 hrel ?_ ?_, ?_, hheap,
            by omega⟩
          · intro i hi
            exact ⟨x, Nat.le_refl _, hlt, by rw [hdiv]; exact hi⟩
          · rintro i ⟨c, hc1, hc2, hc3⟩
            exact ⟨c, by omega, hc2, hc3⟩
          · intro hr c hc1 hc2
            by_cases hc : c < x + min (if x = x0 then sa.block_width - x0 % sa.block_width
                else sa.block_width) (x1 - x)
            · rw [hcov c hc1 hc]
              apply allocrel_isSome_mono hrel
              rw [getD_set_slot blocks _ _ _ hslot, if_pos rfl]
              rfl
            · exact hpres hr c (by omega) hc2
      | some blk =>
        simp only []
        obtain ⟨r, blocks1, heap1, hrun, hrel, hpres, hheap, hle⟩ := ih _ (block_x + 1)
          blocks heap hx0n (by omega) hnext hlen
        refine ⟨r, blocks1, heap1, hrun, allocrel_trans (allocrel_refl _ (fun _ => False) _)
          hrel ?_ ?_, ?_, hheap, hle⟩
        · intro i hi; exact absurd hi id
        · rintro i ⟨c, hc1, hc2, hc3⟩
          exact ⟨c, by omega, hc2, hc3⟩
        · intro hr c hc1 hc2
          by_cases hc : c < x + min (if x = x0 then sa.block_width - x0 % sa.block_width
              else sa.block_width) (x1 - x)
          · rw [hcov c hc1 hc]
            apply allocrel_isSome_mono hrel
            rw [hb]
            rfl
          · exact hpres hr c (by omega) hc2
    · refine ⟨true, blocks, heap, by simp [alloc_x_loop, hlt], allocrel_refl _ _ _, ?_, by simp,
        Nat.le_refl _⟩
      intro _ c h1 h2
      omega

/-- The outer loop of `alloc`. -/
theorem alloc_y_loop_spec (sa : sparse_array) (x0 y0 x1 y1 : Nat)
    (hbw : 0 < sa.block_width) (hbh : 0 < sa.block_height)
    (hx1 : x1 < UINT32_RANGE) (hy1 : y1 < UINT32_RANGE)
    (hbch : ∀ c, c < x1 → c / sa.block_width < sa.block_count_hor)
    (hbcv : ∀ c, c < y1 → c / sa.block_height < sa.block_count_ver) :
    ∀ (fuel y block_y : Nat) (blocks : Slots) (heap : Nat), y0 ≤ y → y1 - y ≤ fuel →
      (y < y1 → y = block_y * sa.block_height + (if y = y0 then y0 % sa.block_height else 0)) →
      blocks.length = sa.block_count_hor * sa.block_count_ver →
      ∃ r blocks1 heap1,
        alloc_y_loop sa x0 y0 x1 y1 fuel y block_y blocks heap = .ok (r, blocks1, heap1) ∧
        AllocRel (sa.block_width * sa.block_height)
          (fun i => ∃ a b, in_rect x0 y x1 y1 a b ∧
            i = b / sa.block_height * sa.block_count_hor + a / sa.block_width)
          blocks blocks1 ∧
        (r = true → ∀ a b, in_rect x0 y x1 y1 a b →
          (blocks1.getD (b / sa.block_height * sa.block_count_hor + a / sa.block_width)
            none).isSome = true) ∧
        (r = false → heap1 = 0) ∧ heap1 ≤ heap := by
  intro fuel
  induction fuel with
  | zero =>
    intro y block_y blocks heap _ hf _ _
    have hny : ¬ y < y1 := by omega
    refine ⟨true, blocks, heap, by simp [alloc_y_loop, hny], allocrel_refl _ _ _, ?_, by simp,
      Nat.le_refl _⟩
    intro _ a b hab
    simp only [in_rect] at hab
    omega
  | succ fuel ih =>
    intro y block_y blocks heap hy0 hf hinv hlen
    by_cases hlt : y < y1
    · obtain ⟨hi1, hi2, hw1, hw2, hyeq, hoff, hy0n, hnext⟩ :=
        walk_step sa.block_height y0 y y1 block_y hbh hy0 hlt hy1 (hinv hlt)
      simp only [alloc_y_loop, hlt, if_true, hw1, hw2]
      have hdiv : y / sa.block_height = block_y :=
        (div_mod_of_eq sa.block_height block_y _ y (by omega) hyeq).1
      have hcov : ∀ c, y ≤ c → c < y + min (if y = y0 then sa.block_height - y0 % sa.block_height
          else sa.block_height) (y1 - y) → c / sa.block_height = block_y := by
        intro c hc1 hc2
        exact (div_mod_of_eq sa.block_height block_y
          (sa.block_height - (if y = y0 then sa.block_height - y0 % sa.block_height
            else sa.block_height) + (c - y)) c (by omega) (by omega)).1
      obtain ⟨r, blocks1, heap1, hrun1, hrel1, hpres1, hheap1, hle1⟩ :=
        alloc_x_loop_spec sa x0 x1 block_y hbw hx1 hbch (by rw [← hdiv]; exact hbcv y hlt)
          (x1 - x0) x0 (x0 / sa.block_width) blocks heap (Nat.le_refl _) (Nat.le_refl _)
          (fun _ => walk_init sa.block_width x0) hlen
      rw [hrun1]
      have hT1 : ∀ i, (∃ c, x0 ≤ c ∧ c < x1 ∧
          i = block_y * sa.block_count_hor + c / sa.block_width) →
          ∃ a b, in_rect x0 y x1 y1 a b ∧
            i = b / sa.block_height * sa.block_count_hor + a / sa.block_width := by
        rintro i ⟨c, hc1, hc2, hc3⟩
        exact ⟨c, y, ⟨hc1, hc2, Nat.le_refl _, hlt⟩, by rw [hdiv]; exact hc3⟩
      cases r with
      | false =>
        simp only []
        refine ⟨false, blocks1, heap1, rfl, allocrel_trans hrel1 (allocrel_refl _
          (fun _ => False) _) hT1 (fun i hi => absurd hi id), by simp, hheap1, hle1⟩
      | true =>
        simp only []
        obtain ⟨r2, blocks2, heap2, hrun2, hrel2, hpres2, hheap2, hle2⟩ := ih _ (block_y + 1)
          blocks1 heap1 hy0n (by omega) hnext (hrel1.1.trans hlen)
        refine ⟨r2, blocks2, heap2, hrun2, allocrel_trans hrel1 hrel2 hT1 ?_, ?_, hheap2,
          by omega⟩
        · rintro i ⟨a, b, hab, hi⟩
          refine ⟨a, b, ?_, hi⟩
          simp only [in_rect] at hab ⊢
          omega
        · intro hr a b hab
          simp only [in_rect] at hab
          by_cases hc : b < y + min (if y = y0 then sa.block_height - y0 % sa.block_height
              else sa.block_height) (y1 - y)
          · rw [hcov b (by omega) hc]
            exact allocrel_isSome_mono hrel2 _ (hpres1 rfl a (by omega) (by omega))
          · exact hpres2 hr a b ⟨hab.1, hab.2.1, by omega, hab.2.2.2⟩
    · refine ⟨true, blocks, heap, by simp [alloc_y_loop, hlt], allocrel_refl _ _ _, ?_, by simp,
        Nat.le_refl _⟩
      intro _ a b hab
      simp only [in_rect] at hab
      omega

/-- The method `alloc` always returns (it never faults). It keeps the invariant, allocates
zeroed blocks only in `NULL` slots of blocks that meet a valid rectangle, returns `false` only
when the heap is exhausted, and after success every block meeting a valid rectangle is
allocated. -/
theorem alloc_spec (sa : sparse_array) (hwf : sa.wf) (heap x0 y0 x1 y1 : Nat) :
    ∃ r blocks1 heap1,
      sa.alloc heap x0 y0 x1 y1 = .ok (r, { sa with data_blocks := blocks1 }, heap1) ∧
      ({ sa with data_blocks := blocks1 } : sparse_array).wf ∧
      AllocRel (sa.block_width * sa.block_height)
        (fun i => sa.is_region_valid x0 y0 x1 y1 = true ∧ ∃ a b, in_rect x0 y0 x1 y1 a b ∧
          i = b / sa.block_height * sa.block_count_hor + a / sa.block_width)
        sa.data_blocks blocks1 ∧
      (r = true → sa.is_region_valid x0 y0 x1 y1 = true → ∀ a b, in_rect x0 y0 x1 y1 a b →
        ({ sa with data_blocks := blocks1 } : sparse_array).present a b = true) ∧
      (r = false → heap1 = 0) ∧ heap1 ≤ heap := by
  by_cases hv : sa.is_region_valid x0 y0 x1 y1 = true
  · have hwf2 := hwf
    obtain ⟨_, hw, _, hh, hbw, hbwr, hbh, _, _, _, hlen, hsz⟩ := hwf
    obtain ⟨h1, h2, h3, h4⟩ := (is_region_valid_iff sa x0 y0 x1 y1).1 hv
    obtain ⟨r, blocks1, heap1, hrun, hrel, hpres, hheap, hle⟩ :=
      alloc_y_loop_spec sa x0 y0 x1 y1 hbw hbh (by omega) (by omega) (wf_bch sa hwf2 x1 h2)
        (wf_bcv sa hwf2 y1 h4) (y1 - y0) y0 (y0 / sa.block_height) sa.data_blocks heap
        (Nat.le_refl _) (Nat.le_refl _) (fun _ => walk_init sa.block_height y0) hlen
    refine ⟨r, blocks1, heap1, ?_, wf_with_blocks sa hwf2 blocks1 hrel.1
      (allocrel_sized hrel (blocks_sized_of_forall _ _ _ hsz)),
      allocrel_trans hrel (allocrel_refl _ (fun _ => False) _) (fun i hi => ⟨hv, hi⟩)
        (fun i hi => absurd hi id), ?_, hheap, hle⟩
    · simp only [sparse_array.alloc, hv, Bool.not_true, hrun]
      rfl
    · intro hr _ a b hab
      exact hpres hr a b hab
  · refine ⟨true, sa.data_blocks, heap, ?_, ?_, allocrel_refl _ _ _, ?_, by simp,
      Nat.le_refl _⟩
    · have hv2 : sa.is_region_valid x0 y0 x1 y1 = false := by
        cases h : sa.is_region_valid x0 y0 x1 y1
        · rfl
        · exact absurd h hv
      simp only [sparse_array.alloc, hv2, with_data_blocks_self]
      rfl
    · rw [with_data_blocks_self]; exact hwf
    · intro _ h; exact absurd h hv

/-! ### Properties of `sparse_array` -/

theorem create_ok (ok : Bool) (w h bw bh : Nat) (sa : sparse_array)
    (hw : w < UINT32_RANGE) (hh : h < UINT32_RANGE) (hbw : bw < UINT32_RANGE)
    (hbh : bh < UINT32_RANGE) (hc : sparse_array.create ok w h bw bh = .ok sa) :
    sa.wf ∧ sa.data_blocks = List.replicate (sa.block_count_hor * sa.block_count_ver) none := by
  unfold sparse_array.create at hc
  split at hc
  · cases hc
  · rename_i hpos
    simp only [not_or] at hpos
    cases ok with
    | false => simp at hc
    | true =>
      simp only [if_true, Except.ok.injEq] at hc
      subst hc
      refine ⟨⟨Nat.pos_of_ne_zero hpos.1, hw, Nat.pos_of_ne_zero hpos.2.1, hh,
        Nat.pos_of_ne_zero hpos.2.2.1, hbw, Nat.pos_of_ne_zero hpos.2.2.2, hbh, rfl, rfl,
        by simp, ?_⟩, rfl⟩
      intro s hs
      simp only [List.mem_replicate] at hs
      rw [hs.2]
      trivial

theorem sample_of_replicate_none (bw bh bch n x y : Nat) :
    sample_of bw bh bch (List.replicate n none) x y = 0 := by
  unfold sample_of
  have : (List.replicate n (none : Option (List Int))).getD (y / bh * bch + x / bw) none
      = none := by
    rw [List.getD_eq_getElem?_getD]
    cases h : (List.replicate n (none : Option (List Int)))[y / bh * bch + x / bw]? with
    | none => rfl
    | some v =>
      have := List.getElem?_mem h
      simp only [List.mem_replicate] at this
      simp [this.2]
  rw [this]

/-- C1 (write-read identity). After a successful `alloc(R)` of a valid rectangle `R`, the call
`write(R, buf, col_stride, line_stride)` returns `true`, and the following
`read(R, dest, col_stride, line_stride)` returns `true` and leaves in `dest`, at the offset
`(y-y0)*line_stride + (x-x0)*col_stride` of every position `(x, y)` of `R`, the value `buf`
holds at that offset; for all strides and all rectangles, whatever blocks they span. -/
theorem sparse_array_write_read_identity (sa : sparse_array) (hwf : sa.wf)
    (x0 y0 x1 y1 : Nat) (hv : sa.is_region_valid x0 y0 x1 y1 = true)
    (buf dest : Buffer) (col_stride line_stride heap : Nat) (fg_write fg_read : Bool)
    (sa1 : sparse_array) (heap1 : Nat)
    (halloc : sa.alloc heap x0 y0 x1 y1 = .ok (true, sa1, heap1)) :
    ∃ sa2, sa1.write x0 y0 x1 y1 buf col_stride line_stride fg_write = .ok (true, sa2, buf) ∧
      ∃ dest1, sa2.read x0 y0 x1 y1 dest col_stride line_stride fg_read
          = .ok (true, sa2, dest1) ∧
        ∀ x y, in_rect x0 y0 x1 y1 x y →
          dest1 ((y - y0) * line_stride + (x - x0) * col_stride)
            = buf ((y - y0) * line_stride + (x - x0) * col_stride) := by
  obtain ⟨r, blocks1, heap2, hrun, hwf1, _, hpres, _, _⟩ := alloc_spec sa hwf heap x0 y0 x1 y1
  rw [hrun] at halloc
  simp only [Except.ok.injEq, Prod.mk.injEq] at halloc
  obtain ⟨hr, hsa1, _⟩ := halloc
  subst hr hsa1
  have hv1 : ({ sa with data_blocks := blocks1 } : sparse_array).is_region_valid x0 y0 x1 y1
      = true := hv
  obtain ⟨blocks2, hwrite, hwf2, hsw⟩ := write_ok _ hwf1 x0 y0 x1 y1 hv1 buf col_stride
    line_stride fg_write (hpres rfl hv)
  refine ⟨_, hwrite, ?_⟩
  have hv2 : ({ sa with data_blocks := blocks2 } : sparse_array).is_region_valid x0 y0 x1 y1
      = true := hv
  obtain ⟨dest1, hread, hwr⟩ := read_writes _ hwf2 x0 y0 x1 y1 hv2 dest col_stride line_stride
    fg_read
  refine ⟨dest1, hread, ?_⟩
  intro x y hxy
  obtain ⟨⟨a, b⟩, hab, hidx, hval⟩ := (hwr (buf_index x0 y0 col_stride line_stride x y)).1
    ⟨(x, y), hxy, rfl⟩
  simp only at hab hidx hval
  have hlt : a / sa.block_width < sa.block_count_hor :=
    wf_bch sa hwf x1 ((is_region_valid_iff sa x0 y0 x1 y1).1 hv).2.1 a hab.2.1
  have hs := (hsw.2.2 a b hlt).1 hab
  show dest1 (buf_index x0 y0 col_stride line_stride x y)
    = buf (buf_index x0 y0 col_stride line_stride x y)
  rw [hval]
  show sample_of sa.block_width sa.block_height sa.block_count_hor blocks2 a b = _
  rw [hs]
  show buf (buf_index x0 y0 col_stride line_stride a b) = _
  rw [hidx]

/-- Witness of C1: the 10×10 array with 4×4 blocks, `R = (2,3,6,7)`, `buf = [1..16]`,
`col_stride = 1`, `line_stride = 4`. -/
theorem sparse_array_write_read_identity_witness :
    array10.wf ∧ array10.is_region_valid 2 3 6 7 = true ∧
    array10.alloc 4 2 3 6 7 = .ok (true, array10_alloc, 0) ∧
    ∃ sa2, array10_alloc.write 2 3 6 7 buf16 1 4 false = .ok (true, sa2, buf16) ∧
      ∃ dest1, sa2.read 2 3 6 7 (fun _ => 0) 1 4 false = .ok (true, sa2, dest1) ∧
        ∀ x y, in_rect 2 3 6 7 x y →
          dest1 ((y - 3) * 4 + (x - 2) * 1) = buf16 ((y - 3) * 4 + (x - 2) * 1) :=
  ⟨by decide, by decide, by rfl,
    sparse_array_write_read_identity array10 (by decide) 2 3 6 7 (by decide) buf16
      (fun _ => 0) 1 4 4 false false array10_alloc 0 (by rfl)⟩

/-- C2 (zero semantics). On a newly constructed array (no `alloc`, no `write`) a read of a
valid rectangle returns `true` and sets `dest[(y-y0)*line_stride + (x-x0)*col_stride]` to `0`
for every position `(x, y)` of the rectangle, whatever `dest` held and for every column
stride. The constructor arguments are `uint32_t` values. -/
theorem sparse_array_fresh_read_zero (calloc_ok : Bool) (width height block_width
    block_height : Nat) (hw : width < UINT32_RANGE) (hh : height < UINT32_RANGE)
    (hbw : block_width < UINT32_RANGE) (hbh : block_height < UINT32_RANGE)
    (sa : sparse_array)
    (hnew : sparse_array.create calloc_ok width height block_width block_height = .ok sa)
    (x0 y0 x1 y1 : Nat) (hv : sa.is_region_valid x0 y0 x1 y1 = true)
    (dest : Buffer) (col_stride line_stride : Nat) (forgiving : Bool) :
    ∃ dest1, sa.read x0 y0 x1 y1 dest col_stride line_stride forgiving
        = .ok (true, sa, dest1) ∧
      ∀ x y, in_rect x0 y0 x1 y1 x y →
        dest1 ((y - y0) * line_stride + (x - x0) * col_stride) = 0 := by
  obtain ⟨hwf, hblocks⟩ := create_ok calloc_ok width height block_width block_height sa
    hw hh hbw hbh hnew
  obtain ⟨dest1, hread, hwr⟩ := read_writes sa hwf x0 y0 x1 y1 hv dest col_stride line_stride
    forgiving
  refine ⟨dest1, hread, ?_⟩
  intro x y hxy
  obtain ⟨⟨a, b⟩, _, _, hval⟩ := (hwr (buf_index x0 y0 col_stride line_stride x y)).1
    ⟨(x, y), hxy, rfl⟩
  show dest1 (buf_index x0 y0 col_stride line_stride x y) = 0
  rw [hval]
  show sample_of sa.block_width sa.block_height sa.block_count_hor sa.data_blocks a b = 0
  rw [hblocks]
  exact sample_of_replicate_none _ _ _ _ a b

/-- Witness of C2: the 10×10 array with 4×4 blocks, `R = (0,0,10,10)`, `col_stride = 1`,
`line_stride = 10`, destination filled with sevens. -/
theorem sparse_array_fresh_read_zero_witness :
    sparse_array.create true 10 10 4 4 = .ok array10 ∧
    array10.is_region_valid 0 0 10 10 = true ∧
    ∃ dest1, array10.read 0 0 10 10 (fun _ => 7) 1 10 false = .ok (true, array10, dest1) ∧
      ∀ x y, in_rect 0 0 10 10 x y → dest1 ((y - 0) * 10 + (x - 0) * 1) = 0 :=
  ⟨by rfl, by decide,
    sparse_array_fresh_read_zero true 10 10 4 4 (by decide) (by decide) (by decide) (by decide)
      array10 (by rfl) 0 0 10 10 (by decide) (fun _ => 7) 1 10 false⟩

/-- C3 (bounds). A rectangle is accepted exactly when `x0 < x1 ≤ width` and
`y0 < y1 ≤ height`. For every other rectangle, also one lying partly inside the array, `read`
and `write` return the value of `forgiving` and copy nothing: the buffer and the array (every
slot and sample) are returned unchanged; nothing is clipped. -/
theorem sparse_array_invalid_region (sa : sparse_array) (x0 y0 x1 y1 : Nat)
    (hbad : ¬ (x0 < x1 ∧ x1 ≤ sa.width ∧ y0 < y1 ∧ y1 ≤ sa.height))
    (buf : Buffer) (col_stride line_stride : Nat) (forgiving : Bool) :
    (∀ a0 b0 a1 b1, sa.is_region_valid a0 b0 a1 b1 = true ↔
      (a0 < a1 ∧ a1 ≤ sa.width ∧ b0 < b1 ∧ b1 ≤ sa.height)) ∧
    sa.is_region_valid x0 y0 x1 y1 = false ∧
    sa.read x0 y0 x1 y1 buf col_stride line_stride forgiving = .ok (forgiving, sa, buf) ∧
    sa.write x0 y0 x1 y1 buf col_stride line_stride forgiving = .ok (forgiving, sa, buf) := by
  have hv : sa.is_region_valid x0 y0 x1 y1 = false := by
    cases h : sa.is_region_valid x0 y0 x1 y1
    · rfl
    · exact absurd ((is_region_valid_iff sa x0 y0 x1 y1).1 h) hbad
  refine ⟨fun a0 b0 a1 b1 => is_region_valid_iff sa a0 b0 a1 b1, hv, ?_, ?_⟩
  · simp [sparse_array.read, sparse_array.read_or_write, hv]
  · simp [sparse_array.write, sparse_array.read_or_write, hv]

/-- Witness of C3: the rectangle `(8,8,12,12)` lies partly outside the 10×10 array. -/
theorem sparse_array_invalid_region_witness :
    (∀ a0 b0 a1 b1, array10_alloc.is_region_valid a0 b0 a1 b1 = true ↔
      (a0 < a1 ∧ a1 ≤ array10_alloc.width ∧ b0 < b1 ∧ b1 ≤ array10_alloc.height)) ∧
    array10_alloc.is_region_valid 8 8 12 12 = false ∧
    array10_alloc.read 8 8 12 12 buf16 1 4 false = .ok (false, array10_alloc, buf16) ∧
    array10_alloc.write 8 8 12 12 buf16 1 4 false = .ok (false, array10_alloc, buf16) :=
  sparse_array_invalid_region array10_alloc 8 8 12 12 (by decide) buf16 1 4 false

/-- A slot that is `NULL` after a block has been stored in an allocated slot was `NULL`
before. -/
theorem getD_set_some_none (blocks : Slots) (slot : Nat) (blk w : List Int)
    (hs : blocks.getD slot none = some blk) (i : Nat)
    (hi : (blocks.set slot (some w)).getD i none = none) : blocks.getD i none = none := by
  by_cases h : i = slot
  · subst h
    have hlt : i < blocks.length := by
      by_contra hge
      rw [List.getD_eq_default _ _ (by omega)] at hs
      cases hs
    rw [List.getD_eq_getElem?_getD, List.getElem?_set_self hlt] at hi
    cases hi
  · rw [List.getD_eq_getElem?_getD, List.getElem?_set_ne (Ne.symm h)] at hi
    rw [List.getD_eq_getElem?_getD]
    exact hi

/-- The inner loop of either build follows the loop with assertions: it returns the same
value, and where the assertion fails it ends at the assertion or, under `NDEBUG`, at the
dereference of a slot that is `NULL`. Slots that are `NULL` afterwards were `NULL` before. -/
theorem rw_x_loop_build_spec (ndebug : Bool) (sa : sparse_array) (x0 y0 x1 cs ls : Nat)
    (y y_incr block_y byo : Nat) :
    ∀ (fuel x block_x : Nat) (blocks : Slots) (buf : Buffer),
      (∀ r, rw_x_loop sa x0 y0 x1 cs ls false y y_incr block_y byo fuel x block_x blocks buf
          = .ok r →
        rw_x_loop_build ndebug sa x0 y0 x1 cs ls false y y_incr block_y byo fuel x block_x
          blocks buf = .ok r ∧
        ∀ i, r.1.getD i none = none → blocks.getD i none = none) ∧
      (rw_x_loop sa x0 y0 x1 cs ls false y y_incr block_y byo fuel x block_x blocks buf
          = .error .assert_failed →
        ∃ slot, blocks.getD slot none = none ∧
          rw_x_loop_build ndebug sa x0 y0 x1 cs ls false y y_incr block_y byo fuel x block_x
            blocks buf
            = .error (if ndebug then .null_dereference slot else .fault .assert_failed)) := by
  intro fuel
  induction fuel with
  | zero =>
    intro x block_x blocks buf
    unfold rw_x_loop rw_x_loop_build
    by_cases hlt : x < x1
    · simp [hlt]
    · simp only [hlt, if_false]
      refine ⟨fun r hr => ?_, fun h => by cases h⟩
      cases hr
      exact ⟨rfl, fun i hi => hi⟩
  | succ fuel ih =>
    intro x block_x blocks buf
    unfold rw_x_loop rw_x_loop_build
    by_cases hlt : x < x1
    · simp only [hlt, if_true, Bool.false_eq_true, if_false]
      cases hs : blocks.getD (block_y * sa.block_count_hor + block_x) none with
      | none =>
        simp only
        refine ⟨fun r hr => (by cases hr), fun _ => ⟨_, hs, ?_⟩⟩
        cases ndebug <;> rfl
      | some blk =>
        simp only
        obtain ⟨h1, h2⟩ := ih ((x + min (if x = x0 then sa.block_width - x0 % sa.block_width
            else sa.block_width) (x1 - x)) % UINT32_RANGE) ((block_x + 1) % UINT32_RANGE)
          (blocks.set (block_y * sa.block_count_hor + block_x)
            (some (write_block blk (byo * sa.block_width + (sa.block_width -
              (if x = x0 then sa.block_width - x0 % sa.block_width else sa.block_width)))
              buf ((y - y0) * ls + (x - x0) * cs)
              (min (if x = x0 then sa.block_width - x0 % sa.block_width
                else sa.block_width) (x1 - x)) y_incr cs ls sa.block_width))) buf
        refine ⟨fun r hr => ?_, fun he => ?_⟩
        · obtain ⟨ha, hb⟩ := h1 r hr
          exact ⟨ha, fun i hi => getD_set_some_none blocks _ blk _ hs i (hb i hi)⟩
        · obtain ⟨slot, ha, hb⟩ := h2 he
          exact ⟨slot, getD_set_some_none blocks _ blk _ hs slot ha, hb⟩
    · simp only [hlt, if_false]
      refine ⟨fun r hr => ?_, fun h => by cases h⟩
      cases hr
      exact ⟨rfl, fun i hi => hi⟩

/-- The outer loop of either build follows the loop with assertions in the same way. -/
theorem rw_y_loop_build_spec (ndebug : Bool) (sa : sparse_array) (x0 y0 x1 y1 cs ls : Nat) :
    ∀ (fuel y block_y : Nat) (blocks : Slots) (buf : Buffer),
      (∀ r, rw_y_loop sa x0 y0 x1 y1 cs ls false fuel y block_y blocks buf = .ok r →
        rw_y_loop_build ndebug sa x0 y0 x1 y1 cs ls false fuel y block_y blocks buf = .ok r ∧
        ∀ i, r.1.getD i none = none → blocks.getD i none = none) ∧
      (rw_y_loop sa x0 y0 x1 y1 cs ls false fuel y block_y blocks buf
          = .error .assert_failed →
        ∃ slot, blocks.getD slot none = none ∧
          rw_y_loop_build ndebug sa x0 y0 x1 y1 cs ls false fuel y block_y blocks buf
            = .error (if ndebug then .null_dereference slot else .fault .assert_failed)) := by
  intro fuel
  induction fuel with
  | zero =>
    intro y block_y blocks buf
    unfold rw_y_loop rw_y_loop_build
    by_cases hlt : y < y1
    · simp [hlt]
    · simp only [hlt, if_false]
      refine ⟨fun r hr => ?_, fun h => by cases h⟩
      cases hr
      exact ⟨rfl, fun i hi => hi⟩
  | succ fuel ih =>
    intro y block_y blocks buf
    unfold rw_y_loop rw_y_loop_build
    by_cases hlt : y < y1
    · simp only [hlt, if_true]
      obtain ⟨hx1, hx2⟩ := rw_x_loop_build_spec ndebug sa x0 y0 x1 cs ls y
        (min (if y = y0 then sa.block_height - y0 % sa.block_height else sa.block_height)
          (y1 - y)) block_y
        (sa.block_height -
          (if y = y0 then sa.block_height - y0 % sa.block_height else sa.block_height))
        (x1 - x0) x0 (x0 / sa.block_width) blocks buf
      cases hrun : rw_x_loop sa x0 y0 x1 cs ls false y
        (min (if y = y0 then sa.block_height - y0 % sa.block_height else sa.block_height)
          (y1 - y)) block_y
        (sa.block_height -
          (if y = y0 then sa.block_height - y0 % sa.block_height else sa.block_height))
        (x1 - x0) x0 (x0 / sa.block_width) blocks buf with
      | error e =>
        simp only
        refine ⟨fun r hr => (by cases hr), fun he => ?_⟩
        have he2 : e = .assert_failed := by cases he; rfl
        subst he2
        obtain ⟨slot, ha, hb⟩ := hx2 hrun
        refine ⟨slot, ha, ?_⟩
        rw [hb]
      | ok r1 =>
        obtain ⟨blocks1, buf1⟩ := r1
        obtain ⟨hok, hnull⟩ := hx1 _ hrun
        simp only at hnull
        rw [hok]
        simp only
        obtain ⟨h1, h2⟩ := ih ((y + min (if y = y0 then sa.block_height - y0 % sa.block_height
            else sa.block_height) (y1 - y)) % UINT32_RANGE) ((block_y + 1) % UINT32_RANGE)
          blocks1 buf1
        refine ⟨fun r hr => ?_, fun he => ?_⟩
        · obtain ⟨ha, hb⟩ := h1 r hr
          exact ⟨ha, fun i hi => hnull i (hb i hi)⟩
        · obtain ⟨slot, ha, hb⟩ := h2 he
          exact ⟨slot, hnull slot ha, hb⟩
    · simp only [hlt, if_false]
      refine ⟨fun r hr => ?_, fun h => by cases h⟩
      cases hr
      exact ⟨rfl, fun i hi => hi⟩

/-- In either build a write of a valid rectangle that touches a `NULL` block does not return:
with assertions it ends at `assert(src_block)`, under `NDEBUG` at the dereference of a slot of
the array that is `NULL`. -/
theorem write_build_absent (ndebug : Bool) (sa : sparse_array) (hwf : sa.wf)
    (x0 y0 x1 y1 : Nat) (hv : sa.is_region_valid x0 y0 x1 y1 = true) (src : Buffer)
    (cs ls : Nat) (fg : Bool)
    (hex : ∃ a b, in_rect x0 y0 x1 y1 a b ∧ sa.present a b = false) :
    ∃ slot, sa.data_blocks.getD slot none = none ∧
      sa.write_build ndebug x0 y0 x1 y1 src cs ls fg
        = .error (if ndebug then .null_dereference slot else .fault .assert_failed) := by
  have h := write_absent sa hwf x0 y0 x1 y1 hv src cs ls fg hex
  simp only [sparse_array.write, sparse_array.read_or_write, hv, Bool.not_true] at h
  have hrun : rw_y_loop sa x0 y0 x1 y1 cs ls false (y1 - y0) y0 (y0 / sa.block_height)
      sa.data_blocks src = .error .assert_failed := by
    cases hr : rw_y_loop sa x0 y0 x1 y1 cs ls false (y1 - y0) y0 (y0 / sa.block_height)
      sa.data_blocks src with
    | error e =>
      rw [hr] at h
      simp only [Bool.false_eq_true, if_false] at h
      cases h
      rfl
    | ok r =>
      rw [hr] at h
      simp only [Bool.false_eq_true, if_false] at h
      cases h
  obtain ⟨slot, ha, hb⟩ := (rw_y_loop_build_spec ndebug sa x0 y0 x1 y1 cs ls (y1 - y0) y0
    (y0 / sa.block_height) sa.data_blocks src).2 hrun
  refine ⟨slot, ha, ?_⟩
  simp only [sparse_array.write_build, sparse_array.read_or_write_build, hv, Bool.not_true,
    Bool.false_eq_true, if_false, hb]

/-- C10 (write on a `NULL` block), the divergence. For every array that satisfies the class
invariant and every valid rectangle that touches a `NULL` block, `write` has no error return.
Built with assertions it stops at `assert(src_block)`. Built with `NDEBUG`, where the
assertion is compiled out, it goes on to copy samples through the `NULL` pointer of a slot of
the array that is not allocated: the absent block's storage is accessed, and the hard error
the claim requires is not raised. -/
theorem sparse_array_write_null_block (sa : sparse_array) (hwf : sa.wf)
    (x0 y0 x1 y1 : Nat) (hv : sa.is_region_valid x0 y0 x1 y1 = true)
    (src : Buffer) (col_stride line_stride : Nat) (forgiving : Bool)
    (hex : ∃ x y, in_rect x0 y0 x1 y1 x y ∧ sa.present x y = false) :
    sa.write_build false x0 y0 x1 y1 src col_stride line_stride forgiving
      = .error (.fault .assert_failed) ∧
    ∃ slot, sa.data_blocks.getD slot none = none ∧
      sa.write_build true x0 y0 x1 y1 src col_stride line_stride forgiving
        = .error (.null_dereference slot) := by
  obtain ⟨_, _, h0⟩ := write_build_absent false sa hwf x0 y0 x1 y1 hv src col_stride
    line_stride forgiving hex
  obtain ⟨slot, hs, h1⟩ := write_build_absent true sa hwf x0 y0 x1 y1 hv src col_stride
    line_stride forgiving hex
  exact ⟨h0, slot, hs, h1⟩

/-- Failing input of C10: on the 10×10 array with only the four top-left blocks allocated, a
write to `(2,3,10,7)` stores into the blocks of columns 0..7 and then reaches slot 2, the
`NULL` block of columns 8..9. With assertions the call stops there; under `NDEBUG` it
dereferences the `NULL` pointer of slot 2. -/
theorem sparse_array_write_null_block_witness :
    array10_alloc.wf ∧ array10_alloc.is_region_valid 2 3 10 7 = true ∧
    in_rect 2 3 10 7 8 3 ∧ array10_alloc.present 8 3 = false ∧
    array10_alloc.data_blocks.getD 2 none = none ∧
    array10_alloc.write_build false 2 3 10 7 buf16 1 8 false
      = .error (.fault .assert_failed) ∧
    array10_alloc.write_build true 2 3 10 7 buf16 1 8 false
      = .error (.null_dereference 2) :=
  ⟨by decide, by decide, by decide, by decide, by decide,
    (sparse_array_write_null_block array10_alloc (by decide) 2 3 10 7 (by decide) buf16 1 8
      false ⟨8, 3, by decide, by decide⟩).1, rfl⟩

/-- Counterexample to C9 as stated (any strides): the 2×1 array holding the samples `1, 2` in
one allocated block is what `alloc(0,0,2,1)` and `write((0,0,2,1), [1,2])` make of a new
array. On it `read((0,0,2,1), dest, col_stride = 0, line_stride = 0)` returns `true`, but
both positions address `dest[0]`, which ends up holding the sample of `(1,0)` and not the
sample of `(0,0)`. -/
theorem sparse_array_read_overlap_counterexample :
    (∃ a b, sparse_array.create true 2 1 2 1 = .ok a ∧
      a.alloc 1 0 0 2 1 = .ok (true, b, 0) ∧
      b.write 0 0 2 1 buf16 1 2 false = .ok (true, array2, buf16)) ∧
    array2.wf ∧ array2.is_region_valid 0 0 2 1 = true ∧ in_rect 0 0 2 1 0 0 ∧
    array2.sample 0 0 = 1 ∧
    ∃ dest1, array2.read 0 0 2 1 (fun _ => 0) 0 0 false = .ok (true, array2, dest1) ∧
      dest1 ((0 - 0) * 0 + (0 - 0) * 0) = 2 ∧
      dest1 ((0 - 0) * 0 + (0 - 0) * 0) ≠ array2.sample 0 0 :=
  ⟨⟨_, _, rfl, rfl, rfl⟩, by decide, by decide, by decide, by decide, _, rfl, by decide,
    by decide⟩

/-- C9, amended (strides that separate the positions of the rectangle). For every array state,
every valid rectangle and strides under which distinct positions of the rectangle address
distinct elements of `dest`, `read` returns `true`, leaves the array unchanged, sets
`dest[(y-y0)*line_stride + (x-x0)*col_stride]` to the sample stored at offset
`(y mod block_height)*block_width + (x mod block_width)` of block
`(y div block_height, x div block_width)` when that block is allocated and to `0` when it is
not, and leaves every element of `dest` not addressed by a position of the rectangle
unchanged. The last part holds for all strides. -/
theorem sparse_array_read_samples (sa : sparse_array) (hwf : sa.wf)
    (x0 y0 x1 y1 : Nat) (hv : sa.is_region_valid x0 y0 x1 y1 = true)
    (dest : Buffer) (col_stride line_stride : Nat) (forgiving : Bool) :
    ∃ dest1, sa.read x0 y0 x1 y1 dest col_stride line_stride forgiving
        = .ok (true, sa, dest1) ∧
      ((∀ x y a b, in_rect x0 y0 x1 y1 x y → in_rect x0 y0 x1 y1 a b →
          (y - y0) * line_stride + (x - x0) * col_stride
            = (b - y0) * line_stride + (a - x0) * col_stride → x = a ∧ y = b) →
        ∀ x y, in_rect x0 y0 x1 y1 x y →
          dest1 ((y - y0) * line_stride + (x - x0) * col_stride) =
            match sa.data_blocks.getD
              (y / sa.block_height * sa.block_count_hor + x / sa.block_width) none with
            | none => 0
            | some blk => blk.getD (y % sa.block_height * sa.block_width + x % sa.block_width) 0) ∧
      ∀ n, (∀ x y, in_rect x0 y0 x1 y1 x y →
          (y - y0) * line_stride + (x - x0) * col_stride ≠ n) → dest1 n = dest n := by
  obtain ⟨dest1, hread, hwr⟩ := read_writes sa hwf x0 y0 x1 y1 hv dest col_stride line_stride
    forgiving
  refine ⟨dest1, hread, ?_, ?_⟩
  · intro hinj x y hxy
    obtain ⟨⟨a, b⟩, hab, hidx, hval⟩ := (hwr (buf_index x0 y0 col_stride line_stride x y)).1
      ⟨(x, y), hxy, rfl⟩
    simp only at hab hidx hval
    obtain ⟨e1, e2⟩ := hinj x y a b hxy hab hidx.symm
    subst e1 e2
    exact hval
  · intro n hn
    exact (hwr n).2 (fun a ha => hn a.1 a.2 ha)

/-- Witness of the amended C9: the 10×10 array with four allocated blocks, read with
`col_stride = 1` and `line_stride = 10` over `(0,0,10,10)`; these strides separate the
positions of the rectangle. -/
theorem sparse_array_read_samples_witness :
    ∃ dest1, array10_alloc.read 0 0 10 10 (fun _ => 7) 1 10 false
        = .ok (true, array10_alloc, dest1) ∧
      (∀ x y, in_rect 0 0 10 10 x y →
          dest1 ((y - 0) * 10 + (x - 0) * 1) =
            match array10_alloc.data_blocks.getD
              (y / array10_alloc.block_height * array10_alloc.block_count_hor
                + x / array10_alloc.block_width) none with
            | none => 0
            | some blk => blk.getD (y % array10_alloc.block_height * array10_alloc.block_width
                + x % array10_alloc.block_width) 0) ∧
      ∀ n, (∀ x y, in_rect 0 0 10 10 x y → (y - 0) * 10 + (x - 0) * 1 ≠ n) →
        dest1 n = (fun _ => (7 : Int)) n := by
  obtain ⟨dest1, h1, h2, h3⟩ := sparse_array_read_samples array10_alloc (by decide) 0 0 10 10
    (by decide) (fun _ => 7) 1 10 false
  refine ⟨dest1, h1, h2 ?_, h3⟩
  intro x y a b hxy hab h
  simp only [in_rect] at hxy hab
  omega

/-! ### The 5/3 forward kernel -/

theorem row_set_same (a : Row) (i v : Int) : row_set a i v i = v := by
  simp [row_set]

theorem row_set_other (a : Row) (i v n : Int) (h : n ≠ i) : row_set a i v n = a n := by
  simp [row_set, h]

/-- A loop that assigns `a[idx i] = val i a` for `i < N`, with pairwise different indices:
if each assigned value agrees with `spec i` on every row that holds the earlier results and is
otherwise the initial row, the loop leaves `spec i` at `idx i` and nothing else changes. -/
theorem lifting_loop (idx : Nat → Int) (hinj : ∀ i j, idx i = idx j → i = j)
    (val : Nat → Row → Int) (spec : Nat → Int) (a : Row) (N : Nat)
    (hstep : ∀ m t, m < N → (∀ i, i < m → t (idx i) = spec i) →
      (∀ n, (∀ i, i < m → n ≠ idx i) → t n = a n) → val m t = spec m) :
    ∀ m, m ≤ N →
      (∀ i, i < m → for_loop m (fun i t => row_set t (idx i) (val i t)) a (idx i) = spec i) ∧
      (∀ n, (∀ i, i < m → n ≠ idx i) →
        for_loop m (fun i t => row_set t (idx i) (val i t)) a n = a n) := by
  intro m
  induction m with
  | zero =>
    intro _
    exact ⟨fun i hi => absurd hi (Nat.not_lt_zero i), fun n _ => rfl⟩
  | succ m ih =>
    intro hm
    obtain ⟨ih1, ih2⟩ := ih (by omega)
    rw [for_loop_succ]
    constructor
    · intro i hi
      by_cases e : i = m
      · subst e
        rw [row_set_same]
        exact hstep i _ (by omega) ih1 ih2
      · rw [row_set_other _ _ _ _ (fun h => e (hinj i m h))]
        exact ih1 i (by omega)
    · intro n hn
      rw [row_set_other _ _ _ _ (hn m (by omega))]
      exact ih2 n (fun i hi => hn i (by omega))

theorem cas0_first_step (a t : Row) (s_n d_n m : Nat) (hsd : d_n ≤ s_n) (hm : m < d_n)
    (h2 : ∀ n : Int, (∀ i : Nat, i < m → n ≠ 1 + 2 * (i : Int)) → t n = a n) :
    wrap32 (GROK_D t m - (wrap32 (GROK_S_ t s_n m + GROK_S_ t s_n ((m : Int) + 1))) >>> 1)
      = spec_D0 a s_n m := by
  have hD : GROK_D t (m : Int) = a (2 * (m : Int) + 1) := by
    unfold GROK_D
    rw [h2 _ (fun i hi => by omega)]
    congr 1; omega
  have hS1 : GROK_S_ t (s_n : Int) (m : Int) = a (2 * (m : Int)) := by
    unfold GROK_S_ GROK_S
    rw [if_neg (by omega), if_neg (by omega)]
    exact h2 _ (fun i hi => by omega)
  have hS2 : GROK_S_ t (s_n : Int) ((m : Int) + 1)
      = a (2 * ((min (m + 1) (s_n - 1) : Nat) : Int)) := by
    unfold GROK_S_ GROK_S
    rw [if_neg (by omega)]
    by_cases h : (m : Int) + 1 ≥ (s_n : Int)
    · rw [if_pos h, h2 _ (fun i hi => by omega)]
      congr 1; omega
    · rw [if_neg h, h2 _ (fun i hi => by omega)]
      congr 1; omega
  rw [hD, hS1, hS2]
  rfl

theorem cas0_second_step (a t : Row) (s_n d_n m : Nat) (hsd : d_n ≤ s_n) (hds : s_n ≤ d_n + 1)
    (hd : 0 < d_n) (hm : m < s_n)
    (hodd : ∀ j : Nat, j < d_n → t (1 + 2 * (j : Int)) = spec_D0 a s_n j)
    (heven : t (2 * (m : Int)) = a (2 * (m : Int))) :
    wrap32 (GROK_S t m +
        (wrap32 (wrap32 (GROK_D_ t d_n ((m : Int) - 1) + GROK_D_ t d_n m) + 2)) >>> 2)
      = spec_S0 a s_n d_n m := by
  have hD1 : GROK_D_ t (d_n : Int) ((m : Int) - 1) = spec_D0 a s_n (max (m - 1) 0) := by
    unfold GROK_D_ GROK_D
    by_cases h : (m : Int) - 1 < 0
    · rw [if_pos h]
      have e0 : (1 : Int) + 2 * 0 = 1 + 2 * ((0 : Nat) : Int) := by simp
      rw [e0, hodd 0 hd]
      congr 1; omega
    · rw [if_neg h, if_neg (by omega)]
      have e1 : (1 : Int) + 2 * ((m : Int) - 1) = 1 + 2 * ((m - 1 : Nat) : Int) := by omega
      rw [e1, hodd (m - 1) (by omega)]
      congr 1; omega
  have hD2 : GROK_D_ t (d_n : Int) (m : Int) = spec_D0 a s_n (min m (d_n - 1)) := by
    unfold GROK_D_ GROK_D
    rw [if_neg (by omega)]
    by_cases h : (m : Int) ≥ (d_n : Int)
    · rw [if_pos h]
      have e1 : (1 : Int) + 2 * ((d_n : Int) - 1) = 1 + 2 * ((d_n - 1 : Nat) : Int) := by omega
      rw [e1, hodd (d_n - 1) (by omega)]
      congr 1; omega
    · rw [if_neg h, hodd m (by omega)]
      congr 1; omega
  have hS : GROK_S t (m : Int) = a (2 * (m : Int)) := heven
  rw [hS, hD1, hD2]
  rfl

/-- The kernel for `cas = 0` on counts with `d_n ≤ s_n ≤ d_n + 1`. -/
theorem encode_line_cas0 (a : Row) (s_n d_n : Nat) (hsd : d_n ≤ s_n) (hds : s_n ≤ d_n + 1) :
    (0 < d_n →
      (∀ i, i < d_n → encode_line a d_n s_n 0 (2 * (i : Int) + 1) = spec_D0 a s_n i) ∧
      (∀ i, i < s_n → encode_line a d_n s_n 0 (2 * (i : Int)) = spec_S0 a s_n d_n i) ∧
      (∀ n : Int, n < 0 ∨ (s_n : Int) + d_n ≤ n → encode_line a d_n s_n 0 n = a n)) ∧
    (d_n = 0 → encode_line a d_n s_n 0 = a) := by
  constructor
  · intro hd
    have hcond : ((d_n : Int) > 0 ∨ (s_n : Int) > 1) := Or.inl (by omega)
    obtain ⟨f1, f2⟩ := lifting_loop (fun i => 1 + 2 * (i : Int)) (fun i j h => by beta_reduce at h; omega)
      (fun i t => wrap32 (GROK_D t i -
        (wrap32 (GROK_S_ t s_n i + GROK_S_ t s_n ((i : Int) + 1))) >>> 1))
      (spec_D0 a s_n) a d_n
      (fun m t hm _ h2 => cas0_first_step a t s_n d_n m hsd hm h2) d_n (Nat.le_refl _)
    obtain ⟨g1, g2⟩ := lifting_loop (fun i => 2 * (i : Int)) (fun i j h => by beta_reduce at h; omega)
      (fun i t => wrap32 (GROK_S t i +
        (wrap32 (wrap32 (GROK_D_ t d_n ((i : Int) - 1) + GROK_D_ t d_n i) + 2)) >>> 2))
      (spec_S0 a s_n d_n)
      (for_loop d_n (fun i t => row_set t (1 + 2 * (i : Int))
        (wrap32 (GROK_D t i -
          (wrap32 (GROK_S_ t s_n i + GROK_S_ t s_n ((i : Int) + 1))) >>> 1))) a) s_n
      (fun m t hm _ h2 => cas0_second_step a t s_n d_n m hsd hds hd hm
        (fun j hj => by
          rw [h2 _ (fun i hi => by beta_reduce; omega)]
          exact f1 j hj)
        (by
          rw [h2 _ (fun i hi => by beta_reduce; omega)]
          exact f2 _ (fun i hi => by omega))) s_n (Nat.le_refl _)
    have hout : encode_line a d_n s_n 0 = for_loop s_n (fun i t => row_set t (2 * (i : Int))
        (wrap32 (GROK_S t i +
          (wrap32 (wrap32 (GROK_D_ t d_n ((i : Int) - 1) + GROK_D_ t d_n i) + 2)) >>> 2)))
        (for_loop d_n (fun i t => row_set t (1 + 2 * (i : Int))
          (wrap32 (GROK_D t i -
            (wrap32 (GROK_S_ t s_n i + GROK_S_ t s_n ((i : Int) + 1))) >>> 1))) a) := by
      simp only [encode_line, if_true, hcond, Int.toNat_ofNat]
    rw [hout]
    refine ⟨?_, g1, ?_⟩
    · intro i hi
      rw [g2 _ (fun j hj => by omega)]
      have e : 2 * (i : Int) + 1 = 1 + 2 * (i : Int) := by omega
      rw [e]
      exact f1 i hi
    · intro n hn
      rw [g2 _ (fun j hj => by omega)]
      exact f2 _ (fun j hj => by omega)
  · intro hd
    have hcond : ¬ ((d_n : Int) > 0 ∨ (s_n : Int) > 1) := by omega
    simp only [encode_line, if_true, hcond, if_false]

theorem cas1_first_step (a t : Row) (s_n d_n m : Nat) (hs : 0 < s_n) (_hm : m < d_n)
    (h2 : ∀ n : Int, (∀ i : Nat, i < m → n ≠ 2 * (i : Int)) → t n = a n) :
    wrap32 (GROK_S t m - (wrap32 (GROK_DD_ t s_n m + GROK_DD_ t s_n ((m : Int) - 1))) >>> 1)
      = spec_S1 a s_n m := by
  have hS : GROK_S t (m : Int) = a (2 * (m : Int)) := by
    unfold GROK_S
    exact h2 _ (fun i hi => by omega)
  have hD1 : GROK_DD_ t (s_n : Int) (m : Int) = a (2 * clamp_index m s_n + 1) := by
    unfold GROK_DD_ GROK_D clamp_index
    rw [if_neg (by omega)]
    by_cases h : (m : Int) ≥ (s_n : Int)
    · rw [if_pos h, h2 _ (fun i hi => by omega)]
      congr 1; omega
    · rw [if_neg h, h2 _ (fun i hi => by omega)]
      congr 1; omega
  have hD2 : GROK_DD_ t (s_n : Int) ((m : Int) - 1)
      = a (2 * clamp_index ((m : Int) - 1) s_n + 1) := by
    unfold GROK_DD_ GROK_D clamp_index
    by_cases h0 : (m : Int) - 1 < 0
    · rw [if_pos h0, h2 _ (fun i hi => by omega)]
      congr 1; omega
    · rw [if_neg h0]
      by_cases h : (m : Int) - 1 ≥ (s_n : Int)
      · rw [if_pos h, h2 _ (fun i hi => by omega)]
        congr 1; omega
      · rw [if_neg h, h2 _ (fun i hi => by omega)]
        congr 1; omega
  rw [hS, hD1, hD2]
  rfl

theorem cas1_second_step (a t : Row) (s_n d_n m : Nat) (hsd : s_n ≤ d_n) (hm : m < s_n)
    (heven : ∀ j : Nat, j < d_n → t (2 * (j : Int)) = spec_S1 a s_n j)
    (hodd : t (1 + 2 * (m : Int)) = a (2 * (m : Int) + 1)) :
    wrap32 (GROK_D t m +
        (wrap32 (wrap32 (GROK_SS_ t d_n m + GROK_SS_ t d_n ((m : Int) + 1)) + 2)) >>> 2)
      = spec_D1 a s_n d_n m := by
  have hD : GROK_D t (m : Int) = a (2 * (m : Int) + 1) := hodd
  have hS1 : GROK_SS_ t (d_n : Int) (m : Int)
      = spec_S1 a s_n (clamp_index m d_n).toNat := by
    unfold GROK_SS_ GROK_S
    rw [if_neg (by omega), if_neg (by omega), heven m (by omega)]
    congr 1
    unfold clamp_index; omega
  have hS2 : GROK_SS_ t (d_n : Int) ((m : Int) + 1)
      = spec_S1 a s_n (clamp_index ((m : Int) + 1) d_n).toNat := by
    unfold GROK_SS_ GROK_S
    rw [if_neg (by omega)]
    by_cases h : (m : Int) + 1 ≥ (d_n : Int)
    · rw [if_pos h]
      have e1 : (2 : Int) * ((d_n : Int) - 1) = 2 * ((d_n - 1 : Nat) : Int) := by omega
      rw [e1, heven (d_n - 1) (by omega)]
      congr 1
      unfold clamp_index; omega
    · rw [if_neg h]
      have e1 : (2 : Int) * ((m : Int) + 1) = 2 * ((m + 1 : Nat) : Int) := by omega
      rw [e1, heven (m + 1) (by omega)]
      congr 1
      unfold clamp_index; omega
  rw [hD, hS1, hS2]
  rfl

/-- The kernel for `cas = 1` on counts with `s_n ≤ d_n ≤ s_n + 1`. -/
theorem encode_line_cas1 (a : Row) (s_n d_n : Nat) (hsd : s_n ≤ d_n) (hds : d_n ≤ s_n + 1) :
    (s_n = 0 ∧ d_n = 1 →
      encode_line a d_n s_n 1 0 = wrap32 (a 0 <<< (1 : Int)) ∧
      ∀ n : Int, n ≠ 0 → encode_line a d_n s_n 1 n = a n) ∧
    (¬ (s_n = 0 ∧ d_n = 1) →
      (∀ i, i < d_n → encode_line a d_n s_n 1 (2 * (i : Int)) = spec_S1 a s_n i) ∧
      (∀ i, i < s_n → encode_line a d_n s_n 1 (2 * (i : Int) + 1) = spec_D1 a s_n d_n i) ∧
      (∀ n : Int, n < 0 ∨ (s_n : Int) + d_n ≤ n → encode_line a d_n s_n 1 n = a n)) := by
  constructor
  · rintro ⟨hs, hd⟩
    subst hs hd
    have hout : encode_line a ((1 : Nat) : Int) ((0 : Nat) : Int) 1
        = row_set a 0 (wrap32 (GROK_S a 0 <<< (1 : Int))) := by
      simp [encode_line]
    rw [hout]
    refine ⟨?_, fun n hn => row_set_other _ _ _ _ hn⟩
    rw [row_set_same]
    rfl
  · intro hne
    have hcond : ¬ ((s_n : Int) = 0 ∧ (d_n : Int) = 1) := by omega
    have hout : encode_line a d_n s_n 1 = for_loop s_n (fun i t => row_set t (1 + 2 * (i : Int))
        (wrap32 (GROK_D t i +
          (wrap32 (wrap32 (GROK_SS_ t d_n i + GROK_SS_ t d_n ((i : Int) + 1)) + 2)) >>> 2)))
        (for_loop d_n (fun i t => row_set t (2 * (i : Int))
          (wrap32 (GROK_S t i -
            (wrap32 (GROK_DD_ t s_n i + GROK_DD_ t s_n ((i : Int) - 1))) >>> 1))) a) := by
      simp only [encode_line, hcond, if_false, Int.toNat_ofNat]
      rfl
    rw [hout]
    by_cases hs : s_n = 0
    · have hd : d_n = 0 := by omega
      subst hs hd
      refine ⟨fun i hi => absurd hi (Nat.not_lt_zero i),
        fun i hi => absurd hi (Nat.not_lt_zero i), fun n _ => rfl⟩
    · have hs0 : 0 < s_n := Nat.pos_of_ne_zero hs
      obtain ⟨f1, f2⟩ := lifting_loop (fun i => 2 * (i : Int))
        (fun i j h => by beta_reduce at h; omega)
        (fun i t => wrap32 (GROK_S t i -
          (wrap32 (GROK_DD_ t s_n i + GROK_DD_ t s_n ((i : Int) - 1))) >>> 1))
        (spec_S1 a s_n) a d_n
        (fun m t hm _ h2 => cas1_first_step a t s_n d_n m hs0 hm h2) d_n (Nat.le_refl _)
      obtain ⟨g1, g2⟩ := lifting_loop (fun i => 1 + 2 * (i : Int))
        (fun i j h => by beta_reduce at h; omega)
        (fun i t => wrap32 (GROK_D t i +
          (wrap32 (wrap32 (GROK_SS_ t d_n i + GROK_SS_ t d_n ((i : Int) + 1)) + 2)) >>> 2))
        (spec_D1 a s_n d_n)
        (for_loop d_n (fun i t => row_set t (2 * (i : Int))
          (wrap32 (GROK_S t i -
            (wrap32 (GROK_DD_ t s_n i + GROK_DD_ t s_n ((i : Int) - 1))) >>> 1))) a) s_n
        (fun m t hm _ h2 => cas1_second_step a t s_n d_n m hsd hm
          (fun j hj => by
            rw [h2 _ (fun i hi => by beta_reduce; omega)]
            exact f1 j hj)
          (by
            rw [h2 _ (fun i hi => by beta_reduce; omega)]
            have e : 2 * (m : Int) + 1 = 1 + 2 * (m : Int) := by omega
            rw [e]
            exact f2 _ (fun i hi => by omega))) s_n (Nat.le_refl _)
      refine ⟨?_, ?_, ?_⟩
      · intro i hi
        rw [g2 _ (fun j hj => by omega)]
        exact f1 i hi
      · intro i hi
        have e : 2 * (i : Int) + 1 = 1 + 2 * (i : Int) := by omega
        rw [e]
        exact g1 i hi
      · intro n hn
        rw [g2 _ (fun j hj => by omega)]
        exact f2 _ (fun j hj => by omega)

/-- C5 (5/3 kernel, `cas = 0`). For a row of width `w` with `s_n = ⌈w/2⌉`, `d_n = ⌊w/2⌋`:
if `d_n > 0` or `s_n > 1`, `encode_line` leaves at `a[2i+1]`, `i < d_n`, the value
`D(i) - ((S(i) + S(min(i+1, s_n-1))) >> 1)` computed from the original samples, and at
`a[2i]`, `i < s_n`, the value `S(i) + ((D'(max(i-1,0)) + D'(min(i, d_n-1)) + 2) >> 2)`
computed from the updated `D'`; if `d_n = 0` and `s_n ≤ 1` the row is unchanged. Nothing
outside the row changes. Arithmetic is that of `int32_t`, `>>` is the floor shift. -/
theorem encode_line_cas0_formula (a : Row) (w : Nat) :
    ((0 < parity_d_n w 0 ∨ 1 < parity_s_n w 0) →
      (∀ i, i < parity_d_n w 0 →
        encode_line a (parity_d_n w 0) (parity_s_n w 0) 0 (2 * (i : Int) + 1)
          = spec_D0 a (parity_s_n w 0) i) ∧
      (∀ i, i < parity_s_n w 0 →
        encode_line a (parity_d_n w 0) (parity_s_n w 0) 0 (2 * (i : Int))
          = spec_S0 a (parity_s_n w 0) (parity_d_n w 0) i)) ∧
    ((parity_d_n w 0 = 0 ∧ parity_s_n w 0 ≤ 1) →
      encode_line a (parity_d_n w 0) (parity_s_n w 0) 0 = a) ∧
    (∀ n : Int, n < 0 ∨ (w : Int) ≤ n →
      encode_line a (parity_d_n w 0) (parity_s_n w 0) 0 n = a n) := by
  have hs : parity_s_n w 0 = (w + 1) / 2 := by simp [parity_s_n]
  have hd : parity_d_n w 0 = w / 2 := by simp [parity_d_n]
  obtain ⟨h1, h2⟩ := encode_line_cas0 a (parity_s_n w 0) (parity_d_n w 0) (by omega) (by omega)
  refine ⟨?_, ?_, ?_⟩
  · intro hcond
    obtain ⟨k1, k2, _⟩ := h1 (by omega)
    exact ⟨k1, k2⟩
  · rintro ⟨hd0, _⟩
    exact h2 hd0
  · intro n hn
    by_cases hd0 : parity_d_n w 0 = 0
    · rw [h2 hd0]
    · exact (h1 (by omega)).2.2 n (by omega)

/-- Witness of C5: the row `[10,0,20,0,30,0,40,0]` with `s_n = d_n = 4` becomes
`[3,-15,10,-25,15,-35,21,-40]`. -/
theorem encode_line_cas0_formula_witness :
    row_take (encode_line (row_of [10, 0, 20, 0, 30, 0, 40, 0]) (parity_d_n 8 0)
      (parity_s_n 8 0) 0) 8 = [3, -15, 10, -25, 15, -35, 21, -40] ∧
    encode_line (row_of [10, 0, 20, 0, 30, 0, 40, 0]) (parity_d_n 8 0) (parity_s_n 8 0) 0
      (2 * ((3 : Nat) : Int) + 1) = -40 ∧
    encode_line (row_of [10, 0, 20, 0, 30, 0, 40, 0]) (parity_d_n 8 0) (parity_s_n 8 0) 0
      (2 * ((3 : Nat) : Int)) = 21 :=
  ⟨by decide,
    (((encode_line_cas0_formula (row_of [10, 0, 20, 0, 30, 0, 40, 0]) 8).1
      (Or.inl (by decide))).1 3 (by decide)).trans (by decide),
    (((encode_line_cas0_formula (row_of [10, 0, 20, 0, 30, 0, 40, 0]) 8).1
      (Or.inl (by decide))).2 3 (by decide)).trans (by decide)⟩

/-- C6 (5/3 kernel, `cas = 1`). For a row of width `w` with `s_n = ⌊w/2⌋`, `d_n = ⌈w/2⌉`:
if `s_n = 0` and `d_n = 1` the single sample is doubled (`a[0] <<= 1`); otherwise
`encode_line` leaves at `a[2i]`, `i < d_n`, the value
`a[2i] - ((D(clamp(i,0,s_n-1)) + D(clamp(i-1,0,s_n-1))) >> 1)` computed from the original
odd-position samples, and at `a[2i+1]`, `i < s_n`, the value
`a[2i+1] + ((S'(clamp(i,0,d_n-1)) + S'(clamp(i+1,0,d_n-1)) + 2) >> 2)` computed from the
updated even-position samples. Nothing outside the row changes. Arithmetic is that of
`int32_t`. -/
theorem encode_line_cas1_formula (a : Row) (w : Nat) :
    ((parity_s_n w 1 = 0 ∧ parity_d_n w 1 = 1) →
      encode_line a (parity_d_n w 1) (parity_s_n w 1) 1 0 = wrap32 (a 0 <<< (1 : Int))) ∧
    (¬ (parity_s_n w 1 = 0 ∧ parity_d_n w 1 = 1) →
      (∀ i, i < parity_d_n w 1 →
        encode_line a (parity_d_n w 1) (parity_s_n w 1) 1 (2 * (i : Int))
          = spec_S1 a (parity_s_n w 1) i) ∧
      (∀ i, i < parity_s_n w 1 →
        encode_line a (parity_d_n w 1) (parity_s_n w 1) 1 (2 * (i : Int) + 1)
          = spec_D1 a (parity_s_n w 1) (parity_d_n w 1) i)) ∧
    (∀ n : Int, n < 0 ∨ (w : Int) ≤ n →
      encode_line a (parity_d_n w 1) (parity_s_n w 1) 1 n = a n) := by
  have hs : parity_s_n w 1 = w / 2 := by simp [parity_s_n]
  have hd : parity_d_n w 1 = (w + 1) / 2 := by simp [parity_d_n]
  obtain ⟨h1, h2⟩ := encode_line_cas1 a (parity_s_n w 1) (parity_d_n w 1) (by omega) (by omega)
  refine ⟨?_, ?_, ?_⟩
  · intro hcond
    exact (h1 hcond).1
  · intro hcond
    obtain ⟨k1, k2, _⟩ := h2 hcond
    exact ⟨k1, k2⟩
  · intro n hn
    by_cases hcond : parity_s_n w 1 = 0 ∧ parity_d_n w 1 = 1
    · exact (h1 hcond).2 n (by omega)
    · exact (h2 hcond).2.2 n (by omega)

/-- Witness of C6: the single-sample row `[5]` is doubled, and the row
`[10,4,20,6,30,8,40]` (`s_n = 3`, `d_n = 4`) becomes `[6,9,15,16,23,22,32]`. -/
theorem encode_line_cas1_formula_witness :
    encode_line (row_of [5]) (parity_d_n 1 1) (parity_s_n 1 1) 1 0 = 10 ∧
    row_take (encode_line (row_of [10, 4, 20, 6, 30, 8, 40]) (parity_d_n 7 1)
      (parity_s_n 7 1) 1) 7 = [6, 9, 15, 16, 23, 22, 32] ∧
    encode_line (row_of [10, 4, 20, 6, 30, 8, 40]) (parity_d_n 7 1) (parity_s_n 7 1) 1
      (2 * ((1 : Nat) : Int) + 1) = 16 :=
  ⟨((encode_line_cas1_formula (row_of [5]) 1).1 (by decide)).trans (by decide),
    by decide,
    (((encode_line_cas1_formula (row_of [10, 4, 20, 6, 30, 8, 40]) 7).2.1 (by decide)).2 1
      (by decide)).trans (by decide)⟩

/-! ### The T1 scheduler -/

theorem sum_map_set {α M : Type} [AddCommGroup M] (f : α → M) (l : List α) (d x : α) :
    ∀ (t : Nat), t < l.length →
      ((l.set t x).map f).sum = (l.map f).sum - f (l.getD t d) + f x := by
  induction l with
  | nil => intro t ht; simp at ht
  | cons a l ih =>
    intro t ht
    cases t with
    | zero => simp [List.set]; abel
    | succ t =>
      have := ih t (by simpa using ht)
      simp only [List.set, List.map_cons, List.sum_cons, List.getD_cons_succ, this]
      abel

theorem lt_length_of_getD_task (tasks : List TaskState) (t : Nat) (s : TaskState)
    (h : tasks.getD t .finished = s) (hs : s ≠ .finished) : t < tasks.length := by
  by_contra hn
  have : tasks[t]? = none := by rw [List.getElem?_eq_none]; omega
  rw [List.getD_eq_getElem?_getD, this] at h
  exact hs h.symm

theorem getD_set_task (tasks : List TaskState) (t u : Nat) (s : TaskState)
    (ht : t < tasks.length) :
    (tasks.set t s).getD u .finished = if u = t then s else tasks.getD u .finished := by
  by_cases e : u = t
  · subst e
    simp [List.getD_eq_getElem?_getD, List.getElem?_set, ht]
  · have e2 : t ≠ u := fun h => e h.symm
    simp [List.getD_eq_getElem?_getD, List.getElem?_set, e, e2]

theorem held_sum_set (w : Nat → ℚ) (tasks : List TaskState) (t : Nat) (s : TaskState)
    (ht : t < tasks.length) :
    held_sum w (tasks.set t s) = held_sum w tasks
      - (match tasks.getD t .finished with | .holding i => w i | _ => 0)
      + (match s with | .holding i => w i | _ => 0) := by
  unfold held_sum
  exact sum_map_set _ tasks .finished s t ht

theorem fin_count_set (tasks : List TaskState) (t : Nat) (s : TaskState)
    (ht : t < tasks.length) :
    fin_count (tasks.set t s) = fin_count tasks
      - (match tasks.getD t .finished with | .finished => (1 : Int) | _ => 0)
      + (match s with | .finished => (1 : Int) | _ => 0) := by
  unfold fin_count
  exact sum_map_set _ tasks .finished s t ht

theorem batch_sum_succ (g : Job → ℚ) (bs : List Job) (n : Nat) :
    batch_sum g bs (n + 1) = batch_sum g bs n + g (bs.getD n 0) := by
  simp [batch_sum, List.range_succ]

theorem coded_sum_append (g : Job → ℚ) (coded : List (Nat × Job)) (p : Nat × Job) :
    coded_sum g (coded ++ [p]) = coded_sum g coded + g p.2 := by
  simp [coded_sum]

theorem batch_sum_all (g : Job → ℚ) (bs : List Job) :
    batch_sum g bs bs.length = (bs.map g).sum := by
  unfold batch_sum
  congr 1
  apply List.ext_getElem
  · simp
  · intro i h1 h2
    simp only [List.getElem_map, List.getElem_range]
    congr 1
    simp only [List.length_map, List.length_range] at h1
    rw [List.getD_eq_getElem bs 0 h1]

/-- Every atomic step of a task keeps the pool invariant. -/
theorem pool_step_inv (dist : Job → ℚ) (bs : List Job) (rc : Bool) (T : Nat) (d0 : ℚ)
    (coded0 : List (Nat × Job)) (hsize : bs.length + T < UINT64_RANGE)
    (st : PoolState) (t : Nat) (h : PoolInv dist bs rc T d0 coded0 st) :
    PoolInv dist bs rc T d0 coded0 (pool_step dist bs bs.length st t) := by
  obtain ⟨h0, hlen, hle, hfin, hheld, hsum, hrc, hnt, hdist, hpast⟩ := h
  unfold pool_step
  cases hs : st.tasks.getD t .finished with
  | finished => exact ⟨h0, hlen, hle, hfin, hheld, hsum, hrc, hnt, hdist, hpast⟩
  | running =>
    have ht : t < st.tasks.length := lt_length_of_getD_task _ t _ hs (by simp)
    have hidx : ((st.enc.blockCount + 1) % (UINT64_RANGE : Int)).toNat
        = (st.enc.blockCount + 1).toNat := by
      congr 1
      apply Int.emod_eq_of_lt h0
      have : (UINT64_RANGE : Int) = ((UINT64_RANGE : Nat) : Int) := rfl
      omega
    simp only [hidx]
    by_cases hge : (st.enc.blockCount + 1).toNat ≥ bs.length
    · simp only [hge, if_true]
      have hf := fin_count_set st.tasks t .finished ht
      rw [hs] at hf
      simp only at hf
      refine ⟨by simp only; omega, by simp [hlen], by simp only; omega, ?_, ?_, ?_, hrc, hnt,
        hdist, ?_⟩
      · -- at most `T` tasks are finished
        have hcnt : fin_count (st.tasks.set t .finished) ≤ ((st.tasks.set t .finished).length
            : Int) := by
          unfold fin_count
          generalize st.tasks.set t .finished = l
          induction l with
          | nil => simp
          | cons a l ih =>
            simp only [List.map_cons, List.sum_cons, List.length_cons, Nat.cast_add,
              Nat.cast_one]
            cases a <;> simp <;> omega
        simp only [List.length_set, hlen] at hcnt
        exact hcnt
      · intro u i hu
        simp only at hu
        rw [getD_set_task _ t u _ ht] at hu
        by_cases e : u = t
        · rw [if_pos e] at hu; cases hu
        · rw [if_neg e] at hu; exact hheld u i hu
      · intro g
        have hh := held_sum_set (fun i => g (bs.getD i 0)) st.tasks t .finished ht
        rw [hs] at hh
        simp only at hh
        dsimp only
        rw [hh]
        have e1 : min (st.enc.blockCount + 1 + 1).toNat bs.length
            = min (st.enc.blockCount + 1).toNat bs.length := by omega
        rw [e1]
        have := hsum g
        rw [sub_zero, add_zero]
        exact this
      · intro _
        simp only
        omega
    · simp only [hge, if_false]
      have hf := fin_count_set st.tasks t (.holding (st.enc.blockCount + 1).toNat) ht
      rw [hs] at hf
      simp only at hf
      refine ⟨by simp only; omega, by simp [hlen], ?_, ?_, ?_, ?_, hrc, hnt, hdist, ?_⟩
      · simp only
        rw [hf]
        have : 0 ≤ fin_count st.tasks := by
          unfold fin_count
          apply List.sum_nonneg
          intro x hx
          simp only [List.mem_map] at hx
          obtain ⟨a, _, rfl⟩ := hx
          cases a <;> simp
        omega
      · simp only
        rw [hf]
        simpa using hfin
      · intro u i hu
        simp only at hu
        rw [getD_set_task _ t u _ ht] at hu
        by_cases e : u = t
        · rw [if_pos e] at hu
          cases hu
          omega
        · rw [if_neg e] at hu; exact hheld u i hu
      · intro g
        have hh := held_sum_set (fun i => g (bs.getD i 0)) st.tasks t
          (.holding (st.enc.blockCount + 1).toNat) ht
        rw [hs] at hh
        simp only at hh
        dsimp only
        rw [hh]
        have e1 : min (st.enc.blockCount + 1 + 1).toNat bs.length
            = (st.enc.blockCount + 1).toNat + 1 := by omega
        have e2 : min (st.enc.blockCount + 1).toNat bs.length
            = (st.enc.blockCount + 1).toNat := by omega
        have := hsum g
        rw [e2] at this
        rw [e1, batch_sum_succ]
        linear_combination this
      · intro hpos
        simp only at hpos ⊢
        rw [hf] at hpos
        have := hpast (by simpa using hpos)
        omega
  | holding i =>
    have ht : t < st.tasks.length := lt_length_of_getD_task _ t _ hs (by simp)
    have hi : i < bs.length := hheld t i hs
    have hget : bs.get? i = some (bs.getD i 0) := by
      rw [List.get?_eq_getElem?, List.getD_eq_getElem bs 0 hi, List.getElem?_eq_getElem hi]
    simp only [hget]
    have hf := fin_count_set st.tasks t .running ht
    rw [hs] at hf
    simp only at hf
    have hh : ∀ g : Job → ℚ, held_sum (fun i => g (bs.getD i 0)) (st.tasks.set t .running)
        = held_sum (fun i => g (bs.getD i 0)) st.tasks - g (bs.getD i 0) := by
      intro g
      have := held_sum_set (fun i => g (bs.getD i 0)) st.tasks t .running ht
      rw [hs] at this
      simp only at this
      linarith
    have hcoded : (st.enc.compress_block dist t (bs.getD i 0)).coded
        = st.enc.coded ++ [(t, bs.getD i 0)] := by
      unfold T1Encoder.compress_block
      simp only
      split <;> rfl
    have hcount : (st.enc.compress_block dist t (bs.getD i 0)).blockCount
        = st.enc.blockCount := by
      unfold T1Encoder.compress_block
      simp only
      split <;> rfl
    have hrc2 : (st.enc.compress_block dist t (bs.getD i 0)).needsRateControl
        = st.enc.needsRateControl := by
      unfold T1Encoder.compress_block
      simp only
      split <;> rfl
    have hnt2 : (st.enc.compress_block dist t (bs.getD i 0)).num_threads
        = st.enc.num_threads := by
      unfold T1Encoder.compress_block
      simp only
      split <;> rfl
    have hd2 : (st.enc.compress_block dist t (bs.getD i 0)).distotile
        = st.enc.distotile + (if rc then dist (bs.getD i 0) else 0) := by
      unfold T1Encoder.compress_block
      simp only
      rw [hrc]
      cases rc <;> simp
    refine ⟨by simp only [hcount]; exact h0, by simp [hlen], ?_, ?_, ?_, ?_,
      by simp only [hrc2]; exact hrc, by simp only [hnt2]; exact hnt, ?_, ?_⟩
    · simp only [hcount]
      rw [hf]
      simpa using hle
    · simp only
      rw [hf]
      simpa using hfin
    · intro u j hu
      simp only at hu
      rw [getD_set_task _ t u _ ht] at hu
      by_cases e : u = t
      · rw [if_pos e] at hu; cases hu
      · rw [if_neg e] at hu; exact hheld u j hu
    · intro g
      simp only [hcount, hcoded]
      rw [hh g, coded_sum_append]
      have := hsum g
      simp only
      linarith
    · simp only [hd2, hcoded]
      rw [coded_sum_append, hdist]
      cases rc <;> simp
      ring
    · intro hpos
      simp only [hcount] at hpos ⊢
      rw [hf] at hpos
      exact hpast (by simpa using hpos)

theorem pool_run_inv (dist : Job → ℚ) (bs : List Job) (rc : Bool) (T : Nat) (d0 : ℚ)
    (coded0 : List (Nat × Job)) (hsize : bs.length + T < UINT64_RANGE)
    (schedule : List Nat) :
    ∀ st, PoolInv dist bs rc T d0 coded0 st →
      PoolInv dist bs rc T d0 coded0 (schedule.foldl (pool_step dist bs bs.length) st) := by
  induction schedule with
  | nil => intro st h; exact h
  | cons t rest ih =>
    intro st h
    exact ih _ (pool_step_inv dist bs rc T d0 coded0 hsize st t h)

theorem held_sum_replicate_running (w : Nat → ℚ) (n : Nat) :
    held_sum w (List.replicate n .running) = 0 := by
  unfold held_sum
  induction n with
  | zero => simp
  | succ n ih => simp [List.replicate_succ, ih]

theorem fin_count_replicate_running (n : Nat) :
    fin_count (List.replicate n .running) = 0 := by
  unfold fin_count
  induction n with
  | zero => simp
  | succ n ih => simp [List.replicate_succ, ih]

theorem pool_init_inv (dist : Job → ℚ) (bs : List Job) (enc : T1Encoder)
    (hcount : enc.blockCount = -1) :
    PoolInv dist bs enc.needsRateControl enc.num_threads enc.distotile enc.coded
      { enc := enc, tasks := List.replicate enc.num_threads .running } := by
  refine ⟨by simp [hcount], by simp, ?_, ?_, ?_, ?_, rfl, rfl, ?_, ?_⟩
  · simp only [hcount, fin_count_replicate_running]
    omega
  · simp only [fin_count_replicate_running]
    omega
  · intro t i h
    rw [List.getD_eq_getElem?_getD] at h
    cases hg : (List.replicate enc.num_threads TaskState.running)[t]? with
    | none => rw [hg] at h; cases h
    | some v =>
      have := List.getElem?_mem hg
      simp only [List.mem_replicate] at this
      rw [hg, this.2] at h
      cases h
  · intro g
    simp [hcount, held_sum_replicate_running, batch_sum]
  · cases enc.needsRateControl <;> simp
  · simp only [fin_count_replicate_running]
    intro h
    exact absurd h (by omega)

theorem all_finished_sums (tasks : List TaskState)
    (hall : tasks.all (fun t => decide (t = .finished)) = true) (w : Nat → ℚ) :
    held_sum w tasks = 0 ∧ fin_count tasks = tasks.length := by
  unfold held_sum fin_count
  induction tasks with
  | nil => simp
  | cons a l ih =>
    simp only [List.all_cons, Bool.and_eq_true, decide_eq_true_eq] at hall
    obtain ⟨ha, hl⟩ := hall
    obtain ⟨i1, i2⟩ := ih hl
    subst ha
    simp only [List.map_cons, List.sum_cons, List.length_cons, i1, i2]
    constructor
    · simp
    · push_cast; ring

theorem compress_block_fold (dist : Job → ℚ) (bs : List Job) :
    ∀ enc : T1Encoder,
      (∀ g : Job → ℚ, coded_sum g (bs.foldl (fun e b => e.compress_block dist 0 b) enc).coded
        = coded_sum g enc.coded + (bs.map g).sum) ∧
      (bs.foldl (fun e b => e.compress_block dist 0 b) enc).coded
        = enc.coded ++ bs.map (fun b => (0, b)) ∧
      (bs.foldl (fun e b => e.compress_block dist 0 b) enc).distotile
        = (if enc.needsRateControl then bs.foldl (fun acc b => acc + dist b) enc.distotile
            else enc.distotile) ∧
      (bs.foldl (fun e b => e.compress_block dist 0 b) enc).needsRateControl
        = enc.needsRateControl ∧
      (bs.foldl (fun e b => e.compress_block dist 0 b) enc).blockCount = enc.blockCount ∧
      (bs.foldl (fun e b => e.compress_block dist 0 b) enc).num_threads = enc.num_threads := by
  induction bs with
  | nil => intro enc; simp
  | cons b rest ih =>
    intro enc
    obtain ⟨h1, h2, h3, h4, h5, h6⟩ := ih (enc.compress_block dist 0 b)
    simp only [List.foldl_cons]
    have hc : (enc.compress_block dist 0 b).coded = enc.coded ++ [(0, b)] := by
      unfold T1Encoder.compress_block; simp only; split <;> rfl
    have hr : (enc.compress_block dist 0 b).needsRateControl = enc.needsRateControl := by
      unfold T1Encoder.compress_block; simp only; split <;> rfl
    have hb : (enc.compress_block dist 0 b).blockCount = enc.blockCount := by
      unfold T1Encoder.compress_block; simp only; split <;> rfl
    have hn : (enc.compress_block dist 0 b).num_threads = enc.num_threads := by
      unfold T1Encoder.compress_block; simp only; split <;> rfl
    have hd : (enc.compress_block dist 0 b).distotile
        = if enc.needsRateControl then enc.distotile + dist b else enc.distotile := by
      unfold T1Encoder.compress_block; simp only; split <;> rfl
    refine ⟨?_, ?_, ?_, h4.trans hr, h5.trans hb, h6.trans hn⟩
    · intro g
      rw [h1 g, hc, coded_sum_append]
      simp only [List.map_cons, List.sum_cons]
      ring
    · rw [h2, hc]
      simp
    · rw [h3, hr, hd]
      cases enc.needsRateControl <;> simp

theorem foldl_add_eq (dist : Job → ℚ) (bs : List Job) :
    ∀ d0 : ℚ, bs.foldl (fun acc b => acc + dist b) d0 = d0 + (bs.map dist).sum := by
  induction bs with
  | nil => intro d0; simp
  | cons b rest ih =>
    intro d0
    simp only [List.foldl_cons, List.map_cons, List.sum_cons, ih]
    ring

/-- On an encoder whose cursor is `-1` (as the constructor leaves it), whenever `compress`
returns, under one thread or under any interleaving of several, the block coder has been
called on the jobs of the batch, each as often as it occurs in the batch, and with rate
control the accumulator has grown by the sum of their distortions; the flag and the number of
threads are unchanged. -/
theorem compress_first_batch (dist : Job → ℚ) (enc enc1 : T1Encoder) (bs : List Job)
    (schedule : List Nat) (hcount : enc.blockCount = -1) (hT : 1 ≤ enc.num_threads)
    (hsize : bs.length + enc.num_threads < UINT64_RANGE)
    (hret : enc.compress dist (some bs) schedule = some enc1) :
    (∀ g : Job → ℚ, coded_sum g enc1.coded = coded_sum g enc.coded + (bs.map g).sum) ∧
    enc1.distotile
      = enc.distotile + (if enc.needsRateControl then (bs.map dist).sum else 0) ∧
    enc1.needsRateControl = enc.needsRateControl ∧ enc1.num_threads = enc.num_threads := by
  unfold T1Encoder.compress at hret
  simp only at hret
  split at hret
  · rename_i h0
    cases hret
    have : bs = [] := List.length_eq_zero.mp h0
    subst this
    simp
  · split at hret
    · cases hret
      obtain ⟨h1, _, h3, h4, _, h6⟩ := compress_block_fold dist bs enc
      refine ⟨h1, ?_, h4, h6⟩
      rw [h3, foldl_add_eq]
      cases enc.needsRateControl <;> simp
    · split at hret
      · rename_i hall
        cases hret
        obtain ⟨_, hlen, _, _, _, hsum, hrc, hnt, hdist, hpast⟩ :=
          pool_run_inv dist bs enc.needsRateControl enc.num_threads enc.distotile enc.coded
            hsize schedule _ (pool_init_inv dist bs enc hcount)
        have hfin := fun w => all_finished_sums _ hall w
        have hpos : 0 < fin_count (schedule.foldl (pool_step dist bs bs.length)
            { enc := enc, tasks := List.replicate enc.num_threads .running }).tasks := by
          rw [(hfin (fun _ => 0)).2, hlen]
          omega
        have hmin := hpast hpos
        have hsum2 : ∀ g : Job → ℚ, coded_sum g (schedule.foldl (pool_step dist bs bs.length)
            { enc := enc, tasks := List.replicate enc.num_threads .running }).enc.coded
            = coded_sum g enc.coded + (bs.map g).sum := by
          intro g
          have h := hsum g
          rw [(hfin _).1, zero_add] at h
          have e : min ((schedule.foldl (pool_step dist bs bs.length)
            { enc := enc, tasks := List.replicate enc.num_threads .running }).enc.blockCount
              + 1).toNat bs.length = bs.length := by omega
          rw [e, batch_sum_all] at h
          exact h
        refine ⟨hsum2, ?_, hrc, hnt⟩
        rw [hdist, hsum2 dist]
        cases enc.needsRateControl <;> simp
      · cases hret

theorem hold_count_set (tasks : List TaskState) (t : Nat) (s : TaskState)
    (ht : t < tasks.length) :
    hold_count (tasks.set t s) = hold_count tasks
      - (match tasks.getD t .finished with | .holding _ => (1 : Int) | _ => 0)
      + (match s with | .holding _ => (1 : Int) | _ => 0) := by
  unfold hold_count
  exact sum_map_set _ tasks .finished s t ht

theorem hold_count_nonneg (tasks : List TaskState) : 0 ≤ hold_count tasks := by
  unfold hold_count
  apply List.sum_nonneg
  intro x hx
  simp only [List.mem_map] at hx
  obtain ⟨a, _, rfl⟩ := hx
  cases a <;> simp

theorem fin_count_le_length (tasks : List TaskState) :
    fin_count tasks ≤ (tasks.length : Int) := by
  unfold fin_count
  induction tasks with
  | nil => simp
  | cons a l ih =>
    simp only [List.map_cons, List.sum_cons, List.length_cons, Nat.cast_add, Nat.cast_one]
    cases a <;> simp <;> omega

theorem fin_count_lt_of_unfinished (tasks : List TaskState) (t : Nat)
    (h : tasks.getD t .finished ≠ .finished) : fin_count tasks + 1 ≤ (tasks.length : Int) := by
  have ht : t < tasks.length := lt_length_of_getD_task tasks t _ rfl h
  have h1 := fin_count_set tasks t .finished ht
  have h2 := fin_count_le_length (tasks.set t .finished)
  simp only [List.length_set] at h2
  cases hs : tasks.getD t .finished with
  | finished => exact absurd hs h
  | running =>
    rw [hs] at h1
    simp only at h1
    omega
  | holding i =>
    rw [hs] at h1
    simp only at h1
    omega

theorem exists_unfinished (tasks : List TaskState)
    (h : tasks.all (fun t => decide (t = .finished)) = false) :
    ∃ t, tasks.getD t .finished ≠ .finished := by
  induction tasks with
  | nil => simp at h
  | cons a l ih =>
    simp only [List.all_cons, Bool.and_eq_false_iff, decide_eq_false_iff_not] at h
    rcases h with h | h
    · exact ⟨0, by simpa using h⟩
    · obtain ⟨t, ht⟩ := ih h
      exact ⟨t + 1, by simpa using ht⟩

/-- A step of an unfinished task uses up exactly one of the remaining steps. -/
theorem pool_step_measure (dist : Job → ℚ) (bs : List Job) (rc : Bool) (T : Nat) (d0 : ℚ)
    (coded0 : List (Nat × Job)) (hsize : bs.length + T < UINT64_RANGE)
    (st : PoolState) (t : Nat) (h : PoolInv dist bs rc T d0 coded0 st)
    (hun : st.tasks.getD t .finished ≠ .finished) :
    pool_measure bs.length (pool_step dist bs bs.length st t) + 1
      = pool_measure bs.length st := by
  obtain ⟨h0, hlen, hle, hfin, hheld, _, _, _, _, hpast⟩ := h
  have ht : t < st.tasks.length := lt_length_of_getD_task _ t _ rfl hun
  unfold pool_step pool_measure
  cases hs : st.tasks.getD t .finished with
  | finished => exact absurd hs hun
  | running =>
    have hidx : ((st.enc.blockCount + 1) % (UINT64_RANGE : Int)).toNat
        = (st.enc.blockCount + 1).toNat := by
      congr 1
      apply Int.emod_eq_of_lt h0
      have : (UINT64_RANGE : Int) = ((UINT64_RANGE : Nat) : Int) := rfl
      omega
    simp only [hidx]
    by_cases hge : (st.enc.blockCount + 1).toNat ≥ bs.length
    · simp only [hge, if_true]
      have hf := fin_count_set st.tasks t .finished ht
      have hh := hold_count_set st.tasks t .finished ht
      rw [hs] at hf hh
      simp only at hf hh
      rw [hf, hh]
      simp only [List.length_set]
      omega
    · simp only [hge, if_false]
      have hf := fin_count_set st.tasks t (.holding (st.enc.blockCount + 1).toNat) ht
      have hh := hold_count_set st.tasks t (.holding (st.enc.blockCount + 1).toNat) ht
      rw [hs] at hf hh
      simp only at hf hh
      rw [hf, hh]
      simp only [List.length_set]
      omega
  | holding i =>
    have hi : i < bs.length := hheld t i hs
    have hget : bs.get? i = some (bs.getD i 0) := by
      rw [List.get?_eq_getElem?, List.getD_eq_getElem bs 0 hi, List.getElem?_eq_getElem hi]
    simp only [hget]
    have hf := fin_count_set st.tasks t .running ht
    have hh := hold_count_set st.tasks t .running ht
    rw [hs] at hf hh
    simp only at hf hh
    have hcount : (st.enc.compress_block dist t (bs.getD i 0)).blockCount
        = st.enc.blockCount := by
      unfold T1Encoder.compress_block
      simp only
      split <;> rfl
    rw [hf, hh, hcount]
    simp only [List.length_set]
    omega

/-- No deadlock: from every state of the pool there is a continuation of the interleaving
after which all tasks have finished. -/
theorem pool_can_finish (dist : Job → ℚ) (bs : List Job) (rc : Bool) (T : Nat) (d0 : ℚ)
    (coded0 : List (Nat × Job)) (hsize : bs.length + T < UINT64_RANGE) :
    ∀ (k : Nat) (st : PoolState), PoolInv dist bs rc T d0 coded0 st →
      pool_measure bs.length st ≤ (k : Int) →
      ∃ ext : List Nat, (ext.foldl (pool_step dist bs bs.length) st).tasks.all
        (fun t => decide (t = .finished)) = true := by
  intro k
  induction k with
  | zero =>
    intro st h hk
    cases hall : st.tasks.all (fun t => decide (t = .finished)) with
    | true => exact ⟨[], hall⟩
    | false =>
      obtain ⟨t, ht⟩ := exists_unfinished _ hall
      have h1 := fin_count_lt_of_unfinished _ t ht
      have h2 := hold_count_nonneg st.tasks
      obtain ⟨h0, _, _, _, _, _, _, _, _, _⟩ := h
      unfold pool_measure at hk
      omega
  | succ k ih =>
    intro st h hk
    cases hall : st.tasks.all (fun t => decide (t = .finished)) with
    | true => exact ⟨[], hall⟩
    | false =>
      obtain ⟨t, ht⟩ := exists_unfinished _ hall
      have hm := pool_step_measure dist bs rc T d0 coded0 hsize st t h ht
      obtain ⟨ext, hext⟩ := ih _ (pool_step_inv dist bs rc T d0 coded0 hsize st t h)
        (by push_cast at hk; omega)
      exact ⟨t :: ext, hext⟩

/-- On an encoder with cursor `-1`, every interleaving can be continued so that `compress`
returns. -/
theorem compress_can_return (dist : Job → ℚ) (enc : T1Encoder) (bs : List Job)
    (schedule : List Nat) (hcount : enc.blockCount = -1)
    (hsize : bs.length + enc.num_threads < UINT64_RANGE) :
    ∃ ext, (enc.compress dist (some bs) (schedule ++ ext)).isSome = true := by
  unfold T1Encoder.compress
  simp only
  split
  · exact ⟨[], rfl⟩
  · split
    · exact ⟨[], rfl⟩
    · have hinv := pool_run_inv dist bs enc.needsRateControl enc.num_threads enc.distotile
        enc.coded hsize schedule _ (pool_init_inv dist bs enc hcount)
      obtain ⟨ext, hext⟩ := pool_can_finish dist bs enc.needsRateControl enc.num_threads
        enc.distotile enc.coded hsize
        (pool_measure bs.length (schedule.foldl (pool_step dist bs bs.length)
          { enc := enc, tasks := List.replicate enc.num_threads .running })).toNat _ hinv
        (by omega)
      refine ⟨ext, ?_⟩
      rw [List.foldl_append, hext]
      rfl

/-- C7, failing input (second batch on the same encoder). With two threads, the first batch
`[10, 11, 12]` is coded completely and leaves the cursor `blockCount` at `4`; `compress` never
resets the cursor, so for the second batch `[20, 21, 22]` both tasks draw an index `≥ 3` at
once and `compress` returns with the block coder called for none of its jobs. -/
theorem t1_scheduler_second_batch_dropped :
    ∃ enc1 enc2,
      (T1Encoder.create 2 true 0).compress (fun _ => 1) (some [10, 11, 12]) (round_robin 2 5)
        = some enc1 ∧
      enc1.coded.map Prod.snd = [10, 11, 12] ∧ enc1.blockCount = 4 ∧
      enc1.compress (fun _ => 1) (some [20, 21, 22]) (round_robin 2 1) = some enc2 ∧
      enc2.coded = enc1.coded ∧ enc2.distotile = enc1.distotile ∧ enc2.blockCount = 6 :=
  ⟨_, _, rfl, by decide, by decide, rfl, by decide, rfl, by decide⟩

/-- C8 (scheduler distortion). On an encoder constructed with `needsRateControl = true` for a
tile whose accumulator holds `d0`, for every number of threads and every interleaving:
whenever `compress(blocks)` has returned, `tile->distotile` is `d0` plus the sum of the
distortions the block coder returned for the jobs of the batch, and with one thread it is the
left fold in submission order; moreover every interleaving can be continued so that `compress`
returns. Distortions are exact rationals. -/
theorem t1_scheduler_distortion (dist : Job → ℚ) (num_threads : Nat) (d0 : ℚ)
    (bs : List Job) (schedule : List Nat) (hT : 1 ≤ num_threads)
    (hsize : bs.length + num_threads < UINT64_RANGE) :
    (((T1Encoder.create num_threads true d0).compress dist (some bs) schedule).isSome = true →
      ∃ enc1, (T1Encoder.create num_threads true d0).compress dist (some bs) schedule
          = some enc1 ∧
        enc1.distotile = d0 + (bs.map dist).sum ∧
        (num_threads = 1 → enc1.distotile = bs.foldl (fun acc b => acc + dist b) d0)) ∧
    ∃ ext, ((T1Encoder.create num_threads true d0).compress dist (some bs)
      (schedule ++ ext)).isSome = true := by
  refine ⟨?_, compress_can_return dist (T1Encoder.create num_threads true d0) bs schedule rfl
    hsize⟩
  intro hret
  cases hc : (T1Encoder.create num_threads true d0).compress dist (some bs) schedule with
  | none => rw [hc] at hret; cases hret
  | some enc1 =>
    obtain ⟨_, hd, _, _⟩ := compress_first_batch dist (T1Encoder.create num_threads true d0)
      enc1 bs schedule rfl hT hsize hc
    have hd2 : enc1.distotile = d0 + (bs.map dist).sum := by
      rw [hd]
      simp [T1Encoder.create]
    refine ⟨enc1, rfl, hd2, ?_⟩
    intro _
    rw [hd2, foldl_add_eq]

theorem sum_map_const_one (l : List Job) : (l.map (fun _ => (1 : ℚ))).sum = l.length := by
  induction l with
  | nil => simp
  | cons a l ih =>
    simp only [List.map_cons, List.sum_cons, List.length_cons, ih]
    push_cast
    ring

set_option maxRecDepth 20000 in
/-- Witness of C8: 1000 jobs each reporting distortion `1`, `d0 = 0`, on one thread give
`1000`; 100 such jobs on four threads taking turns give `100`. -/
theorem t1_scheduler_distortion_witness :
    (∃ enc1, (T1Encoder.create 1 true 0).compress (fun _ => 1) (some (List.range 1000)) []
        = some enc1 ∧ enc1.distotile = 1000) ∧
    (∃ enc1, (T1Encoder.create 4 true 0).compress (fun _ => 1) (some (List.range 100))
        (round_robin 4 52) = some enc1 ∧ enc1.distotile = 100) := by
  constructor
  · obtain ⟨enc1, h1, h2, _⟩ := (t1_scheduler_distortion (fun _ => 1) 1 0 (List.range 1000)
      [] (by decide) (by decide)).1 (by rfl)
    refine ⟨enc1, h1, ?_⟩
    rw [h2, sum_map_const_one, List.length_range]
    norm_num
  · obtain ⟨enc1, h1, h2, _⟩ := (t1_scheduler_distortion (fun _ => 1) 4 0 (List.range 100)
      (round_robin 4 52) (by decide) (by decide)).1 (by rfl)
    refine ⟨enc1, h1, ?_⟩
    rw [h2, sum_map_const_one, List.length_range]
    norm_num

/-! ### `alloc`, the constructor and the slot lifetime -/

theorem is_region_valid_false (sa : sparse_array) (x0 y0 x1 y1 : Nat)
    (hbad : ¬ (x0 < x1 ∧ x1 ≤ sa.width ∧ y0 < y1 ∧ y1 ≤ sa.height)) :
    sa.is_region_valid x0 y0 x1 y1 = false := by
  cases h : sa.is_region_valid x0 y0 x1 y1
  · rfl
  · exact absurd ((is_region_valid_iff sa x0 y0 x1 y1).1 h) hbad

/-- C11 (`alloc` materialises the touched blocks). For a valid rectangle `R`, when `alloc(R)`
returns `true` the grid keeps its shape and, for every block `(block_y, block_x)` of the grid:
if its area meets `R` it is allocated afterwards; if it was `NULL` before and is allocated
afterwards it holds `block_width * block_height` zero samples; if its area does not meet `R`
its slot is unchanged, so it is allocated afterwards exactly when it was before. -/
theorem sparse_array_alloc_blocks (sa : sparse_array) (hwf : sa.wf)
    (x0 y0 x1 y1 heap : Nat) (hv : sa.is_region_valid x0 y0 x1 y1 = true)
    (sa1 : sparse_array) (heap1 : Nat)
    (halloc : sa.alloc heap x0 y0 x1 y1 = .ok (true, sa1, heap1)) :
    sa1.data_blocks.length = sa.data_blocks.length ∧
    sa1.block_count_hor = sa.block_count_hor ∧ sa1.block_count_ver = sa.block_count_ver ∧
    ∀ block_x block_y, block_x < sa.block_count_hor → block_y < sa.block_count_ver →
      ((∃ x y, in_rect x0 y0 x1 y1 x y ∧ x / sa.block_width = block_x ∧
          y / sa.block_height = block_y) →
        (sa1.data_blocks.getD (block_y * sa.block_count_hor + block_x) none).isSome = true) ∧
      (sa.data_blocks.getD (block_y * sa.block_count_hor + block_x) none = none →
        ∀ blk, sa1.data_blocks.getD (block_y * sa.block_count_hor + block_x) none = some blk →
          blk = List.replicate (sa.block_width * sa.block_height) 0) ∧
      ((¬ ∃ x y, in_rect x0 y0 x1 y1 x y ∧ x / sa.block_width = block_x ∧
          y / sa.block_height = block_y) →
        sa1.data_blocks.getD (block_y * sa.block_count_hor + block_x) none
          = sa.data_blocks.getD (block_y * sa.block_count_hor + block_x) none ∧
        (sa1.data_blocks.getD (block_y * sa.block_count_hor + block_x) none).isSome
          = (sa.data_blocks.getD (block_y * sa.block_count_hor + block_x) none).isSome) := by
  obtain ⟨r, blocks1, heap2, hrun, _, hrel, hpres, _, _⟩ := alloc_spec sa hwf heap x0 y0 x1 y1
  rw [hrun] at halloc
  simp only [Except.ok.injEq, Prod.mk.injEq] at halloc
  obtain ⟨hr, hsa1, _⟩ := halloc
  subst hr hsa1
  refine ⟨hrel.1, rfl, rfl, ?_⟩
  intro block_x block_y hbx _
  refine ⟨?_, ?_, ?_⟩
  · rintro ⟨x, y, hxy, rfl, rfl⟩
    exact hpres rfl hv x y hxy
  · intro hnone blk hsome
    simp only at hsome
    rcases hrel.2 (block_y * sa.block_count_hor + block_x) with e | ⟨_, _, e⟩
    · rw [e, hnone] at hsome; cases hsome
    · rw [e] at hsome
      cases hsome
      rfl
  · intro hno
    have hsame : blocks1.getD (block_y * sa.block_count_hor + block_x) none
        = sa.data_blocks.getD (block_y * sa.block_count_hor + block_x) none := by
      rcases hrel.2 (block_y * sa.block_count_hor + block_x) with e | ⟨⟨_, a, b, hab, hi⟩, _, _⟩
      · exact e
      · exfalso
        apply hno
        have hlt : a / sa.block_width < sa.block_count_hor :=
          wf_bch sa hwf x1 ((is_region_valid_iff sa x0 y0 x1 y1).1 hv).2.1 a hab.2.1
        obtain ⟨e1, e2⟩ := quot_rem_unique sa.block_count_hor block_y block_x
          (b / sa.block_height) (a / sa.block_width) hbx hlt hi
        exact ⟨a, b, hab, e2.symm, e1.symm⟩
    exact ⟨hsame, by simp only; rw [hsame]⟩

/-- Witness of C11: `alloc(2,3,6,7)` on the new 10×10 array with 4×4 blocks allocates the
four blocks that meet the rectangle. -/
theorem sparse_array_alloc_blocks_witness :
    array10.alloc 4 2 3 6 7 = .ok (true, array10_alloc, 0) ∧
    (array10_alloc.data_blocks.getD (1 * array10.block_count_hor + 1) none).isSome = true ∧
    array10_alloc.data_blocks.getD (2 * array10.block_count_hor + 2) none
      = array10.data_blocks.getD (2 * array10.block_count_hor + 2) none :=
  ⟨by rfl,
    ((sparse_array_alloc_blocks array10 (by decide) 2 3 6 7 4 (by decide) array10_alloc 0
      (by rfl)).2.2.2 1 1 (by decide) (by decide)).1 ⟨5, 6, by decide, by decide, by decide⟩,
    (((sparse_array_alloc_blocks array10 (by decide) 2 3 6 7 4 (by decide) array10_alloc 0
      (by rfl)).2.2.2 2 2 (by decide) (by decide)).2.2 (by
        rintro ⟨x, y, hxy, hx, _⟩
        simp only [in_rect] at hxy
        have : x / 4 = 2 := hx
        omega)).1⟩

/-- C12 (`alloc` of an invalid rectangle). For a rectangle that is empty or not inside the
array, `alloc` returns `true` and the array is unchanged: no slot, no sample and no
allocation budget is touched. -/
theorem sparse_array_alloc_invalid (sa : sparse_array) (x0 y0 x1 y1 heap : Nat)
    (hbad : ¬ (x0 < x1 ∧ x1 ≤ sa.width ∧ y0 < y1 ∧ y1 ≤ sa.height)) :
    sa.alloc heap x0 y0 x1 y1 = .ok (true, sa, heap) := by
  simp [sparse_array.alloc, is_region_valid_false sa x0 y0 x1 y1 hbad]

/-- Witness of C12: the rectangle `(8,8,12,12)` reaches beyond the 10×10 array. -/
theorem sparse_array_alloc_invalid_witness :
    array10.alloc 4 8 8 12 12 = .ok (true, array10, 4) :=
  sparse_array_alloc_invalid array10 8 8 12 12 4 (by decide)

theorem ceildiv_bounds (a b : Nat) (hb : 0 < b) :
    a ≤ ceildiv a b * b ∧ ceildiv a b * b < a + b := by
  unfold ceildiv
  have h1 := Nat.div_add_mod (a + b - 1) b
  have h2 := Nat.mod_lt (a + b - 1) hb
  have h3 : (a + b - 1) / b * b = b * ((a + b - 1) / b) := Nat.mul_comm _ _
  omega

/-- Counterexample to C13 as stated: with all four arguments positive the constructor still
fails when the allocation of the slot table fails (`data_blocks == NULL`). -/
theorem sparse_array_create_oom_counterexample :
    ¬ ((10 : Nat) = 0 ∨ (10 : Nat) = 0 ∨ (4 : Nat) = 0 ∨ (4 : Nat) = 0) ∧
    sparse_array.create false 10 10 4 4 = .error .out_of_memory ∧
    ∀ sa, sparse_array.create false 10 10 4 4 ≠ .ok sa :=
  ⟨by decide, by rfl, by intro sa h; cases h⟩

/-- C13, amended (constructor). The constructor throws the invalid-region error if and only
if at least one of the four arguments is `0`. For all-positive arguments it throws only when
the allocation of the slot table fails, and otherwise yields an array with the given
dimensions and a grid of `⌈width/block_width⌉ × ⌈height/block_height⌉` slots, all `NULL`. -/
theorem sparse_array_create_spec (calloc_ok : Bool) (width height block_width
    block_height : Nat) :
    (sparse_array.create calloc_ok width height block_width block_height
        = .error .invalid_region ↔
      (width = 0 ∨ height = 0 ∨ block_width = 0 ∨ block_height = 0)) ∧
    ((0 < width ∧ 0 < height ∧ 0 < block_width ∧ 0 < block_height) →
      (calloc_ok = false →
        sparse_array.create calloc_ok width height block_width block_height
          = .error .out_of_memory) ∧
      (calloc_ok = true →
        ∃ sa, sparse_array.create calloc_ok width height block_width block_height = .ok sa ∧
          sa.width = width ∧ sa.height = height ∧ sa.block_width = block_width ∧
          sa.block_height = block_height ∧
          sa.block_count_hor = ceildiv width block_width ∧
          sa.block_count_ver = ceildiv height block_height ∧
          width ≤ sa.block_count_hor * block_width ∧
          sa.block_count_hor * block_width < width + block_width ∧
          height ≤ sa.block_count_ver * block_height ∧
          sa.block_count_ver * block_height < height + block_height ∧
          sa.data_blocks.length = sa.block_count_hor * sa.block_count_ver ∧
          ∀ i, sa.data_blocks.getD i none = none)) := by
  constructor
  · unfold sparse_array.create
    constructor
    · intro h
      by_contra hne
      rw [if_neg hne] at h
      cases calloc_ok <;> simp at h
    · intro h
      rw [if_pos h]
  · rintro ⟨h1, h2, h3, h4⟩
    have hne : ¬ (width = 0 ∨ height = 0 ∨ block_width = 0 ∨ block_height = 0) := by omega
    constructor
    · intro hc
      subst hc
      simp [sparse_array.create, hne]
    · intro hc
      subst hc
      refine ⟨_, by simp only [sparse_array.create, hne, if_false, if_true]; rfl, rfl, rfl, rfl,
        rfl, rfl, rfl, (ceildiv_bounds width block_width h3).1,
        (ceildiv_bounds width block_width h3).2, (ceildiv_bounds height block_height h4).1,
        (ceildiv_bounds height block_height h4).2, by simp, ?_⟩
      intro i
      rw [List.getD_eq_getElem?_getD]
      cases hg : (List.replicate (ceildiv width block_width * ceildiv height block_height)
          (none : Option (List Int)))[i]? with
      | none => rfl
      | some v =>
        have := List.getElem?_mem hg
        simp only [List.mem_replicate] at this
        simp [this.2]

/-- Witness of the amended C13: `sparse_array(10, 10, 4, 4)` is the 3×3 grid of `NULL`
slots. -/
theorem sparse_array_create_spec_witness :
    ∃ sa, sparse_array.create true 10 10 4 4 = .ok sa ∧
      sa.width = 10 ∧ sa.height = 10 ∧ sa.block_width = 4 ∧ sa.block_height = 4 ∧
      sa.block_count_hor = ceildiv 10 4 ∧ sa.block_count_ver = ceildiv 10 4 ∧
      10 ≤ sa.block_count_hor * 4 ∧ sa.block_count_hor * 4 < 10 + 4 ∧
      10 ≤ sa.block_count_ver * 4 ∧ sa.block_count_ver * 4 < 10 + 4 ∧
      sa.data_blocks.length = sa.block_count_hor * sa.block_count_ver ∧
      ∀ i, sa.data_blocks.getD i none = none :=
  ((sparse_array_create_spec true 10 10 4 4).2 (by decide)).2 rfl

/-- C16 (slot lifetime). On every array and for every rectangle, valid or not: `alloc` always
returns, keeps the number of slots and every allocated slot allocated; `read` always returns
and returns the array unchanged (same slots, same contents); `write` either stops at the
assertion or returns an array with the same number of slots and the same allocated slots. -/
theorem sparse_array_slot_lifetime (sa : sparse_array) (hwf : sa.wf)
    (x0 y0 x1 y1 heap : Nat) (buf : Buffer) (col_stride line_stride : Nat)
    (forgiving : Bool) :
    (∃ r sa1 heap1, sa.alloc heap x0 y0 x1 y1 = .ok (r, sa1, heap1) ∧
      sa1.data_blocks.length = sa.data_blocks.length ∧
      ∀ i, (sa.data_blocks.getD i none).isSome = true →
        (sa1.data_blocks.getD i none).isSome = true) ∧
    (∃ r buf1, sa.read x0 y0 x1 y1 buf col_stride line_stride forgiving
      = .ok (r, sa, buf1)) ∧
    (sa.write x0 y0 x1 y1 buf col_stride line_stride forgiving = .error .assert_failed ∨
      ∃ r sa1, sa.write x0 y0 x1 y1 buf col_stride line_stride forgiving
          = .ok (r, sa1, buf) ∧
        sa1.data_blocks.length = sa.data_blocks.length ∧
        ∀ i, (sa1.data_blocks.getD i none).isSome = (sa.data_blocks.getD i none).isSome) := by
  refine ⟨?_, ?_, ?_⟩
  · obtain ⟨r, blocks1, heap1, hrun, _, hrel, _, _, _⟩ := alloc_spec sa hwf heap x0 y0 x1 y1
    exact ⟨r, _, heap1, hrun, hrel.1, fun i hi => allocrel_isSome_mono hrel i hi⟩
  · by_cases hv : sa.is_region_valid x0 y0 x1 y1 = true
    · obtain ⟨dest1, hread, _⟩ := read_writes sa hwf x0 y0 x1 y1 hv buf col_stride line_stride
        forgiving
      exact ⟨true, dest1, hread⟩
    · have hv2 : sa.is_region_valid x0 y0 x1 y1 = false := by
        cases h : sa.is_region_valid x0 y0 x1 y1
        · rfl
        · exact absurd h hv
      exact ⟨forgiving, buf, by simp [sparse_array.read, sparse_array.read_or_write, hv2]⟩
  · by_cases hv : sa.is_region_valid x0 y0 x1 y1 = true
    · by_cases hex : ∃ a b, in_rect x0 y0 x1 y1 a b ∧ sa.present a b = false
      · exact Or.inl (write_absent sa hwf x0 y0 x1 y1 hv buf col_stride line_stride forgiving
          hex)
      · have hall : ∀ a b, in_rect x0 y0 x1 y1 a b → sa.present a b = true := by
          intro a b hab
          cases hp : sa.present a b with
          | true => rfl
          | false => exact absurd ⟨a, b, hab, hp⟩ hex
        obtain ⟨blocks1, hok, _, hsw⟩ := write_ok sa hwf x0 y0 x1 y1 hv buf col_stride
          line_stride forgiving hall
        exact Or.inr ⟨true, _, hok, hsw.1, hsw.2.1⟩
    · have hv2 : sa.is_region_valid x0 y0 x1 y1 = false := by
        cases h : sa.is_region_valid x0 y0 x1 y1
        · rfl
        · exact absurd h hv
      exact Or.inr ⟨forgiving, sa,
        by simp [sparse_array.write, sparse_array.read_or_write, hv2], rfl, fun _ => rfl⟩

/-- Witness of C16: the 10×10 array with four allocated blocks and the rectangle
`(0,0,10,10)`. -/
theorem sparse_array_slot_lifetime_witness :
    (∃ r sa1 heap1, array10_alloc.alloc 2 0 0 10 10 = .ok (r, sa1, heap1) ∧
      sa1.data_blocks.length = array10_alloc.data_blocks.length ∧
      ∀ i, (array10_alloc.data_blocks.getD i none).isSome = true →
        (sa1.data_blocks.getD i none).isSome = true) ∧
    (∃ r buf1, array10_alloc.read 0 0 10 10 buf16 1 10 false
      = .ok (r, array10_alloc, buf1)) ∧
    (array10_alloc.write 0 0 10 10 buf16 1 10 false = .error .assert_failed ∨
      ∃ r sa1, array10_alloc.write 0 0 10 10 buf16 1 10 false = .ok (r, sa1, buf16) ∧
        sa1.data_blocks.length = array10_alloc.data_blocks.length ∧
        ∀ i, (sa1.data_blocks.getD i none).isSome
          = (array10_alloc.data_blocks.getD i none).isSome) :=
  sparse_array_slot_lifetime array10_alloc (by decide) 0 0 10 10 2 buf16 1 10 false

/-- C17 (frame of `write`). When every block meeting a valid rectangle `R` is allocated,
`write(R, src, …)` returns `true`, returns `src` unchanged, and changes no logical sample
outside `R`: every position of any column of the grid that is not in `R`, also one in a
block that meets `R`, keeps its sample; the positions of `R` receive the samples of `src`. -/
theorem sparse_array_write_frame (sa : sparse_array) (hwf : sa.wf)
    (x0 y0 x1 y1 : Nat) (hv : sa.is_region_valid x0 y0 x1 y1 = true)
    (src : Buffer) (col_stride line_stride : Nat) (forgiving : Bool)
    (hpres : ∀ x y, in_rect x0 y0 x1 y1 x y → sa.present x y = true) :
    ∃ sa1, sa.write x0 y0 x1 y1 src col_stride line_stride forgiving = .ok (true, sa1, src) ∧
      (∀ x y, x < sa.width → ¬ in_rect x0 y0 x1 y1 x y → sa1.sample x y = sa.sample x y) ∧
      (∀ x y, in_rect x0 y0 x1 y1 x y →
        sa1.sample x y = src ((y - y0) * line_stride + (x - x0) * col_stride)) := by
  obtain ⟨blocks1, hok, _, hsw⟩ := write_ok sa hwf x0 y0 x1 y1 hv src col_stride line_stride
    forgiving hpres
  refine ⟨_, hok, ?_, ?_⟩
  · intro x y hx hout
    exact (hsw.2.2 x y (wf_bch sa hwf sa.width (Nat.le_refl _) x hx)).2 hout
  · intro x y hin
    have hx : x < sa.width := by
      have := (is_region_valid_iff sa x0 y0 x1 y1).1 hv
      have := hin.2.1
      omega
    exact (hsw.2.2 x y (wf_bch sa hwf sa.width (Nat.le_refl _) x hx)).1 hin

/-- Witness of C17: in the fully allocated 10×10 array with 4×4 blocks, after the write of
`[1..16]` to `(2,3,6,7)` the read of `(0,0,2,10)` returns 20 zeros. -/
theorem sparse_array_write_frame_witness :
    array10.alloc 9 0 0 10 10 = .ok (true, array10_full, 0) ∧
    ∃ sa1, array10_full.write 2 3 6 7 buf16 1 4 false = .ok (true, sa1, buf16) ∧
      (∀ x y, x < array10_full.width → ¬ in_rect 2 3 6 7 x y →
        sa1.sample x y = array10_full.sample x y) ∧
      (∃ dest1, sa1.read 0 0 2 10 (fun _ => 7) 1 2 false = .ok (true, sa1, dest1) ∧
        (List.range 20).map dest1 = List.replicate 20 0) := by
  refine ⟨by rfl, ?_⟩
  obtain ⟨sa1, h1, h2, _⟩ := sparse_array_write_frame array10_full (by decide) 2 3 6 7
    (by decide) buf16 1 4 false (by
      intro x y hxy
      simp only [in_rect] at hxy
      have hx : x = 2 ∨ x = 3 ∨ x = 4 ∨ x = 5 := by omega
      have hy : y = 3 ∨ y = 4 ∨ y = 5 ∨ y = 6 := by omega
      rcases hx with rfl | rfl | rfl | rfl <;> rcases hy with rfl | rfl | rfl | rfl <;> decide)
  refine ⟨sa1, h1, h2, ?_⟩
  have hval : array10_full.write 2 3 6 7 buf16 1 4 false
      = .ok (true, { array10_full with data_blocks :=
          [some [0, 0, 0, 0, 0, 0, 0, 0, 0, 0, 0, 0, 0, 0, 1, 2],
           some [0, 0, 0, 0, 0, 0, 0, 0, 0, 0, 0, 0, 3, 4, 0, 0],
           some (List.replicate 16 0),
           some [0, 0, 5, 6, 0, 0, 9, 10, 0, 0, 13, 14, 0, 0, 0, 0],
           some [7, 8, 0, 0, 11, 12, 0, 0, 15, 16, 0, 0, 0, 0, 0, 0],
           some (List.replicate 16 0),
           some (List.replicate 16 0), some (List.replicate 16 0),
           some (List.replicate 16 0)] }, buf16) := by rfl
  rw [hval] at h1
  simp only [Except.ok.injEq, Prod.mk.injEq, true_and, and_true] at h1
  subst h1
  exact ⟨_, rfl, by decide⟩

/-! ### The single-thread path and the accumulator without rate control -/

/-- C14 (one thread). With exactly one thread in the pool, `compress(blocks)` returns after
calling the block coder on the jobs of the batch in submission order, each once, all with the
context `threadStructs[0]`: the log of coder calls grows by `(0, job)` for the jobs in order.
For a null or empty batch, with any number of threads, `compress` returns at once and the
encoder and the tile are unchanged. -/
theorem t1_single_thread_order (enc : T1Encoder) (dist : Job → ℚ) (bs : List Job)
    (schedule : List Nat) (hT : enc.num_threads = 1) :
    (∃ enc1, enc.compress dist (some bs) schedule = some enc1 ∧
      enc1.coded = enc.coded ++ bs.map (fun b => (0, b)) ∧
      enc1.blockCount = enc.blockCount) ∧
    (∀ enc2 : T1Encoder, enc2.compress dist none schedule = some enc2 ∧
      enc2.compress dist (some []) schedule = some enc2) := by
  constructor
  · by_cases h0 : bs.length = 0
    · have : bs = [] := List.length_eq_zero.mp h0
      subst this
      exact ⟨enc, by simp [T1Encoder.compress], by simp, rfl⟩
    · obtain ⟨_, h2, _, _, h5, _⟩ := compress_block_fold dist bs enc
      exact ⟨_, by simp [T1Encoder.compress, h0, hT], h2, h5⟩
  · intro enc2
    exact ⟨rfl, by simp [T1Encoder.compress]⟩

/-- Witness of C14: three jobs on one thread. -/
theorem t1_single_thread_order_witness :
    ∃ enc1, (T1Encoder.create 1 true 0).compress (fun _ => 1) (some [10, 11, 12]) []
        = some enc1 ∧
      enc1.coded = (T1Encoder.create 1 true 0).coded
        ++ [10, 11, 12].map (fun b => ((0 : Nat), b)) ∧
      enc1.blockCount = (T1Encoder.create 1 true 0).blockCount :=
  (t1_single_thread_order (T1Encoder.create 1 true 0) (fun _ => 1) [10, 11, 12] [] rfl).1

theorem compress_block_no_rc (enc : T1Encoder) (dist : Job → ℚ) (impl : Nat) (block : Job)
    (h : enc.needsRateControl = false) :
    (enc.compress_block dist impl block).distotile = enc.distotile ∧
    (enc.compress_block dist impl block).needsRateControl = false := by
  unfold T1Encoder.compress_block
  simp [h]

theorem pool_step_no_rc (dist : Job → ℚ) (bs : List Job) (n : Nat) (st : PoolState) (t : Nat)
    (h : st.enc.needsRateControl = false) :
    (pool_step dist bs n st t).enc.distotile = st.enc.distotile ∧
    (pool_step dist bs n st t).enc.needsRateControl = false := by
  unfold pool_step
  cases hs : st.tasks.getD t .finished with
  | finished => exact ⟨rfl, h⟩
  | running =>
    simp only
    split <;> exact ⟨rfl, h⟩
  | holding i =>
    simp only
    cases hg : bs.get? i with
    | none => exact ⟨rfl, h⟩
    | some block => exact compress_block_no_rc st.enc dist t block h

theorem pool_run_no_rc (dist : Job → ℚ) (bs : List Job) (n : Nat) (schedule : List Nat) :
    ∀ st : PoolState, st.enc.needsRateControl = false →
      (schedule.foldl (pool_step dist bs n) st).enc.distotile = st.enc.distotile := by
  induction schedule with
  | nil => intro st _; rfl
  | cons t rest ih =>
    intro st h
    obtain ⟨h1, h2⟩ := pool_step_no_rc dist bs n st t h
    simp only [List.foldl_cons]
    rw [ih _ h2, h1]

theorem fold_no_rc (dist : Job → ℚ) (bs : List Job) :
    ∀ enc : T1Encoder, enc.needsRateControl = false →
      (bs.foldl (fun e b => e.compress_block dist 0 b) enc).distotile = enc.distotile := by
  induction bs with
  | nil => intro enc _; rfl
  | cons b rest ih =>
    intro enc h
    obtain ⟨h1, h2⟩ := compress_block_no_rc enc dist 0 b h
    simp only [List.foldl_cons]
    rw [ih _ h2, h1]

/-- C15 (no rate control). On an encoder with `needsRateControl = false`, in any state, for
every batch (also the null pointer), every distortion function of the block coder, every
number of threads and every interleaving: whenever `compress(blocks)` has returned,
`tile->distotile` holds the value it had before the call. -/
theorem t1_no_rate_control_frame (enc : T1Encoder) (dist : Job → ℚ)
    (blocks : Option (List Job)) (schedule : List Nat)
    (hrc : enc.needsRateControl = false)
    (hret : (enc.compress dist blocks schedule).isSome = true) :
    ∃ enc1, enc.compress dist blocks schedule = some enc1 ∧
      enc1.distotile = enc.distotile := by
  cases hc : enc.compress dist blocks schedule with
  | none => rw [hc] at hret; cases hret
  | some enc1 =>
    refine ⟨enc1, rfl, ?_⟩
    unfold T1Encoder.compress at hc
    split at hc
    · cases hc; rfl
    · simp only at hc
      split at hc
      · cases hc; rfl
      · split at hc
        · cases hc
          exact fold_no_rc dist _ enc hrc
        · split at hc
          · cases hc
            exact pool_run_no_rc dist _ _ schedule _ hrc
          · cases hc

/-- Witness of C15: two threads taking turns on three jobs of distortion `1`, accumulator `5`
before the call; and the same on one thread. -/
theorem t1_no_rate_control_frame_witness :
    (∃ enc1, (T1Encoder.create 2 false 5).compress (fun _ => 1) (some [10, 11, 12])
        (round_robin 2 5) = some enc1 ∧
      enc1.distotile = (T1Encoder.create 2 false 5).distotile) ∧
    (∃ enc1, (T1Encoder.create 1 false 5).compress (fun _ => 1) (some [10, 11, 12]) []
        = some enc1 ∧
      enc1.distotile = (T1Encoder.create 1 false 5).distotile) :=
  ⟨t1_no_rate_control_frame (T1Encoder.create 2 false 5) (fun _ => 1) (some [10, 11, 12])
      (round_robin 2 5) rfl (by rfl),
    t1_no_rate_control_frame (T1Encoder.create 1 false 5) (fun _ => 1) (some [10, 11, 12])
      [] rfl (by rfl)⟩

/-! ## C18: the access trace of the 5/3 kernel -/

theorem for_loop_fst {α β : Type} (f : Nat → α → α) (g : Nat → α → β → β) (n : Nat) (a : α)
    (l : β) :
    (for_loop n (fun i (r : α × β) => (f i r.1, g i r.1 r.2)) (a, l)).1 = for_loop n f a := by
  induction n with
  | zero => simp [for_loop_zero]
  | succ m ih => rw [for_loop_succ, for_loop_succ]; simp only [ih]

theorem for_loop_trace {α : Type} (P : Int → Prop) (f : Nat → α × List Int → α)
    (g : Nat → List Int)
    (n : Nat) (s : α × List Int) (hl : ∀ m ∈ s.2, P m)
    (hg : ∀ i, i < n → ∀ m ∈ g i, P m) :
    ∀ m ∈ (for_loop n (fun i (r : α × List Int) => (f i r, r.2 ++ g i)) s).2, P m := by
  refine for_loop_induct (fun _ (r : α × List Int) => ∀ m ∈ r.2, P m) _ n s hl ?_
  intro j t hj ht m hm
  simp only [List.mem_append] at hm
  rcases hm with hm | hm
  · exact ht m hm
  · exact hg j hj m hm

theorem macro_S__index (a : Row) (s_n i : Int) : GROK_S_ a s_n i = a (index_S_ s_n i) := by
  unfold GROK_S_ index_S_ GROK_S
  split_ifs <;> rfl

theorem macro_D__index (a : Row) (d_n i : Int) : GROK_D_ a d_n i = a (index_D_ d_n i) := by
  unfold GROK_D_ index_D_ GROK_D
  split_ifs <;> rfl

theorem macro_SS__index (a : Row) (d_n i : Int) : GROK_SS_ a d_n i = a (index_S_ d_n i) := by
  unfold GROK_SS_ index_S_ GROK_S
  split_ifs <;> rfl

theorem macro_DD__index (a : Row) (s_n i : Int) : GROK_DD_ a s_n i = a (index_D_ s_n i) := by
  unfold GROK_DD_ index_D_ GROK_D
  split_ifs <;> rfl

theorem encode_line_traced_fst (a : Row) (d_n s_n : Int) (cas : Nat) :
    (encode_line_traced a d_n s_n cas).1 = encode_line a d_n s_n cas := by
  unfold encode_line_traced encode_line
  by_cases hc : cas = 0
  · rw [if_pos hc, if_pos hc]
    by_cases h : d_n > 0 ∨ s_n > 1
    · rw [if_pos h, if_pos h]
      simp only
      have h1 := for_loop_fst
        (fun i (a : Row) => row_set a (1 + 2 * (i : Int))
          (wrap32 (GROK_D a i - (wrap32 (GROK_S_ a s_n i + GROK_S_ a s_n (i + 1))) >>> 1)))
        (fun i _ (l : List Int) => l ++ [1 + 2 * (i : Int), index_S_ s_n i,
          index_S_ s_n ((i : Int) + 1), 1 + 2 * (i : Int)]) d_n.toNat a []
      have h2 := fun (r : Row × List Int) => for_loop_fst
        (fun i (a : Row) => row_set a (2 * (i : Int))
          (wrap32 (GROK_S a i +
            (wrap32 (wrap32 (GROK_D_ a d_n (i - 1) + GROK_D_ a d_n i) + 2)) >>> 2)))
        (fun i _ (l : List Int) => l ++ [2 * (i : Int), index_D_ d_n ((i : Int) - 1),
          index_D_ d_n i, 2 * (i : Int)]) s_n.toNat r.1 r.2
      rw [← h1]
      exact h2 _
    · rw [if_neg h, if_neg h]
  · rw [if_neg hc, if_neg hc]
    by_cases h : s_n = 0 ∧ d_n = 1
    · rw [if_pos h, if_pos h]
    · rw [if_neg h, if_neg h]
      simp only
      have h1 := for_loop_fst
        (fun i (a : Row) => row_set a (2 * (i : Int))
          (wrap32 (GROK_S a i - (wrap32 (GROK_DD_ a s_n i + GROK_DD_ a s_n (i - 1))) >>> 1)))
        (fun i _ (l : List Int) => l ++ [2 * (i : Int), index_D_ s_n i,
          index_D_ s_n ((i : Int) - 1), 2 * (i : Int)]) d_n.toNat a []
      have h2 := fun (r : Row × List Int) => for_loop_fst
        (fun i (a : Row) => row_set a (1 + 2 * (i : Int))
          (wrap32 (GROK_D a i +
            (wrap32 (wrap32 (GROK_SS_ a d_n i + GROK_SS_ a d_n (i + 1)) + 2)) >>> 2)))
        (fun i _ (l : List Int) => l ++ [1 + 2 * (i : Int), index_S_ d_n i,
          index_S_ d_n ((i : Int) + 1), 1 + 2 * (i : Int)]) s_n.toNat r.1 r.2
      rw [← h1]
      exact h2 _

theorem encode_line_traced_range (a : Row) (w cas : Nat) :
    ∀ n ∈ (encode_line_traced a (parity_d_n w cas) (parity_s_n w cas) cas).2,
      0 ≤ n ∧ n < (w : Int) := by
  unfold encode_line_traced
  by_cases hc : cas = 0
  · rw [if_pos hc]
    have hs : parity_s_n w cas = (w + 1) / 2 := by simp [parity_s_n, hc]
    have hd : parity_d_n w cas = w / 2 := by simp [parity_d_n, hc]
    rw [hs, hd]
    by_cases h : (((w / 2 : Nat) : Int) > 0 ∨ (((w + 1) / 2 : Nat) : Int) > 1)
    · rw [if_pos h]
      have hw : 2 ≤ w := by omega
      simp only [Int.toNat_ofNat]
      refine for_loop_trace (fun n => 0 ≤ n ∧ n < (w : Int)) _
        (fun i => [2 * (i : Int), index_D_ ((w / 2 : Nat) : Int) ((i : Int) - 1),
          index_D_ ((w / 2 : Nat) : Int) i, 2 * (i : Int)]) ((w + 1) / 2) _ ?_ ?_
      · exact for_loop_trace (fun n => 0 ≤ n ∧ n < (w : Int)) _
          (fun i => [1 + 2 * (i : Int), index_S_ (((w + 1) / 2 : Nat) : Int) i,
            index_S_ (((w + 1) / 2 : Nat) : Int) ((i : Int) + 1), 1 + 2 * (i : Int)]) (w / 2) (a, [])
          (by simp) (by
            intro i hi m hm
            simp only [List.mem_cons, List.mem_singleton, List.not_mem_nil, or_false] at hm
            unfold index_S_ at hm
            rcases hm with hm | hm | hm | hm <;> subst hm <;> (try split_ifs) <;> omega)
      · intro i hi m hm
        simp only [List.mem_cons, List.mem_singleton, List.not_mem_nil, or_false] at hm
        unfold index_D_ at hm
        rcases hm with hm | hm | hm | hm <;> subst hm <;> (try split_ifs) <;> omega
    · rw [if_neg h]
      simp
  · rw [if_neg hc]
    have hs : parity_s_n w cas = w / 2 := by simp [parity_s_n, hc]
    have hd : parity_d_n w cas = (w + 1) / 2 := by simp [parity_d_n, hc]
    rw [hs, hd]
    by_cases h : (((w / 2 : Nat) : Int) = 0 ∧ (((w + 1) / 2 : Nat) : Int) = 1)
    · rw [if_pos h]
      have hw : w = 1 := by omega
      intro m hm
      simp only [List.mem_cons, List.mem_singleton, List.not_mem_nil, or_false] at hm
      rcases hm with hm | hm <;> subst hm <;> omega
    · rw [if_neg h]
      have hw : w ≠ 1 := by omega
      simp only [Int.toNat_ofNat]
      refine for_loop_trace (fun n => 0 ≤ n ∧ n < (w : Int)) _
        (fun i => [1 + 2 * (i : Int), index_S_ (((w + 1) / 2 : Nat) : Int) i,
            index_S_ (((w + 1) / 2 : Nat) : Int) ((i : Int) + 1), 1 + 2 * (i : Int)])
        (w / 2) _ ?_ ?_
      · exact for_loop_trace (fun n => 0 ≤ n ∧ n < (w : Int)) _
          (fun i => [2 * (i : Int), index_D_ ((w / 2 : Nat) : Int) i,
            index_D_ ((w / 2 : Nat) : Int) ((i : Int) - 1), 2 * (i : Int)]) ((w + 1) / 2) (a, [])
          (by simp) (by
            intro i hi m hm
            simp only [List.mem_cons, List.mem_singleton, List.not_mem_nil, or_false] at hm
            unfold index_D_ at hm
            rcases hm with hm | hm | hm | hm <;> subst hm <;> (try split_ifs) <;> omega)
      · intro i hi m hm
        simp only [List.mem_cons, List.mem_singleton, List.not_mem_nil, or_false] at hm
        unfold index_S_ at hm
        rcases hm with hm | hm | hm | hm <;> subst hm <;> (try split_ifs) <;> omega

theorem encode_line_frame (a : Row) (w cas : Nat) (n : Int) (hn : n < 0 ∨ (w : Int) ≤ n) :
    encode_line a (parity_d_n w cas) (parity_s_n w cas) cas n = a n := by
  by_cases hc : cas = 0
  · subst hc
    have hs : parity_s_n w 0 = (w + 1) / 2 := by simp [parity_s_n]
    have hd : parity_d_n w 0 = w / 2 := by simp [parity_d_n]
    rw [hs, hd]
    have h := encode_line_cas0 a ((w + 1) / 2) (w / 2) (by omega) (by omega)
    by_cases h0 : w / 2 = 0
    · rw [h.2 h0]
    · exact (h.1 (by omega)).2.2 n (by omega)
  · have hs : parity_s_n w cas = w / 2 := by simp [parity_s_n, hc]
    have hd : parity_d_n w cas = (w + 1) / 2 := by simp [parity_d_n, hc]
    rw [hs, hd]
    have h1 : ∀ (d s : Int), encode_line a d s cas = encode_line a d s 1 := by
      intro d s
      unfold encode_line
      rw [if_neg hc, if_neg (show ¬ ((1 : Nat) = 0) by decide)]
    rw [h1]
    have h := encode_line_cas1 a (w / 2) ((w + 1) / 2) (by omega) (by omega)
    by_cases h0 : w / 2 = 0 ∧ (w + 1) / 2 = 1
    · exact (h.1 h0).2 n (by omega)
    · exact (h.2 h0).2.2 n (by omega)

/-- C18: for every row width `w` and either parity, with `s_n` and `d_n` given by the parity
invariant, the traced kernel computes exactly the row of `dwt53::encode_line`, each clamping
macro reads the buffer at the index the trace records for it, every buffer index the kernel
reads or writes (clamped neighbour accesses included) lies in `[0, w)`, and the row after the
call agrees with the row before at every index outside `[0, w)`: the kernel works in place on
the `w` samples and nothing outside the row is accessed or changed. -/
theorem encode_line_in_place (a : Row) (w cas : Nat) :
    (encode_line_traced a (parity_d_n w cas) (parity_s_n w cas) cas).1
      = encode_line a (parity_d_n w cas) (parity_s_n w cas) cas ∧
    (∀ (r : Row) (k i : Int),
      GROK_S_ r k i = r (index_S_ k i) ∧ GROK_D_ r k i = r (index_D_ k i) ∧
      GROK_SS_ r k i = r (index_S_ k i) ∧ GROK_DD_ r k i = r (index_D_ k i)) ∧
    parity_s_n w cas + parity_d_n w cas = w ∧
    (∀ n ∈ (encode_line_traced a (parity_d_n w cas) (parity_s_n w cas) cas).2,
      0 ≤ n ∧ n < (w : Int)) ∧
    (∀ n : Int, n < 0 ∨ (w : Int) ≤ n →
      encode_line a (parity_d_n w cas) (parity_s_n w cas) cas n = a n) := by
  refine ⟨encode_line_traced_fst a _ _ cas,
    fun r k i => ⟨macro_S__index r k i, macro_D__index r k i, macro_SS__index r k i,
      macro_DD__index r k i⟩, ?_, encode_line_traced_range a w cas,
    fun n hn => encode_line_frame a w cas n hn⟩
  unfold parity_s_n parity_d_n
  split_ifs <;> omega

/-! ## C19: the dispatch of `Wavelet::encode` and `Wavelet::decode` -/

/-- C19: for every `uint8_t` value `qmfbid`, `Wavelet::encode(tile_comp, qmfbid)` runs the
5/3 forward transform if and only if `qmfbid = 1` and then returns its result and leaves the
tile component as that run left it; it runs the 9/7 forward transform if and only if
`qmfbid = 0`, likewise; for every other value (`2..255`) it returns `false`, runs no
transform and leaves the tile component as it was. `Wavelet::decode(p_tcd, tilec, numres,
qmfbid)` dispatches to `decode_53` / `decode_97` and fails in the same way. -/
theorem wavelet_dispatch {TC S : Type} (run53 run97 : TC → Bool × TC)
    (decode_53 decode_97 : S → Nat → Bool × S) (tile_comp : TC) (st : S) (numres : Nat)
    (qmfbid : Nat) (hq : qmfbid < 256) :
    (Transform.dwt53 ∈ (Wavelet.encode run53 run97 tile_comp qmfbid).2.2 ↔ qmfbid = 1) ∧
    (qmfbid = 1 → Wavelet.encode run53 run97 tile_comp qmfbid
      = ((run53 tile_comp).1, (run53 tile_comp).2, [Transform.dwt53])) ∧
    (Transform.dwt97 ∈ (Wavelet.encode run53 run97 tile_comp qmfbid).2.2 ↔ qmfbid = 0) ∧
    (qmfbid = 0 → Wavelet.encode run53 run97 tile_comp qmfbid
      = ((run97 tile_comp).1, (run97 tile_comp).2, [Transform.dwt97])) ∧
    (2 ≤ qmfbid → Wavelet.encode run53 run97 tile_comp qmfbid = (false, tile_comp, [])) ∧
    (Transform.dwt53 ∈ (Wavelet.decode decode_53 decode_97 st numres qmfbid).2.2
      ↔ qmfbid = 1) ∧
    (qmfbid = 1 → Wavelet.decode decode_53 decode_97 st numres qmfbid
      = ((decode_53 st numres).1, (decode_53 st numres).2, [Transform.dwt53])) ∧
    (Transform.dwt97 ∈ (Wavelet.decode decode_53 decode_97 st numres qmfbid).2.2
      ↔ qmfbid = 0) ∧
    (qmfbid = 0 → Wavelet.decode decode_53 decode_97 st numres qmfbid
      = ((decode_97 st numres).1, (decode_97 st numres).2, [Transform.dwt97])) ∧
    (2 ≤ qmfbid → Wavelet.decode decode_53 decode_97 st numres qmfbid = (false, st, [])) := by
  unfold Wavelet.encode Wavelet.decode
  by_cases h1 : qmfbid = 1
  · subst h1
    simp
  · by_cases h0 : qmfbid = 0
    · subst h0
      simp
    · have h2 : 2 ≤ qmfbid := by omega
      simp [h1, h0]

theorem wavelet_dispatch_witness :
    Wavelet.encode (fun (t : Nat) => (true, t + 53)) (fun t => (true, t + 97)) 0 1
      = (true, 53, [Transform.dwt53]) ∧
    Wavelet.encode (fun (t : Nat) => (true, t + 53)) (fun t => (true, t + 97)) 0 0
      = (true, 97, [Transform.dwt97]) ∧
    Wavelet.encode (fun (t : Nat) => (true, t + 53)) (fun t => (true, t + 97)) 0 2
      = (false, 0, []) ∧
    Wavelet.decode (fun (t : Nat) n => (true, t + 53 + n)) (fun t n => (true, t + 97 + n)) 0 3
      255 = (false, 0, []) := by
  have h1 := wavelet_dispatch (fun (t : Nat) => (true, t + 53)) (fun t => (true, t + 97))
    (fun (t : Nat) n => (true, t + 53 + n)) (fun t n => (true, t + 97 + n)) 0 0 3 1
    (by decide)
  have h0 := wavelet_dispatch (fun (t : Nat) => (true, t + 53)) (fun t => (true, t + 97))
    (fun (t : Nat) n => (true, t + 53 + n)) (fun t n => (true, t + 97 + n)) 0 0 3 0
    (by decide)
  have h2 := wavelet_dispatch (fun (t : Nat) => (true, t + 53)) (fun t => (true, t + 97))
    (fun (t : Nat) n => (true, t + 53 + n)) (fun t n => (true, t + 97 + n)) 0 0 3 2
    (by decide)
  have h255 := wavelet_dispatch (fun (t : Nat) => (true, t + 53)) (fun t => (true, t + 97))
    (fun (t : Nat) n => (true, t + 53 + n)) (fun t n => (true, t + 97 + n)) 0 0 3 255
    (by decide)
  exact ⟨h1.2.1 rfl, h0.2.2.2.1 rfl, h2.2.2.2.2.1 (by decide),
    h255.2.2.2.2.2.2.2.2.2 (by decide)⟩

/-! ## C20: the specialised copy branches against the general loop -/

theorem for_loop_congr {σ : Type} (n : Nat) (f g : Nat → σ → σ) (s : σ)
    (h : ∀ j t, j < n → f j t = g j t) : for_loop n f s = for_loop n g s := by
  induction n with
  | zero => simp [for_loop_zero]
  | succ m ih =>
    rw [for_loop_succ, for_loop_succ, ih (fun j t hj => h j t (Nat.lt_succ_of_lt hj)),
      h m _ (Nat.lt_succ_self m)]

theorem store_loop_eq (d : Buffer) (p n : Nat) (v : Nat → Int) :
    for_loop n (fun k d => store d (p + k) (v k)) d
      = fun i => if p ≤ i ∧ i < p + n then v (i - p) else d i := by
  induction n with
  | zero =>
    funext i
    simp only [for_loop_zero]
    rw [if_neg (by omega)]
  | succ m ih =>
    rw [for_loop_succ, ih]
    funext i
    unfold store
    by_cases hi : i = p + m
    · subst hi
      rw [if_pos rfl, if_pos (by omega)]
      congr 1
      omega
    · rw [if_neg hi]
      beta_reduce
      by_cases h1 : p ≤ i ∧ i < p + m
      · rw [if_pos h1, if_pos (by omega)]
      · rw [if_neg h1, if_neg (by omega)]

theorem set_loop_eq (l : List Int) (q n : Nat) (v : Nat → Int) :
    for_loop n (fun k b => b.set (q + k) (v k)) l
      = (List.range l.length).map
          (fun i => if q ≤ i ∧ i < q + n then v (i - q) else l.getD i 0) := by
  induction n with
  | zero =>
    simp only [for_loop_zero]
    apply List.ext_getElem
    · simp
    · intro i h1 h2
      simp only [List.getElem_map, List.getElem_range]
      rw [if_neg (by omega), List.getD_eq_getElem l 0 h1]
  | succ m ih =>
    rw [for_loop_succ, ih]
    apply List.ext_getElem
    · simp
    · intro i h1 h2
      simp only [List.length_set, List.length_map, List.length_range] at h1
      rw [List.getElem_set]
      simp only [List.getElem_map, List.getElem_range]
      by_cases hi : q + m = i
      · subst hi
        rw [if_pos rfl, if_pos (by omega)]
        congr 1
        omega
      · rw [if_neg hi]
        by_cases h3 : q ≤ i ∧ i < q + m
        · rw [if_pos h3, if_pos (by omega)]
        · rw [if_neg h3, if_neg (by omega)]

theorem memset_zero_eq_loop (d : Buffer) (p n cs : Nat) (hcs : cs = 1) :
    memset_zero d p n = for_loop n (fun k d => store d (p + k * cs) 0) d := by
  subst hcs
  simp only [Nat.mul_one]
  rw [store_loop_eq d p n (fun _ => 0)]
  rfl

theorem memcpy_from_block_eq_loop (d : Buffer) (p : Nat) (blk : List Int) (q n cs : Nat)
    (hcs : cs = 1) :
    memcpy_from_block d p blk q n
      = for_loop n (fun k d => store d (p + k * cs) (blk.getD (q + k) 0)) d := by
  subst hcs
  simp only [Nat.mul_one]
  rw [store_loop_eq d p n (fun k => blk.getD (q + k) 0)]
  rfl

theorem memcpy_to_block_eq_loop (b : List Int) (q : Nat) (buf : Buffer) (p n cs : Nat)
    (hcs : cs = 1) :
    memcpy_to_block b q buf p n
      = for_loop n (fun k b => b.set (q + k) (buf (p + k * cs))) b := by
  subst hcs
  simp only [Nat.mul_one]
  rw [set_loop_eq b q n (fun k => buf (p + k))]
  rfl

theorem zero_fill_general_eq (buf : Buffer) (dest_ptr x_incr y_incr cs ls : Nat) :
    zero_fill buf dest_ptr x_incr y_incr cs ls
      = zero_fill_general buf dest_ptr x_incr y_incr cs ls := by
  unfold zero_fill zero_fill_general
  by_cases hcs : cs = 1
  · rw [if_pos hcs]
    exact for_loop_congr _ _ _ _ (fun j t _ => memset_zero_eq_loop t _ _ cs hcs)
  · rw [if_neg hcs]

theorem for_loop_one {σ : Type} (body : Nat → σ → σ) (s : σ) :
    for_loop 1 body s = body 0 s := by
  rw [for_loop_succ, for_loop_zero]

theorem read_block_general_eq (blk : List Int) (src_ptr : Nat) (buf : Buffer)
    (dest_ptr x_incr y_incr cs ls bw : Nat) (hx : x_incr < UINT32_RANGE) :
    read_block blk src_ptr buf dest_ptr x_incr y_incr cs ls bw
      = read_block_general blk src_ptr buf dest_ptr x_incr y_incr cs ls bw := by
  unfold read_block read_block_general
  by_cases hcs : cs = 1
  · rw [if_pos hcs]
    have h : for_loop y_incr
        (fun j d => memcpy_from_block d (dest_ptr + j * ls) blk (src_ptr + j * bw) x_incr) buf
        = for_loop y_incr (fun j d => for_loop x_incr
          (fun k d => store d (dest_ptr + j * ls + k * cs)
            (blk.getD (src_ptr + j * bw + k) 0)) d) buf :=
      for_loop_congr _ _ _ _ (fun j t _ => memcpy_from_block_eq_loop t _ blk _ _ cs hcs)
    split_ifs <;> exact h
  · rw [if_neg hcs]
    by_cases h1 : x_incr = 1
    · rw [if_pos h1]
      subst h1
      refine for_loop_congr _ _ _ _ (fun j t _ => ?_)
      rw [for_loop_one]
      simp only [Nat.zero_mul, Nat.add_zero]
    · rw [if_neg h1]
      by_cases h2 : y_incr = 1 ∧ cs = 2
      · rw [if_pos h2, unrolled_loop_eq x_incr hx]
        obtain ⟨hy, _⟩ := h2
        subst hy
        rw [for_loop_one]
        simp only [Nat.zero_mul, Nat.add_zero]
      · rw [if_neg h2]
        by_cases h3 : x_incr ≥ 8 ∧ cs = 8
        · rw [if_pos h3]
          exact for_loop_congr _ _ _ _ (fun j t _ => unrolled_loop_eq x_incr hx _ t)
        · rw [if_neg h3]

theorem write_block_general_eq (blk : List Int) (dest_ptr : Nat) (buf : Buffer)
    (src_ptr x_incr y_incr cs ls bw : Nat) (hx : x_incr < UINT32_RANGE) :
    write_block blk dest_ptr buf src_ptr x_incr y_incr cs ls bw
      = write_block_general blk dest_ptr buf src_ptr x_incr y_incr cs ls bw := by
  unfold write_block write_block_general
  by_cases hcs : cs = 1
  · rw [if_pos hcs]
    have h : for_loop y_incr
        (fun j b => memcpy_to_block b (dest_ptr + j * bw) buf (src_ptr + j * ls) x_incr) blk
        = for_loop y_incr (fun j b => for_loop x_incr
          (fun k b => b.set (dest_ptr + j * bw + k)
            (buf (src_ptr + j * ls + k * cs))) b) blk :=
      for_loop_congr _ _ _ _ (fun j t _ => memcpy_to_block_eq_loop t _ buf _ _ cs hcs)
    split_ifs <;> exact h
  · rw [if_neg hcs]
    by_cases h1 : x_incr = 1
    · rw [if_pos h1]
      subst h1
      refine for_loop_congr _ _ _ _ (fun j t _ => ?_)
      rw [for_loop_one]
      simp only [Nat.zero_mul, Nat.add_zero]
    · rw [if_neg h1]
      by_cases h3 : x_incr ≥ 8 ∧ cs = 8
      · rw [if_pos h3]
        exact for_loop_congr _ _ _ _ (fun j t _ => unrolled_loop_eq x_incr hx _ t)
      · rw [if_neg h3]

theorem rw_x_loop_general_eq (sa : sparse_array) (x0 y0 x1 cs ls : Nat) (op : Bool)
    (y y_incr block_y byo : Nat) (hx1 : x1 < UINT32_RANGE) :
    ∀ (fuel x block_x : Nat) (blocks : Slots) (buf : Buffer),
      rw_x_loop sa x0 y0 x1 cs ls op y y_incr block_y byo fuel x block_x blocks buf
        = rw_x_loop_general sa x0 y0 x1 cs ls op y y_incr block_y byo fuel x block_x blocks
            buf := by
  intro fuel
  induction fuel with
  | zero =>
    intro x block_x blocks buf
    simp only [rw_x_loop, rw_x_loop_general]
  | succ fuel ih =>
    intro x block_x blocks buf
    by_cases hlt : x < x1
    · have hxi : min (if x = x0 then sa.block_width - x0 % sa.block_width
          else sa.block_width) (x1 - x) < UINT32_RANGE :=
        lt_of_le_of_lt (Nat.min_le_right _ _) (by omega)
      simp only [rw_x_loop, rw_x_loop_general, hlt, if_true]
      cases op with
      | true =>
        simp only [if_true]
        cases hb : blocks.getD (block_y * sa.block_count_hor + block_x) none with
        | none =>
          simp only
          rw [zero_fill_general_eq, ih]
        | some blk =>
          simp only
          rw [read_block_general_eq _ _ _ _ _ _ _ _ _ hxi, ih]
      | false =>
        simp only [Bool.false_eq_true, if_false]
        cases hb : blocks.getD (block_y * sa.block_count_hor + block_x) none with
        | none => simp only
        | some blk =>
          simp only
          rw [write_block_general_eq _ _ _ _ _ _ _ _ _ hxi, ih]
    · simp only [rw_x_loop, rw_x_loop_general, hlt, if_false]

theorem rw_y_loop_general_eq (sa : sparse_array) (x0 y0 x1 y1 cs ls : Nat) (op : Bool)
    (hx1 : x1 < UINT32_RANGE) :
    ∀ (fuel y block_y : Nat) (blocks : Slots) (buf : Buffer),
      rw_y_loop sa x0 y0 x1 y1 cs ls op fuel y block_y blocks buf
        = rw_y_loop_general sa x0 y0 x1 y1 cs ls op fuel y block_y blocks buf := by
  intro fuel
  induction fuel with
  | zero =>
    intro y block_y blocks buf
    simp only [rw_y_loop, rw_y_loop_general]
  | succ fuel ih =>
    intro y block_y blocks buf
    by_cases hlt : y < y1
    · simp only [rw_y_loop, rw_y_loop_general, hlt, if_true]
      rw [rw_x_loop_general_eq sa x0 y0 x1 cs ls op _ _ _ _ hx1]
      cases rw_x_loop_general sa x0 y0 x1 cs ls op y
          (min (if y = y0 then sa.block_height - y0 % sa.block_height else sa.block_height)
            (y1 - y)) block_y
          (sa.block_height - (if y = y0 then sa.block_height - y0 % sa.block_height
            else sa.block_height)) (x1 - x0) x0 (x0 / sa.block_width) blocks buf with
      | error e => rfl
      | ok r =>
        obtain ⟨b1, buf1⟩ := r
        simp only
        rw [ih]
    · simp only [rw_y_loop, rw_y_loop_general, hlt, if_false]

/-- C20: for every array whose width is a `uint32_t` value, every rectangle, every pair of
strides, every buffer, both settings of `forgiving` and both operations (read and write),
`read_or_write` with its specialised copy branches (`memset` zero fill and `memcpy` rows for
unit column stride with the `x_incr == 4` duplicate, the `x_incr == 1` column copy, the 4-way
unrolled loops) gives exactly the same result as the same walk with the general per-sample
loop `dest[k*col_stride] = src[k]` on every row of every intersected block: the same return
value or the same failed assertion, the same array contents and the same buffer. -/
theorem read_or_write_fast_paths (sa : sparse_array) (hw : sa.width < UINT32_RANGE)
    (x0 y0 x1 y1 : Nat) (buf : Buffer) (cs ls : Nat) (forgiving is_read_op : Bool) :
    sa.read_or_write x0 y0 x1 y1 buf cs ls forgiving is_read_op
      = sa.read_or_write_general x0 y0 x1 y1 buf cs ls forgiving is_read_op := by
  unfold sparse_array.read_or_write sparse_array.read_or_write_general
  by_cases hv : sa.is_region_valid x0 y0 x1 y1 = true
  · have hx1 : x1 < UINT32_RANGE := by
      have := (is_region_valid_iff sa x0 y0 x1 y1).1 hv
      omega
    simp only [hv, Bool.not_true, Bool.false_eq_true, if_false]
    rw [rw_y_loop_general_eq sa x0 y0 x1 y1 cs ls is_read_op hx1]
  · simp only [hv, Bool.not_false, if_true]

theorem read_or_write_fast_paths_witness :
    array10_full.width < UINT32_RANGE ∧
    array10_full.read_or_write 1 0 9 10 buf16 1 8 false false
      = array10_full.read_or_write_general 1 0 9 10 buf16 1 8 false false ∧
    (array10_full.read_or_write_general 1 0 9 10 buf16 1 8 false false).isOk = true := by
  refine ⟨by decide, read_or_write_fast_paths array10_full (by decide) 1 0 9 10 buf16 1 8
    false false, ?_⟩
  decide

/-! ## C26: constant rows -/

theorem shr_eq_div (m : Int) (k : Nat) : m >>> (k : Int) = m / ((2 ^ k : Nat) : Int) := by
  cases m with
  | ofNat a =>
    rw [Int.ofNat_eq_coe, Int.shiftRight_coe_nat, Nat.shiftRight_eq_div_pow]
    norm_cast
  | negSucc a =>
    rw [Int.shiftRight_negSucc, Nat.shiftRight_eq_div_pow]
    rw [Int.negSucc_ediv _ (by positivity)]
    rw [Int.negSucc_eq]
    push_cast
    rfl

theorem shr_one (m : Int) : m >>> (1 : Int) = m / 2 := by
  have h := shr_eq_div m 1
  simpa using h

theorem shr_two (m : Int) : m >>> (2 : Int) = m / 4 := by
  have h := shr_eq_div m 2
  simpa using h

theorem shl_one (m : Int) : m <<< (1 : Int) = m * 2 := by
  have h := Int.shiftLeft_eq_mul_pow m 1
  simpa using h

theorem wrap32_of_range (x : Int) (h : is_int32 x) : wrap32 x = x := by
  unfold is_int32 at h
  unfold wrap32
  omega

theorem wrap32_range (x : Int) : is_int32 (wrap32 x) := by
  unfold is_int32 wrap32
  omega

theorem encode_line_cas_pos (a : Row) (d s : Int) (cas : Nat) (hc : cas ≠ 0) :
    encode_line a d s cas = encode_line a d s 1 := by
  unfold encode_line
  rw [if_neg hc, if_neg (show ¬ ((1 : Nat) = 0) by decide)]

/-- High-pass value of a constant row: `c - ((c + c) >> 1) = 0`. -/
theorem const_high (c : Int) (hc : -1073741824 < c ∧ c < 1073741824) :
    wrap32 (c - (wrap32 (c + c)) >>> (1 : Int)) = 0 := by
  rw [wrap32_of_range (c + c) (by unfold is_int32; omega), shr_one]
  have : (c + c) / 2 = c := by omega
  rw [this]
  unfold wrap32
  omega

/-- Low-pass value of a constant row: `c + ((0 + 0 + 2) >> 2) = c`. -/
theorem const_low (c : Int) (hc : -1073741824 < c ∧ c < 1073741824) :
    wrap32 (c + (wrap32 (wrap32 (0 + 0) + 2)) >>> (2 : Int)) = c := by
  have h0 : wrap32 (0 + 0) = 0 := by unfold wrap32; omega
  have h2 : wrap32 (0 + 2) = 2 := by unfold wrap32; omega
  rw [h0, h2, shr_two]
  have : (2 : Int) / 4 = 0 := by omega
  rw [this]
  unfold wrap32
  omega

theorem spec_D0_const (a : Row) (w : Nat) (c : Int) (hc : -1073741824 < c ∧ c < 1073741824)
    (ha : ∀ n : Int, 0 ≤ n → n < w → a n = c) (i : Nat) (hi : i < w / 2) :
    spec_D0 a ((w + 1) / 2) i = 0 := by
  unfold spec_D0
  rw [ha _ (by omega) (by omega), ha _ (by omega) (by omega), ha _ (by omega) (by omega)]
  exact const_high c hc

theorem spec_S0_const (a : Row) (w : Nat) (c : Int) (hc : -1073741824 < c ∧ c < 1073741824)
    (ha : ∀ n : Int, 0 ≤ n → n < w → a n = c) (i : Nat) (hi : i < (w + 1) / 2)
    (hw : 2 ≤ w) :
    spec_S0 a ((w + 1) / 2) (w / 2) i = c := by
  unfold spec_S0
  rw [spec_D0_const a w c hc ha _ (by omega), spec_D0_const a w c hc ha _ (by omega),
    ha _ (by omega) (by omega)]
  exact const_low c hc

theorem clamp_index_bounds (i : Int) (n : Nat) (hn : 0 < n) :
    0 ≤ clamp_index i n ∧ clamp_index i n < n := by
  unfold clamp_index
  omega

theorem spec_S1_const (a : Row) (w : Nat) (c : Int) (hc : -1073741824 < c ∧ c < 1073741824)
    (ha : ∀ n : Int, 0 ≤ n → n < w → a n = c) (i : Nat) (hi : i < (w + 1) / 2)
    (hw : 2 ≤ w) :
    spec_S1 a (w / 2) i = 0 := by
  unfold spec_S1
  have h1 := clamp_index_bounds (i : Int) (w / 2) (by omega)
  have h2 := clamp_index_bounds ((i : Int) - 1) (w / 2) (by omega)
  rw [ha _ (by omega) (by omega), ha _ (by omega) (by omega), ha _ (by omega) (by omega)]
  exact const_high c hc

theorem spec_D1_const (a : Row) (w : Nat) (c : Int) (hc : -1073741824 < c ∧ c < 1073741824)
    (ha : ∀ n : Int, 0 ≤ n → n < w → a n = c) (i : Nat) (hi : i < w / 2)
    (hw : 2 ≤ w) :
    spec_D1 a (w / 2) ((w + 1) / 2) i = c := by
  unfold spec_D1
  have h1 := clamp_index_bounds (i : Int) ((w + 1) / 2) (by omega)
  have h2 := clamp_index_bounds ((i : Int) + 1) ((w + 1) / 2) (by omega)
  rw [spec_S1_const a w c hc ha _ (by omega) hw, spec_S1_const a w c hc ha _ (by omega) hw,
    ha _ (by omega) (by omega)]
  exact const_low c hc

theorem encode_line_const_row (a : Row) (w cas : Nat) (c : Int) (hw : 2 ≤ w)
    (hc : -1073741824 < c ∧ c < 1073741824)
    (ha : ∀ n : Int, 0 ≤ n → n < w → a n = c) :
    (cas = 0 →
      (∀ i, i < parity_s_n w cas →
        encode_line a (parity_d_n w cas) (parity_s_n w cas) cas (2 * (i : Int)) = c) ∧
      (∀ i, i < parity_d_n w cas →
        encode_line a (parity_d_n w cas) (parity_s_n w cas) cas (2 * (i : Int) + 1) = 0)) ∧
    (cas ≠ 0 →
      (∀ i, i < parity_s_n w cas →
        encode_line a (parity_d_n w cas) (parity_s_n w cas) cas (2 * (i : Int) + 1) = c) ∧
      (∀ i, i < parity_d_n w cas →
        encode_line a (parity_d_n w cas) (parity_s_n w cas) cas (2 * (i : Int)) = 0)) := by
  constructor
  · intro h0
    subst h0
    have hs : parity_s_n w 0 = (w + 1) / 2 := by simp [parity_s_n]
    have hd : parity_d_n w 0 = w / 2 := by simp [parity_d_n]
    rw [hs, hd]
    obtain ⟨f1, f2, _⟩ := (encode_line_cas0 a ((w + 1) / 2) (w / 2) (by omega) (by omega)).1
      (by omega)
    exact ⟨fun i hi => (f2 i hi).trans (spec_S0_const a w c hc ha i hi hw),
      fun i hi => (f1 i hi).trans (spec_D0_const a w c hc ha i hi)⟩
  · intro h1
    have hs : parity_s_n w cas = w / 2 := by simp [parity_s_n, h1]
    have hd : parity_d_n w cas = (w + 1) / 2 := by simp [parity_d_n, h1]
    rw [hs, hd, encode_line_cas_pos a _ _ cas h1]
    obtain ⟨f1, f2, _⟩ := (encode_line_cas1 a (w / 2) ((w + 1) / 2) (by omega) (by omega)).2
      (by omega)
    exact ⟨fun i hi => (f2 i hi).trans (spec_D1_const a w c hc ha i hi hw),
      fun i hi => (f1 i hi).trans (spec_S1_const a w c hc ha i hi hw)⟩

theorem encode_line_zero_row (a : Row) (w cas : Nat)
    (ha : ∀ n : Int, 0 ≤ n → n < w → a n = 0) (n : Int) (h0 : 0 ≤ n) (hn : n < w) :
    encode_line a (parity_d_n w cas) (parity_s_n w cas) cas n = 0 := by
  by_cases hw : 2 ≤ w
  · obtain ⟨c0, c1⟩ := encode_line_const_row a w cas 0 hw (by omega) ha
    have hs : parity_s_n w cas = if cas = 0 then (w + 1) / 2 else w / 2 := rfl
    have hd : parity_d_n w cas = if cas = 0 then w / 2 else (w + 1) / 2 := rfl
    obtain ⟨k, hk | hk⟩ : ∃ k : Nat, n = 2 * (k : Int) ∨ n = 2 * (k : Int) + 1 :=
      ⟨(n / 2).toNat, by omega⟩
    · subst hk
      by_cases hc : cas = 0
      · exact (c0 hc).1 k (by rw [hs, if_pos hc]; omega)
      · exact (c1 hc).2 k (by rw [hd, if_neg hc]; omega)
    · subst hk
      by_cases hc : cas = 0
      · exact (c0 hc).2 k (by rw [hd, if_pos hc]; omega)
      · exact (c1 hc).1 k (by rw [hs, if_neg hc]; omega)
  · have hn0 : n = 0 := by omega
    have hw1 : w = 1 := by omega
    subst hn0 hw1
    by_cases hc : cas = 0
    · subst hc
      have hs : parity_s_n 1 0 = 1 := by simp [parity_s_n]
      have hd : parity_d_n 1 0 = 0 := by simp [parity_d_n]
      rw [hs, hd, (encode_line_cas0 a 1 0 (by omega) (by omega)).2 rfl]
      exact ha 0 (by omega) (by omega)
    · have hs : parity_s_n 1 cas = 0 := by simp [parity_s_n, hc]
      have hd : parity_d_n 1 cas = 1 := by simp [parity_d_n, hc]
      rw [hs, hd, encode_line_cas_pos a _ _ cas hc,
        ((encode_line_cas1 a 0 1 (by omega) (by omega)).1 ⟨rfl, rfl⟩).1,
        ha 0 (by omega) (by omega), shl_one]
      unfold wrap32
      omega

/-- C26: on a row of width `w ≥ 2` whose samples all equal `c`, `|c| < 2^30`, with `s_n` and
`d_n` from the parity invariant, `dwt53::encode_line` leaves `c` at every low-pass position
(`a[2i]` for `cas = 0`, `a[2i+1]` otherwise) and `0` at every high-pass position; and a row
of any width and parity whose samples are all `0` is mapped to the all-zero row. -/
theorem encode_line_constant_row (a : Row) (w cas : Nat) (c : Int) :
    (2 ≤ w → -1073741824 < c ∧ c < 1073741824 → (∀ n : Int, 0 ≤ n → n < w → a n = c) →
      (cas = 0 →
        (∀ i, i < parity_s_n w cas →
          encode_line a (parity_d_n w cas) (parity_s_n w cas) cas (2 * (i : Int)) = c) ∧
        (∀ i, i < parity_d_n w cas →
          encode_line a (parity_d_n w cas) (parity_s_n w cas) cas (2 * (i : Int) + 1) = 0)) ∧
      (cas ≠ 0 →
        (∀ i, i < parity_s_n w cas →
          encode_line a (parity_d_n w cas) (parity_s_n w cas) cas (2 * (i : Int) + 1) = c) ∧
        (∀ i, i < parity_d_n w cas →
          encode_line a (parity_d_n w cas) (parity_s_n w cas) cas (2 * (i : Int)) = 0))) ∧
    ((∀ n : Int, 0 ≤ n → n < w → a n = 0) →
      ∀ n : Int, 0 ≤ n → n < w →
        encode_line a (parity_d_n w cas) (parity_s_n w cas) cas n = 0) :=
  ⟨fun hw hc ha => encode_line_const_row a w cas c hw hc ha,
    fun ha n h0 hn => encode_line_zero_row a w cas ha n h0 hn⟩

theorem row_of_const4 (n : Int) (h0 : 0 ≤ n) (h4 : n < ((4 : Nat) : Int)) :
    row_of [5, 5, 5, 5] n = 5 := by
  have h : n = 0 ∨ n = 1 ∨ n = 2 ∨ n = 3 := by omega
  rcases h with h | h | h | h <;> subst h <;> rfl

theorem row_of_zero3 (n : Int) (h0 : 0 ≤ n) (h3 : n < ((3 : Nat) : Int)) :
    row_of [0, 0, 0] n = 0 := by
  have h : n = 0 ∨ n = 1 ∨ n = 2 := by omega
  rcases h with h | h | h <;> subst h <;> rfl

/-- Witness of C26: the row `[5,5,5,5]` with `cas = 0` becomes `[5,0,5,0]`, the row `[7,7,7]`
with `cas = 1` becomes `[0,7,0]`, and the zero row of width 3 stays zero. -/
theorem encode_line_constant_row_witness :
    row_take (encode_line (row_of [5, 5, 5, 5]) (parity_d_n 4 0) (parity_s_n 4 0) 0) 4
      = [5, 0, 5, 0] ∧
    row_take (encode_line (row_of [7, 7, 7]) (parity_d_n 3 1) (parity_s_n 3 1) 1) 3
      = [0, 7, 0] ∧
    encode_line (row_of [5, 5, 5, 5]) (parity_d_n 4 0) (parity_s_n 4 0) 0
      (2 * ((1 : Nat) : Int) + 1) = 0 ∧
    encode_line (row_of [0, 0, 0]) (parity_d_n 3 1) (parity_s_n 3 1) 1 2 = 0 :=
  ⟨by decide, by decide,
    (((encode_line_constant_row (row_of [5, 5, 5, 5]) 4 0 5).1 (by decide) (by decide)
      row_of_const4).1 rfl).2 1 (by decide),
    (encode_line_constant_row (row_of [0, 0, 0]) 3 1 0).2 row_of_zero3 2 (by decide)
      (by decide)⟩

/-! ## C21: losslessness of the 5/3 kernel -/

theorem lifting_frame (idx : Nat → Int) (val : Nat → Row → Int) (a : Row) (N : Nat) (n : Int)
    (hn : ∀ j, j < N → n ≠ idx j) :
    for_loop N (fun i t => row_set t (idx i) (val i t)) a n = a n := by
  induction N with
  | zero => rfl
  | succ m ih =>
    rw [for_loop_succ, row_set_other _ _ _ _ (hn m (Nat.lt_succ_self m))]
    exact ih (fun j hj => hn j (Nat.lt_succ_of_lt hj))

theorem wrap32_add_sub (x g : Int) (hx : is_int32 x) : wrap32 (wrap32 (x + g) - g) = x := by
  unfold is_int32 at hx
  unfold wrap32
  omega

/-- A lifting loop `a[idx i] += G i` whose increments `G i` read only positions that the loop
does not assign is undone by the loop `a[idx i] -= G i`, on rows whose assigned positions hold
`int32_t` values. -/
theorem lifting_undo (idx : Nat → Int) (hinj : ∀ i j, idx i = idx j → i = j)
    (G : Nat → Row → Int) (N : Nat)
    (hG : ∀ i t u, i < N → (∀ n, (∀ j, j < N → n ≠ idx j) → t n = u n) → G i t = G i u)
    (fw bw : Nat → Row → Int)
    (hfw : ∀ i t, fw i t = wrap32 (t (idx i) + G i t))
    (hbw : ∀ i t, bw i t = wrap32 (t (idx i) - G i t))
    (a : Row) (ha : ∀ i, i < N → is_int32 (a (idx i))) :
    for_loop N (fun i t => row_set t (idx i) (bw i t))
      (for_loop N (fun i t => row_set t (idx i) (fw i t)) a) = a := by
  obtain ⟨f1, f2⟩ := lifting_loop idx hinj fw (fun i => wrap32 (a (idx i) + G i a)) a N
    (fun m t hm _ h2 => by
      rw [hfw, h2 (idx m) (fun i hi e => by have := hinj _ _ e; omega),
        hG m t a hm (fun n hn => h2 n (fun i hi => hn i (by omega)))]) N (Nat.le_refl _)
  obtain ⟨g1, g2⟩ := lifting_loop idx hinj bw (fun i => a (idx i))
    (for_loop N (fun i t => row_set t (idx i) (fw i t)) a) N
    (fun m t hm _ h2 => by
      rw [hbw, h2 (idx m) (fun i hi e => by have := hinj _ _ e; omega), f1 m hm,
        hG m t a hm (fun n hn => by
          rw [h2 n (fun i hi => hn i (by omega))]
          exact f2 n hn)]
      exact wrap32_add_sub _ _ (ha m hm)) N (Nat.le_refl _)
  funext n
  by_cases h : ∃ i, i < N ∧ n = idx i
  · obtain ⟨i, hi, e⟩ := h
    rw [e]
    exact g1 i hi
  · have hn : ∀ j, j < N → n ≠ idx j := fun j hj e => h ⟨j, hj, e⟩
    rw [g2 n hn]
    exact f2 n hn

theorem index_S__even (k i : Int) : ∃ m : Int, index_S_ k i = 2 * m := by
  unfold index_S_
  split_ifs
  · exact ⟨0, rfl⟩
  · exact ⟨k - 1, rfl⟩
  · exact ⟨i, rfl⟩

theorem index_D__odd (k i : Int) : ∃ m : Int, index_D_ k i = 1 + 2 * m := by
  unfold index_D_
  split_ifs
  · exact ⟨0, rfl⟩
  · exact ⟨k - 1, rfl⟩
  · exact ⟨i, rfl⟩

theorem macro_S__congr (t u : Row) (k i : Int) (N : Nat)
    (h : ∀ n, (∀ j : Nat, j < N → n ≠ 1 + 2 * (j : Int)) → t n = u n) :
    GROK_S_ t k i = GROK_S_ u k i ∧ GROK_SS_ t k i = GROK_SS_ u k i := by
  rw [macro_S__index, macro_S__index, macro_SS__index, macro_SS__index]
  obtain ⟨m, hm⟩ := index_S__even k i
  have := h (index_S_ k i) (fun j _ => by omega)
  exact ⟨this, this⟩

theorem macro_D__congr (t u : Row) (k i : Int) (N : Nat)
    (h : ∀ n, (∀ j : Nat, j < N → n ≠ 2 * (j : Int)) → t n = u n) :
    GROK_D_ t k i = GROK_D_ u k i ∧ GROK_DD_ t k i = GROK_DD_ u k i := by
  rw [macro_D__index, macro_D__index, macro_DD__index, macro_DD__index]
  obtain ⟨m, hm⟩ := index_D__odd k i
  have := h (index_D_ k i) (fun j _ => by omega)
  exact ⟨this, this⟩

/-- Undoing the odd-position loop `D(i) -= (S_(i) + S_(i+1)) >> 1`. -/
theorem undo_odd_sub (a : Row) (k : Int) (N : Nat)
    (ha : ∀ i : Nat, i < N → is_int32 (a (1 + 2 * (i : Int)))) :
    for_loop N (fun i t => row_set t (1 + 2 * (i : Int))
        (wrap32 (GROK_D t i + (wrap32 (GROK_S_ t k i + GROK_S_ t k (i + 1))) >>> 1)))
      (for_loop N (fun i t => row_set t (1 + 2 * (i : Int))
        (wrap32 (GROK_D t i - (wrap32 (GROK_S_ t k i + GROK_S_ t k (i + 1))) >>> 1))) a)
      = a :=
  lifting_undo (fun i => 1 + 2 * (i : Int)) (fun i j h => by beta_reduce at h; omega)
    (fun i t => - ((wrap32 (GROK_S_ t k i + GROK_S_ t k ((i : Int) + 1))) >>> (1 : Int))) N
    (fun i t u _ h => by
      beta_reduce
      rw [(macro_S__congr t u k i N h).1, (macro_S__congr t u k ((i : Int) + 1) N h).1])
    _ _
    (fun i t => by beta_reduce; unfold GROK_D; rw [sub_eq_add_neg])
    (fun i t => by beta_reduce; unfold GROK_D; rw [sub_neg_eq_add])
    a ha

/-- Undoing the even-position loop `S(i) += (D_(i-1) + D_(i) + 2) >> 2`. -/
theorem undo_even_add (a : Row) (k : Int) (N : Nat)
    (ha : ∀ i : Nat, i < N → is_int32 (a (2 * (i : Int)))) :
    for_loop N (fun i t => row_set t (2 * (i : Int))
        (wrap32 (GROK_S t i -
          (wrap32 (wrap32 (GROK_D_ t k (i - 1) + GROK_D_ t k i) + 2)) >>> 2)))
      (for_loop N (fun i t => row_set t (2 * (i : Int))
        (wrap32 (GROK_S t i +
          (wrap32 (wrap32 (GROK_D_ t k (i - 1) + GROK_D_ t k i) + 2)) >>> 2))) a)
      = a :=
  lifting_undo (fun i => 2 * (i : Int)) (fun i j h => by beta_reduce at h; omega)
    (fun i t => (wrap32 (wrap32 (GROK_D_ t k ((i : Int) - 1) + GROK_D_ t k i) + 2))
      >>> (2 : Int)) N
    (fun i t u _ h => by
      beta_reduce
      rw [(macro_D__congr t u k i N h).1, (macro_D__congr t u k ((i : Int) - 1) N h).1])
    _ _
    (fun i t => by beta_reduce; unfold GROK_S; rfl)
    (fun i t => by beta_reduce; unfold GROK_S; rfl)
    a ha

/-- Undoing the even-position loop `S(i) -= (DD_(i) + DD_(i-1)) >> 1`. -/
theorem undo_even_sub (a : Row) (k : Int) (N : Nat)
    (ha : ∀ i : Nat, i < N → is_int32 (a (2 * (i : Int)))) :
    for_loop N (fun i t => row_set t (2 * (i : Int))
        (wrap32 (GROK_S t i + (wrap32 (GROK_DD_ t k i + GROK_DD_ t k (i - 1))) >>> 1)))
      (for_loop N (fun i t => row_set t (2 * (i : Int))
        (wrap32 (GROK_S t i - (wrap32 (GROK_DD_ t k i + GROK_DD_ t k (i - 1))) >>> 1))) a)
      = a :=
  lifting_undo (fun i => 2 * (i : Int)) (fun i j h => by beta_reduce at h; omega)
    (fun i t => - ((wrap32 (GROK_DD_ t k i + GROK_DD_ t k ((i : Int) - 1))) >>> (1 : Int))) N
    (fun i t u _ h => by
      beta_reduce
      rw [(macro_D__congr t u k i N h).2, (macro_D__congr t u k ((i : Int) - 1) N h).2])
    _ _
    (fun i t => by beta_reduce; unfold GROK_S; rw [sub_eq_add_neg])
    (fun i t => by beta_reduce; unfold GROK_S; rw [sub_neg_eq_add])
    a ha

/-- Undoing the odd-position loop `D(i) += (SS_(i) + SS_(i+1) + 2) >> 2`. -/
theorem undo_odd_add (a : Row) (k : Int) (N : Nat)
    (ha : ∀ i : Nat, i < N → is_int32 (a (1 + 2 * (i : Int)))) :
    for_loop N (fun i t => row_set t (1 + 2 * (i : Int))
        (wrap32 (GROK_D t i -
          (wrap32 (wrap32 (GROK_SS_ t k i + GROK_SS_ t k (i + 1)) + 2)) >>> 2)))
      (for_loop N (fun i t => row_set t (1 + 2 * (i : Int))
        (wrap32 (GROK_D t i +
          (wrap32 (wrap32 (GROK_SS_ t k i + GROK_SS_ t k (i + 1)) + 2)) >>> 2))) a)
      = a :=
  lifting_undo (fun i => 1 + 2 * (i : Int)) (fun i j h => by beta_reduce at h; omega)
    (fun i t => (wrap32 (wrap32 (GROK_SS_ t k i + GROK_SS_ t k ((i : Int) + 1)) + 2))
      >>> (2 : Int)) N
    (fun i t u _ h => by
      beta_reduce
      rw [(macro_S__congr t u k i N h).2, (macro_S__congr t u k ((i : Int) + 1) N h).2])
    _ _
    (fun i t => by beta_reduce; unfold GROK_D; rfl)
    (fun i t => by beta_reduce; unfold GROK_D; rfl)
    a ha

theorem undo_encode_line_eq (a : Row) (w cas : Nat)
    (ha : ∀ n : Int, 0 ≤ n → n < w → is_int32 (a n))
    (h1 : cas ≠ 0 → w = 1 → -1073741824 ≤ a 0 ∧ a 0 < 1073741824) :
    undo_encode_line (encode_line a (parity_d_n w cas) (parity_s_n w cas) cas)
      (parity_d_n w cas) (parity_s_n w cas) cas = a := by
  unfold undo_encode_line encode_line
  by_cases hc : cas = 0
  · have hs : parity_s_n w cas = (w + 1) / 2 := by simp [parity_s_n, hc]
    have hd : parity_d_n w cas = w / 2 := by simp [parity_d_n, hc]
    rw [hs, hd, if_pos hc, if_pos hc]
    by_cases h : (((w / 2 : Nat) : Int) > 0 ∨ (((w + 1) / 2 : Nat) : Int) > 1)
    · rw [if_pos h, if_pos h]
      simp only [Int.toNat_ofNat]
      refine (congrArg _ (undo_even_add _ ((w / 2 : Nat) : Int) ((w + 1) / 2) ?_)).trans
        (undo_odd_sub a (((w + 1) / 2 : Nat) : Int) (w / 2)
          (fun i hi => ha _ (by omega) (by omega)))
      intro i hi
      rw [lifting_frame (fun i => 1 + 2 * (i : Int)) _ a (w / 2) _
        (fun j _ => by beta_reduce; omega)]
      exact ha _ (by omega) (by omega)
    · rw [if_neg h, if_neg h]
  · have hs : parity_s_n w cas = w / 2 := by simp [parity_s_n, hc]
    have hd : parity_d_n w cas = (w + 1) / 2 := by simp [parity_d_n, hc]
    rw [hs, hd, if_neg hc, if_neg hc]
    by_cases h : (((w / 2 : Nat) : Int) = 0 ∧ (((w + 1) / 2 : Nat) : Int) = 1)
    · rw [if_pos h, if_pos h]
      have hw : w = 1 := by omega
      have hr := h1 hc hw
      funext n
      unfold row_set GROK_S
      by_cases hn : n = 0
      · subst hn
        simp only [if_true, mul_zero]
        rw [shl_one, wrap32_of_range _ (by unfold is_int32; omega), shr_one]
        omega
      · simp only [if_neg hn]
    · rw [if_neg h, if_neg h]
      simp only [Int.toNat_ofNat]
      refine (congrArg _ (undo_odd_add _ (((w + 1) / 2 : Nat) : Int) (w / 2) ?_)).trans
        (undo_even_sub a ((w / 2 : Nat) : Int) ((w + 1) / 2)
          (fun i hi => ha _ (by omega) (by omega)))
      intro i hi
      rw [lifting_frame (fun i => 2 * (i : Int)) _ a ((w + 1) / 2) _
        (fun j _ => by beta_reduce; omega)]
      exact ha _ (by omega) (by omega)

theorem row_of_lt (l : List Int) (i : Nat) (hi : i < l.length) :
    row_of l (i : Int) = l.get ⟨i, hi⟩ := by
  unfold row_of
  rw [if_neg (by omega), Int.toNat_ofNat, List.getD_eq_getElem l 0 hi]
  rfl

theorem row_of_outside (l : List Int) (n : Int) (hn : n < 0 ∨ (l.length : Int) ≤ n) :
    row_of l n = 0 := by
  unfold row_of
  by_cases h : n < 0
  · rw [if_pos h]
  · rw [if_neg h, List.getD_eq_default _ _ (by omega)]

theorem row_take_eq_map (r : Row) (w : Nat) :
    row_take r w = (List.range w).map (fun (i : Nat) => r (i : Int)) := by
  unfold row_take
  simp only [List.bind_eq_flatMap, List.pure_def, ← List.map_eq_flatMap, List.map_map]
  rfl

theorem row_take_get (r : Row) (w i : Nat) (hi : i < w) :
    (row_take r w).getD i 0 = r (i : Int) := by
  rw [row_take_eq_map,
    List.getD_eq_getElem _ 0 (by rw [List.length_map, List.length_range]; exact hi),
    List.getElem_map, List.getElem_range]

theorem encode_line_injective (w cas : Nat) (la lb : List Int)
    (hla : la.length = w) (hlb : lb.length = w)
    (ra : ∀ x ∈ la, is_int32 x) (rb : ∀ x ∈ lb, is_int32 x)
    (sa : cas ≠ 0 → w = 1 → ∀ x ∈ la, -1073741824 ≤ x ∧ x < 1073741824)
    (sb : cas ≠ 0 → w = 1 → ∀ x ∈ lb, -1073741824 ≤ x ∧ x < 1073741824)
    (heq : row_take (encode_line (row_of la) (parity_d_n w cas) (parity_s_n w cas) cas) w
      = row_take (encode_line (row_of lb) (parity_d_n w cas) (parity_s_n w cas) cas) w) :
    la = lb := by
  have hrange : ∀ (l : List Int), l.length = w → (∀ x ∈ l, is_int32 x) →
      ∀ n : Int, 0 ≤ n → n < w → is_int32 (row_of l n) := by
    intro l hl r n h0 hn
    obtain ⟨k, rfl⟩ : ∃ k : Nat, n = (k : Int) := ⟨n.toNat, by omega⟩
    rw [row_of_lt l k (by omega)]
    exact r _ (List.get_mem _ _ _)
  have hsingle : ∀ (l : List Int), l.length = w →
      (cas ≠ 0 → w = 1 → ∀ x ∈ l, -1073741824 ≤ x ∧ x < 1073741824) →
      cas ≠ 0 → w = 1 → -1073741824 ≤ row_of l 0 ∧ row_of l 0 < 1073741824 := by
    intro l hl s hc hw
    have := row_of_lt l 0 (by omega)
    simp only [Nat.cast_zero] at this
    rw [this]
    exact s hc hw _ (List.get_mem _ _ _)
  have hfun : encode_line (row_of la) (parity_d_n w cas) (parity_s_n w cas) cas
      = encode_line (row_of lb) (parity_d_n w cas) (parity_s_n w cas) cas := by
    funext n
    by_cases hn : 0 ≤ n ∧ n < (w : Int)
    · obtain ⟨k, rfl⟩ : ∃ k : Nat, n = (k : Int) := ⟨n.toNat, by omega⟩
      have e1 := row_take_get
        (encode_line (row_of la) (parity_d_n w cas) (parity_s_n w cas) cas) w k (by omega)
      have e2 := row_take_get
        (encode_line (row_of lb) (parity_d_n w cas) (parity_s_n w cas) cas) w k (by omega)
      rw [← e1, ← e2, heq]
    · rw [encode_line_frame _ w cas n (by omega), encode_line_frame _ w cas n (by omega),
        row_of_outside la n (by omega), row_of_outside lb n (by omega)]
  have hrow : row_of la = row_of lb := by
    rw [← undo_encode_line_eq (row_of la) w cas (hrange la hla ra) (hsingle la hla sa),
      ← undo_encode_line_eq (row_of lb) w cas (hrange lb hlb rb) (hsingle lb hlb sb), hfun]
  apply List.ext_get (by omega)
  intro i h1 h2
  rw [← row_of_lt la i h1, ← row_of_lt lb i h2, hrow]

/-- Counterexample to C21 as stated: on the single-sample row with `cas = 1` the samples
`2^30` and `-2^30`, both `int32_t` values, are doubled modulo `2^32` to the same output
`-2^31`, so the input is not determined by the output. -/
theorem encode_line_single_sample_collision :
    is_int32 1073741824 ∧ is_int32 (-1073741824) ∧
    parity_s_n 1 1 = 0 ∧ parity_d_n 1 1 = 1 ∧
    row_take (encode_line (row_of [1073741824]) (parity_d_n 1 1) (parity_s_n 1 1) 1) 1
      = [-2147483648] ∧
    row_take (encode_line (row_of [-1073741824]) (parity_d_n 1 1) (parity_s_n 1 1) 1) 1
      = [-2147483648] ∧
    ([1073741824] : List Int) ≠ [-1073741824] := by
  refine ⟨by decide, by decide, by decide, by decide, by decide, by decide, by decide⟩

/-- C21, amended. For every width `w` and parity `cas`, with `s_n` and `d_n` from the parity
invariant and `int32_t` arithmetic modulo `2^32`: undoing the lifting steps of
`dwt53::encode_line` in reverse order recovers every row of `int32_t` samples exactly, and
`encode_line` is injective on such rows of length `w`; on the single-sample row with
`cas = 1`, whose sample is shifted left by one bit, this holds for samples in
`[-2^30, 2^30)`. -/
theorem encode_line_lossless (w cas : Nat) :
    (∀ a : Row, (∀ n : Int, 0 ≤ n → n < w → is_int32 (a n)) →
      (cas ≠ 0 → w = 1 → -1073741824 ≤ a 0 ∧ a 0 < 1073741824) →
      undo_encode_line (encode_line a (parity_d_n w cas) (parity_s_n w cas) cas)
        (parity_d_n w cas) (parity_s_n w cas) cas = a) ∧
    (∀ la lb : List Int, la.length = w → lb.length = w →
      (∀ x ∈ la, is_int32 x) → (∀ x ∈ lb, is_int32 x) →
      (cas ≠ 0 → w = 1 → ∀ x ∈ la, -1073741824 ≤ x ∧ x < 1073741824) →
      (cas ≠ 0 → w = 1 → ∀ x ∈ lb, -1073741824 ≤ x ∧ x < 1073741824) →
      row_take (encode_line (row_of la) (parity_d_n w cas) (parity_s_n w cas) cas) w
        = row_take (encode_line (row_of lb) (parity_d_n w cas) (parity_s_n w cas) cas) w →
      la = lb) :=
  ⟨fun a ha h1 => undo_encode_line_eq a w cas ha h1,
    fun la lb hla hlb ra rb sa sb heq => encode_line_injective w cas la lb hla hlb ra rb sa sb heq⟩

theorem row_of_range4 (n : Int) (h0 : 0 ≤ n) (h4 : n < ((4 : Nat) : Int)) :
    is_int32 (row_of [10, -3, 7, 2] n) := by
  have h : n = 0 ∨ n = 1 ∨ n = 2 ∨ n = 3 := by omega
  rcases h with h | h | h | h <;> subst h <;> decide

theorem row_of_range1 (n : Int) (h0 : 0 ≤ n) (h1 : n < ((1 : Nat) : Int)) :
    is_int32 (row_of [5] n) := by
  have h : n = 0 := by omega
  subst h
  decide

/-- Witness of C21: the row `[10,-3,7,2]` (`cas = 0`) and the single-sample row `[5]`
(`cas = 1`) are recovered by undoing the lifting steps. -/
theorem encode_line_lossless_witness :
    undo_encode_line (encode_line (row_of [10, -3, 7, 2]) (parity_d_n 4 0) (parity_s_n 4 0) 0)
      (parity_d_n 4 0) (parity_s_n 4 0) 0 = row_of [10, -3, 7, 2] ∧
    row_take (encode_line (row_of [10, -3, 7, 2]) (parity_d_n 4 0) (parity_s_n 4 0) 0) 4
      = [5, -11, 3, -5] ∧
    undo_encode_line (encode_line (row_of [5]) (parity_d_n 1 1) (parity_s_n 1 1) 1)
      (parity_d_n 1 1) (parity_s_n 1 1) 1 = row_of [5] ∧
    row_take (encode_line (row_of [5]) (parity_d_n 1 1) (parity_s_n 1 1) 1) 1 = [10] :=
  ⟨(encode_line_lossless 4 0).1 (row_of [10, -3, 7, 2]) row_of_range4
      (fun h => absurd rfl h),
    by decide,
    (encode_line_lossless 1 1).1 (row_of [5]) row_of_range1 (fun _ _ => by decide),
    by decide⟩

/-! ## C22: `alloc` keeps every logical sample -/

theorem getD_replicate_zero (n k : Nat) : (List.replicate n (0 : Int)).getD k 0 = 0 := by
  by_cases h : k < n
  · rw [List.getD_eq_getElem _ 0 (by simpa using h), List.getElem_replicate]
  · rw [List.getD_eq_default _ _ (by simpa using h)]

/-- Reading an allocated all-zero block stores the same values as the zero fill of a `NULL`
block. -/
theorem read_block_zeros (n src_ptr : Nat) (buf : Buffer) (dest_ptr x_incr y_incr cs ls bw : Nat)
    (hx : x_incr < UINT32_RANGE) :
    read_block (List.replicate n 0) src_ptr buf dest_ptr x_incr y_incr cs ls bw
      = zero_fill buf dest_ptr x_incr y_incr cs ls := by
  rw [read_block_general_eq _ _ _ _ _ _ _ _ _ hx, zero_fill_general_eq]
  unfold read_block_general zero_fill_general
  refine for_loop_congr _ _ _ _ (fun j t _ => for_loop_congr _ _ _ _ (fun k u _ => ?_))
  rw [getD_replicate_zero]

theorem rw_x_loop_read_zero_extends (sa : sparse_array) (x0 y0 x1 cs ls y y_incr block_y
    byo : Nat) (hx1 : x1 < UINT32_RANGE) (n : Nat) (T : Nat → Prop) (blocks blocks1 : Slots)
    (hrel : AllocRel n T blocks blocks1) :
    ∀ (fuel x block_x : Nat) (buf : Buffer), ∃ r : Except Fault Buffer,
      rw_x_loop sa x0 y0 x1 cs ls true y y_incr block_y byo fuel x block_x blocks buf
        = r.map (fun b => (blocks, b)) ∧
      rw_x_loop sa x0 y0 x1 cs ls true y y_incr block_y byo fuel x block_x blocks1 buf
        = r.map (fun b => (blocks1, b)) := by
  intro fuel
  induction fuel with
  | zero =>
    intro x block_x buf
    by_cases hlt : x < x1
    · exact ⟨.error .out_of_fuel, by simp only [rw_x_loop, hlt, if_true]; rfl,
        by simp only [rw_x_loop, hlt, if_true]; rfl⟩
    · exact ⟨.ok buf, by simp only [rw_x_loop, hlt, if_false]; rfl,
        by simp only [rw_x_loop, hlt, if_false]; rfl⟩
  | succ fuel ih =>
    intro x block_x buf
    by_cases hlt : x < x1
    · have hxi : min (if x = x0 then sa.block_width - x0 % sa.block_width
          else sa.block_width) (x1 - x) < UINT32_RANGE :=
        lt_of_le_of_lt (Nat.min_le_right _ _) (by omega)
      simp only [rw_x_loop, hlt, if_true]
      rcases hrel.2 (block_y * sa.block_count_hor + block_x) with e | ⟨_, e0, e1⟩
      · rw [e]
        cases hb : blocks.getD (block_y * sa.block_count_hor + block_x) none with
        | none => exact ih _ _ _
        | some blk => exact ih _ _ _
      · rw [e0, e1]
        simp only
        rw [read_block_zeros _ _ _ _ _ _ _ _ _ hxi]
        exact ih _ _ _
    · exact ⟨.ok buf, by simp only [rw_x_loop, hlt, if_false]; rfl,
        by simp only [rw_x_loop, hlt, if_false]; rfl⟩

theorem rw_y_loop_read_zero_extends (sa : sparse_array) (x0 y0 x1 y1 cs ls : Nat)
    (hx1 : x1 < UINT32_RANGE) (n : Nat) (T : Nat → Prop) (blocks blocks1 : Slots)
    (hrel : AllocRel n T blocks blocks1) :
    ∀ (fuel y block_y : Nat) (buf : Buffer), ∃ r : Except Fault Buffer,
      rw_y_loop sa x0 y0 x1 y1 cs ls true fuel y block_y blocks buf
        = r.map (fun b => (blocks, b)) ∧
      rw_y_loop sa x0 y0 x1 y1 cs ls true fuel y block_y blocks1 buf
        = r.map (fun b => (blocks1, b)) := by
  intro fuel
  induction fuel with
  | zero =>
    intro y block_y buf
    by_cases hlt : y < y1
    · exact ⟨.error .out_of_fuel, by simp only [rw_y_loop, hlt, if_true]; rfl,
        by simp only [rw_y_loop, hlt, if_true]; rfl⟩
    · exact ⟨.ok buf, by simp only [rw_y_loop, hlt, if_false]; rfl,
        by simp only [rw_y_loop, hlt, if_false]; rfl⟩
  | succ fuel ih =>
    intro y block_y buf
    by_cases hlt : y < y1
    · simp only [rw_y_loop, hlt, if_true]
      obtain ⟨r, h1, h2⟩ := rw_x_loop_read_zero_extends sa x0 y0 x1 cs ls y
        (min (if y = y0 then sa.block_height - y0 % sa.block_height else sa.block_height)
          (y1 - y)) block_y
        (sa.block_height - (if y = y0 then sa.block_height - y0 % sa.block_height
          else sa.block_height)) hx1 n T blocks blocks1 hrel (x1 - x0) x0 (x0 / sa.block_width) buf
      rw [h1, h2]
      cases r with
      | error e => exact ⟨.error e, rfl, rfl⟩
      | ok b => exact ih _ _ b
    · exact ⟨.ok buf, by simp only [rw_y_loop, hlt, if_false]; rfl,
        by simp only [rw_y_loop, hlt, if_false]; rfl⟩

theorem rw_x_loop_geometry (sa : sparse_array) (slots : Slots) (x0 y0 x1 cs ls : Nat)
    (op : Bool) (y y_incr block_y byo : Nat) :
    ∀ (fuel x block_x : Nat) (blocks : Slots) (buf : Buffer),
      rw_x_loop { sa with data_blocks := slots } x0 y0 x1 cs ls op y y_incr block_y byo fuel x
          block_x blocks buf
        = rw_x_loop sa x0 y0 x1 cs ls op y y_incr block_y byo fuel x block_x blocks buf := by
  intro fuel
  induction fuel with
  | zero => intro x block_x blocks buf; simp only [rw_x_loop]
  | succ fuel ih =>
    intro x block_x blocks buf
    simp only [rw_x_loop, ih]

theorem rw_y_loop_geometry (sa : sparse_array) (slots : Slots) (x0 y0 x1 y1 cs ls : Nat)
    (op : Bool) :
    ∀ (fuel y block_y : Nat) (blocks : Slots) (buf : Buffer),
      rw_y_loop { sa with data_blocks := slots } x0 y0 x1 y1 cs ls op fuel y block_y blocks buf
        = rw_y_loop sa x0 y0 x1 y1 cs ls op fuel y block_y blocks buf := by
  intro fuel
  induction fuel with
  | zero => intro y block_y blocks buf; simp only [rw_y_loop]
  | succ fuel ih =>
    intro y block_y blocks buf
    simp only [rw_y_loop, ih, rw_x_loop_geometry]

/-- A read gives the same boolean and the same buffer on a slot table and on one that
extends it by zeroed blocks. -/
theorem read_zero_extends (sa : sparse_array) (hw : sa.width < UINT32_RANGE)
    (T : Nat → Prop) (blocks1 : Slots)
    (hrel : AllocRel (sa.block_width * sa.block_height) T sa.data_blocks blocks1)
    (x0 y0 x1 y1 : Nat) (dest : Buffer) (cs ls : Nat) (fg : Bool) :
    ∃ r : Except Fault (Bool × Buffer),
      sa.read x0 y0 x1 y1 dest cs ls fg = r.map (fun p => (p.1, sa, p.2)) ∧
      ({ sa with data_blocks := blocks1 } : sparse_array).read x0 y0 x1 y1 dest cs ls fg
        = r.map (fun p => (p.1, { sa with data_blocks := blocks1 }, p.2)) := by
  unfold sparse_array.read sparse_array.read_or_write
  have hvalid : ({ sa with data_blocks := blocks1 } : sparse_array).is_region_valid x0 y0 x1 y1
      = sa.is_region_valid x0 y0 x1 y1 := rfl
  rw [hvalid]
  by_cases hv : sa.is_region_valid x0 y0 x1 y1 = true
  · have hx1 : x1 < UINT32_RANGE := by
      have := (is_region_valid_iff sa x0 y0 x1 y1).1 hv
      omega
    simp only [hv, Bool.not_true, Bool.false_eq_true, if_false]
    rw [rw_y_loop_geometry sa blocks1]
    obtain ⟨r, h1, h2⟩ := rw_y_loop_read_zero_extends sa x0 y0 x1 y1 cs ls hx1 _ T sa.data_blocks
      blocks1 hrel (y1 - y0) y0 (y0 / sa.block_height) dest
    rw [h1, h2]
    cases r with
    | error e => exact ⟨.error e, rfl, rfl⟩
    | ok b => exact ⟨.ok (true, b), rfl, rfl⟩
  · have hv2 : sa.is_region_valid x0 y0 x1 y1 = false := by
      cases h : sa.is_region_valid x0 y0 x1 y1
      · rfl
      · exact absurd h hv
    simp only [hv2, Bool.not_false, if_true]
    exact ⟨.ok (fg, dest), rfl, rfl⟩

/-- The inner loop of `alloc` on a row whose visited blocks are all allocated returns `true`
and changes neither the slot table nor the heap. -/
theorem alloc_x_loop_present (sa : sparse_array) (x0 x1 block_y : Nat)
    (hbw : 0 < sa.block_width) (hx1 : x1 < UINT32_RANGE) :
    ∀ (fuel x block_x : Nat) (blocks : Slots) (heap : Nat), x0 ≤ x → x1 - x ≤ fuel →
      (x < x1 → x = block_x * sa.block_width + (if x = x0 then x0 % sa.block_width else 0)) →
      (∀ c, x ≤ c → c < x1 →
        (blocks.getD (block_y * sa.block_count_hor + c / sa.block_width) none).isSome = true) →
      alloc_x_loop sa x0 x1 block_y fuel x block_x blocks heap = .ok (true, blocks, heap) := by
  intro fuel
  induction fuel with
  | zero =>
    intro x block_x blocks heap _ hf _ _
    have hnx : ¬ x < x1 := by omega
    simp [alloc_x_loop, hnx]
  | succ fuel ih =>
    intro x block_x blocks heap hx0 hf hinv hpres
    by_cases hlt : x < x1
    · obtain ⟨hi1, hi2, hw1, hw2, hxeq, hoff, hx0n, hnext⟩ :=
        walk_step sa.block_width x0 x x1 block_x hbw hx0 hlt hx1 (hinv hlt)
      simp only [alloc_x_loop, hlt, if_true, hw1, hw2]
      have hdiv : x / sa.block_width = block_x :=
        (div_mod_of_eq sa.block_width block_x _ x (by omega) hxeq).1
      have hcur := hpres x (Nat.le_refl _) hlt
      rw [hdiv] at hcur
      cases hb : blocks.getD (block_y * sa.block_count_hor + block_x) none with
      | none => rw [hb] at hcur; simp at hcur
      | some blk =>
        simp only
        exact ih _ (block_x + 1) blocks heap hx0n (by omega) hnext
          (fun c hc1 hc2 => hpres c (by omega) hc2)
    · simp [alloc_x_loop, hlt]

/-- The outer loop of `alloc` on a rectangle whose blocks are all allocated. -/
theorem alloc_y_loop_present (sa : sparse_array) (x0 y0 x1 y1 : Nat)
    (hbw : 0 < sa.block_width) (hbh : 0 < sa.block_height)
    (hx1 : x1 < UINT32_RANGE) (hy1 : y1 < UINT32_RANGE) :
    ∀ (fuel y block_y : Nat) (blocks : Slots) (heap : Nat), y0 ≤ y → y1 - y ≤ fuel →
      (y < y1 → y = block_y * sa.block_height + (if y = y0 then y0 % sa.block_height else 0)) →
      (∀ a b, in_rect x0 y x1 y1 a b →
        (blocks.getD (b / sa.block_height * sa.block_count_hor + a / sa.block_width)
          none).isSome = true) →
      alloc_y_loop sa x0 y0 x1 y1 fuel y block_y blocks heap = .ok (true, blocks, heap) := by
  intro fuel
  induction fuel with
  | zero =>
    intro y block_y blocks heap _ hf _ _
    have hny : ¬ y < y1 := by omega
    simp [alloc_y_loop, hny]
  | succ fuel ih =>
    intro y block_y blocks heap hy0 hf hinv hpres
    by_cases hlt : y < y1
    · obtain ⟨hi1, hi2, hw1, hw2, hyeq, hoff, hy0n, hnext⟩ :=
        walk_step sa.block_height y0 y y1 block_y hbh hy0 hlt hy1 (hinv hlt)
      simp only [alloc_y_loop, hlt, if_true, hw1, hw2]
      have hdiv : y / sa.block_height = block_y :=
        (div_mod_of_eq sa.block_height block_y _ y (by omega) hyeq).1
      rw [alloc_x_loop_present sa x0 x1 block_y hbw hx1 (x1 - x0) x0 (x0 / sa.block_width)
        blocks heap (Nat.le_refl _) (Nat.le_refl _) (fun _ => walk_init sa.block_width x0)
        (fun c hc1 hc2 => by
          have := hpres c y ⟨hc1, hc2, Nat.le_refl _, hlt⟩
          rw [hdiv] at this
          exact this)]
      simp only
      exact ih _ (block_y + 1) blocks heap hy0n (by omega) hnext
        (fun a b hab => hpres a b ⟨hab.1, hab.2.1, by have := hab.2.2.1; omega, hab.2.2.2⟩)
    · simp [alloc_y_loop, hlt]

theorem slots_ext (b1 b2 : Slots) (hlen : b1.length = b2.length)
    (h : ∀ i, b1.getD i none = b2.getD i none) : b1 = b2 := by
  apply List.ext_getElem hlen
  intro i h1 h2
  have := h i
  rw [List.getD_eq_getElem _ _ h1, List.getD_eq_getElem _ _ h2] at this
  exact this

theorem sample_of_allocrel (bw bh bch : Nat) (T : Nat → Prop) (blocks blocks1 : Slots)
    (hrel : AllocRel (bw * bh) T blocks blocks1) (x y : Nat) :
    sample_of bw bh bch blocks1 x y = sample_of bw bh bch blocks x y := by
  unfold sample_of
  rcases hrel.2 (y / bh * bch + x / bw) with e | ⟨_, e0, e1⟩
  · rw [e]
  · rw [e0, e1]
    exact getD_replicate_zero _ _

/-- C22: for a well-formed array and any rectangle `A`, `alloc(A)` returns (with `true`, or
with `false` when the heap is exhausted) and leaves every logical sample as it was: a block
that was allocated keeps its stored data, every position has the same sample, every `read`
(any rectangle, strides, destination and `forgiving`) returns the same boolean and the same
destination buffer after the call as before it, and after a successful `alloc(A)` a second
`alloc(A)` returns `true` without changing the array or using the heap. -/
theorem sparse_array_alloc_keeps_samples (sa : sparse_array) (hwf : sa.wf)
    (heap ax0 ay0 ax1 ay1 : Nat) :
    ∃ r sa1 heap1, sa.alloc heap ax0 ay0 ax1 ay1 = .ok (r, sa1, heap1) ∧
      (∀ i blk, sa.data_blocks.getD i none = some blk →
        sa1.data_blocks.getD i none = some blk) ∧
      (∀ x y, sa1.sample x y = sa.sample x y) ∧
      (∀ (x0 y0 x1 y1 : Nat) (dest : Buffer) (cs ls : Nat) (fg : Bool),
        ∃ res dest1, sa.read x0 y0 x1 y1 dest cs ls fg = .ok (res, sa, dest1) ∧
          sa1.read x0 y0 x1 y1 dest cs ls fg = .ok (res, sa1, dest1)) ∧
      (r = true → ∀ heap2, sa1.alloc heap2 ax0 ay0 ax1 ay1 = .ok (true, sa1, heap2)) := by
  obtain ⟨r, blocks1, heap1, hrun, hwf1, hrel, hpres, _, _⟩ :=
    alloc_spec sa hwf heap ax0 ay0 ax1 ay1
  refine ⟨r, _, heap1, hrun, ?_, ?_, ?_, ?_⟩
  · intro i blk hb
    rcases hrel.2 i with e | ⟨_, e0, _⟩
    · exact e.trans hb
    · rw [e0] at hb; cases hb
  · intro x y
    exact sample_of_allocrel _ _ _ _ _ _ hrel x y
  · intro x0 y0 x1 y1 dest cs ls fg
    obtain ⟨res, h1, h2⟩ := read_zero_extends sa hwf.2.1 _ blocks1 hrel x0 y0 x1 y1 dest cs ls fg
    have hok : ∃ q d, sa.read x0 y0 x1 y1 dest cs ls fg = .ok (q, sa, d) := by
      by_cases hv : sa.is_region_valid x0 y0 x1 y1 = true
      · obtain ⟨d, hd, _⟩ := read_writes sa hwf x0 y0 x1 y1 hv dest cs ls fg
        exact ⟨true, d, hd⟩
      · have hv2 : sa.is_region_valid x0 y0 x1 y1 = false := by
          cases h : sa.is_region_valid x0 y0 x1 y1
          · rfl
          · exact absurd h hv
        exact ⟨fg, dest, by simp [sparse_array.read, sparse_array.read_or_write, hv2]⟩
    obtain ⟨q, d, hq⟩ := hok
    cases res with
    | error e => rw [h1] at hq; cases hq
    | ok p =>
      rw [h1] at hq
      refine ⟨p.1, p.2, h1, h2⟩
  · intro hr heap2
    unfold sparse_array.alloc
    have hvalid : ({ sa with data_blocks := blocks1 } : sparse_array).is_region_valid ax0 ay0
        ax1 ay1 = sa.is_region_valid ax0 ay0 ax1 ay1 := rfl
    by_cases hv : sa.is_region_valid ax0 ay0 ax1 ay1 = true
    · obtain ⟨h1, h2, h3, h4⟩ := (is_region_valid_iff sa ax0 ay0 ax1 ay1).1 hv
      obtain ⟨_, hw, _, hh, hbw, _, hbh, _, _⟩ := hwf
      rw [hvalid, hv]
      simp only [Bool.not_true, Bool.false_eq_true, if_false]
      rw [alloc_y_loop_present { sa with data_blocks := blocks1 } ax0 ay0 ax1 ay1 hbw hbh
        (by omega) (by omega) (ay1 - ay0) ay0 (ay0 / sa.block_height) blocks1 heap2
        (Nat.le_refl _) (Nat.le_refl _) (fun _ => walk_init sa.block_height ay0)
        (fun a b hab => hpres hr hv a b hab)]
    · have hv2 : sa.is_region_valid ax0 ay0 ax1 ay1 = false := by
        cases h : sa.is_region_valid ax0 ay0 ax1 ay1
        · rfl
        · exact absurd h hv
      rw [hvalid, hv2]
      rfl

/-- Witness of C22: in the 4×1 array holding `1, 2` in its first block, `alloc(0,0,4,1)`
allocates the second block, the first block keeps `1, 2`, and reads give the same buffer. -/
theorem sparse_array_alloc_keeps_samples_witness :
    array4.alloc 5 0 0 4 1
      = .ok (true, { array4 with data_blocks := [some [1, 2], some [0, 0]] }, 4) ∧
    ∃ r sa1 heap1, array4.alloc 5 0 0 4 1 = .ok (r, sa1, heap1) ∧
      (∀ i blk, array4.data_blocks.getD i none = some blk →
        sa1.data_blocks.getD i none = some blk) ∧
      (∀ x y, sa1.sample x y = array4.sample x y) ∧
      (∀ (x0 y0 x1 y1 : Nat) (dest : Buffer) (cs ls : Nat) (fg : Bool),
        ∃ res dest1, array4.read x0 y0 x1 y1 dest cs ls fg = .ok (res, array4, dest1) ∧
          sa1.read x0 y0 x1 y1 dest cs ls fg = .ok (res, sa1, dest1)) ∧
      (r = true → ∀ heap2, sa1.alloc heap2 0 0 4 1 = .ok (true, sa1, heap2)) :=
  ⟨rfl, sparse_array_alloc_keeps_samples array4 (by decide) 5 0 0 4 1⟩

/-! ## The block walk (C23, C27) -/

theorem walk_x_spec (bw bh x0 y0 x1 y1 y y_incr block_y byo : Nat) (hbw : 0 < bw)
    (hx1 : x1 < UINT32_RANGE) (hy0 : y0 ≤ y) (hy : y < y1) (hyi : 0 < y_incr)
    (hyi1 : y + y_incr ≤ y1) (hyeq : y = block_y * bh + byo) (hyoff : byo + y_incr ≤ bh) :
    ∀ (fuel x block_x : Nat), x0 ≤ x → x1 - x ≤ fuel →
      (x < x1 → x = block_x * bw + (if x = x0 then x0 % bw else 0)) →
      (∀ v ∈ walk_x bw x0 x1 y y_incr block_y byo fuel x block_x,
        v.ok bw bh x0 y0 x1 y1 ∧ x ≤ v.step.x ∧ v.step.y = y ∧ v.step.y_incr = y_incr) ∧
      (∀ cx cy, List.countP (fun v : BlockVisit => v.step.covers cx cy)
          (walk_x bw x0 x1 y y_incr block_y byo fuel x block_x)
        = if x ≤ cx ∧ cx < x1 ∧ y ≤ cy ∧ cy < y + y_incr then 1 else 0) ∧
      List.Pairwise (fun a b : BlockVisit => a.step.before b.step)
        (walk_x bw x0 x1 y y_incr block_y byo fuel x block_x) := by
  intro fuel
  induction fuel with
  | zero =>
    intro x block_x _ hf _
    refine ⟨fun v hv => by simp [walk_x] at hv, fun cx cy => ?_, by simp [walk_x]⟩
    rw [if_neg (by omega)]
    simp [walk_x]
  | succ fuel ih =>
    intro x block_x hx0 hf hinv
    by_cases hlt : x < x1
    · obtain ⟨hi1, hi2, hw1, hw2, hxeq, hoff, hx0n, hnext⟩ :=
        walk_step bw x0 x x1 block_x hbw hx0 hlt hx1 (hinv hlt)
      obtain ⟨m1, m2, m3⟩ := ih (x + min (if x = x0 then bw - x0 % bw else bw) (x1 - x))
        (block_x + 1) hx0n (by omega) hnext
      simp only [walk_x, hlt, if_true, hw1, hw2]
      refine ⟨?_, ?_, ?_⟩
      · intro v hv
        rcases List.mem_cons.1 hv with e | hv
        · subst e
          exact ⟨⟨hx0, hlt, hy0, hy, hi1, hi2, hyi, hyi1, hxeq, hoff, hyeq, hyoff⟩,
            Nat.le_refl _, rfl, rfl⟩
        · obtain ⟨a, b, c, d⟩ := m1 v hv
          exact ⟨a, by omega, c, d⟩
      · intro cx cy
        rw [List.countP_cons, m2 cx cy]
        simp only [Visit.covers, decide_eq_true_eq]
        split_ifs <;> omega
      · refine List.pairwise_cons.2 ⟨fun v hv => ?_, m3⟩
        obtain ⟨_, b, c, _⟩ := m1 v hv
        right
        exact ⟨c.symm, by show x < v.step.x; omega⟩
    · refine ⟨fun v hv => by simp [walk_x, hlt] at hv, fun cx cy => ?_, by simp [walk_x, hlt]⟩
      rw [if_neg (by omega)]
      simp [walk_x, hlt]

theorem walk_y_spec (bw bh x0 y0 x1 y1 : Nat) (hbw : 0 < bw) (hbh : 0 < bh)
    (hx1 : x1 < UINT32_RANGE) (hy1 : y1 < UINT32_RANGE) :
    ∀ (fuel y block_y : Nat), y0 ≤ y → y1 - y ≤ fuel →
      (y < y1 → y = block_y * bh + (if y = y0 then y0 % bh else 0)) →
      (∀ v ∈ walk_y bw bh x0 y0 x1 y1 fuel y block_y,
        v.ok bw bh x0 y0 x1 y1 ∧ y ≤ v.step.y) ∧
      (∀ cx cy, List.countP (fun v : BlockVisit => v.step.covers cx cy)
          (walk_y bw bh x0 y0 x1 y1 fuel y block_y)
        = if x0 ≤ cx ∧ cx < x1 ∧ y ≤ cy ∧ cy < y1 then 1 else 0) ∧
      List.Pairwise (fun a b : BlockVisit => a.step.before b.step)
        (walk_y bw bh x0 y0 x1 y1 fuel y block_y) := by
  intro fuel
  induction fuel with
  | zero =>
    intro y block_y _ hf _
    refine ⟨fun v hv => by simp [walk_y] at hv, fun cx cy => ?_, by simp [walk_y]⟩
    rw [if_neg (by omega)]
    simp [walk_y]
  | succ fuel ih =>
    intro y block_y hy0 hf hinv
    by_cases hlt : y < y1
    · obtain ⟨hi1, hi2, hw1, hw2, hyeq, hoff, hy0n, hnext⟩ :=
        walk_step bh y0 y y1 block_y hbh hy0 hlt hy1 (hinv hlt)
      obtain ⟨m1, m2, m3⟩ := ih (y + min (if y = y0 then bh - y0 % bh else bh) (y1 - y))
        (block_y + 1) hy0n (by omega) hnext
      obtain ⟨r1, r2, r3⟩ := walk_x_spec bw bh x0 y0 x1 y1 y
        (min (if y = y0 then bh - y0 % bh else bh) (y1 - y)) block_y
        (bh - (if y = y0 then bh - y0 % bh else bh)) hbw hx1 hy0 hlt hi1 hi2 hyeq hoff
        (x1 - x0) x0 (x0 / bw) (Nat.le_refl _) (Nat.le_refl _) (fun _ => walk_init bw x0)
      simp only [walk_y, hlt, if_true, hw1, hw2]
      refine ⟨?_, ?_, ?_⟩
      · intro v hv
        rcases List.mem_append.1 hv with hv | hv
        · obtain ⟨a, _, c, _⟩ := r1 v hv
          exact ⟨a, by omega⟩
        · obtain ⟨a, b⟩ := m1 v hv
          exact ⟨a, by omega⟩
      · intro cx cy
        rw [List.countP_append, m2 cx cy, r2 cx cy]
        split_ifs <;> omega
      · refine List.pairwise_append.2 ⟨r3, m3, fun a ha b hb => ?_⟩
        obtain ⟨_, _, c, _⟩ := r1 a ha
        obtain ⟨_, d⟩ := m1 b hb
        left
        show a.step.y < b.step.y
        omega
    · refine ⟨fun v hv => by simp [walk_y, hlt] at hv, fun cx cy => ?_, by simp [walk_y, hlt]⟩
      rw [if_neg (by omega)]
      simp [walk_y, hlt]

theorem rw_x_loop_traced_spec (sa : sparse_array) (x0 y0 x1 cs ls : Nat) (op : Bool)
    (y y_incr block_y byo : Nat) :
    ∀ (fuel x block_x : Nat) (blocks : Slots) (buf : Buffer),
      (rw_x_loop_traced sa x0 y0 x1 cs ls op y y_incr block_y byo fuel x block_x blocks buf).2
        = rw_x_loop sa x0 y0 x1 cs ls op y y_incr block_y byo fuel x block_x blocks buf ∧
      (rw_x_loop_traced sa x0 y0 x1 cs ls op y y_incr block_y byo fuel x block_x blocks buf).1
        <+: walk_x sa.block_width x0 x1 y y_incr block_y byo fuel x block_x ∧
      (∀ res,
        (rw_x_loop_traced sa x0 y0 x1 cs ls op y y_incr block_y byo fuel x block_x blocks
          buf).2 = .ok res →
        (rw_x_loop_traced sa x0 y0 x1 cs ls op y y_incr block_y byo fuel x block_x blocks
          buf).1 = walk_x sa.block_width x0 x1 y y_incr block_y byo fuel x block_x) := by
  intro fuel
  induction fuel with
  | zero =>
    intro x block_x blocks buf
    by_cases hlt : x < x1 <;>
      simp [rw_x_loop_traced, rw_x_loop, walk_x, hlt]
  | succ fuel ih =>
    intro x block_x blocks buf
    by_cases hlt : x < x1
    · simp only [rw_x_loop_traced, rw_x_loop, walk_x, hlt, if_true]
      cases op with
      | true =>
        simp only [if_true]
        cases hb : blocks.getD (block_y * sa.block_count_hor + block_x) none with
        | none =>
          simp only
          obtain ⟨h1, h2, h3⟩ := ih ((x + min (if x = x0 then sa.block_width - x0 % sa.block_width
            else sa.block_width) (x1 - x)) % UINT32_RANGE) ((block_x + 1) % UINT32_RANGE) blocks
            (zero_fill buf ((y - y0) * ls + (x - x0) * cs)
              (min (if x = x0 then sa.block_width - x0 % sa.block_width else sa.block_width)
                (x1 - x)) y_incr cs ls)
          exact ⟨h1, List.cons_prefix_cons.2 ⟨rfl, h2⟩, fun res hres => by rw [h3 res hres]⟩
        | some blk =>
          simp only
          obtain ⟨h1, h2, h3⟩ := ih ((x + min (if x = x0 then sa.block_width - x0 % sa.block_width
            else sa.block_width) (x1 - x)) % UINT32_RANGE) ((block_x + 1) % UINT32_RANGE) blocks
            (read_block blk (byo * sa.block_width + (sa.block_width -
                (if x = x0 then sa.block_width - x0 % sa.block_width else sa.block_width)))
              buf ((y - y0) * ls + (x - x0) * cs)
              (min (if x = x0 then sa.block_width - x0 % sa.block_width else sa.block_width)
                (x1 - x)) y_incr cs ls sa.block_width)
          exact ⟨h1, List.cons_prefix_cons.2 ⟨rfl, h2⟩, fun res hres => by rw [h3 res hres]⟩
      | false =>
        simp only [Bool.false_eq_true, if_false]
        cases hb : blocks.getD (block_y * sa.block_count_hor + block_x) none with
        | none =>
          simp only
          exact ⟨trivial, List.cons_prefix_cons.2 ⟨rfl, List.nil_prefix⟩, fun res hres => by
            cases hres⟩
        | some blk =>
          simp only
          obtain ⟨h1, h2, h3⟩ := ih ((x + min (if x = x0 then sa.block_width - x0 % sa.block_width
            else sa.block_width) (x1 - x)) % UINT32_RANGE) ((block_x + 1) % UINT32_RANGE)
            (blocks.set (block_y * sa.block_count_hor + block_x)
              (some (write_block blk (byo * sa.block_width + (sa.block_width -
                  (if x = x0 then sa.block_width - x0 % sa.block_width else sa.block_width)))
                buf ((y - y0) * ls + (x - x0) * cs)
                (min (if x = x0 then sa.block_width - x0 % sa.block_width else sa.block_width)
                  (x1 - x)) y_incr cs ls sa.block_width))) buf
          exact ⟨h1, List.cons_prefix_cons.2 ⟨rfl, h2⟩, fun res hres => by rw [h3 res hres]⟩
    · simp [rw_x_loop_traced, rw_x_loop, walk_x, hlt]

theorem rw_y_loop_traced_spec (sa : sparse_array) (x0 y0 x1 y1 cs ls : Nat) (op : Bool) :
    ∀ (fuel y block_y : Nat) (blocks : Slots) (buf : Buffer),
      (rw_y_loop_traced sa x0 y0 x1 y1 cs ls op fuel y block_y blocks buf).2
        = rw_y_loop sa x0 y0 x1 y1 cs ls op fuel y block_y blocks buf ∧
      (rw_y_loop_traced sa x0 y0 x1 y1 cs ls op fuel y block_y blocks buf).1
        <+: walk_y sa.block_width sa.block_height x0 y0 x1 y1 fuel y block_y ∧
      (∀ res, (rw_y_loop_traced sa x0 y0 x1 y1 cs ls op fuel y block_y blocks buf).2 = .ok res →
        (rw_y_loop_traced sa x0 y0 x1 y1 cs ls op fuel y block_y blocks buf).1
          = walk_y sa.block_width sa.block_height x0 y0 x1 y1 fuel y block_y) := by
  intro fuel
  induction fuel with
  | zero =>
    intro y block_y blocks buf
    by_cases hlt : y < y1 <;>
      simp [rw_y_loop_traced, rw_y_loop, walk_y, hlt]
  | succ fuel ih =>
    intro y block_y blocks buf
    by_cases hlt : y < y1
    · simp only [rw_y_loop_traced, rw_y_loop, walk_y, hlt, if_true]
      obtain ⟨h1, h2, h3⟩ := rw_x_loop_traced_spec sa x0 y0 x1 cs ls op y
        (min (if y = y0 then sa.block_height - y0 % sa.block_height else sa.block_height)
          (y1 - y)) block_y
        (sa.block_height - (if y = y0 then sa.block_height - y0 % sa.block_height
          else sa.block_height)) (x1 - x0) x0 (x0 / sa.block_width) blocks buf
      rw [← h1]
      cases hr : (rw_x_loop_traced sa x0 y0 x1 cs ls op y
        (min (if y = y0 then sa.block_height - y0 % sa.block_height else sa.block_height)
          (y1 - y)) block_y
        (sa.block_height - (if y = y0 then sa.block_height - y0 % sa.block_height
          else sa.block_height)) (x1 - x0) x0 (x0 / sa.block_width) blocks buf).2 with
      | error e =>
        simp only
        exact ⟨trivial, h2.trans (List.prefix_append _ _), fun res hres => by cases hres⟩
      | ok r =>
        obtain ⟨b1, buf1⟩ := r
        simp only
        obtain ⟨g1, g2, g3⟩ := ih ((y + min (if y = y0 then sa.block_height -
          y0 % sa.block_height else sa.block_height) (y1 - y)) % UINT32_RANGE)
          ((block_y + 1) % UINT32_RANGE) b1 buf1
        rw [h3 _ hr]
        exact ⟨g1, (List.prefix_append_right_inj _).2 g2, fun res hres => by rw [g3 res hres]⟩
    · simp [rw_y_loop_traced, rw_y_loop, walk_y, hlt]

theorem alloc_x_loop_traced_spec (sa : sparse_array) (x0 x1 y y_incr block_y byo : Nat) :
    ∀ (fuel x block_x : Nat) (blocks : Slots) (heap : Nat),
      (alloc_x_loop_traced sa x0 x1 y y_incr block_y fuel x block_x blocks heap).2
        = alloc_x_loop sa x0 x1 block_y fuel x block_x blocks heap ∧
      (alloc_x_loop_traced sa x0 x1 y y_incr block_y fuel x block_x blocks heap).1
        <+: (walk_x sa.block_width x0 x1 y y_incr block_y byo fuel x block_x).map
              BlockVisit.step ∧
      (∀ b h,
        (alloc_x_loop_traced sa x0 x1 y y_incr block_y fuel x block_x blocks heap).2
          = .ok (true, b, h) →
        (alloc_x_loop_traced sa x0 x1 y y_incr block_y fuel x block_x blocks heap).1
          = (walk_x sa.block_width x0 x1 y y_incr block_y byo fuel x block_x).map
              BlockVisit.step) := by
  intro fuel
  induction fuel with
  | zero =>
    intro x block_x blocks heap
    by_cases hlt : x < x1 <;>
      simp [alloc_x_loop_traced, alloc_x_loop, walk_x, hlt]
  | succ fuel ih =>
    intro x block_x blocks heap
    by_cases hlt : x < x1
    · simp only [alloc_x_loop_traced, alloc_x_loop, walk_x, hlt, if_true, List.map_cons]
      cases hb : blocks.getD (block_y * sa.block_count_hor + block_x) none with
      | none =>
        cases heap with
        | zero =>
          simp only
          exact ⟨trivial, List.cons_prefix_cons.2 ⟨rfl, List.nil_prefix⟩, fun b h hres => by
            cases hres⟩
        | succ heap =>
          simp only
          obtain ⟨h1, h2, h3⟩ := ih ((x + min (if x = x0 then sa.block_width -
            x0 % sa.block_width else sa.block_width) (x1 - x)) % UINT32_RANGE)
            ((block_x + 1) % UINT32_RANGE)
            (blocks.set (block_y * sa.block_count_hor + block_x)
              (some (List.replicate (sa.block_width * sa.block_height) 0))) heap
          exact ⟨h1, List.cons_prefix_cons.2 ⟨rfl, h2⟩, fun b h hres => by rw [h3 b h hres]⟩
      | some blk =>
        simp only
        obtain ⟨h1, h2, h3⟩ := ih ((x + min (if x = x0 then sa.block_width -
          x0 % sa.block_width else sa.block_width) (x1 - x)) % UINT32_RANGE)
          ((block_x + 1) % UINT32_RANGE) blocks heap
        exact ⟨h1, List.cons_prefix_cons.2 ⟨rfl, h2⟩, fun b h hres => by rw [h3 b h hres]⟩
    · simp [alloc_x_loop_traced, alloc_x_loop, walk_x, hlt]

theorem alloc_y_loop_traced_spec (sa : sparse_array) (x0 y0 x1 y1 : Nat) :
    ∀ (fuel y block_y : Nat) (blocks : Slots) (heap : Nat),
      (alloc_y_loop_traced sa x0 y0 x1 y1 fuel y block_y blocks heap).2
        = alloc_y_loop sa x0 y0 x1 y1 fuel y block_y blocks heap ∧
      (alloc_y_loop_traced sa x0 y0 x1 y1 fuel y block_y blocks heap).1
        <+: (walk_y sa.block_width sa.block_height x0 y0 x1 y1 fuel y block_y).map
              BlockVisit.step ∧
      (∀ b h, (alloc_y_loop_traced sa x0 y0 x1 y1 fuel y block_y blocks heap).2
          = .ok (true, b, h) →
        (alloc_y_loop_traced sa x0 y0 x1 y1 fuel y block_y blocks heap).1
          = (walk_y sa.block_width sa.block_height x0 y0 x1 y1 fuel y block_y).map
              BlockVisit.step) := by
  intro fuel
  induction fuel with
  | zero =>
    intro y block_y blocks heap
    by_cases hlt : y < y1 <;>
      simp [alloc_y_loop_traced, alloc_y_loop, walk_y, hlt]
  | succ fuel ih =>
    intro y block_y blocks heap
    by_cases hlt : y < y1
    · simp only [alloc_y_loop_traced, alloc_y_loop, walk_y, hlt, if_true, List.map_append]
      obtain ⟨h1, h2, h3⟩ := alloc_x_loop_traced_spec sa x0 x1 y
        (min (if y = y0 then sa.block_height - y0 % sa.block_height else sa.block_height)
          (y1 - y)) block_y
        (sa.block_height - (if y = y0 then sa.block_height - y0 % sa.block_height
          else sa.block_height)) (x1 - x0) x0 (x0 / sa.block_width) blocks heap
      rw [← h1]
      cases hr : (alloc_x_loop_traced sa x0 x1 y
        (min (if y = y0 then sa.block_height - y0 % sa.block_height else sa.block_height)
          (y1 - y)) block_y (x1 - x0) x0 (x0 / sa.block_width) blocks heap).2 with
      | error e =>
        simp only
        exact ⟨trivial, h2.trans (List.prefix_append _ _), fun b h hres => by cases hres⟩
      | ok r =>
        obtain ⟨q, b1, heap1⟩ := r
        cases q with
        | false =>
          simp only
          exact ⟨trivial, h2.trans (List.prefix_append _ _), fun b h hres => by cases hres⟩
        | true =>
          simp only
          obtain ⟨g1, g2, g3⟩ := ih ((y + min (if y = y0 then sa.block_height -
            y0 % sa.block_height else sa.block_height) (y1 - y)) % UINT32_RANGE)
            ((block_y + 1) % UINT32_RANGE) b1 heap1
          rw [h3 _ _ hr]
          exact ⟨g1, (List.prefix_append_right_inj _).2 g2,
            fun b h hres => by rw [g3 b h hres]⟩
    · simp [alloc_y_loop_traced, alloc_y_loop, walk_y, hlt]

theorem walk_facts (sa : sparse_array) (hwf : sa.wf) (x0 y0 x1 y1 : Nat)
    (hv : sa.is_region_valid x0 y0 x1 y1 = true) :
    (∀ v ∈ walk_y sa.block_width sa.block_height x0 y0 x1 y1 (y1 - y0) y0
        (y0 / sa.block_height), v.ok sa.block_width sa.block_height x0 y0 x1 y1) ∧
    (∀ cx cy, List.countP (fun v : BlockVisit => v.step.covers cx cy)
        (walk_y sa.block_width sa.block_height x0 y0 x1 y1 (y1 - y0) y0
          (y0 / sa.block_height))
      = if in_rect x0 y0 x1 y1 cx cy then 1 else 0) ∧
    List.Pairwise (fun a b : BlockVisit => a.step.before b.step)
      (walk_y sa.block_width sa.block_height x0 y0 x1 y1 (y1 - y0) y0
        (y0 / sa.block_height)) := by
  obtain ⟨_, hw, _, hh, hbw, _, hbh, _, _⟩ := hwf
  obtain ⟨h1, h2, h3, h4⟩ := (is_region_valid_iff sa x0 y0 x1 y1).1 hv
  obtain ⟨m1, m2, m3⟩ := walk_y_spec sa.block_width sa.block_height x0 y0 x1 y1 hbw hbh
    (by omega) (by omega) (y1 - y0) y0 (y0 / sa.block_height) (Nat.le_refl _) (Nat.le_refl _)
    (fun _ => walk_init sa.block_height y0)
  refine ⟨fun v hv => (m1 v hv).1, fun cx cy => ?_, m3⟩
  rw [m2 cx cy]
  rfl

theorem read_or_write_traced_spec (sa : sparse_array) (x0 y0 x1 y1 : Nat)
    (hv : sa.is_region_valid x0 y0 x1 y1 = true) (buf : Buffer) (cs ls : Nat)
    (fg op : Bool) :
    (sa.read_or_write_traced x0 y0 x1 y1 buf cs ls fg op).2
      = sa.read_or_write x0 y0 x1 y1 buf cs ls fg op ∧
    (sa.read_or_write_traced x0 y0 x1 y1 buf cs ls fg op).1
      <+: walk_y sa.block_width sa.block_height x0 y0 x1 y1 (y1 - y0) y0
            (y0 / sa.block_height) ∧
    (∀ res, sa.read_or_write x0 y0 x1 y1 buf cs ls fg op = .ok res →
      (sa.read_or_write_traced x0 y0 x1 y1 buf cs ls fg op).1
        = walk_y sa.block_width sa.block_height x0 y0 x1 y1 (y1 - y0) y0
            (y0 / sa.block_height)) := by
  obtain ⟨h1, h2, h3⟩ := rw_y_loop_traced_spec sa x0 y0 x1 y1 cs ls op (y1 - y0) y0
    (y0 / sa.block_height) sa.data_blocks buf
  unfold sparse_array.read_or_write_traced sparse_array.read_or_write
  simp only [hv, Bool.not_true, Bool.false_eq_true, if_false]
  rw [← h1]
  cases hr : (rw_y_loop_traced sa x0 y0 x1 y1 cs ls op (y1 - y0) y0 (y0 / sa.block_height)
    sa.data_blocks buf).2 with
  | error e => exact ⟨rfl, h2, fun res hres => by cases hres⟩
  | ok r => exact ⟨rfl, h2, fun _ _ => h3 r hr⟩

theorem alloc_traced_spec (sa : sparse_array) (heap x0 y0 x1 y1 : Nat)
    (hv : sa.is_region_valid x0 y0 x1 y1 = true) :
    (sa.alloc_traced heap x0 y0 x1 y1).2 = sa.alloc heap x0 y0 x1 y1 ∧
    (sa.alloc_traced heap x0 y0 x1 y1).1
      <+: (walk_y sa.block_width sa.block_height x0 y0 x1 y1 (y1 - y0) y0
            (y0 / sa.block_height)).map BlockVisit.step ∧
    (∀ sa1 heap1, sa.alloc heap x0 y0 x1 y1 = .ok (true, sa1, heap1) →
      (sa.alloc_traced heap x0 y0 x1 y1).1
        = (walk_y sa.block_width sa.block_height x0 y0 x1 y1 (y1 - y0) y0
            (y0 / sa.block_height)).map BlockVisit.step) := by
  obtain ⟨h1, h2, h3⟩ := alloc_y_loop_traced_spec sa x0 y0 x1 y1 (y1 - y0) y0
    (y0 / sa.block_height) sa.data_blocks heap
  unfold sparse_array.alloc_traced sparse_array.alloc
  simp only [hv, Bool.not_true, Bool.false_eq_true, if_false]
  rw [← h1]
  cases hr : (alloc_y_loop_traced sa x0 y0 x1 y1 (y1 - y0) y0 (y0 / sa.block_height)
    sa.data_blocks heap).2 with
  | error e => exact ⟨rfl, h2, fun sa1 heap1 hres => by cases hres⟩
  | ok r =>
    obtain ⟨q, b, h⟩ := r
    refine ⟨rfl, h2, fun sa1 heap1 hres => ?_⟩
    simp only [Except.ok.injEq, Prod.mk.injEq] at hres
    obtain ⟨hq, _, _⟩ := hres
    subst hq
    exact h3 b h hr

/-- The coordinates of a step that satisfies the walk facts. -/
theorem visit_coordinates (sa : sparse_array) (hwf : sa.wf) (x0 y0 x1 y1 : Nat)
    (hv : sa.is_region_valid x0 y0 x1 y1 = true) (v : BlockVisit)
    (hok : v.ok sa.block_width sa.block_height x0 y0 x1 y1) :
    v.step.block_x = v.step.x / sa.block_width ∧
    v.step.block_y = v.step.y / sa.block_height ∧
    v.block_x_offset = v.step.x % sa.block_width ∧
    v.block_y_offset = v.step.y % sa.block_height ∧
    v.step.block_y * sa.block_count_hor + v.step.block_x
      < sa.block_count_hor * sa.block_count_ver ∧
    v.step.block_y * sa.block_count_hor + v.step.block_x < sa.data_blocks.length ∧
    (∀ j k, j < v.step.y_incr → k < v.step.x_incr →
      (v.block_y_offset + j) * sa.block_width + v.block_x_offset + k
        < sa.block_width * sa.block_height) := by
  obtain ⟨a1, a2, a3, a4, a5, a6, a7, a8, a9, a10, a11, a12⟩ := hok
  obtain ⟨h1, h2, h3, h4⟩ := (is_region_valid_iff sa x0 y0 x1 y1).1 hv
  obtain ⟨dx, mx⟩ := div_mod_of_eq sa.block_width v.step.block_x v.block_x_offset v.step.x
    (by omega) a9
  obtain ⟨dy, my⟩ := div_mod_of_eq sa.block_height v.step.block_y v.block_y_offset v.step.y
    (by omega) a11
  have hbx : v.step.block_x < sa.block_count_hor := by
    rw [← dx]; exact wf_bch sa hwf x1 h2 _ a2
  have hby : v.step.block_y < sa.block_count_ver := by
    rw [← dy]; exact wf_bcv sa hwf y1 h4 _ a4
  have hslot : v.step.block_y * sa.block_count_hor + v.step.block_x
      < sa.block_count_hor * sa.block_count_ver := by
    have e1 : (v.step.block_y + 1) * sa.block_count_hor
        ≤ sa.block_count_ver * sa.block_count_hor := Nat.mul_le_mul_right _ hby
    have e2 : (v.step.block_y + 1) * sa.block_count_hor
        = v.step.block_y * sa.block_count_hor + sa.block_count_hor := by ring
    have e3 : sa.block_count_ver * sa.block_count_hor
        = sa.block_count_hor * sa.block_count_ver := Nat.mul_comm _ _
    omega
  refine ⟨dx.symm, dy.symm, mx.symm, my.symm, hslot, ?_, ?_⟩
  · rw [hwf.2.2.2.2.2.2.2.2.2.2.1]; exact hslot
  · intro j k hj hk
    have e1 : (v.block_y_offset + j + 1) * sa.block_width ≤ sa.block_height * sa.block_width :=
      Nat.mul_le_mul_right _ (by omega)
    have e2 : (v.block_y_offset + j + 1) * sa.block_width
        = (v.block_y_offset + j) * sa.block_width + sa.block_width := by ring
    have e3 : sa.block_height * sa.block_width = sa.block_width * sa.block_height :=
      Nat.mul_comm _ _
    omega

/-- C23: for a well-formed array (positive dimensions, the grid of the constructor) and a
valid rectangle, at every step of the block walk of `alloc` and of `read_or_write`:
`block_x = x div block_width` and `block_y = y div block_height`, the slot index
`block_y * block_count_hor + block_x` is below `block_count_hor * block_count_ver` (the size
of the slot table); in `read_or_write` moreover `block_x_offset = x mod block_width`,
`block_y_offset = y mod block_height` and every in-block offset
`(block_y_offset + j) * block_width + block_x_offset + k`, `j < y_incr`, `k < x_incr`, is
below `block_width * block_height`. The steps are those logged by the traced loops, whose
results are the results of `alloc` and `read_or_write`. -/
theorem block_walk_coordinates (sa : sparse_array) (hwf : sa.wf) (x0 y0 x1 y1 : Nat)
    (hv : sa.is_region_valid x0 y0 x1 y1 = true) :
    (∀ heap, (sa.alloc_traced heap x0 y0 x1 y1).2 = sa.alloc heap x0 y0 x1 y1 ∧
      ∀ v ∈ (sa.alloc_traced heap x0 y0 x1 y1).1,
        v.block_x = v.x / sa.block_width ∧ v.block_y = v.y / sa.block_height ∧
        v.block_y * sa.block_count_hor + v.block_x
          < sa.block_count_hor * sa.block_count_ver ∧
        v.block_y * sa.block_count_hor + v.block_x < sa.data_blocks.length) ∧
    (∀ (buf : Buffer) (cs ls : Nat) (fg op : Bool),
      (sa.read_or_write_traced x0 y0 x1 y1 buf cs ls fg op).2
        = sa.read_or_write x0 y0 x1 y1 buf cs ls fg op ∧
      ∀ v ∈ (sa.read_or_write_traced x0 y0 x1 y1 buf cs ls fg op).1,
        v.step.block_x = v.step.x / sa.block_width ∧
        v.step.block_y = v.step.y / sa.block_height ∧
        v.block_x_offset = v.step.x % sa.block_width ∧
        v.block_y_offset = v.step.y % sa.block_height ∧
        v.step.block_y * sa.block_count_hor + v.step.block_x
          < sa.block_count_hor * sa.block_count_ver ∧
        v.step.block_y * sa.block_count_hor + v.step.block_x < sa.data_blocks.length ∧
        (∀ j k, j < v.step.y_incr → k < v.step.x_incr →
          (v.block_y_offset + j) * sa.block_width + v.block_x_offset + k
            < sa.block_width * sa.block_height)) := by
  obtain ⟨w1, _, _⟩ := walk_facts sa hwf x0 y0 x1 y1 hv
  constructor
  · intro heap
    obtain ⟨t1, t2, _⟩ := alloc_traced_spec sa heap x0 y0 x1 y1 hv
    refine ⟨t1, fun v hvm => ?_⟩
    obtain ⟨bv, hb1, hb2⟩ := List.mem_map.1 (t2.subset hvm)
    subst hb2
    obtain ⟨c1, c2, _, _, c5, c6, _⟩ := visit_coordinates sa hwf x0 y0 x1 y1 hv bv (w1 bv hb1)
    exact ⟨c1, c2, c5, c6⟩
  · intro buf cs ls fg op
    obtain ⟨t1, t2, _⟩ := read_or_write_traced_spec sa x0 y0 x1 y1 hv buf cs ls fg op
    exact ⟨t1, fun v hvm => visit_coordinates sa hwf x0 y0 x1 y1 hv v (w1 v (t2.subset hvm))⟩

/-- Witness of C23: the walk of `read` over `(2,3,6,7)` in the 10×10 array with 4×4 blocks
takes four steps, the first in block `(0,0)` at offsets `(2,3)`. -/
theorem block_walk_coordinates_witness :
    (array10_alloc.read_or_write_traced 2 3 6 7 buf16 1 4 false true).1
      = [⟨⟨2, 3, 2, 1, 0, 0⟩, 2, 3⟩, ⟨⟨4, 3, 2, 1, 1, 0⟩, 0, 3⟩,
         ⟨⟨2, 4, 2, 3, 0, 1⟩, 2, 0⟩, ⟨⟨4, 4, 2, 3, 1, 1⟩, 0, 0⟩] ∧
    (array10.alloc_traced 9 2 3 6 7).1
      = [⟨2, 3, 2, 1, 0, 0⟩, ⟨4, 3, 2, 1, 1, 0⟩, ⟨2, 4, 2, 3, 0, 1⟩, ⟨4, 4, 2, 3, 1, 1⟩] ∧
    (∀ v ∈ (array10.alloc_traced 9 2 3 6 7).1,
        v.block_x = v.x / array10.block_width ∧ v.block_y = v.y / array10.block_height ∧
        v.block_y * array10.block_count_hor + v.block_x
          < array10.block_count_hor * array10.block_count_ver ∧
        v.block_y * array10.block_count_hor + v.block_x < array10.data_blocks.length) :=
  ⟨by decide, by decide,
    ((block_walk_coordinates array10 (by decide) 2 3 6 7 (by decide)).1 9).2⟩

theorem visit_increments (bw bh x0 y0 x1 y1 : Nat) (hx1 : x1 < UINT32_RANGE)
    (hy1 : y1 < UINT32_RANGE) (v : BlockVisit) (hok : v.ok bw bh x0 y0 x1 y1) :
    1 ≤ v.step.x_incr ∧ v.step.x_incr ≤ x1 - v.step.x ∧
    1 ≤ v.step.y_incr ∧ v.step.y_incr ≤ y1 - v.step.y ∧
    v.step.x + v.step.x_incr ≤ x1 ∧ v.step.y + v.step.y_incr ≤ y1 ∧
    v.step.x + v.step.x_incr < UINT32_RANGE ∧ v.step.y + v.step.y_incr < UINT32_RANGE := by
  obtain ⟨a1, a2, a3, a4, a5, a6, a7, a8, _⟩ := hok
  omega

/-- C27: for a well-formed array and a valid rectangle `R`, the nested block walks of `alloc`
and of `read_or_write` terminate within the `x1 - x0` and `y1 - y0` iterations of the
loops: `alloc` returns, `read` returns, and `write` returns or stops at `assert(src_block)`.
At every step `1 ≤ x_incr ≤ x1 - x` and `1 ≤ y_incr ≤ y1 - y`, so `x + x_incr ≤ x1` and
`y + y_incr ≤ y1` stay below `2^32`; the steps come in strictly increasing order (a later
step has a larger `y`, or the same `y` and a larger `x`); and when the walk runs to its end
(`alloc` returns `true`, `read_or_write` returns) the sub-rectangles
`[x, x+x_incr) × [y, y+y_incr)` of its steps contain every position of `R` exactly once and
no position outside `R`. -/
theorem block_walk_terminates (sa : sparse_array) (hwf : sa.wf) (x0 y0 x1 y1 : Nat)
    (hv : sa.is_region_valid x0 y0 x1 y1 = true) :
    (∀ heap, ∃ r sa1 heap1, sa.alloc heap x0 y0 x1 y1 = .ok (r, sa1, heap1) ∧
      (sa.alloc_traced heap x0 y0 x1 y1).2 = .ok (r, sa1, heap1) ∧
      (∀ v ∈ (sa.alloc_traced heap x0 y0 x1 y1).1,
        1 ≤ v.x_incr ∧ v.x_incr ≤ x1 - v.x ∧ 1 ≤ v.y_incr ∧ v.y_incr ≤ y1 - v.y ∧
        v.x + v.x_incr ≤ x1 ∧ v.y + v.y_incr ≤ y1 ∧
        v.x + v.x_incr < UINT32_RANGE ∧ v.y + v.y_incr < UINT32_RANGE) ∧
      List.Pairwise Visit.before (sa.alloc_traced heap x0 y0 x1 y1).1 ∧
      (r = true → ∀ cx cy,
        List.countP (fun v : Visit => v.covers cx cy) (sa.alloc_traced heap x0 y0 x1 y1).1
          = if in_rect x0 y0 x1 y1 cx cy then 1 else 0)) ∧
    (∀ (buf : Buffer) (cs ls : Nat) (fg op : Bool),
      (sa.read_or_write_traced x0 y0 x1 y1 buf cs ls fg op).2
        = sa.read_or_write x0 y0 x1 y1 buf cs ls fg op ∧
      ((∃ res, sa.read_or_write x0 y0 x1 y1 buf cs ls fg op = .ok res) ∨
        (op = false ∧
          sa.read_or_write x0 y0 x1 y1 buf cs ls fg op = .error .assert_failed)) ∧
      (∀ v ∈ (sa.read_or_write_traced x0 y0 x1 y1 buf cs ls fg op).1,
        1 ≤ v.step.x_incr ∧ v.step.x_incr ≤ x1 - v.step.x ∧
        1 ≤ v.step.y_incr ∧ v.step.y_incr ≤ y1 - v.step.y ∧
        v.step.x + v.step.x_incr ≤ x1 ∧ v.step.y + v.step.y_incr ≤ y1 ∧
        v.step.x + v.step.x_incr < UINT32_RANGE ∧ v.step.y + v.step.y_incr < UINT32_RANGE) ∧
      List.Pairwise (fun a b : BlockVisit => a.step.before b.step)
        (sa.read_or_write_traced x0 y0 x1 y1 buf cs ls fg op).1 ∧
      (∀ res, sa.read_or_write x0 y0 x1 y1 buf cs ls fg op = .ok res → ∀ cx cy,
        List.countP (fun v : BlockVisit => v.step.covers cx cy)
            (sa.read_or_write_traced x0 y0 x1 y1 buf cs ls fg op).1
          = if in_rect x0 y0 x1 y1 cx cy then 1 else 0)) := by
  obtain ⟨w1, w2, w3⟩ := walk_facts sa hwf x0 y0 x1 y1 hv
  obtain ⟨h1, h2, h3, h4⟩ := (is_region_valid_iff sa x0 y0 x1 y1).1 hv
  have hx1 : x1 < UINT32_RANGE := by have := hwf.2.1; omega
  have hy1 : y1 < UINT32_RANGE := by have := hwf.2.2.2.1; omega
  constructor
  · intro heap
    obtain ⟨t1, t2, t3⟩ := alloc_traced_spec sa heap x0 y0 x1 y1 hv
    obtain ⟨r, blocks1, heap1, hrun, _⟩ := alloc_spec sa hwf heap x0 y0 x1 y1
    refine ⟨r, _, heap1, hrun, t1.trans hrun, fun v hvm => ?_, ?_, fun hr cx cy => ?_⟩
    · obtain ⟨bv, hb1, hb2⟩ := List.mem_map.1 (t2.subset hvm)
      subst hb2
      exact visit_increments _ _ x0 y0 x1 y1 hx1 hy1 bv (w1 bv hb1)
    · exact List.Pairwise.sublist t2.sublist (List.pairwise_map.2 w3)
    · subst hr
      rw [t3 _ _ hrun, List.countP_map]
      exact w2 cx cy
  · intro buf cs ls fg op
    obtain ⟨t1, t2, t3⟩ := read_or_write_traced_spec sa x0 y0 x1 y1 hv buf cs ls fg op
    refine ⟨t1, ?_, fun v hvm => visit_increments _ _ x0 y0 x1 y1 hx1 hy1 v
      (w1 v (t2.subset hvm)), List.Pairwise.sublist t2.sublist w3, fun res hres cx cy => ?_⟩
    · cases op with
      | true =>
        obtain ⟨d, hd, _⟩ := read_writes sa hwf x0 y0 x1 y1 hv buf cs ls fg
        exact Or.inl ⟨_, hd⟩
      | false =>
        by_cases hex : ∃ a b, in_rect x0 y0 x1 y1 a b ∧ sa.present a b = false
        · exact Or.inr ⟨rfl, write_absent sa hwf x0 y0 x1 y1 hv buf cs ls fg hex⟩
        · have hall : ∀ a b, in_rect x0 y0 x1 y1 a b → sa.present a b = true := by
            intro a b hab
            cases hp : sa.present a b with
            | true => rfl
            | false => exact absurd ⟨a, b, hab, hp⟩ hex
          obtain ⟨blocks1, hok, _⟩ := write_ok sa hwf x0 y0 x1 y1 hv buf cs ls fg hall
          exact Or.inl ⟨_, hok⟩
    · rw [t3 res hres]
      exact w2 cx cy

/-- Witness of C27: on the 10×10 array with 4×4 blocks the walk of `alloc(2,3,6,7)` returns
`true` after four steps whose sub-rectangles contain `(5,6)` exactly once. -/
theorem block_walk_terminates_witness :
    (array10.alloc_traced 9 2 3 6 7).1
      = [⟨2, 3, 2, 1, 0, 0⟩, ⟨4, 3, 2, 1, 1, 0⟩, ⟨2, 4, 2, 3, 0, 1⟩, ⟨4, 4, 2, 3, 1, 1⟩] ∧
    List.countP (fun v : Visit => v.covers 5 6) (array10.alloc_traced 9 2 3 6 7).1 = 1 ∧
    (∀ (buf : Buffer) (cs ls : Nat) (fg : Bool),
      ∃ res, array10.read_or_write 2 3 6 7 buf cs ls fg true = .ok res) := by
  refine ⟨by decide, by decide, fun buf cs ls fg => ?_⟩
  obtain ⟨_, h, _⟩ := (block_walk_terminates array10 (by decide) 2 3 6 7 (by decide)).2
    buf cs ls fg true
  rcases h with h | ⟨h, _⟩
  · exact h
  · cases h

/-! ## C24: the guards of the BMP reader -/

theorem bmp_height_guard_exact (bmpStride : Nat) (biHeight : Int)
    (hh : -2147483648 ≤ biHeight ∧ biHeight ≤ 2147483647) (hz : biHeight ≠ 0)
    (stride size : Nat) (h : bmp_height_guard bmpStride biHeight = .calloc stride size) :
    to_size_t biHeight ≠ 0 ∧ stride = bmpStride ∧
    stride * to_uint32 biHeight ≤ UINT32_MAX ∧ size = stride * to_uint32 biHeight := by
  unfold bmp_height_guard at h
  have hs : to_size_t biHeight ≠ 0 := by unfold to_size_t; omega
  by_cases hg : bmpStride > UINT32_MAX / 1 / to_size_t biHeight
  · rw [if_pos hg] at h; cases h
  · rw [if_neg hg] at h
    simp only [BmpAlloc.calloc.injEq] at h
    obtain ⟨e1, e2⟩ := h
    have hle : bmpStride ≤ UINT32_MAX / to_size_t biHeight := by
      rw [Nat.div_one] at hg
      omega
    have hmul : bmpStride * to_size_t biHeight ≤ UINT32_MAX :=
      (Nat.le_div_iff_mul_le (Nat.pos_of_ne_zero hs)).1 hle
    have hbound : bmpStride * to_uint32 biHeight ≤ UINT32_MAX := by
      by_cases hp : 0 < biHeight
      · have e : to_uint32 biHeight = to_size_t biHeight := by
          unfold to_uint32 to_size_t; omega
        rw [e]; exact hmul
      · have hbig : UINT32_MAX < to_size_t biHeight := by
          unfold to_size_t UINT32_MAX; omega
        have h0 : bmpStride = 0 := by
          by_contra hne
          have h1 : 1 * to_size_t biHeight ≤ bmpStride * to_size_t biHeight :=
            Nat.mul_le_mul_right _ (Nat.pos_of_ne_zero hne)
          omega
        rw [h0, Nat.zero_mul]
        exact Nat.zero_le _
    refine ⟨hs, e1.symm, by rw [← e1]; exact hbound, ?_⟩
    rw [← e2, ← e1, Nat.mul_one, Nat.mod_eq_of_lt]
    unfold UINT32_MAX at hbound
    unfold UINT32_RANGE
    omega

theorem stride_exact (n : Nat) (hn : n + 31 ≤ UINT32_MAX) :
    ((n + 31) % UINT32_RANGE / 32 * 4) % UINT32_RANGE = (n + 31) / 32 * 4 := by
  unfold UINT32_MAX at hn
  unfold UINT32_RANGE
  omega

/-- What holds of the guarded section of `bmptoimage` when it reaches the allocation: no
divisor is zero, the unsigned computations `width * bits + 31` and `bmpStride * biHeight` are
below `2^32` (`width` is `biWidth` as `uint32_t`, `bits` is `biBitCount`, or `8` for RLE4),
and the `calloc` size is the exact product; so a header for which one of these values
exceeds `UINT32_MAX` does not reach the allocation. -/
theorem bmp_alloc_guards_exact (biWidth biHeight : Int) (biBitCount biCompression : Nat)
    (hw : -2147483648 ≤ biWidth ∧ biWidth ≤ 2147483647)
    (hh : -2147483648 ≤ biHeight ∧ biHeight ≤ 2147483647) (stride size : Nat)
    (h : bmp_alloc_guards biWidth biHeight biBitCount biCompression = .calloc stride size) :
    to_uint32 biWidth ≠ 0 ∧ to_size_t biHeight ≠ 0 ∧
    to_uint32 biWidth * biBitCount + 31 ≤ UINT32_MAX ∧
    (¬ (biBitCount = 4 ∧ biCompression = 2) →
      stride = (to_uint32 biWidth * biBitCount + 31) / 32 * 4) ∧
    (biBitCount = 4 ∧ biCompression = 2 →
      to_uint32 biWidth * 8 + 31 ≤ UINT32_MAX ∧
      stride = (to_uint32 biWidth * 8 + 31) / 32 * 4) ∧
    stride * to_uint32 biHeight ≤ UINT32_MAX ∧ size = stride * to_uint32 biHeight := by
  unfold bmp_alloc_guards at h
  by_cases hz : biWidth = 0 ∨ biHeight = 0
  · rw [if_pos hz] at h; cases h
  · rw [if_neg hz] at h
    have hw0 : to_uint32 biWidth ≠ 0 := by unfold to_uint32; omega
    have hhz : biHeight ≠ 0 := fun e => hz (Or.inr e)
    by_cases hg : biBitCount > (UINT32_MAX - 31) / to_uint32 biWidth
    · rw [if_pos hg] at h; cases h
    · rw [if_neg hg] at h
      have hmul : biBitCount * to_uint32 biWidth ≤ UINT32_MAX - 31 :=
        (Nat.le_div_iff_mul_le (Nat.pos_of_ne_zero hw0)).1 (by omega)
      have hmul2 : to_uint32 biWidth * biBitCount + 31 ≤ UINT32_MAX := by
        rw [Nat.mul_comm] at hmul
        unfold UINT32_MAX at hmul ⊢
        omega
      simp only at h
      by_cases hov : biWidth * (biBitCount : Int) < -2147483648 ∨
          2147483647 < biWidth * (biBitCount : Int)
      · rw [if_pos hov] at h; cases h
      · rw [if_neg hov] at h
        have hprod : to_uint32 (biWidth * (biBitCount : Int))
            = to_uint32 biWidth * biBitCount := by
          have e1 : ((to_uint32 biWidth * biBitCount : Nat) : Int)
              = (biWidth * (biBitCount : Int)) % 4294967296 := by
            have e2 : ((to_uint32 biWidth : Nat) : Int) = biWidth % 4294967296 := by
              unfold to_uint32; omega
            have e3 : (biWidth * (biBitCount : Int)) % 4294967296
                = ((biWidth % 4294967296) * (biBitCount : Int)) % 4294967296 :=
              calc (biWidth * (biBitCount : Int)) % 4294967296
                  = (biWidth % 4294967296) * ((biBitCount : Int) % 4294967296)
                      % 4294967296 := Int.mul_emod _ _ _
                _ = (biWidth % 4294967296 % 4294967296) * ((biBitCount : Int) % 4294967296)
                      % 4294967296 := by rw [Int.emod_emod_of_dvd biWidth (dvd_refl _)]
                _ = ((biWidth % 4294967296) * (biBitCount : Int)) % 4294967296 :=
                      (Int.mul_emod _ _ _).symm
            rw [e3, ← e2]
            push_cast
            rw [Int.emod_eq_of_lt (by positivity) (by
              have : ((to_uint32 biWidth * biBitCount : Nat) : Int) < 4294967296 := by
                unfold UINT32_MAX at hmul2; omega
              push_cast at this
              exact this)]
          unfold to_uint32 at e1 ⊢
          omega
        by_cases hr : biBitCount = 4 ∧ biCompression = 2
        · rw [if_pos hr] at h
          by_cases hg8 : 8 > (UINT32_MAX - 31) / to_uint32 biWidth
          · rw [if_pos hg8] at h; cases h
          · rw [if_neg hg8] at h
            have hm8 : 8 * to_uint32 biWidth ≤ UINT32_MAX - 31 :=
              (Nat.le_div_iff_mul_le (Nat.pos_of_ne_zero hw0)).1 (by omega)
            have hm8b : to_uint32 biWidth * 8 + 31 ≤ UINT32_MAX := by
              unfold UINT32_MAX at hm8 ⊢
              omega
            have hmod : (to_uint32 biWidth * 8) % UINT32_RANGE = to_uint32 biWidth * 8 := by
              unfold UINT32_MAX at hm8b
              unfold UINT32_RANGE
              omega
            rw [hmod, stride_exact _ hm8b] at h
            obtain ⟨g1, g2, g3, g4⟩ := bmp_height_guard_exact _ biHeight hh hhz stride size h
            exact ⟨hw0, g1, hmul2, fun hn => absurd hr hn, fun _ => ⟨hm8b, g2⟩, g3, g4⟩
        · rw [if_neg hr, hprod, stride_exact _ hmul2] at h
          obtain ⟨g1, g2, g3, g4⟩ := bmp_height_guard_exact _ biHeight hh hhz stride size h
          exact ⟨hw0, g1, hmul2, fun _ => g2, fun hn => absurd hn hr, g3, g4⟩

/-- C24, failing input: the header `biWidth = 134217728`, `biHeight = 1`, `biBitCount = 24`,
`biCompression = 0` passes the zero checks and the guard
`biBitCount > (UINT32_MAX - 31) / biWidth` (the unsigned value `biWidth * biBitCount + 31` is
below `2^32`), but the product `biWidth * biBitCount` is an `int` multiplication and
`3221225472` exceeds `INT32_MAX`: the computation overflows before the allocation. The RLE4
branch multiplies in `uint32_t` (`biWidth * 8U`) and has no such overflow. -/
theorem bmptoimage_signed_overflow :
    bmp_alloc_guards 134217728 1 24 0 = .signed_overflow ∧
    ¬ ((134217728 : Int) = 0 ∨ (1 : Int) = 0) ∧
    ¬ (24 > (UINT32_MAX - 31) / to_uint32 134217728) ∧
    to_uint32 134217728 * 24 + 31 ≤ UINT32_MAX ∧
    (2147483647 : Int) < 134217728 * ((24 : Nat) : Int) := by
  refine ⟨by decide, by decide, by decide, by decide, by decide⟩

/-! ## C25: `param_qcd::check_validity` -/

/-- Counterexample to C25 as stated: with `max_bit_depth = 31`, unsigned, irreversible and
`base_delta` still `-1`, the shift `1 << 31` on `int` is `INT_MIN` and `base_delta` becomes
`-1 / 2^31`, not `1 / 2^31`. -/
theorem check_validity_shift_counterexample :
    param_qcd.check_validity (fun _ _ s => s) (fun s => s) (param_qcd.create []) 5 false 31
        false false
      = some ({ Lqcd := 0, Sqcd := 0, SPqcd := [], num_decomps := 5,
                base_delta := -1 / 2147483648 }, [.set_irrev_quant]) ∧
    (-1 / 2147483648 : ℚ) ≠ 1 / 2 ^ 31 := by
  constructor
  · unfold param_qcd.check_validity param_qcd.create shl_one_int shift_count
    norm_num
  · norm_num

/-- C25, amended (shift count within `0..30`). Let `set_rev_quant` and `set_irrev_quant`,
which the header only declares, fill the quantization table without writing `num_decomps` or
`base_delta`. Then `check_validity` returns with `num_decomps = decomps`. When `is_reversible`
is true its only call is `set_rev_quant(max_bit_depth, color_transform)` and `base_delta` is
left unchanged. When `is_reversible` is false its only call is `set_irrev_quant()`: a
`base_delta` different from the initial `-1` is kept, and a `base_delta` equal to `-1` is
replaced, when `0 ≤ max_bit_depth + is_signed ≤ 30`, by `1 / 2^(max_bit_depth + is_signed)`,
the value `set_irrev_quant` already finds in the object. -/
theorem check_validity_spec (set_rev_quant : Int → Bool → param_qcd → param_qcd)
    (set_irrev_quant : param_qcd → param_qcd)
    (hrev : ∀ b c s, (set_rev_quant b c s).num_decomps = s.num_decomps ∧
      (set_rev_quant b c s).base_delta = s.base_delta)
    (hirrev : ∀ s, (set_irrev_quant s).num_decomps = s.num_decomps ∧
      (set_irrev_quant s).base_delta = s.base_delta)
    (self : param_qcd) (decomps : Int) (max_bit_depth : Int)
    (color_transform is_signed : Bool) :
    (∃ q, self.check_validity set_rev_quant set_irrev_quant decomps true max_bit_depth
          color_transform is_signed
        = some (q, [.set_rev_quant max_bit_depth color_transform]) ∧
      q.num_decomps = decomps ∧ q.base_delta = self.base_delta) ∧
    (self.base_delta ≠ -1 →
      ∃ q, self.check_validity set_rev_quant set_irrev_quant decomps false max_bit_depth
            color_transform is_signed
          = some (q, [.set_irrev_quant]) ∧
        q.num_decomps = decomps ∧ q.base_delta = self.base_delta) ∧
    (self.base_delta = -1 →
      0 ≤ shift_count max_bit_depth is_signed → shift_count max_bit_depth is_signed ≤ 30 →
      ∃ s, self.check_validity set_rev_quant set_irrev_quant decomps false max_bit_depth
            color_transform is_signed
          = some (set_irrev_quant s, [.set_irrev_quant]) ∧
        s.base_delta = 1 / 2 ^ (shift_count max_bit_depth is_signed).toNat ∧
        (set_irrev_quant s).num_decomps = decomps ∧
        (set_irrev_quant s).base_delta
          = 1 / 2 ^ (shift_count max_bit_depth is_signed).toNat) := by
  refine ⟨⟨_, rfl, ?_, ?_⟩, fun hne => ⟨set_irrev_quant { self with num_decomps := decomps },
    ?_, ?_, ?_⟩, fun he h0 h30 => ⟨{ self with
      num_decomps := decomps
      base_delta := 1 / 2 ^ (shift_count max_bit_depth is_signed).toNat }, ?_, rfl, ?_, ?_⟩⟩
  · rw [(hrev _ _ _).1]
  · rw [(hrev _ _ _).2]
  · unfold param_qcd.check_validity
    simp only [Bool.false_eq_true, if_false]
    rw [if_neg hne]
  · rw [(hirrev _).1]
  · rw [(hirrev _).2]
  · unfold param_qcd.check_validity
    simp only [Bool.false_eq_true, if_false]
    rw [if_pos he]
    unfold shl_one_int
    rw [if_pos ⟨h0, h30⟩]
    simp only
    push_cast
    rfl
  · rw [(hirrev _).1]
  · rw [(hirrev _).2]

/-- Witness of C25, with setters that write `Sqcd` and `SPqcd` only. After the constructor a
reversible set-up for 8-bit samples leaves `base_delta` at `-1`; after `set_delta(1/5)` an
irreversible set-up keeps `1/5`; after the constructor an irreversible set-up for 8-bit
unsigned samples sets `base_delta` to `1/256`. -/
theorem check_validity_spec_witness :
    (∃ q, (param_qcd.create []).check_validity
          (fun _ _ s => { s with Sqcd := 32, SPqcd := [72] })
          (fun s => { s with Sqcd := 66, SPqcd := [28672] }) 5 true 8 true false
        = some (q, [.set_rev_quant 8 true]) ∧
      q.num_decomps = 5 ∧ q.base_delta = -1) ∧
    (∃ q, ((param_qcd.create []).set_delta (1 / 5)).check_validity
          (fun _ _ s => { s with Sqcd := 32, SPqcd := [72] })
          (fun s => { s with Sqcd := 66, SPqcd := [28672] }) 5 false 8 false false
        = some (q, [.set_irrev_quant]) ∧
      q.num_decomps = 5 ∧ q.base_delta = 1 / 5) ∧
    (∃ q, (param_qcd.create []).check_validity
          (fun _ _ s => { s with Sqcd := 32, SPqcd := [72] })
          (fun s => { s with Sqcd := 66, SPqcd := [28672] }) 5 false 8 false false
        = some (q, [.set_irrev_quant]) ∧
      q.num_decomps = 5 ∧ q.base_delta = 1 / 256) := by
  have h := check_validity_spec (fun _ _ s => { s with Sqcd := 32, SPqcd := [72] })
    (fun s => { s with Sqcd := 66, SPqcd := [28672] }) (fun _ _ _ => ⟨rfl, rfl⟩)
    (fun _ => ⟨rfl, rfl⟩)
  refine ⟨?_, ?_, ?_⟩
  · obtain ⟨q, h1, h2, h3⟩ := (h (param_qcd.create []) 5 8 true false).1
    exact ⟨q, h1, h2, h3⟩
  · obtain ⟨q, h1, h2, h3⟩ := (h ((param_qcd.create []).set_delta (1 / 5)) 5 8 false false).2.1
      (by norm_num [param_qcd.create, param_qcd.set_delta])
    exact ⟨q, h1, h2, h3⟩
  · obtain ⟨s, h1, _, h2, h3⟩ := (h (param_qcd.create []) 5 8 false false).2.2 rfl
      (by decide) (by decide)
    refine ⟨_, h1, h2, h3.trans ?_⟩
    have e : Int.toNat 8 = 8 := rfl
    norm_num [shift_count, e]

/-! ## C28: the packed-pixel unpackers -/

/-- C28, failing input: one row of `destWidth = 1` pixel whose source row is padded to 32
bits (`srcStride = -4`, as `bmp1toimage` passes it). The `break` at `destIndex == destWidth`
leaves only the loop over `ct`; the loop over `srcIndex` goes on with the three padding bytes
and `destIndex` never equals `destWidth` again, so the 1-bit unpacker stores 24 more samples
at `pDst[1..24]` and the 4-bit unpacker 6 more at `pDst[1..6]`: elements at index
`≥ destWidth` are written. -/
theorem applyLUT_row_overrun :
    1 ≤ (4 : Nat) * 8 / 1 ∧
    grk_applyLUT8u_1u32s_C1R (fun _ => 255) (-4) (fun _ => -1) 1 (fun v => v) 1 1 0 = 1 ∧
    grk_applyLUT8u_1u32s_C1R (fun _ => 255) (-4) (fun _ => -1) 1 (fun v => v) 1 1 1 = 1 ∧
    grk_applyLUT8u_1u32s_C1R (fun _ => 255) (-4) (fun _ => -1) 1 (fun v => v) 1 1 24 = 1 ∧
    grk_applyLUT8u_1u32s_C1R (fun _ => 255) (-4) (fun _ => -1) 1 (fun v => v) 1 1 25 = -1 ∧
    grk_applyLUT8u_4u32s_C1R (fun _ => 255) (-4) (fun _ => -1) 1 (fun v => v) 1 1 0 = 15 ∧
    grk_applyLUT8u_4u32s_C1R (fun _ => 255) (-4) (fun _ => -1) 1 (fun v => v) 1 1 1 = 15 ∧
    grk_applyLUT8u_4u32s_C1R (fun _ => 255) (-4) (fun _ => -1) 1 (fun v => v) 1 1 6 = 15 ∧
    grk_applyLUT8u_4u32s_C1R (fun _ => 255) (-4) (fun _ => -1) 1 (fun v => v) 1 1 7 = -1 := by
  refine ⟨by decide, by decide, by decide, by decide, by decide, by decide, by decide,
    by decide, by decide⟩

/-! ## C29: the RAW reader -/

/-- C29, failing input: a file of two 8-bit planes of `2 × 1` samples, `[1, 2]` and
`[3, 4]`. `readBytes<uint8_t>` for the first plane (`nloop = 2`) asks `fread` for the whole
4096-byte buffer, gets all 4 bytes and stores 4 samples through `ptr`: more than
`nloop / sizeof(T) = 2` samples, more than `nloop` bytes consumed, and the samples of the
second plane land behind the first component. The call for the second plane then reads
nothing and returns `false`, so `rawtoimage` fails on a file that holds exactly the two
planes. -/
theorem readBytes_reads_past_plane :
    (readBytes 1 false false [1, 2, 3, 4] 2
      { pos := 0, buf := fun _ => 0, mem := fun _ => 0, count := 0 }).1 = true ∧
    (readBytes 1 false false [1, 2, 3, 4] 2
      { pos := 0, buf := fun _ => 0, mem := fun _ => 0, count := 0 }).2.count = 4 ∧
    (readBytes 1 false false [1, 2, 3, 4] 2
      { pos := 0, buf := fun _ => 0, mem := fun _ => 0, count := 0 }).2.pos = 4 ∧
    (readBytes 1 false false [1, 2, 3, 4] 2
      { pos := 0, buf := fun _ => 0, mem := fun _ => 0, count := 0 }).2.mem 2 = 3 ∧
    (readBytes 1 false false [1, 2, 3, 4] 2
      { pos := 4, buf := fun _ => 0, mem := fun _ => 0, count := 0 }).1 = false ∧
    (raw_read_components 1 false false [1, 2, 3, 4] 2 1 (fun _ => 0) [(1, 1), (1, 1)]
      0).isSome = false := by
  refine ⟨by decide, by decide, by decide, by decide, by decide, by decide⟩

/-! ## C30: row padding of the BMP writer -/

theorem land_three (x : Nat) : x &&& 3 = x % 4 := by
  have h := Nat.and_pow_two_sub_one_eq_mod x 2
  simpa using h

theorem getPaddedWidth_eq (numcomps w : Nat) (hn : numcomps * w + 3 < UINT32_RANGE) :
    getPaddedWidth numcomps w = (numcomps * w + 3) / 4 * 4 := by
  unfold getPaddedWidth
  unfold UINT32_RANGE at hn ⊢
  rw [Nat.mod_eq_of_lt (by omega), Nat.mod_eq_of_lt (by omega), Nat.shiftRight_eq_div_pow,
    Nat.shiftLeft_eq]
  norm_num
  omega

theorem strip_pad_dest_eq (numcomps w : Nat) (hn : numcomps * w + 3 < UINT32_RANGE) :
    strip_pad_dest numcomps w = (4 - (numcomps * w) % 4) % 4 ∧
    (4 - (((numcomps * w) % UINT32_RANGE) &&& 3)) &&& 3 ≠ 4 := by
  unfold strip_pad_dest
  unfold UINT32_RANGE at hn ⊢
  rw [Nat.mod_eq_of_lt (by omega), land_three, land_three]
  simp only
  have h4 : (4 - numcomps * w % 4) % 4 ≠ 4 := by omega
  rw [if_neg h4]
  exact ⟨rfl, h4⟩

theorem strip_pixel_destInd (rc : Nat → Nat) (numcomps : Nat) (buf : Bytes) (destInd : Nat)
    (hc : numcomps = 1 ∨ numcomps = 3 ∨ numcomps = 4) :
    (strip_pixel rc numcomps buf destInd).2 = destInd + numcomps := by
  unfold strip_pixel
  rcases hc with h | h | h <;> subst h <;> simp

theorem strip_row_destInd (data : Nat → Nat → Nat) (numcomps w pad_dest srcIndex : Nat)
    (st : Bytes × Nat) (hc : numcomps = 1 ∨ numcomps = 3 ∨ numcomps = 4) :
    (strip_row data numcomps w pad_dest srcIndex st).2 = st.2 + (numcomps * w + pad_dest) := by
  unfold strip_row
  have h := for_loop_induct (fun i (s : Bytes × Nat) => s.2 = st.2 + numcomps * i)
    (fun i (s : Bytes × Nat) =>
      strip_pixel (fun compno => data compno ((srcIndex + i) % UINT64_RANGE)) numcomps
        s.1 s.2) w st (by simp)
    (fun j t _ ht => by
      beta_reduce at ht ⊢
      rw [strip_pixel_destInd _ _ _ _ hc, ht, Nat.mul_succ]
      omega)
  beta_reduce at h
  simp only
  rw [h]
  omega

theorem strip_rows_destInd (data : Nat → Nat → Nat) (numcomps w pad_dest stride_src k_max
    srcIndex : Nat) (buf : Bytes) (hc : numcomps = 1 ∨ numcomps = 3 ∨ numcomps = 4) :
    (strip_rows data numcomps w pad_dest stride_src k_max srcIndex buf).1.2
      = k_max * (numcomps * w + pad_dest) := by
  unfold strip_rows
  have h := for_loop_induct
    (fun k (s : (Bytes × Nat) × Nat) => s.1.2 = k * (numcomps * w + pad_dest))
    (fun _ (s : (Bytes × Nat) × Nat) =>
      (strip_row data numcomps w pad_dest s.2 s.1,
        (s.2 + UINT64_RANGE - stride_src) % UINT64_RANGE)) k_max ((buf, 0), srcIndex)
    (by simp)
    (fun j t _ ht => by
      beta_reduce at ht ⊢
      simp only
      rw [strip_row_destInd _ _ _ _ _ _ hc, ht, Nat.succ_mul])
  exact h

theorem strip_while_spec (data : Nat → Nat → Nat) (numcomps w h pad_dest stride_src
    rowsPerStrip : Nat) (hc : numcomps = 1 ∨ numcomps = 3 ∨ numcomps = 4)
    (hh : h < UINT32_RANGE) (hr : 1 ≤ h → 1 ≤ rowsPerStrip) :
    ∀ (fuel : Nat) (st : StripState), st.m_rowCount ≤ h → h - st.m_rowCount ≤ fuel →
      ∃ st1, strip_while data numcomps w h pad_dest stride_src rowsPerStrip fuel st = .ok st1 ∧
        st1.m_rowCount = h ∧
        st1.file.length
          = st.file.length + (numcomps * w + pad_dest) * (h - st.m_rowCount) ∧
        st1.writes.sum = st.writes.sum + (numcomps * w + pad_dest) * (h - st.m_rowCount) ∧
        (∀ s ∈ st1.writes, s ∈ st.writes ∨
          ∃ k, 1 ≤ k ∧ k ≤ rowsPerStrip ∧ s = k * (numcomps * w + pad_dest)) := by
  intro fuel
  induction fuel with
  | zero =>
    intro st hle hf
    have e : st.m_rowCount = h := by omega
    refine ⟨st, by simp [strip_while, e], e, ?_, ?_, fun s hs => Or.inl hs⟩
    · rw [e, Nat.sub_self, Nat.mul_zero, Nat.add_zero]
    · rw [e, Nat.sub_self, Nat.mul_zero, Nat.add_zero]
  | succ fuel ih =>
    intro st hle hf
    by_cases hlt : st.m_rowCount < h
    · have hmod : (h - st.m_rowCount) % UINT32_RANGE = h - st.m_rowCount :=
        Nat.mod_eq_of_lt (by omega)
      have hr1 := hr (by omega)
      have hk1 : 1 ≤ min rowsPerStrip (h - st.m_rowCount) := by omega
      have hk2 : min rowsPerStrip (h - st.m_rowCount) ≤ h - st.m_rowCount :=
        Nat.min_le_right _ _
      have hk3 : min rowsPerStrip (h - st.m_rowCount) ≤ rowsPerStrip := Nat.min_le_left _ _
      have hrc : (st.m_rowCount + min rowsPerStrip (h - st.m_rowCount)) % UINT32_RANGE
          = st.m_rowCount + min rowsPerStrip (h - st.m_rowCount) :=
        Nat.mod_eq_of_lt (by omega)
      simp only [strip_while, hlt, if_true, hmod, hrc]
      obtain ⟨st1, hrun, g1, g2, g3, g4⟩ := ih
        { m_rowCount := st.m_rowCount + min rowsPerStrip (h - st.m_rowCount)
          m_srcIndex := (strip_rows data numcomps w pad_dest stride_src
            (min rowsPerStrip (h - st.m_rowCount)) st.m_srcIndex st.m_destBuff).2
          m_destBuff := (strip_rows data numcomps w pad_dest stride_src
            (min rowsPerStrip (h - st.m_rowCount)) st.m_srcIndex st.m_destBuff).1.1
          file := st.file ++ (List.range (strip_rows data numcomps w pad_dest stride_src
            (min rowsPerStrip (h - st.m_rowCount)) st.m_srcIndex st.m_destBuff).1.2).map
              (strip_rows data numcomps w pad_dest stride_src
                (min rowsPerStrip (h - st.m_rowCount)) st.m_srcIndex st.m_destBuff).1.1
          writes := st.writes ++ [(strip_rows data numcomps w pad_dest stride_src
            (min rowsPerStrip (h - st.m_rowCount)) st.m_srcIndex st.m_destBuff).1.2] }
        (by show st.m_rowCount + min rowsPerStrip (h - st.m_rowCount) ≤ h; omega)
        (by show h - (st.m_rowCount + min rowsPerStrip (h - st.m_rowCount)) ≤ fuel; omega)
      have hsplit : (numcomps * w + pad_dest) * (h - st.m_rowCount)
          = min rowsPerStrip (h - st.m_rowCount) * (numcomps * w + pad_dest)
            + (numcomps * w + pad_dest)
              * (h - (st.m_rowCount + min rowsPerStrip (h - st.m_rowCount))) := by
        have e : h - st.m_rowCount = min rowsPerStrip (h - st.m_rowCount)
            + (h - (st.m_rowCount + min rowsPerStrip (h - st.m_rowCount))) := by omega
        conv_lhs => rw [e]
        rw [Nat.mul_add, Nat.mul_comm (numcomps * w + pad_dest)
          (min rowsPerStrip (h - st.m_rowCount))]
      refine ⟨st1, hrun, g1, ?_, ?_, ?_⟩
      · rw [g2, hsplit]
        simp only [List.length_append, List.length_map, List.length_range]
        rw [strip_rows_destInd _ _ _ _ _ _ _ _ hc]
        omega
      · rw [g3, hsplit]
        simp only [List.sum_append, List.sum_cons, List.sum_nil]
        rw [strip_rows_destInd _ _ _ _ _ _ _ _ hc]
        omega
      · intro s hs
        rcases g4 s hs with h1 | h1
        · simp only [List.mem_append, List.mem_singleton] at h1
          rcases h1 with h1 | h1
          · exact Or.inl h1
          · right
            refine ⟨min rowsPerStrip (h - st.m_rowCount), hk1, hk3, ?_⟩
            rw [h1, strip_rows_destInd _ _ _ _ _ _ _ _ hc]
        · exact Or.inr h1
    · have e : st.m_rowCount = h := by omega
      refine ⟨st, by simp [strip_while, hlt], e, ?_, ?_, fun s hs => Or.inl hs⟩
      · rw [e, Nat.sub_self, Nat.mul_zero, Nat.add_zero]
      · rw [e, Nat.sub_self, Nat.mul_zero, Nat.add_zero]

theorem strip_rowsPerStrip_spec (numcomps h stride_src : Nat)
    (hd : (stride_src * numcomps) % UINT32_RANGE ≠ 0) :
    ∃ r, strip_rowsPerStrip numcomps h stride_src = some r ∧ r ≤ h ∧ (1 ≤ h → 1 ≤ r) := by
  unfold strip_rowsPerStrip
  simp only [hd, if_false]
  refine ⟨_, rfl, ?_, ?_⟩
  · split_ifs <;> omega
  · intro h1
    have hq : 16777216 / (stride_src * numcomps % UINT32_RANGE) ≤ 16777216 :=
      Nat.div_le_self _ _
    generalize 16777216 / (stride_src * numcomps % UINT32_RANGE) = q at hq ⊢
    unfold UINT32_RANGE
    split_ifs <;> omega

/-- The model of `encodeStrip` returns whenever the divisor `stride_src * numcomps` is not
`0`: every `fwrite` holds between `1` and `rowsPerStrip` rows of
`numcomps * w + pad_dest` bytes, and the file grows by `h` such rows. -/
theorem encodeStrip_rows (data : Nat → Nat → Nat) (numcomps w h stride_src : Nat)
    (buf0 : Bytes) (file : List Nat) (hc : numcomps = 1 ∨ numcomps = 3 ∨ numcomps = 4)
    (hh : h < UINT32_RANGE) (hd : (stride_src * numcomps) % UINT32_RANGE ≠ 0) :
    ∃ st rowsPerStrip, strip_rowsPerStrip numcomps h stride_src = some rowsPerStrip ∧
      rowsPerStrip ≤ h ∧
      encodeStrip data numcomps w h stride_src 0 buf0 file
        = .ok (true, st, (rowsPerStrip * getPaddedWidth numcomps w) % UINT32_RANGE) ∧
      st.file.length = file.length + (numcomps * w + strip_pad_dest numcomps w) * h ∧
      st.writes.sum = (numcomps * w + strip_pad_dest numcomps w) * h ∧
      (∀ s ∈ st.writes, ∃ k, 1 ≤ k ∧ k ≤ rowsPerStrip ∧
        s = k * (numcomps * w + strip_pad_dest numcomps w)) := by
  obtain ⟨r, hr, hrh, hr1⟩ := strip_rowsPerStrip_spec numcomps h stride_src hd
  obtain ⟨st1, hrun, _, g2, g3, g4⟩ := strip_while_spec data numcomps w h
    (strip_pad_dest numcomps w) stride_src r hc hh hr1 h
    { m_rowCount := 0
      m_srcIndex := (stride_src * ((h + UINT32_RANGE - 1) % UINT32_RANGE)) % UINT32_RANGE
      m_destBuff := strip_zero_padding buf0 (getPaddedWidth numcomps w)
        (strip_pad_dest numcomps w) r
      file := file, writes := [] } (Nat.zero_le _) (by simp)
  refine ⟨st1, r, hr, hrh, ?_, by simpa using g2, by simpa using g3, ?_⟩
  · unfold encodeStrip
    rw [hr]
    simp only
    rw [hrun]
  · intro s hs
    rcases g4 s hs with h1 | h1
    · simp at h1
    · exact h1

/-- Counterexample to C30 as stated: one component, `w = 2^30`, `h = 4` and
`stride_src = 2^30` satisfy `numcomps * w + 3 < 2^32`, but the `uint32_t` product
`image_size = padW * h` announced in the header wraps to `0` while `encodeStrip` writes
`2^32` pixel bytes. -/
theorem bmp_image_size_wraps :
    1 * 1073741824 + 3 < UINT32_RANGE ∧
    encodeHeader_image_size 1 1073741824 4 = 0 ∧
    ∃ st size, encodeStrip (fun _ _ => 0) 1 1073741824 4 1073741824 0 (fun _ => 0) []
        = .ok (true, st, size) ∧
      st.file.length = 4294967296 := by
  refine ⟨by decide, by decide, ?_⟩
  obtain ⟨st, r, _, _, hrun, hlen, _⟩ := encodeStrip_rows (fun _ _ => 0) 1 1073741824 4
    1073741824 (fun _ => 0) [] (Or.inl rfl) (by decide) (by decide)
  refine ⟨st, _, hrun, ?_⟩
  rw [hlen]
  have e : strip_pad_dest 1 1073741824 = 0 := by decide
  rw [e]
  rfl

/-- C30, amended. For `numcomps` in `{1, 3, 4}`, a width with `numcomps * w + 3 < 2^32`, a
height `h` with `padW * h < 2^32` and a non-zero divisor `stride_src * numcomps`:
`getPaddedWidth()` is the least multiple of 4 that is `≥ numcomps * w` and equals
`numcomps * w + pad_dest` with `pad_dest = (4 - ((numcomps * w) & 3)) & 3 < 4` (the
`pad_dest == 4` branch is not taken); `encodeStrip` returns `true`, every `fwrite` of a strip
holds `k ≥ 1` rows of exactly `getPaddedWidth()` bytes and fits the
`rowsPerStrip * w_dest` bytes of `m_destBuff`, and the number of pixel bytes written for the
`h` rows is the `image_size = padW * h` of the header. -/
theorem bmp_row_padding (data : Nat → Nat → Nat) (numcomps w h stride_src : Nat)
    (buf0 : Bytes) (file : List Nat) (hc : numcomps = 1 ∨ numcomps = 3 ∨ numcomps = 4)
    (hn : numcomps * w + 3 < UINT32_RANGE) (hh : h < UINT32_RANGE)
    (hd : (stride_src * numcomps) % UINT32_RANGE ≠ 0)
    (hsz : getPaddedWidth numcomps w * h < UINT32_RANGE) :
    getPaddedWidth numcomps w % 4 = 0 ∧ numcomps * w ≤ getPaddedWidth numcomps w ∧
    getPaddedWidth numcomps w < numcomps * w + 4 ∧
    (4 - (((numcomps * w) % UINT32_RANGE) &&& 3)) &&& 3 ≠ 4 ∧
    strip_pad_dest numcomps w = (4 - (((numcomps * w) % UINT32_RANGE) &&& 3)) &&& 3 ∧
    strip_pad_dest numcomps w < 4 ∧
    getPaddedWidth numcomps w = numcomps * w + strip_pad_dest numcomps w ∧
    ∃ st size, encodeStrip data numcomps w h stride_src 0 buf0 file = .ok (true, st, size) ∧
      (∀ s ∈ st.writes, ∃ k, 1 ≤ k ∧ s = k * getPaddedWidth numcomps w ∧ s ≤ size) ∧
      st.file.length = file.length + encodeHeader_image_size numcomps w h ∧
      st.writes.sum = encodeHeader_image_size numcomps w h := by
  have hp := getPaddedWidth_eq numcomps w hn
  obtain ⟨hpad, hne⟩ := strip_pad_dest_eq numcomps w hn
  have hsum : getPaddedWidth numcomps w = numcomps * w + strip_pad_dest numcomps w := by
    rw [hp, hpad]; omega
  have hraw : strip_pad_dest numcomps w
      = (4 - (((numcomps * w) % UINT32_RANGE) &&& 3)) &&& 3 := by
    unfold strip_pad_dest
    simp only
    rw [if_neg hne]
  refine ⟨by rw [hp]; omega, by rw [hp]; omega, by rw [hp]; omega, hne, hraw,
    by rw [hpad]; omega, hsum, ?_⟩
  obtain ⟨st, r, _, hrh, hrun, hlen, hws, hw⟩ := encodeStrip_rows data numcomps w h stride_src
    buf0 file hc hh hd
  have himg : encodeHeader_image_size numcomps w h = getPaddedWidth numcomps w * h := by
    unfold encodeHeader_image_size
    exact Nat.mod_eq_of_lt hsz
  have hrp : r * getPaddedWidth numcomps w ≤ getPaddedWidth numcomps w * h := by
    rw [Nat.mul_comm]
    exact Nat.mul_le_mul_left _ hrh
  refine ⟨st, _, hrun, fun s hs => ?_, by rw [hlen, himg, hsum], by rw [hws, himg, hsum]⟩
  obtain ⟨k, hk1, hk2, hk3⟩ := hw s hs
  refine ⟨k, hk1, by rw [hk3, hsum], ?_⟩
  rw [Nat.mod_eq_of_lt (by omega), hk3, ← hsum]
  exact Nat.mul_le_mul_right _ hk2

/-- Witness of C30: a three-component image of `3 × 2` samples has rows of `9` bytes padded
to `12`; the strip of two rows has `24` bytes, the `image_size` of the header. -/
theorem bmp_row_padding_witness :
    getPaddedWidth 3 3 = 12 ∧ strip_pad_dest 3 3 = 3 ∧ encodeHeader_image_size 3 3 2 = 24 ∧
    ∃ st size, encodeStrip (fun c j => 10 * c + j) 3 3 2 3 0 (fun _ => 99) []
        = .ok (true, st, size) ∧
      (∀ s ∈ st.writes, ∃ k, 1 ≤ k ∧ s = k * getPaddedWidth 3 3 ∧ s ≤ size) ∧
      st.file.length = ([] : List Nat).length + encodeHeader_image_size 3 3 2 ∧
      st.writes.sum = encodeHeader_image_size 3 3 2 :=
  ⟨by decide, by decide, by decide,
    (bmp_row_padding (fun c j => 10 * c + j) 3 3 2 3 (fun _ => 99) [] (Or.inr (Or.inl rfl))
      (by decide) (by decide) (by decide) (by decide)).2.2.2.2.2.2.2⟩

end grk
